import Mathlib

/-!
Packed storage of one Keldysh time slice (`cntr::herm_matrix_timestep`)

A shallow embedding of `libcntr/cntr/cntr_herm_matrix_timestep_impl.hpp`.

Modelling conventions

* C++ `int` is modelled by `Int`.  The lengths and element sizes that the constructors and
  `resize` compute from their arguments are reduced modulo `2^32` (`int_wrap`), as the
  compiled 32-bit arithmetic does; members of an existing slice are `int` values already.
* `cplx = std::complex<double>` is modelled by `cplx`, a complex number with rational real and
  imaginary part.  Copying, zero filling, negation and conjugation are exact in binary64;
  sums, products and quotients are the exact ones, except in the section on binary64
  arithmetic, where every sum and product is rounded to the nearest `double`
  (`round_double`, with the routines `incr_double` and `smul_double`).
* An Eigen assignment whose right-hand side reads the destination is evaluated in place,
  coefficient by coefficient (`herm_average`).
* The owned buffer `data_` is a `List cplx`; the null pointer is the empty list.
* A failed `assert`, a failed allocation and an access outside the owned buffer are the
  three values of `Fault`; fallible operations return `Except Fault _`.
* The class `function<T>` and the primitives `element_mult`, `element_smul`, `element_set`,
  `element_conj` used by the multiply routines are declared in other headers; they are
  modelled after their description, scratch arrays being held as matrices.
-/

namespace cntr

/-! ## Scalars -/

/-- Complex scalar `cplx` with exact rational components. -/
structure cplx where
  re : ℚ
  im : ℚ
deriving DecidableEq

namespace cplx

instance : Zero cplx := ⟨⟨0, 0⟩⟩

instance : Neg cplx := ⟨fun z => ⟨-z.re, -z.im⟩⟩

instance : Add cplx := ⟨fun z w => ⟨z.re + w.re, z.im + w.im⟩⟩

/-- Complex conjugate, `std::conj`. -/
def conj (z : cplx) : cplx := ⟨z.re, -z.im⟩

end cplx

/-! ## Failure modes and raw buffer access -/

/-- Ways in which a call can fail to return normally. -/
inductive Fault where
  | assertion
  | bad_alloc
  | out_of_range
deriving DecidableEq

deriving instance DecidableEq for Except

/-- Array new-expression `new cplx[len]`: the default constructor of `std::complex` sets every
element to `0+0i`; a negative length makes the new-expression throw. -/
def new_cplx (len : Int) : Except Fault (List cplx) :=
  if len < 0 then .error .bad_alloc else .ok (List.replicate len.toNat 0)

/-- Read `p[i]` where `p` points to the start of `buf`. -/
def peek (buf : List cplx) (i : Int) : Except Fault cplx :=
  if 0 ≤ i ∧ i < buf.length then .ok (buf.getD i.toNat 0) else .error .out_of_range

/-- Write `p[i] = v` where `p` points to the start of `buf`. -/
def poke (buf : List cplx) (i : Int) (v : cplx) : Except Fault (List cplx) :=
  if 0 ≤ i ∧ i < buf.length then .ok (buf.set i.toNat v) else .error .out_of_range

/-- Bulk zero fill `memset(p + off, 0, sizeof(cplx) * n)`. -/
def memset_zero (buf : List cplx) (off n : Int) : Except Fault (List cplx) :=
  if 0 ≤ off ∧ 0 ≤ n ∧ off + n ≤ buf.length then
    .ok (buf.take off.toNat ++ List.replicate n.toNat 0 ++ buf.drop (off + n).toNat)
  else .error .out_of_range

/-- Bulk copy `memcpy(dst + doff, src + soff, sizeof(cplx) * n)`. -/
def memcpy (dst : List cplx) (doff : Int) (src : List cplx) (soff n : Int) :
    Except Fault (List cplx) :=
  if 0 ≤ doff ∧ 0 ≤ soff ∧ 0 ≤ n ∧ doff + n ≤ dst.length ∧ soff + n ≤ src.length then
    .ok (dst.take doff.toNat ++ (src.drop soff.toNat).take n.toNat ++
      dst.drop (doff + n).toNat)
  else .error .out_of_range

/-- Sequential loop with early exit on a fault: `for a in l: st = body(st, a)`. -/
def loopE {σ α : Type} (body : σ → α → Except Fault σ) : σ → List α → Except Fault σ
  | st, [] => .ok st
  | st, a :: l =>
    match body st a with
    | .ok st1 => loopE body st1 l
    | .error e => .error e

/-- Collect the results of a fallible function over a list, left to right. -/
def mapE {α β : Type} (f : α → Except Fault β) : List α → Except Fault (List β)
  | [] => .ok []
  | a :: l =>
    match f a with
    | .ok b =>
      match mapE f l with
      | .ok bs => .ok (b :: bs)
      | .error e => .error e
    | .error e => .error e

/-! ## The time-slice object -/

/-- Data members of `herm_matrix_timestep<T>`. -/
structure herm_matrix_timestep where
  data_ : List cplx
  tstp_ : Int
  ntau_ : Int
  size1_ : Int
  size2_ : Int
  element_size_ : Int
  total_size_ : Int
  sig_ : Int
deriving DecidableEq

/-- Value of an `int` expression whose exact value is `x`: `int` has 32 bits and the compiled
arithmetic wraps around, so the value is the representative of `x` modulo `2^32` in
`-2^31 .. 2^31 - 1`.  Reducing once at the end gives the same value as reducing after every
sum and product. -/
def int_wrap (x : Int) : Int := (x + 2147483648) % 4294967296 - 2147483648

/-- The exact value `x` is representable as an `int`. -/
def fits_int (x : Int) : Prop := -2147483648 ≤ x ∧ x < 2147483648

instance (x : Int) : Decidable (fits_int x) := by
  unfold fits_int; infer_instance

/-- Default constructor `herm_matrix_timestep()`. -/
def construct_default : herm_matrix_timestep :=
  { data_ := [], ntau_ := 0, tstp_ := 0, size1_ := 0, size2_ := 0, element_size_ := 0,
    total_size_ := 0, sig_ := -1 }

/-- Constructor `herm_matrix_timestep(int tstp,int ntau,int size1)`. -/
def construct3 (tstp ntau size1 : Int) : Except Fault herm_matrix_timestep :=
  let len := int_wrap (((tstp + 1) * 2 + (ntau + 1)) * size1 * size1)
  if ¬ (size1 ≥ 0 ∧ tstp ≥ -1 ∧ ntau ≥ 0) then .error .assertion
  else
    (if len = 0 then .ok [] else (new_cplx len).bind (fun d => memset_zero d 0 len)).bind
      (fun data => .ok
        { data_ := data, size1_ := size1, size2_ := size1,
          element_size_ := int_wrap (size1 * size1), tstp_ := tstp, ntau_ := ntau,
          total_size_ := len, sig_ := -1 })

/-- Constructor `herm_matrix_timestep(int tstp,int ntau,int size1,int size2,int sig)`. -/
def construct5 (tstp ntau size1 size2 sig : Int) : Except Fault herm_matrix_timestep :=
  let len := int_wrap (((tstp + 1) * 2 + (ntau + 1)) * size1 * size2)
  if ¬ (size1 ≥ 0 ∧ tstp ≥ -1 ∧ ntau ≥ 0) then .error .assertion
  else
    (if len = 0 then .ok [] else (new_cplx len).bind (fun d => memset_zero d 0 len)).bind
      (fun data => .ok
        { data_ := data, size1_ := size1, size2_ := size2,
          element_size_ := int_wrap (size1 * size2), tstp_ := tstp, ntau_ := ntau,
          total_size_ := len, sig_ := sig })

/-- Constructor `herm_matrix_timestep(int tstp,int ntau,int size1,int sig)`. -/
def construct4 (tstp ntau size1 sig : Int) : Except Fault herm_matrix_timestep :=
  let len := int_wrap (((tstp + 1) * 2 + (ntau + 1)) * size1 * size1)
  if ¬ (size1 ≥ 0 ∧ tstp ≥ -1 ∧ ntau ≥ 0 ∧ sig * sig = 1) then .error .assertion
  else
    (if len = 0 then .ok [] else (new_cplx len).bind (fun d => memset_zero d 0 len)).bind
      (fun data => .ok
        { data_ := data, size1_ := size1, size2_ := size1,
          element_size_ := int_wrap (size1 * size1), tstp_ := tstp, ntau_ := ntau,
          total_size_ := len, sig_ := sig })

/-- Member `resize(int tstp, int ntau, int size1)`: the old buffer is released and a fresh
one allocated, `sig_` is kept. -/
def resize (g : herm_matrix_timestep) (tstp ntau size1 : Int) :
    Except Fault herm_matrix_timestep :=
  let len := int_wrap (((tstp + 1) * 2 + (ntau + 1)) * size1 * size1)
  if ¬ (ntau ≥ 0 ∧ tstp ≥ -1 ∧ size1 ≥ 0) then .error .assertion
  else
    (if len = 0 then .ok [] else new_cplx len).bind
      (fun data => .ok
        { data_ := data, size1_ := size1, size2_ := size1,
          element_size_ := int_wrap (size1 * size1), tstp_ := tstp, ntau_ := ntau,
          total_size_ := len, sig_ := g.sig_ })

/-- Copy constructor `herm_matrix_timestep(const herm_matrix_timestep &g)`; the source is
taken by const reference and is not written. -/
def copy_construct (g : herm_matrix_timestep) : Except Fault herm_matrix_timestep :=
  (if g.total_size_ > 0 then
      (new_cplx g.total_size_).bind (fun d => memcpy d 0 g.data_ 0 g.total_size_)
    else .ok []).bind
    (fun data => .ok
      { tstp_ := g.tstp_, ntau_ := g.ntau_, size1_ := g.size1_, size2_ := g.size1_,
        element_size_ := g.size1_ * g.size1_, total_size_ := g.total_size_, data_ := data,
        sig_ := g.sig_ })

/-- Copy assignment `operator=(const herm_matrix_timestep &g)`.  The flag `same` is the
outcome of the address test `this == &g`; the source is not written. -/
def copy_assign (same : Bool) (self g : herm_matrix_timestep) :
    Except Fault herm_matrix_timestep :=
  if same then .ok self
  else
    (if self.total_size_ ≠ g.total_size_ then
        (if g.total_size_ > 0 then new_cplx g.total_size_ else .ok []).bind
          (fun d => .ok (d, g.total_size_))
      else .ok (self.data_, self.total_size_)).bind
      (fun st =>
        (if st.2 > 0 then memcpy st.1 0 g.data_ 0 st.2 else .ok st.1).bind
          (fun data => .ok
            { tstp_ := g.tstp_, ntau_ := g.ntau_, size1_ := g.size1_, size2_ := g.size1_,
              sig_ := g.sig_, element_size_ := g.size1_ * g.size1_, total_size_ := st.2,
              data_ := data }))

/-- State in which a moved-from object is left: the members reset by the move operations
(`sig_` is not reset). -/
def moved_from (g : herm_matrix_timestep) : herm_matrix_timestep :=
  { g with data_ := [], tstp_ := 0, ntau_ := 0, size1_ := 0, size2_ := 0, element_size_ := 0,
           total_size_ := 0 }

/-- Move constructor `herm_matrix_timestep(herm_matrix_timestep &&g)`: returns the new
object and the source afterwards. -/
def move_construct (g : herm_matrix_timestep) : herm_matrix_timestep × herm_matrix_timestep :=
  ({ data_ := g.data_, tstp_ := g.tstp_, ntau_ := g.ntau_, size1_ := g.size1_,
     size2_ := g.size2_, element_size_ := g.element_size_, total_size_ := g.total_size_,
     sig_ := g.sig_ }, moved_from g)

/-- Move assignment `operator=(herm_matrix_timestep &&g)`: returns the destination and the
source afterwards.  The flag `same` is the outcome of the address test `&g == this`. -/
def move_assign (same : Bool) (self g : herm_matrix_timestep) :
    herm_matrix_timestep × herm_matrix_timestep :=
  if same then (self, g)
  else
    ({ data_ := g.data_, tstp_ := g.tstp_, ntau_ := g.ntau_, size1_ := g.size1_,
       size2_ := g.size2_, element_size_ := g.element_size_, total_size_ := g.total_size_,
       sig_ := g.sig_ }, moved_from g)

/-! ## Packing layout -/

/-- Modelled from the spec: `retptr(j)` is declared in `cntr_herm_matrix_timestep_decl.hpp`,
which is not among the sources.  Offset of the retarded matrix `R(tstp, t_j)` in `data_`
(first region; the same offset `data_ + m * element_size_` is written out in `left_multiply`). -/
def retptr (g : herm_matrix_timestep) (j : Int) : Int :=
  j * g.element_size_

/-- Modelled from the spec: `tvptr(j)` is declared in `cntr_herm_matrix_timestep_decl.hpp`,
which is not among the sources.  Offset of the left-mixing matrix at `tau_j` (second region;
`data_ + (tstp_ + 1) * element_size_ + m * element_size_` in `left_multiply`). -/
def tvptr (g : herm_matrix_timestep) (j : Int) : Int :=
  (g.tstp_ + 1 + j) * g.element_size_

/-- Modelled from the spec: `lesptr(j)` is declared in `cntr_herm_matrix_timestep_decl.hpp`,
which is not among the sources.  Offset of the lesser matrix `L(t_j, tstp)` (third region;
`data_ + (tstp_ + 1 + ntau_ + 1) * element_size_ + m * element_size_` in `left_multiply`). -/
def lesptr (g : herm_matrix_timestep) (j : Int) : Int :=
  (g.tstp_ + 1 + g.ntau_ + 1 + j) * g.element_size_

/-- Modelled from the spec: `matptr(i)` is declared in `cntr_herm_matrix_timestep_decl.hpp`,
which is not among the sources.  Offset of the Matsubara matrix `M(tau_i)` (only region when
`tstp_ = -1`). -/
def matptr (g : herm_matrix_timestep) (i : Int) : Int :=
  i * g.element_size_

/-- Buffer indices `start, start+1, .., start+len-1` of one stored matrix. -/
def block_indices (start len : Int) : List Int :=
  (List.range len.toNat).map (fun (d : Nat) => start + (d : Int))

/-- Indices visited by the three loops of `left_multiply` and `get_matrixelement` for
`tstp_ >= 0`, in program order: `x0 = data_`, `m = 0..tstp_`; then
`x0 = data_ + (tstp_+1)*element_size_`, `m = 0..ntau_`; then
`x0 = data_ + (tstp_+1+ntau_+1)*element_size_`, `m = 0..tstp_`; block `m` starts at
`x0 + m*element_size_`. -/
def layout_indices (tstp ntau es : Int) : List Int :=
  (List.range (tstp + 1).toNat).flatMap
    (fun (m : Nat) => block_indices (0 + (m : Int) * es) es) ++
  (List.range (ntau + 1).toNat).flatMap
    (fun (m : Nat) => block_indices ((tstp + 1) * es + (m : Int) * es) es) ++
  (List.range (tstp + 1).toNat).flatMap
    (fun (m : Nat) => block_indices ((tstp + 1 + ntau + 1) * es + (m : Int) * es) es)

/-- Indices visited by the single loop for `tstp_ = -1`: `x0 = data_`, `m = 0..ntau_`. -/
def layout_indices_mat (ntau es : Int) : List Int :=
  (List.range (ntau + 1).toNat).flatMap
    (fun (m : Nat) => block_indices (0 + (m : Int) * es) es)

/-- The storage invariant: `element_size_` is `size1_*size2_`, and the recorded size and the
actual length of the buffer are `((tstp_+1)*2 + (ntau_+1))*size1_*size2_`. -/
def storage_invariant (g : herm_matrix_timestep) : Prop :=
  g.element_size_ = g.size1_ * g.size2_ ∧
  g.total_size_ = ((g.tstp_ + 1) * 2 + (g.ntau_ + 1)) * g.size1_ * g.size2_ ∧
  (g.data_.length : Int) = ((g.tstp_ + 1) * 2 + (g.ntau_ + 1)) * g.size1_ * g.size2_

instance (g : herm_matrix_timestep) : Decidable (storage_invariant g) := by
  unfold storage_invariant; infer_instance

/-- Dimensions in the range every constructor accepts. -/
def dims_valid (g : herm_matrix_timestep) : Prop :=
  g.tstp_ ≥ -1 ∧ g.ntau_ ≥ 0 ∧ g.size1_ ≥ 0 ∧ g.size2_ ≥ 0

instance (g : herm_matrix_timestep) : Decidable (dims_valid g) := by
  unfold dims_valid; infer_instance

/-! ## Dense matrices and element access -/

/-- Caller-supplied dense matrix (the template parameter `Matrix`), as its list of rows. -/
abbrev Mat := List (List cplx)

/-- Coefficient access `M(r, s)`. -/
def Mat.coeff (M : Mat) (r s : Nat) : Except Fault cplx :=
  match M[r]? with
  | some row =>
    match row[s]? with
    | some v => .ok v
    | none => .error .out_of_range
  | none => .error .out_of_range

/-- Shape test: `rows` rows of `cols` entries each. -/
def Mat.has_shape (M : Mat) (rows cols : Nat) : Prop :=
  M.length = rows ∧ ∀ row ∈ M, row.length = cols

instance (M : Mat) (rows cols : Nat) : Decidable (M.has_shape rows cols) := by
  unfold Mat.has_shape; infer_instance

/-- Macro `herm_matrix_READ_ELEMENT` with `x` at offset `x` of `buf` and `dim = size1_`:
`M.resize(dim, dim); M(r, s) = x[r * dim + s]`. -/
def herm_matrix_READ_ELEMENT (buf : List cplx) (x : Int) (size1 : Int) : Except Fault Mat :=
  let dim := size1.toNat
  mapE (fun (r : Nat) =>
      mapE (fun (s : Nat) => peek buf (x + ((r : Int) * size1 + (s : Int)))) (List.range dim))
    (List.range dim)

/-- Macro `herm_matrix_READ_ELEMENT_MINUS_CONJ`:
`w = x[s * dim + r]; M(r, s) = std::complex<T>(-w.real(), w.imag())`. -/
def herm_matrix_READ_ELEMENT_MINUS_CONJ (buf : List cplx) (x : Int) (size1 : Int) :
    Except Fault Mat :=
  let dim := size1.toNat
  mapE (fun (r : Nat) => mapE (fun (s : Nat) =>
      (peek buf (x + ((s : Int) * size1 + (r : Int)))).bind
        (fun w => .ok (⟨-w.re, w.im⟩ : cplx)))
    (List.range dim)) (List.range dim)

/-- Macro `herm_matrix_SET_ELEMENT_MATRIX`:
`for r < size1_, for s < size2_: x[r * size2_ + s] = M(r, s)`. -/
def herm_matrix_SET_ELEMENT_MATRIX (buf : List cplx) (x : Int) (size1 size2 : Int) (M : Mat) :
    Except Fault (List cplx) :=
  loopE (fun b (r : Nat) =>
      loopE (fun b1 (s : Nat) =>
          (M.coeff r s).bind (fun v => poke b1 (x + ((r : Int) * size2 + (s : Int))) v))
        b (List.range size2.toNat))
    buf (List.range size1.toNat)

/-- Matrix read `get_ret(int i, int j, Matrix &M)`. -/
def get_ret (g : herm_matrix_timestep) (i j : Int) : Except Fault Mat :=
  if ¬ (i = g.tstp_ ∧ j ≤ g.tstp_) then .error .assertion
  else herm_matrix_READ_ELEMENT g.data_ (retptr g j) g.size1_

/-- Matrix read `get_ret_tstp_t(int j, Matrix &M)`. -/
def get_ret_tstp_t (g : herm_matrix_timestep) (j : Int) : Except Fault Mat :=
  herm_matrix_READ_ELEMENT g.data_ (retptr g j) g.size1_

/-- Matrix read `get_ret_t_tstp(int i, Matrix &M)`. -/
def get_ret_t_tstp (g : herm_matrix_timestep) (i : Int) : Except Fault Mat :=
  herm_matrix_READ_ELEMENT_MINUS_CONJ g.data_ (retptr g i) g.size1_

/-- Scalar read `get_ret(int i, int j, cplx &x)`. -/
def get_ret_cplx (g : herm_matrix_timestep) (i j : Int) : Except Fault cplx :=
  if ¬ (i = g.tstp_ ∨ j = g.tstp_) then .error .assertion
  else if i = g.tstp_ then peek g.data_ (retptr g j)
  else (peek g.data_ (retptr g i)).bind (fun x => .ok (-(cplx.conj x)))

/-- Matrix write `set_ret(int j, Matrix &M)`. -/
def set_ret (g : herm_matrix_timestep) (j : Int) (M : Mat) : Except Fault herm_matrix_timestep :=
  (herm_matrix_SET_ELEMENT_MATRIX g.data_ (retptr g j) g.size1_ g.size2_ M).bind
    (fun d => .ok { g with data_ := d })

/-- Matrix write `set_ret(int i, int j, Matrix &M)`. -/
def set_ret_ij (g : herm_matrix_timestep) (i j : Int) (M : Mat) :
    Except Fault herm_matrix_timestep :=
  if ¬ (i = g.tstp_) then .error .assertion
  else if ¬ (j ≤ i) then .error .assertion
  else
    (herm_matrix_SET_ELEMENT_MATRIX g.data_ (retptr g j) g.size1_ g.size2_ M).bind
      (fun d => .ok { g with data_ := d })

/-- Scalar write `set_ret(int i, int j, cplx &x)`. -/
def set_ret_cplx (g : herm_matrix_timestep) (i j : Int) (x : cplx) :
    Except Fault herm_matrix_timestep :=
  if ¬ (i = g.tstp_ ∧ j ≤ i) then .error .assertion
  else (poke g.data_ (retptr g j) x).bind (fun d => .ok { g with data_ := d })

/-- Entry `(r, s)` of a matrix of known shape (zero outside the shape). -/
def Mat.entry (M : Mat) (r s : Nat) : cplx :=
  (M.getD r []).getD s 0

/-! ## Scalar and matrix arithmetic used by the derived components -/

namespace cplx

instance : Mul cplx := ⟨fun z w => ⟨z.re * w.re - z.im * w.im, z.re * w.im + z.im * w.re⟩⟩

/-- Product `w * z` of a real `w` and a complex `z`. -/
def smul (w : ℚ) (z : cplx) : cplx := ⟨w * z.re, w * z.im⟩

/-- Quotient `z / d` of a complex `z` by a real `d`. -/
def div_real (z : cplx) (d : ℚ) : cplx := ⟨z.re / d, z.im / d⟩

end cplx

/-- Number of rows of a dense matrix. -/
def Mat.nrows (M : Mat) : Nat := M.length

/-- Number of columns of a dense matrix (of its first row). -/
def Mat.ncols (M : Mat) : Nat := (M.headD []).length

/-- The `rows x cols` matrix with coefficient `f r s` at `(r, s)`. -/
def Mat.of_fn (rows cols : Nat) (f : Nat → Nat → cplx) : Mat :=
  (List.range rows).map (fun (r : Nat) => (List.range cols).map (fun (s : Nat) => f r s))

/-- Sign change `-M`. -/
def Mat.neg (M : Mat) : Mat := M.map (fun row => row.map (fun z => -z))

/-- Coefficient-wise sum `A + B` (also `A += B`); the operands have equal shape at every use. -/
def Mat.add (A B : Mat) : Mat :=
  Mat.of_fn A.nrows A.ncols (fun r s => A.entry r s + B.entry r s)

/-- Conjugate transpose `M.adjoint()`. -/
def Mat.adjoint (M : Mat) : Mat :=
  Mat.of_fn M.ncols M.nrows (fun r s => cplx.conj (M.entry s r))

/-- Product with a real scalar, `M *= w`. -/
def Mat.smul (w : ℚ) (M : Mat) : Mat := M.map (fun row => row.map (fun z => cplx.smul w z))

/-- Product with a complex scalar, `M *= c`. -/
def Mat.mul_cplx (M : Mat) (c : cplx) : Mat := M.map (fun row => row.map (fun z => z * c))

/-- Quotient by a real scalar, `M / d`. -/
def Mat.div_real (M : Mat) (d : ℚ) : Mat :=
  M.map (fun row => row.map (fun z => cplx.div_real z d))

/-! ## Lesser, mixing, Matsubara and greater reads -/

/-- Matrix read `get_les(int i, int j, Matrix &M)`. -/
def get_les (g : herm_matrix_timestep) (i j : Int) : Except Fault Mat :=
  if ¬ (j = g.tstp_ ∧ i ≤ g.tstp_) then .error .assertion
  else herm_matrix_READ_ELEMENT g.data_ (lesptr g i) g.size1_

/-- Matrix read `get_les_t_tstp(int i, Matrix &M)`. -/
def get_les_t_tstp (g : herm_matrix_timestep) (i : Int) : Except Fault Mat :=
  herm_matrix_READ_ELEMENT g.data_ (lesptr g i) g.size1_

/-- Matrix read `get_les_tstp_t(int i, Matrix &M)`. -/
def get_les_tstp_t (g : herm_matrix_timestep) (i : Int) : Except Fault Mat :=
  herm_matrix_READ_ELEMENT_MINUS_CONJ g.data_ (lesptr g i) g.size1_

/-- Scalar read `get_les(int i, int j, cplx &x)`. -/
def get_les_cplx (g : herm_matrix_timestep) (i j : Int) : Except Fault cplx :=
  if ¬ (i = g.tstp_ ∨ j = g.tstp_) then .error .assertion
  else if j = g.tstp_ then peek g.data_ (lesptr g i)
  else (peek g.data_ (lesptr g j)).bind (fun x => .ok (-(cplx.conj x)))

/-- Scalar read `get_tv(int i, int j, cplx &x)`. -/
def get_tv_cplx (g : herm_matrix_timestep) (i j : Int) : Except Fault cplx :=
  if ¬ (i = g.tstp_) then .error .assertion
  else peek g.data_ (tvptr g j)

/-- Scalar read `get_vt(int i, int j, cplx &x)`. -/
def get_vt_cplx (g : herm_matrix_timestep) (i j : Int) : Except Fault cplx :=
  if ¬ (j = g.tstp_) then .error .assertion
  else
    (peek g.data_ (tvptr g (g.ntau_ - i))).bind
      (fun x => if g.sig_ = -1 then .ok (cplx.conj x) else .ok (-(cplx.conj x)))

/-- Matrix read `get_mat(int i, Matrix &M)`. -/
def get_mat (g : herm_matrix_timestep) (i : Int) : Except Fault Mat :=
  herm_matrix_READ_ELEMENT g.data_ (matptr g i) g.size1_

/-- Scalar read `get_mat(int i, cplx &x)`. -/
def get_mat_cplx (g : herm_matrix_timestep) (i : Int) : Except Fault cplx :=
  if ¬ (g.tstp_ = -1) then .error .assertion
  else peek g.data_ (matptr g i)

/-- Matrix read `get_matminus(int i, Matrix &M, int sig)` with an explicit `sig`. -/
def get_matminus_sig (g : herm_matrix_timestep) (i : Int) (sig : Int) : Except Fault Mat :=
  (herm_matrix_READ_ELEMENT g.data_ (matptr g (g.ntau_ - i)) g.size1_).bind
    (fun M => if sig = -1 then .ok (Mat.neg M) else .ok M)

/-- Matrix read `get_matminus(int i, Matrix &M)` using the own `sig_`. -/
def get_matminus (g : herm_matrix_timestep) (i : Int) : Except Fault Mat :=
  (herm_matrix_READ_ELEMENT g.data_ (matptr g (g.ntau_ - i)) g.size1_).bind
    (fun M => if g.sig_ = -1 then .ok (Mat.neg M) else .ok M)

/-- Scalar read `get_matminus(int i, cplx &x)`. -/
def get_matminus_cplx (g : herm_matrix_timestep) (i : Int) : Except Fault cplx :=
  if ¬ (g.tstp_ = -1) then .error .assertion
  else
    (peek g.data_ (matptr g (g.ntau_ - i))).bind
      (fun x => if g.sig_ = -1 then .ok (-x) else .ok x)

/-- Matrix read `get_gtr_tstp_t(int i, Matrix &M)`. -/
def get_gtr_tstp_t (g : herm_matrix_timestep) (i : Int) : Except Fault Mat :=
  (get_ret_tstp_t g i).bind (fun M => (get_les_tstp_t g i).bind (fun M1 => .ok (Mat.add M M1)))

/-- Matrix read `get_gtr_t_tstp(int i, Matrix &M)`. -/
def get_gtr_t_tstp (g : herm_matrix_timestep) (i : Int) : Except Fault Mat :=
  (get_ret_t_tstp g i).bind (fun M => (get_les_t_tstp g i).bind (fun M1 => .ok (Mat.add M M1)))

/-! ## Density matrix -/

/-- Scalar `density_matrix(int tstp)`; `std::complex<T>(0.0, sig_)` is `⟨0, sig_⟩`. -/
def density_matrix (g : herm_matrix_timestep) (tstp : Int) : Except Fault cplx :=
  if ¬ (g.tstp_ = tstp) then .error .assertion
  else if g.tstp_ = -1 then
    (get_mat_cplx g g.ntau_).bind (fun x1 => .ok (-x1))
  else
    (get_les_cplx g g.tstp_ g.tstp_).bind (fun x1 => .ok ((⟨0, (g.sig_ : ℚ)⟩ : cplx) * x1))

/-- Scalar `density_matrix(int tstp, cplx &rho)`: the value left in `rho`. -/
def density_matrix_rho (g : herm_matrix_timestep) (tstp : Int) : Except Fault cplx :=
  if ¬ (g.tstp_ = tstp) then .error .assertion
  else if g.tstp_ = -1 then
    (get_mat_cplx g g.ntau_).bind (fun x1 => .ok (-x1))
  else
    (get_les_cplx g g.tstp_ g.tstp_).bind (fun x1 => .ok ((⟨0, (g.sig_ : ℚ)⟩ : cplx) * x1))

/-- Matrix `density_matrix(Matrix &M)`. -/
def density_matrix_mat (g : herm_matrix_timestep) : Except Fault Mat :=
  if g.tstp_ = -1 then
    (get_mat g g.ntau_).bind (fun M => .ok (Mat.smul (-1) M))
  else
    (get_les_tstp_t g g.tstp_).bind
      (fun M => .ok (Mat.mul_cplx M ⟨0, 1 * (g.sig_ : ℚ)⟩))

/-- Matrix `density_matrix(int tstp, Matrix &M)`. -/
def density_matrix_tstp_mat (g : herm_matrix_timestep) (tstp : Int) : Except Fault Mat :=
  if ¬ (tstp = g.tstp_) then .error .assertion
  else if g.tstp_ = -1 then
    (get_mat g g.ntau_).bind (fun M => .ok (Mat.smul (-1) M))
  else
    (get_les_tstp_t g g.tstp_).bind
      (fun M => .ok (Mat.mul_cplx M ⟨0, 1 * (g.sig_ : ℚ)⟩))

/-! ## Matsubara writes and `set_mat_herm` -/

/-- Matrix write `set_mat(int i, Matrix &M)`. -/
def set_mat (g : herm_matrix_timestep) (i : Int) (M : Mat) : Except Fault herm_matrix_timestep :=
  if ¬ (i ≤ g.ntau_) then .error .assertion
  else
    (herm_matrix_SET_ELEMENT_MATRIX g.data_ (matptr g i) g.size1_ g.size2_ M).bind
      (fun d => .ok { g with data_ := d })

/-- Scalar write `set_mat(int i, cplx &x)`. -/
def set_mat_cplx (g : herm_matrix_timestep) (i : Int) (x : cplx) :
    Except Fault herm_matrix_timestep :=
  if ¬ (i ≤ g.ntau_) then .error .assertion
  else (poke g.data_ (matptr g i) x).bind (fun d => .ok { g with data_ := d })

/-- Coefficient assignment `M(r, s) = v`. -/
def Mat.update (M : Mat) (r s : Nat) (v : cplx) : Mat :=
  M.set r ((M.getD r []).set s v)

/-- The assignment `tmp = (tmp + tmp.adjoint()) / 2.0` on the Eigen matrix `tmp`.  The
right-hand side is a coefficient-wise expression, which Eigen evaluates into the destination
without a temporary; the destination being `tmp` itself, the assignment runs in place, column
after column (`cdmatrix` is stored column-major), as
`for s < cols, for r < rows: tmp(r, s) = (tmp(r, s) + conj(tmp(s, r))) / 2.0`,
so a coefficient `tmp(s, r)` of an earlier column is read after it has been assigned. -/
def herm_average (tmp : Mat) : Mat :=
  (List.range tmp.ncols).foldl (fun t (s : Nat) =>
    (List.range tmp.nrows).foldl (fun t1 (r : Nat) =>
      t1.update r s (cplx.div_real (t1.entry r s + cplx.conj (t1.entry s r)) 2)) t) tmp

/-- Body of the loop of `set_mat_herm` for one `i`:
`get_mat(i, tmp); tmp = (tmp + tmp.adjoint()) / 2.0; set_mat(i, tmp)`. -/
def set_mat_herm_step (g : herm_matrix_timestep) (i : Nat) : Except Fault herm_matrix_timestep :=
  (get_mat g (i : Int)).bind (fun tmp => set_mat g (i : Int) (herm_average tmp))

/-- Member `set_mat_herm()`: `for (int i = 0; i < ntau_; i++) { .. }`. -/
def set_mat_herm (g : herm_matrix_timestep) : Except Fault herm_matrix_timestep :=
  loopE set_mat_herm_step g (List.range g.ntau_.toNat)

/-! ## Increment -/

/-- Body of the loop of `incr`: `data_[m] += weight * g1.data_[m]`. -/
def incr_step (src : List cplx) (weight : ℚ) (d : List cplx) (m : Nat) :
    Except Fault (List cplx) :=
  (peek d (m : Int)).bind (fun x =>
    (peek src (m : Int)).bind (fun y => poke d (m : Int) (x + cplx.smul weight y)))

/-- Member `incr(herm_matrix_timestep<T> &g1, T weight)` for `g1` a different object; `g1`
is only read. -/
def incr (self g1 : herm_matrix_timestep) (weight : ℚ) : Except Fault herm_matrix_timestep :=
  if ¬ (g1.size1_ = self.size1_ ∧ g1.ntau_ = self.ntau_ ∧ g1.tstp_ = self.tstp_) then
    .error .assertion
  else
    (loopE (incr_step g1.data_ weight) self.data_ (List.range self.total_size_.toNat)).bind
      (fun d => .ok { self with data_ := d })

/-- Member `incr_timestep(int tstp, herm_matrix_timestep<T> &g1, T weight)` for `g1` a
different object. -/
def incr_timestep (self : herm_matrix_timestep) (tstp : Int) (g1 : herm_matrix_timestep)
    (weight : ℚ) : Except Fault herm_matrix_timestep :=
  if ¬ (tstp = self.tstp_) then .error .assertion
  else if ¬ (g1.size1_ = self.size1_ ∧ g1.ntau_ = self.ntau_ ∧ g1.tstp_ = self.tstp_) then
    .error .assertion
  else
    (loopE (incr_step g1.data_ weight) self.data_ (List.range self.total_size_.toNat)).bind
      (fun d => .ok { self with data_ := d })

/-- Entry addressed as `x[r * size1_ + s]` for `x` at offset `x` of `data_`. -/
def stored_coeff (g : herm_matrix_timestep) (x : Int) (r s : Nat) : cplx :=
  g.data_.getD (x + ((r : Int) * g.size1_ + (s : Int))).toNat 0

/-- Entry-wise `d[m] + weight * src[m]` of two buffers. -/
def axpy_list (weight : ℚ) (d src : List cplx) : List cplx :=
  List.zipWith (fun x y => x + cplx.smul weight y) d src

/-! ## Matrix products and the multiply routines -/

instance : One cplx := ⟨⟨1, 0⟩⟩

/-- The scalars `cplx` with their sum and product are a commutative ring. -/
instance : CommRing cplx where
  add_assoc a b c := by
    show cplx.mk (a.re + b.re + c.re) (a.im + b.im + c.im)
      = cplx.mk (a.re + (b.re + c.re)) (a.im + (b.im + c.im))
    congr 1 <;> ring
  zero_add a := by
    show cplx.mk (0 + a.re) (0 + a.im) = a
    rw [zero_add, zero_add]
  add_zero a := by
    show cplx.mk (a.re + 0) (a.im + 0) = a
    rw [add_zero, add_zero]
  add_comm a b := by
    show cplx.mk (a.re + b.re) (a.im + b.im) = cplx.mk (b.re + a.re) (b.im + a.im)
    congr 1 <;> ring
  neg_add_cancel a := by
    show cplx.mk (-a.re + a.re) (-a.im + a.im) = cplx.mk 0 0
    congr 1 <;> ring
  left_distrib a b c := by
    show cplx.mk (a.re * (b.re + c.re) - a.im * (b.im + c.im))
        (a.re * (b.im + c.im) + a.im * (b.re + c.re))
      = cplx.mk ((a.re * b.re - a.im * b.im) + (a.re * c.re - a.im * c.im))
        ((a.re * b.im + a.im * b.re) + (a.re * c.im + a.im * c.re))
    congr 1 <;> ring
  right_distrib a b c := by
    show cplx.mk ((a.re + b.re) * c.re - (a.im + b.im) * c.im)
        ((a.re + b.re) * c.im + (a.im + b.im) * c.re)
      = cplx.mk ((a.re * c.re - a.im * c.im) + (b.re * c.re - b.im * c.im))
        ((a.re * c.im + a.im * c.re) + (b.re * c.im + b.im * c.re))
    congr 1 <;> ring
  zero_mul a := by
    show cplx.mk (0 * a.re - 0 * a.im) (0 * a.im + 0 * a.re) = cplx.mk 0 0
    congr 1 <;> ring
  mul_zero a := by
    show cplx.mk (a.re * 0 - a.im * 0) (a.re * 0 + a.im * 0) = cplx.mk 0 0
    congr 1 <;> ring
  mul_assoc a b c := by
    show cplx.mk ((a.re * b.re - a.im * b.im) * c.re - (a.re * b.im + a.im * b.re) * c.im)
        ((a.re * b.re - a.im * b.im) * c.im + (a.re * b.im + a.im * b.re) * c.re)
      = cplx.mk (a.re * (b.re * c.re - b.im * c.im) - a.im * (b.re * c.im + b.im * c.re))
        (a.re * (b.re * c.im + b.im * c.re) + a.im * (b.re * c.re - b.im * c.im))
    congr 1 <;> ring
  one_mul a := by
    show cplx.mk (1 * a.re - 0 * a.im) (1 * a.im + 0 * a.re) = a
    rw [one_mul, zero_mul, sub_zero, one_mul, zero_mul, add_zero]
  mul_one a := by
    show cplx.mk (a.re * 1 - a.im * 0) (a.re * 0 + a.im * 1) = a
    rw [mul_one, mul_zero, sub_zero, mul_zero, mul_one, zero_add]
  mul_comm a b := by
    show cplx.mk (a.re * b.re - a.im * b.im) (a.re * b.im + a.im * b.re)
      = cplx.mk (b.re * a.re - b.im * a.im) (b.re * a.im + b.im * a.re)
    congr 1 <;> ring
  nsmul := nsmulRec
  zsmul := zsmulRec

/-- Modelled from the spec: the time-dependent matrix `function<T>` (declared in
`cntr_function_decl.hpp`), consumed through `nt()`, `size1()`, `size2()` and the per-time
accessor `ptr(t)`.  Its values `F(-1), F(0), .., F(nt)` are consecutive row-major blocks of
`element_size_` entries of `data_`. -/
structure function where
  data_ : List cplx
  nt_ : Int
  size1_ : Int
  size2_ : Int
  element_size_ : Int
deriving DecidableEq

/-- Modelled from the spec: accessor `ptr(t)` of `function<T>`, as the offset of `F(t)` in
`data_`; `t = -1` is the Matsubara value. -/
def function.ptr (ft : function) (t : Int) : Int := (t + 1) * ft.element_size_

/-- Modelled from the spec: the `size1 x size1` operand of the `element_*` primitives of
`cntr_elements.hpp` found at offset `x` of `buf`, entry `(i, j)` being `x[i * size1 + j]`. -/
def element_get (size1 : Int) (buf : List cplx) (x : Int) : Except Fault Mat :=
  herm_matrix_READ_ELEMENT buf x size1

/-- Modelled from the spec: `element_mult<T, LARGESIZE>(size1, z, a, b)`, the matrix product
`z = a * b` of two `size1 x size1` blocks. -/
def element_mult (size1 : Int) (A B : Mat) : Mat :=
  Mat.of_fn size1.toNat size1.toNat (fun i j =>
    ((List.range size1.toNat).map (fun (k : Nat) => A.entry i k * B.entry k j)).sum)

/-- Modelled from the spec: `element_smul<T, LARGESIZE>(size1, z, weight)`, the scaling
`z = weight * z` of a `size1 x size1` block by a real number. -/
def element_smul (size1 : Int) (Z : Mat) (weight : ℚ) : Mat :=
  Mat.of_fn size1.toNat size1.toNat (fun i j => cplx.smul weight (Z.entry i j))

/-- Modelled from the spec: `element_conj<T, LARGESIZE>(size1, z, a)`, the conjugate transpose
`z = a†` of a `size1 x size1` block. -/
def element_conj (size1 : Int) (A : Mat) : Mat :=
  Mat.of_fn size1.toNat size1.toNat (fun i j => cplx.conj (A.entry j i))

/-- Modelled from the spec: `element_set<T, LARGESIZE>(size1, x, z)`, the copy of the
`size1 x size1` block `z` to offset `x` of `buf`. -/
def element_set (size1 : Int) (buf : List cplx) (x : Int) (Z : Mat) : Except Fault (List cplx) :=
  herm_matrix_SET_ELEMENT_MATRIX buf x size1 size1 Z

/-- Scratch array `new cplx[element_size_]` (`xtemp`, `fcc`), which has to take a
`size1_ x size1_` block. -/
def scratch_block (g : herm_matrix_timestep) : Except Fault Unit :=
  (new_cplx g.element_size_).bind (fun z =>
    if g.size1_.toNat * g.size1_.toNat ≤ z.length then .ok () else .error .out_of_range)

/-- The value left in `xtemp` by `element_mult(size1_, xtemp, f, x); element_smul(size1_,
xtemp, weight)`: the stored block `X` multiplied from the left by `F`. -/
def left_product (size1 : Int) (weight : ℚ) (F X : Mat) : Mat :=
  element_smul size1 (element_mult size1 F X) weight

/-- The value left in `xtemp` by `element_mult(size1_, xtemp, x, f); element_smul(size1_,
xtemp, weight)`: the stored block `X` multiplied from the right by `F`. -/
def right_product (size1 : Int) (weight : ℚ) (F X : Mat) : Mat :=
  element_smul size1 (element_mult size1 X F) weight

/-- In-place update of the block at offset `x`: the block is read as an operand, `xtemp`
becomes `T X`, and `element_set(size1_, x, xtemp)` stores it. -/
def block_apply (size1 : Int) (T : Mat → Mat) (buf : List cplx) (x : Int) :
    Except Fault (List cplx) :=
  (element_get size1 buf x).bind (fun X => element_set size1 buf x (T X))

/-- One loop of the multiply routines,
`for (m = 0; m <= last; m++) { .. element_set(size1_, x0 + m * element_size_, xtemp); }`,
where `fm m` fetches the other factor of pass `m` and `T` is the product of the routine. -/
def multiply_loop (size1 es : Int) (T : Mat → Mat → Mat) (fm : Nat → Except Fault Mat)
    (x0 last : Int) (d : List cplx) : Except Fault (List cplx) :=
  loopE (fun d1 (m : Nat) =>
      (fm m).bind (fun Fm => block_apply size1 (T Fm) d1 (x0 + (m : Int) * es)))
    d (List.range (last + 1).toNat)

/-- Branch `tstp_ == -1` of the multiply routines: the loop over the Matsubara block,
`x0 = data_`, `m = 0..ntau_`. -/
def multiply_matsubara (g : herm_matrix_timestep) (T : Mat → Mat → Mat)
    (fmat : Nat → Except Fault Mat) : Except Fault herm_matrix_timestep :=
  (multiply_loop g.size1_ g.element_size_ T fmat 0 g.ntau_ g.data_).bind
    (fun d => .ok { g with data_ := d })

/-- Branch `tstp_ >= 0` of the multiply routines: the loops over the retarded block
(`x0 = data_`, `m = 0..tstp_`), the left-mixing block
(`x0 = data_ + (tstp_ + 1) * element_size_`, `m = 0..ntau_`) and the lesser block
(`x0 = data_ + (tstp_ + 1 + ntau_ + 1) * element_size_`, `m = 0..tstp_`), in this order. -/
def multiply_real_time (g : herm_matrix_timestep) (T : Mat → Mat → Mat)
    (fret ftv fles : Nat → Except Fault Mat) : Except Fault herm_matrix_timestep :=
  (multiply_loop g.size1_ g.element_size_ T fret 0 g.tstp_ g.data_).bind (fun d1 =>
    (multiply_loop g.size1_ g.element_size_ T ftv ((g.tstp_ + 1) * g.element_size_) g.ntau_
        d1).bind (fun d2 =>
      (multiply_loop g.size1_ g.element_size_ T fles
          ((g.tstp_ + 1 + g.ntau_ + 1) * g.element_size_) g.tstp_ d2).bind
        (fun d3 => .ok { g with data_ := d3 })))

/-- Member `left_multiply(std::complex<T> *f0, std::complex<T> *ft, T weight)`; the two
pointers are offsets `f0`, `ft` into the buffer `fbuf` of the function they come from. -/
def left_multiply_ptr (g : herm_matrix_timestep) (fbuf : List cplx) (f0 ft : Int)
    (weight : ℚ) : Except Fault herm_matrix_timestep :=
  (scratch_block g).bind (fun _ =>
    if g.tstp_ = -1 then
      multiply_matsubara g (left_product g.size1_ weight)
        (fun _ => element_get g.size1_ fbuf f0)
    else
      multiply_real_time g (left_product g.size1_ weight)
        (fun _ => element_get g.size1_ fbuf (ft + g.tstp_ * g.element_size_))
        (fun _ => element_get g.size1_ fbuf (ft + g.tstp_ * g.element_size_))
        (fun m => element_get g.size1_ fbuf (ft + (m : Int) * g.element_size_)))

/-- Member `left_multiply(function<T> &ft, T weight)`. -/
def left_multiply (g : herm_matrix_timestep) (ft : function) (weight : ℚ) :
    Except Fault herm_matrix_timestep :=
  if ¬ (ft.nt_ ≥ g.tstp_) then .error .assertion
  else left_multiply_ptr g ft.data_ (ft.ptr (-1)) (ft.ptr 0) weight

/-- Member `left_multiply(int tstp, function<T> &ft, T weight)`. -/
def left_multiply_tstp (g : herm_matrix_timestep) (tstp : Int) (ft : function) (weight : ℚ) :
    Except Fault herm_matrix_timestep :=
  if ¬ (tstp = g.tstp_) then .error .assertion
  else if ¬ (ft.nt_ ≥ g.tstp_) then .error .assertion
  else left_multiply_ptr g ft.data_ (ft.ptr (-1)) (ft.ptr 0) weight

/-- The scratch array `z` of `element_size_` entries has to take a `size1_ x size1_` block
when the first `element_*` call fills it. -/
def scratch_room (g : herm_matrix_timestep) (z : List cplx) : Except Fault Unit :=
  if g.size1_.toNat * g.size1_.toNat ≤ z.length then .ok () else .error .out_of_range

/-- Member `left_multiply_hermconj(int tstp, function<T> &ft, T weight)`; `fcc` holds the
conjugate transpose of the value of `ft` in use.  The two scratch arrays are allocated
between the first and the second assertion and are filled after it, `fcc` first; they have
the same length.  The loop bounds `m <= tstp` are those of `tstp_`, the two being equal after
the first assertion. -/
def left_multiply_hermconj (g : herm_matrix_timestep) (tstp : Int) (ft : function)
    (weight : ℚ) : Except Fault herm_matrix_timestep :=
  if ¬ (tstp = g.tstp_) then .error .assertion
  else (new_cplx g.element_size_).bind (fun _ => (new_cplx g.element_size_).bind (fun fcc =>
    if ¬ (tstp ≥ -1 ∧ ft.nt_ ≥ tstp ∧ ft.size1_ = g.size1_ ∧ ft.size2_ = g.size2_) then
      .error .assertion
    else
      (scratch_room g fcc).bind (fun _ =>
      (element_get g.size1_ ft.data_ (ft.ptr (-1))).bind (fun F0 =>
        if tstp = -1 then
          multiply_matsubara g (left_product g.size1_ weight)
            (fun _ => .ok (element_conj g.size1_ F0))
        else
          (element_get g.size1_ ft.data_ (ft.ptr tstp)).bind (fun Ft =>
            multiply_real_time g (left_product g.size1_ weight)
              (fun _ => .ok (element_conj g.size1_ Ft))
              (fun _ => .ok (element_conj g.size1_ Ft))
              (fun m => (element_get g.size1_ ft.data_ (ft.ptr (m : Int))).bind
                (fun Fm => .ok (element_conj g.size1_ Fm))))))))

/-- Member `right_multiply(std::complex<T> *f0, std::complex<T> *ft, T weight)`; the two
pointers are offsets `f0`, `ft` into the buffer `fbuf` of the function they come from. -/
def right_multiply_ptr (g : herm_matrix_timestep) (fbuf : List cplx) (f0 ft : Int)
    (weight : ℚ) : Except Fault herm_matrix_timestep :=
  (scratch_block g).bind (fun _ =>
    if g.tstp_ = -1 then
      multiply_matsubara g (right_product g.size1_ weight)
        (fun _ => element_get g.size1_ fbuf f0)
    else
      multiply_real_time g (right_product g.size1_ weight)
        (fun m => element_get g.size1_ fbuf (ft + (m : Int) * g.element_size_))
        (fun _ => element_get g.size1_ fbuf f0)
        (fun _ => element_get g.size1_ fbuf (ft + g.tstp_ * g.element_size_)))

/-- Member `right_multiply(function<T> &ft, T weight)`. -/
def right_multiply (g : herm_matrix_timestep) (ft : function) (weight : ℚ) :
    Except Fault herm_matrix_timestep :=
  if ¬ (ft.nt_ ≥ g.tstp_) then .error .assertion
  else right_multiply_ptr g ft.data_ (ft.ptr (-1)) (ft.ptr 0) weight

/-- Member `right_multiply(int tstp, function<T> &ft, T weight)`. -/
def right_multiply_tstp (g : herm_matrix_timestep) (tstp : Int) (ft : function) (weight : ℚ) :
    Except Fault herm_matrix_timestep :=
  if ¬ (tstp = g.tstp_) then .error .assertion
  else if ¬ (ft.nt_ ≥ g.tstp_) then .error .assertion
  else right_multiply_ptr g ft.data_ (ft.ptr (-1)) (ft.ptr 0) weight

/-- Member `right_multiply_hermconj(int tstp, function<T> &ft, T weight)`; `fcc` holds the
conjugate transpose of the value of `ft` in use.  The two scratch arrays are allocated
between the first assertion and the other three and are filled after them, `fcc` first.  The
loop bounds `m <= tstp` are those of `tstp_`, the two being equal after the first assertion;
`ft.ptr(tstp)`, conjugated once before the lesser loop, is fetched by the factor of that loop,
which has at least one pass. -/
def right_multiply_hermconj (g : herm_matrix_timestep) (tstp : Int) (ft : function)
    (weight : ℚ) : Except Fault herm_matrix_timestep :=
  if ¬ (tstp = g.tstp_) then .error .assertion
  else (new_cplx g.element_size_).bind (fun _ => (new_cplx g.element_size_).bind (fun fcc =>
    if ¬ (ft.size1_ = g.size1_) then .error .assertion
    else if ¬ (ft.nt_ ≥ tstp) then .error .assertion
    else if ¬ (tstp ≥ -1) then .error .assertion
    else
      (scratch_room g fcc).bind (fun _ =>
      (element_get g.size1_ ft.data_ (ft.ptr (-1))).bind (fun F0 =>
        if tstp = -1 then
          multiply_matsubara g (right_product g.size1_ weight)
            (fun _ => .ok (element_conj g.size1_ F0))
        else
          multiply_real_time g (right_product g.size1_ weight)
            (fun m => (element_get g.size1_ ft.data_ (ft.ptr (m : Int))).bind
              (fun Fm => .ok (element_conj g.size1_ Fm)))
            (fun _ => .ok (element_conj g.size1_ F0))
            (fun _ => (element_get g.size1_ ft.data_ (ft.ptr tstp)).bind
              (fun Ft => .ok (element_conj g.size1_ Ft)))))))

/-- The `n x n` unit matrix. -/
def Mat.identity (n : Nat) : Mat :=
  Mat.of_fn n n (fun r s => if r = s then 1 else 0)

/-- The `size1 x size1` matrix stored row-major at offset `x` of `buf`. -/
def block_at (buf : List cplx) (x : Int) (n : Nat) : Mat :=
  Mat.of_fn n n (fun r s => buf.getD (x + ((r : Int) * (n : Int) + (s : Int))).toNat 0)

/-- Modelled from the spec: a well-formed function object has `nt_ >= -1`,
`element_size_ = size1_ * size2_` and a buffer holding the `nt_ + 2` values
`F(-1), .., F(nt_)`. -/
def function_invariant (ft : function) : Prop :=
  ft.nt_ ≥ -1 ∧ ft.element_size_ = ft.size1_ * ft.size2_ ∧
    (ft.data_.length : Int) = (ft.nt_ + 2) * ft.element_size_

instance (ft : function) : Decidable (function_invariant ft) := by
  unfold function_invariant; infer_instance

/-- Value `F(t)` of a function, read as a `size1_ x size1_` matrix. -/
def function.value (ft : function) (t : Int) : Mat :=
  block_at ft.data_ (ft.ptr t) ft.size1_.toNat

/-! ## Copies between slices, zero fill, lesser writes -/

/-- Member `set_timestep(int tstp, herm_matrix_timestep<T> &g1)` for `g1` a different
object; `g1` is only read. -/
def set_timestep (self : herm_matrix_timestep) (tstp : Int) (g1 : herm_matrix_timestep) :
    Except Fault herm_matrix_timestep :=
  if ¬ (tstp = self.tstp_) then .error .assertion
  else if ¬ (tstp = g1.tstp_) then .error .assertion
  else if ¬ (tstp ≥ -1 ∧ tstp ≤ g1.tstp_) then .error .assertion
  else if ¬ (g1.size1_ = self.size1_) then .error .assertion
  else if ¬ (g1.ntau_ = self.ntau_) then .error .assertion
  else if tstp = -1 then
    (memcpy self.data_ (matptr self 0) g1.data_ (matptr g1 0)
        ((self.ntau_ + 1) * self.element_size_)).bind
      (fun d => .ok { self with data_ := d })
  else
    (memcpy self.data_ (retptr self 0) g1.data_ (retptr g1 0)
        ((tstp + 1) * self.element_size_)).bind (fun d1 =>
      (memcpy d1 (tvptr self 0) g1.data_ (tvptr g1 0)
          ((self.ntau_ + 1) * self.element_size_)).bind (fun d2 =>
        (memcpy d2 (lesptr self 0) g1.data_ (lesptr g1 0)
            ((tstp + 1) * self.element_size_)).bind
          (fun d3 => .ok { self with data_ := d3 })))

/-- Member `clear()`. -/
def clear (g : herm_matrix_timestep) : Except Fault herm_matrix_timestep :=
  if g.total_size_ > 0 then
    (memset_zero g.data_ 0 g.total_size_).bind (fun d => .ok { g with data_ := d })
  else .ok g

/-- Member `set_timestep_zero(int tstp)`. -/
def set_timestep_zero (g : herm_matrix_timestep) (tstp : Int) :
    Except Fault herm_matrix_timestep :=
  if ¬ (tstp = g.tstp_) then .error .assertion
  else if ¬ (tstp ≥ -1) then .error .assertion
  else if tstp = -1 then
    (memset_zero g.data_ (matptr g 0) ((g.ntau_ + 1) * g.element_size_)).bind
      (fun d => .ok { g with data_ := d })
  else
    (memset_zero g.data_ (retptr g 0) ((tstp + 1) * g.element_size_)).bind (fun d1 =>
      (memset_zero d1 (tvptr g 0) ((g.ntau_ + 1) * g.element_size_)).bind (fun d2 =>
        (memset_zero d2 (lesptr g 0) ((tstp + 1) * g.element_size_)).bind
          (fun d3 => .ok { g with data_ := d3 })))

/-- Matrix write `set_les(int j, Matrix &M)`. -/
def set_les (g : herm_matrix_timestep) (j : Int) (M : Mat) : Except Fault herm_matrix_timestep :=
  (herm_matrix_SET_ELEMENT_MATRIX g.data_ (lesptr g j) g.size1_ g.size2_ M).bind
    (fun d => .ok { g with data_ := d })

/-- Matrix write `set_les(int i, int j, Matrix &M)`. -/
def set_les_ij (g : herm_matrix_timestep) (i j : Int) (M : Mat) :
    Except Fault herm_matrix_timestep :=
  if ¬ (j = g.tstp_) then .error .assertion
  else if ¬ (i ≤ j) then .error .assertion
  else
    (herm_matrix_SET_ELEMENT_MATRIX g.data_ (lesptr g i) g.size1_ g.size2_ M).bind
      (fun d => .ok { g with data_ := d })

/-- Scalar write `set_les(int i, int j, cplx &x)`. -/
def set_les_cplx (g : herm_matrix_timestep) (i j : Int) (x : cplx) :
    Except Fault herm_matrix_timestep :=
  if ¬ (j = g.tstp_ ∧ i ≤ j) then .error .assertion
  else (poke g.data_ (lesptr g i) x).bind (fun d => .ok { g with data_ := d })

/-- Matrix read `get_tv(int j, Matrix &M)`. -/
def get_tv_j (g : herm_matrix_timestep) (j : Int) : Except Fault Mat :=
  herm_matrix_READ_ELEMENT g.data_ (tvptr g j) g.size1_

/-- Matrix read `get_tv(int i, int j, Matrix &M)`. -/
def get_tv_ij (g : herm_matrix_timestep) (i j : Int) : Except Fault Mat :=
  if ¬ (i = g.tstp_) then .error .assertion
  else herm_matrix_READ_ELEMENT g.data_ (tvptr g j) g.size1_

/-! ## Left-mixing writes and the matrix right-mixing read -/

/-- Matrix write `set_tv(int j, Matrix &M)`. -/
def set_tv (g : herm_matrix_timestep) (j : Int) (M : Mat) : Except Fault herm_matrix_timestep :=
  (herm_matrix_SET_ELEMENT_MATRIX g.data_ (tvptr g j) g.size1_ g.size2_ M).bind
    (fun d => .ok { g with data_ := d })

/-- Matrix write `set_tv(int i, int j, Matrix &M)`. -/
def set_tv_ij (g : herm_matrix_timestep) (i j : Int) (M : Mat) :
    Except Fault herm_matrix_timestep :=
  if ¬ (i = g.tstp_) then .error .assertion
  else if ¬ (j ≤ g.ntau_) then .error .assertion
  else
    (herm_matrix_SET_ELEMENT_MATRIX g.data_ (tvptr g j) g.size1_ g.size2_ M).bind
      (fun d => .ok { g with data_ := d })

/-- Scalar write `set_tv(int i, int j, cplx &x)`. -/
def set_tv_cplx (g : herm_matrix_timestep) (i j : Int) (x : cplx) :
    Except Fault herm_matrix_timestep :=
  if ¬ (i = g.tstp_) then .error .assertion
  else if ¬ (j ≤ g.ntau_) then .error .assertion
  else (poke g.data_ (tvptr g j) x).bind (fun d => .ok { g with data_ := d })

/-- Matrix read `get_vt(int i, Matrix &M, int sig)`:
`herm_matrix_READ_ELEMENT_MINUS_CONJ if (sig == -1) M = -M;`. -/
def get_vt_sig (g : herm_matrix_timestep) (i : Int) (sig : Int) : Except Fault Mat :=
  (herm_matrix_READ_ELEMENT_MINUS_CONJ g.data_ (tvptr g (g.ntau_ - i)) g.size1_).bind
    (fun M => if sig = -1 then .ok (Mat.neg M) else .ok M)

/-! ## Scaling through the view -/

/-- Modelled from the spec: `herm_matrix_timestep_view<T>::smul(T weight)` of the non-owning
view constructed over the buffer of the slice (`cntr_herm_matrix_timestep_view_impl.hpp`):
the in-place scalar multiply of all stored data. -/
def view_smul (buf : List cplx) (weight : ℚ) : List cplx :=
  buf.map (fun z => cplx.smul weight z)

/-- Member `smul(T weight)`: `herm_matrix_timestep_view<T> g_view(*this); g_view.smul(weight)`. -/
def smul (g : herm_matrix_timestep) (weight : ℚ) : Except Fault herm_matrix_timestep :=
  .ok { g with data_ := view_smul g.data_ weight }

/-- Member `smul(int tstp, T weight)`. -/
def smul_tstp (g : herm_matrix_timestep) (tstp : Int) (weight : ℚ) :
    Except Fault herm_matrix_timestep :=
  if ¬ (tstp = g.tstp_) then .error .assertion
  else .ok { g with data_ := view_smul g.data_ weight }

/-! ## The two-time container as a source -/

/-- Modelled from the spec: the two-time container `herm_matrix<T>` (declared in
`cntr_herm_matrix_decl.hpp`), consumed through `nt()`, `ntau()`, `size1()`, `size2()` and the
pointer accessors `matptr(i)`, `retptr(t, t1)`, `tvptr(t, t1)`, `lesptr(t, t1)`.  Each accessor
is the offset in `data_` of one matrix block; the four accessors are parameters of the
model. -/
structure herm_matrix where
  data_ : List cplx
  nt_ : Int
  ntau_ : Int
  size1_ : Int
  size2_ : Int
  element_size_ : Int
  matptr : Int → Int
  retptr : Int → Int → Int
  tvptr : Int → Int → Int
  lesptr : Int → Int → Int

/-- Loop `for(i=0;i<=last;i++) x[i]=*(p(i)+sij)` of `get_matrixelement`, with `x` at offset
`x0` of the own buffer and `ptr i` the offset `p(i)+sij` in the buffer `src` of the container. -/
def matrixelement_loop (src : List cplx) (ptr : Nat → Int) (x0 last : Int) (d : List cplx) :
    Except Fault (List cplx) :=
  loopE (fun d1 (i : Nat) => (peek src (ptr i)).bind (fun v => poke d1 (x0 + (i : Int)) v))
    d (List.range (last + 1).toNat)

/-- Member `get_matrixelement(int i1,int i2,herm_matrix<T> &g)`. -/
def get_matrixelement (self : herm_matrix_timestep) (i1 i2 : Int) (g : herm_matrix) :
    Except Fault herm_matrix_timestep :=
  let sij := i1 * g.size1_ + i2
  if ¬ (self.tstp_ ≤ g.nt_) then .error .assertion
  else if ¬ (0 ≤ i1 ∧ i1 < g.size1_ ∧ 0 ≤ i2 ∧ i2 < g.size1_ ∧ self.size1_ = 1) then
    .error .assertion
  else if self.tstp_ = -1 then
    (matrixelement_loop g.data_ (fun i => g.matptr (i : Int) + sij) 0 self.ntau_
        self.data_).bind (fun d => .ok { self with data_ := d })
  else
    (matrixelement_loop g.data_ (fun i => g.retptr self.tstp_ (i : Int) + sij) 0 self.tstp_
        self.data_).bind (fun d1 =>
      (matrixelement_loop g.data_ (fun i => g.tvptr self.tstp_ (i : Int) + sij)
          ((self.tstp_ + 1) * self.element_size_) self.ntau_ d1).bind (fun d2 =>
        (matrixelement_loop g.data_ (fun i => g.lesptr (i : Int) self.tstp_ + sij)
            ((self.tstp_ + 1 + self.ntau_ + 1) * self.element_size_) self.tstp_ d2).bind
          (fun d3 => .ok { self with data_ := d3 })))

/-- Member `set_timestep(int tstp, herm_matrix<T> &g1)`. -/
def set_timestep_herm_matrix (self : herm_matrix_timestep) (tstp : Int) (g1 : herm_matrix) :
    Except Fault herm_matrix_timestep :=
  if ¬ (tstp = self.tstp_) then .error .assertion
  else if ¬ (tstp ≥ -1 ∧ tstp ≤ g1.nt_) then .error .assertion
  else if ¬ (g1.size1_ = self.size1_) then .error .assertion
  else if ¬ (g1.ntau_ = self.ntau_) then .error .assertion
  else if tstp = -1 then
    (memcpy self.data_ (matptr self 0) g1.data_ (g1.matptr 0)
        ((self.ntau_ + 1) * self.element_size_)).bind
      (fun d => .ok { self with data_ := d })
  else
    (memcpy self.data_ (retptr self 0) g1.data_ (g1.retptr tstp 0)
        ((tstp + 1) * self.element_size_)).bind (fun d1 =>
      (memcpy d1 (tvptr self 0) g1.data_ (g1.tvptr tstp 0)
          ((self.ntau_ + 1) * self.element_size_)).bind (fun d2 =>
        (memcpy d2 (lesptr self 0) g1.data_ (g1.lesptr 0 tstp)
            ((tstp + 1) * self.element_size_)).bind
          (fun d3 => .ok { self with data_ := d3 })))

/-- Macro `HERM_MATRIX_INCR_TSTP` with `x` at offset `x` of the buffer `src` of the container
and `x0` at offset `x0` of the own buffer: `x0[i] += x[i]` for `alpha == cplx(1.0, 0.0)`,
else `x0[i] += alpha * x[i]`, `i < len`. -/
def HERM_MATRIX_INCR_TSTP (alpha : ℚ) (src : List cplx) (x x0 len : Int) (d : List cplx) :
    Except Fault (List cplx) :=
  if alpha = 1 then
    loopE (fun d1 (i : Nat) =>
        (peek d1 (x0 + (i : Int))).bind (fun a =>
          (peek src (x + (i : Int))).bind (fun b => poke d1 (x0 + (i : Int)) (a + b))))
      d (List.range len.toNat)
  else
    loopE (fun d1 (i : Nat) =>
        (peek d1 (x0 + (i : Int))).bind (fun a =>
          (peek src (x + (i : Int))).bind (fun b =>
            poke d1 (x0 + (i : Int)) (a + cplx.smul alpha b))))
      d (List.range len.toNat)

/-- The branches of `incr(herm_matrix<T> &g, T alpha)` after its assertion. -/
def incr_herm_matrix_body (self : herm_matrix_timestep) (g : herm_matrix) (alpha : ℚ) :
    Except Fault herm_matrix_timestep :=
  if self.tstp_ = -1 then
    (HERM_MATRIX_INCR_TSTP alpha g.data_ (g.matptr 0) 0
        ((self.ntau_ + 1) * self.element_size_) self.data_).bind
      (fun d => .ok { self with data_ := d })
  else
    (HERM_MATRIX_INCR_TSTP alpha g.data_ (g.retptr self.tstp_ 0) 0
        ((self.tstp_ + 1) * self.element_size_) self.data_).bind (fun d1 =>
      (HERM_MATRIX_INCR_TSTP alpha g.data_ (g.tvptr self.tstp_ 0)
          ((self.tstp_ + 1) * self.element_size_)
          ((self.ntau_ + 1) * self.element_size_) d1).bind (fun d2 =>
        (HERM_MATRIX_INCR_TSTP alpha g.data_ (g.lesptr 0 self.tstp_)
            ((self.tstp_ + 1 + self.ntau_ + 1) * self.element_size_)
            ((self.tstp_ + 1) * self.element_size_) d2).bind
          (fun d3 => .ok { self with data_ := d3 })))

/-- Member `incr(herm_matrix<T> &g, T alpha)`. -/
def incr_herm_matrix (self : herm_matrix_timestep) (g : herm_matrix) (alpha : ℚ) :
    Except Fault herm_matrix_timestep :=
  if ¬ (self.tstp_ ≤ g.nt_ ∧ self.ntau_ = g.ntau_ ∧ self.size1_ = g.size1_) then
    .error .assertion
  else incr_herm_matrix_body self g alpha

/-- Member `incr_timestep(int tstp, herm_matrix<T> &g, T alpha)`, whose body repeats that of
`incr(herm_matrix<T> &g, T alpha)`. -/
def incr_timestep_herm_matrix (self : herm_matrix_timestep) (tstp : Int) (g : herm_matrix)
    (alpha : ℚ) : Except Fault herm_matrix_timestep :=
  if ¬ (tstp = self.tstp_) then .error .assertion
  else if ¬ (self.tstp_ ≤ g.nt_ ∧ self.ntau_ = g.ntau_ ∧ self.size1_ = g.size1_) then
    .error .assertion
  else incr_herm_matrix_body self g alpha

/-- Modelled from the spec: the entries `*(p + sij)` read by `get_matrixelement` for a slice
`self`, one in each block of the matching slice of the container, lie inside the storage of
the container. -/
def matrixelement_readable (self : herm_matrix_timestep) (g : herm_matrix) (sij : Int) : Prop :=
  if self.tstp_ = -1 then
    ∀ k : Nat, k < (self.ntau_ + 1).toNat →
      0 ≤ g.matptr (k : Int) + sij ∧ g.matptr (k : Int) + sij < (g.data_.length : Int)
  else
    (∀ k : Nat, k < (self.tstp_ + 1).toNat →
      (0 ≤ g.retptr self.tstp_ (k : Int) + sij ∧
        g.retptr self.tstp_ (k : Int) + sij < (g.data_.length : Int)) ∧
      (0 ≤ g.lesptr (k : Int) self.tstp_ + sij ∧
        g.lesptr (k : Int) self.tstp_ + sij < (g.data_.length : Int))) ∧
    (∀ k : Nat, k < (self.ntau_ + 1).toNat →
      0 ≤ g.tvptr self.tstp_ (k : Int) + sij ∧
        g.tvptr self.tstp_ (k : Int) + sij < (g.data_.length : Int))

instance (self : herm_matrix_timestep) (g : herm_matrix) (sij : Int) :
    Decidable (matrixelement_readable self g sij) := by
  unfold matrixelement_readable; infer_instance

/-- Modelled from the spec: the blocks of the slice `self.tstp_` of the container follow one
another in its storage, from `matptr(0)` (`tstp_ = -1`) or from `retptr(tstp_, 0)`,
`tvptr(tstp_, 0)` and `lesptr(0, tstp_)`, and lie inside it. -/
def slice_readable (self : herm_matrix_timestep) (g : herm_matrix) : Prop :=
  if self.tstp_ = -1 then
    0 ≤ g.matptr 0 ∧
      g.matptr 0 + (self.ntau_ + 1) * self.element_size_ ≤ (g.data_.length : Int)
  else
    (0 ≤ g.retptr self.tstp_ 0 ∧
      g.retptr self.tstp_ 0 + (self.tstp_ + 1) * self.element_size_ ≤ (g.data_.length : Int)) ∧
    (0 ≤ g.tvptr self.tstp_ 0 ∧
      g.tvptr self.tstp_ 0 + (self.ntau_ + 1) * self.element_size_ ≤ (g.data_.length : Int)) ∧
    (0 ≤ g.lesptr 0 self.tstp_ ∧
      g.lesptr 0 self.tstp_ + (self.tstp_ + 1) * self.element_size_ ≤ (g.data_.length : Int))

instance (self : herm_matrix_timestep) (g : herm_matrix) : Decidable (slice_readable self g) := by
  unfold slice_readable; infer_instance

/-- Entry number `idx` of a slice gathered from three regions of the buffer `src`: `a` entries
from offset `p1`, then `b` entries from offset `p2`, then the entries from offset `p3`. -/
def region_value (src : List cplx) (p1 p2 p3 a b : Int) (idx : Int) : cplx :=
  if idx < a then src.getD (p1 + idx).toNat 0
  else if idx < a + b then src.getD (p2 + (idx - a)).toNat 0
  else src.getD (p3 + (idx - (a + b))).toNat 0

/-! ## The moving-window slice -/

/-- Data members of `herm_matrix_timestep_moving<T>`; the pointers `les_` and `ret_` into the
own buffer are offsets into `data_`. -/
structure herm_matrix_timestep_moving where
  data_ : List cplx
  les_ : Int
  ret_ : Int
  tc_ : Int
  t0_ : Int
  size1_ : Int
  size2_ : Int
  element_size_ : Int
  sig_ : Int
deriving DecidableEq

/-- Inline member `lesptr(int j){return les_+j*element_size_;}`. -/
def herm_matrix_timestep_moving.lesptr (g : herm_matrix_timestep_moving) (j : Int) : Int :=
  g.les_ + j * g.element_size_

/-- Inline member `retptr(int j){return ret_+j*element_size_;}`. -/
def herm_matrix_timestep_moving.retptr (g : herm_matrix_timestep_moving) (j : Int) : Int :=
  g.ret_ + j * g.element_size_

/-- Modelled from the spec: a well-formed moving-window slice holds separate retarded and
lesser sub-buffers of `tc_ + 1` matrices each inside its buffer, `ret_` and `les_` pointing to
their first matrices. -/
def moving_invariant (g : herm_matrix_timestep_moving) : Prop :=
  0 ≤ g.tc_ ∧ g.element_size_ = g.size1_ * g.size2_ ∧ 0 ≤ g.size1_ ∧ 0 ≤ g.size2_ ∧
    0 ≤ g.ret_ ∧ 0 ≤ g.les_ ∧
    g.ret_ + (g.tc_ + 1) * g.element_size_ ≤ (g.data_.length : Int) ∧
    g.les_ + (g.tc_ + 1) * g.element_size_ ≤ (g.data_.length : Int) ∧
    (g.ret_ + (g.tc_ + 1) * g.element_size_ ≤ g.les_ ∨
      g.les_ + (g.tc_ + 1) * g.element_size_ ≤ g.ret_)

instance (g : herm_matrix_timestep_moving) : Decidable (moving_invariant g) := by
  unfold moving_invariant; infer_instance

/-- Modelled from the spec: scalar write `set_les(int j, cplx x)` of the moving-window slice,
defined outside the declaration header: addressed by the relative offset `j = 0..tc`, any
other offset is rejected. -/
def herm_matrix_timestep_moving.set_les (g : herm_matrix_timestep_moving) (j : Int)
    (x : cplx) : Except Fault herm_matrix_timestep_moving :=
  if ¬ (0 ≤ j ∧ j ≤ g.tc_) then .error .assertion
  else (poke g.data_ (g.lesptr j) x).bind (fun d => .ok { g with data_ := d })

/-- Modelled from the spec: scalar write `set_ret(int j, cplx x)` of the moving-window slice,
defined outside the declaration header: addressed by the relative offset `j = 0..tc`, any
other offset is rejected. -/
def herm_matrix_timestep_moving.set_ret (g : herm_matrix_timestep_moving) (j : Int)
    (x : cplx) : Except Fault herm_matrix_timestep_moving :=
  if ¬ (0 ≤ j ∧ j ≤ g.tc_) then .error .assertion
  else (poke g.data_ (g.retptr j) x).bind (fun d => .ok { g with data_ := d })

/-- Modelled from the spec: matrix write `set_les(int j, Matrix &M)` of the moving-window
slice, defined outside the declaration header: offsets `j = 0..tc` only. -/
def herm_matrix_timestep_moving.set_les_mat (g : herm_matrix_timestep_moving) (j : Int)
    (M : Mat) : Except Fault herm_matrix_timestep_moving :=
  if ¬ (0 ≤ j ∧ j ≤ g.tc_) then .error .assertion
  else
    (herm_matrix_SET_ELEMENT_MATRIX g.data_ (g.lesptr j) g.size1_ g.size2_ M).bind
      (fun d => .ok { g with data_ := d })

/-- Modelled from the spec: matrix write `set_ret(int j, Matrix &M)` of the moving-window
slice, defined outside the declaration header: offsets `j = 0..tc` only. -/
def herm_matrix_timestep_moving.set_ret_mat (g : herm_matrix_timestep_moving) (j : Int)
    (M : Mat) : Except Fault herm_matrix_timestep_moving :=
  if ¬ (0 ≤ j ∧ j ≤ g.tc_) then .error .assertion
  else
    (herm_matrix_SET_ELEMENT_MATRIX g.data_ (g.retptr j) g.size1_ g.size2_ M).bind
      (fun d => .ok { g with data_ := d })

/-- Modelled from the spec: scalar read `get_les(int j, cplx &x)` of the moving-window slice,
defined outside the declaration header: offsets `j = 0..tc` only. -/
def herm_matrix_timestep_moving.get_les (g : herm_matrix_timestep_moving) (j : Int) :
    Except Fault cplx :=
  if ¬ (0 ≤ j ∧ j ≤ g.tc_) then .error .assertion else peek g.data_ (g.lesptr j)

/-- Modelled from the spec: scalar read `get_ret(int j, cplx &x)` of the moving-window slice,
defined outside the declaration header: offsets `j = 0..tc` only. -/
def herm_matrix_timestep_moving.get_ret (g : herm_matrix_timestep_moving) (j : Int) :
    Except Fault cplx :=
  if ¬ (0 ≤ j ∧ j ≤ g.tc_) then .error .assertion else peek g.data_ (g.retptr j)

/-- Modelled from the spec: matrix read `get_les(int j, Matrix &M)` of the moving-window
slice, defined outside the declaration header: offsets `j = 0..tc` only. -/
def herm_matrix_timestep_moving.get_les_mat (g : herm_matrix_timestep_moving) (j : Int) :
    Except Fault Mat :=
  if ¬ (0 ≤ j ∧ j ≤ g.tc_) then .error .assertion
  else herm_matrix_READ_ELEMENT g.data_ (g.lesptr j) g.size1_

/-- Modelled from the spec: matrix read `get_ret(int j, Matrix &M)` of the moving-window
slice, defined outside the declaration header: offsets `j = 0..tc` only. -/
def herm_matrix_timestep_moving.get_ret_mat (g : herm_matrix_timestep_moving) (j : Int) :
    Except Fault Mat :=
  if ¬ (0 ≤ j ∧ j ≤ g.tc_) then .error .assertion
  else herm_matrix_READ_ELEMENT g.data_ (g.retptr j) g.size1_

/-! ## Binary64 arithmetic -/

/-- The power `2^k` of two with an integer exponent. -/
def pow2 (k : Int) : ℚ :=
  if 0 ≤ k then ((2 ^ k.toNat : Nat) : ℚ) else 1 / ((2 ^ (-k).toNat : Nat) : ℚ)

/-- The number of halvings that take `n` below 2, at most `fuel` of them: `floor(log2 n)` for
`n >= 1` when `fuel` is large enough (`fuel = n` is). -/
def halvings : Nat → Nat → Nat
  | 0, _ => 0
  | fuel + 1, n => if 2 ≤ n then halvings fuel (n / 2) + 1 else 0

/-- The exponent `e` with `2^e <= a < 2^(e+1)` of a positive rational `a`. -/
def binade (a : ℚ) : Int :=
  let e0 : Int := (halvings a.num.toNat a.num.toNat : Int) - (halvings a.den a.den : Int)
  if a < pow2 e0 then e0 - 1 else e0

/-- The integer nearest to `s >= 0`, the even one of the two when `s` lies half-way. -/
def round_half_even (s : ℚ) : Int :=
  let n : Int := Rat.floor s
  let r : ℚ := s - (n : ℚ)
  if r < 1 / 2 then n else if 1 / 2 < r then n + 1 else if n % 2 = 0 then n else n + 1

/-- The binary64 number nearest to the magnitude `a >= 0`, ties to even: 53 significant bits,
so the unit in the last place is `2^(e-52)` for `2^e <= a < 2^(e+1)`, and `2^(-1074)` below
`2^(-1022)`. -/
def round_magnitude (a : ℚ) : ℚ :=
  if a = 0 then 0
  else
    let k : Int := max (binade a) (-1022) - 52
    (round_half_even (a / pow2 k) : ℚ) * pow2 k

/-- The value of a `double` operation whose exact result is `x`: the nearest binary64 number,
ties to even (the default rounding).  Where the magnitude reaches `2^1024` the operation gives
an infinity, which is no rational number; `is_double` keeps inside the finite range. -/
def round_double (x : ℚ) : ℚ :=
  if x < 0 then -(round_magnitude (-x)) else round_magnitude x

/-- The rational `x` is a finite `double`: rounding leaves it as it is, and its magnitude is
below `2^1024`. -/
def is_double (x : ℚ) : Prop := round_double x = x ∧ -pow2 1024 < x ∧ x < pow2 1024

instance (x : ℚ) : Decidable (is_double x) := by
  unfold is_double; infer_instance

namespace cplx

/-- Sum `a + b` of two `std::complex<double>`: each part is the rounded sum of the parts. -/
def add_double (a b : cplx) : cplx := ⟨round_double (a.re + b.re), round_double (a.im + b.im)⟩

/-- Product `w * z` of a `double` and a `std::complex<double>`: each part is the rounded
product with `w`. -/
def smul_double (w : ℚ) (z : cplx) : cplx := ⟨round_double (w * z.re), round_double (w * z.im)⟩

/-- Both parts are finite `double`s. -/
def is_double (z : cplx) : Prop := cntr.is_double z.re ∧ cntr.is_double z.im

instance (z : cplx) : Decidable z.is_double := by
  unfold cplx.is_double; infer_instance

end cplx

/-- Every entry of the buffer is a pair of finite `double`s. -/
def buffer_is_double (d : List cplx) : Prop := ∀ z ∈ d, z.is_double

instance (d : List cplx) : Decidable (buffer_is_double d) := by
  unfold buffer_is_double; infer_instance

/-- Body of the loop of `incr` in binary64: `data_[m] += weight * g1.data_[m]`, the product
and the sum each rounded. -/
def incr_step_double (src : List cplx) (weight : ℚ) (d : List cplx) (m : Nat) :
    Except Fault (List cplx) :=
  (peek d (m : Int)).bind (fun x =>
    (peek src (m : Int)).bind (fun y =>
      poke d (m : Int) (cplx.add_double x (cplx.smul_double weight y))))

/-- Member `incr(herm_matrix_timestep<T> &g1, T weight)` in binary64, for `g1` a different
object. -/
def incr_double (self g1 : herm_matrix_timestep) (weight : ℚ) :
    Except Fault herm_matrix_timestep :=
  if ¬ (g1.size1_ = self.size1_ ∧ g1.ntau_ = self.ntau_ ∧ g1.tstp_ = self.tstp_) then
    .error .assertion
  else
    (loopE (incr_step_double g1.data_ weight) self.data_
        (List.range self.total_size_.toNat)).bind
      (fun d => .ok { self with data_ := d })

/-- Entry-wise `d[m] + weight * src[m]` of two buffers in binary64. -/
def axpy_list_double (weight : ℚ) (d src : List cplx) : List cplx :=
  List.zipWith (fun x y => cplx.add_double x (cplx.smul_double weight y)) d src

/-- Modelled from the spec: `herm_matrix_timestep_view<T>::smul(T weight)` in binary64, the
in-place scalar multiply of all stored data, every product rounded. -/
def view_smul_double (buf : List cplx) (weight : ℚ) : List cplx :=
  buf.map (fun z => cplx.smul_double weight z)

/-- Member `smul(T weight)` in binary64. -/
def smul_double (g : herm_matrix_timestep) (weight : ℚ) : Except Fault herm_matrix_timestep :=
  .ok { g with data_ := view_smul_double g.data_ weight }

/-! ## Sample slices -/

/-- A square 2x2 slice at `tstp = 0`, `ntau = 1` with distinct entries. -/
def sample_square : herm_matrix_timestep :=
  { data_ := [⟨1, 2⟩, ⟨3, 4⟩, ⟨5, 6⟩, ⟨7, 8⟩, ⟨9, 1⟩, ⟨2, 3⟩, ⟨4, 5⟩, ⟨6, 7⟩,
              ⟨8, 9⟩, ⟨1, 3⟩, ⟨5, 7⟩, ⟨9, 2⟩, ⟨4, 6⟩, ⟨8, 1⟩, ⟨3, 5⟩, ⟨7, 9⟩],
    tstp_ := 0, ntau_ := 1, size1_ := 2, size2_ := 2, element_size_ := 4, total_size_ := 16,
    sig_ := -1 }

/-- A non-square 1x2 slice at `tstp = 0`, `ntau = 0`, as built by
`herm_matrix_timestep(0, 0, 1, 2, -1)` and filled with distinct entries. -/
def sample_nonsquare : herm_matrix_timestep :=
  { data_ := [⟨1, 2⟩, ⟨3, 4⟩, ⟨5, 6⟩, ⟨7, 8⟩, ⟨9, 1⟩, ⟨2, 3⟩],
    tstp_ := 0, ntau_ := 0, size1_ := 1, size2_ := 2, element_size_ := 2, total_size_ := 6,
    sig_ := -1 }

/-- A scalar slice at `tstp = 1`, `ntau = 0`, as built by `herm_matrix_timestep(1, 0, 1, -1)`. -/
def sample_scalar : herm_matrix_timestep :=
  { data_ := [0, 0, 0, 0, 0], tstp_ := 1, ntau_ := 0, size1_ := 1, size2_ := 1,
    element_size_ := 1, total_size_ := 5, sig_ := -1 }

/-- Scenario of the spec: `TimeSlice(tstp=2, ntau=3, size1=1, sig=-1)` with `R(2,0) = 1+2i`,
`R(2,1) = 3+4i`, `R(2,2) = 5+6i` written by the scalar `set_ret`. -/
def scenario_slice : Except Fault herm_matrix_timestep :=
  (construct4 2 3 1 (-1)).bind (fun g =>
    (set_ret_cplx g 2 0 ⟨1, 2⟩).bind (fun g1 =>
      (set_ret_cplx g1 2 1 ⟨3, 4⟩).bind (fun g2 => set_ret_cplx g2 2 2 ⟨5, 6⟩)))

/-- The scalar slice `herm_matrix_timestep(1, 0, 1, -1)` filled with distinct entries:
`R(1,t_0) = 1+2i`, `R(1,t_1) = 3+4i`, left-mixing `5+6i`, `L(t_0,1) = 7+8i`,
`L(t_1,1) = 9+1i`. -/
def sample_scalar_filled : herm_matrix_timestep :=
  { data_ := [⟨1, 2⟩, ⟨3, 4⟩, ⟨5, 6⟩, ⟨7, 8⟩, ⟨9, 1⟩], tstp_ := 1, ntau_ := 0, size1_ := 1,
    size2_ := 1, element_size_ := 1, total_size_ := 5, sig_ := -1 }

/-- A 1x2 Matsubara slice (`tstp = -1`, `ntau = 0`), as built by
`herm_matrix_timestep(-1, 0, 1, 2, -1)`. -/
def sample_mat_nonsquare : herm_matrix_timestep :=
  { data_ := [0, 0], tstp_ := -1, ntau_ := 0, size1_ := 1, size2_ := 2, element_size_ := 2,
    total_size_ := 2, sig_ := -1 }

/-- A 2x2 Matsubara slice (`tstp = -1`, `ntau = 1`, `sig = -1`) with distinct entries. -/
def sample_mat_square : herm_matrix_timestep :=
  { data_ := [⟨1, 2⟩, ⟨3, 4⟩, ⟨5, 6⟩, ⟨7, 8⟩, ⟨9, 1⟩, ⟨2, 3⟩, ⟨4, 5⟩, ⟨6, 7⟩],
    tstp_ := -1, ntau_ := 1, size1_ := 2, size2_ := 2, element_size_ := 4, total_size_ := 8,
    sig_ := -1 }

/-- A scalar Matsubara slice (`tstp = -1`, `ntau = 1`) with `M(tau_0) = 1+2i`,
`M(tau_1) = 3+4i`. -/
def sample_mat_scalar : herm_matrix_timestep :=
  { data_ := [⟨1, 2⟩, ⟨3, 4⟩], tstp_ := -1, ntau_ := 1, size1_ := 1, size2_ := 1,
    element_size_ := 1, total_size_ := 2, sig_ := -1 }

/-- The scalar slice `herm_matrix_timestep(0, 0, 1, 1, -1)` filled with distinct entries. -/
def sample_narrow : herm_matrix_timestep :=
  { data_ := [⟨1, 1⟩, ⟨2, 2⟩, ⟨3, 3⟩], tstp_ := 0, ntau_ := 0, size1_ := 1, size2_ := 1,
    element_size_ := 1, total_size_ := 3, sig_ := -1 }

/-- A function of 2x2 matrices with `nt = 0`: `F(-1) = [[2, 5], [7, 9]]`,
`F(0) = [[1+i, i], [3, 4]]`. -/
def sample_function_2x2 : function :=
  { data_ := [⟨2, 0⟩, ⟨5, 0⟩, ⟨7, 0⟩, ⟨9, 0⟩, ⟨1, 1⟩, ⟨0, 1⟩, ⟨3, 0⟩, ⟨4, 0⟩], nt_ := 0,
    size1_ := 2, size2_ := 2, element_size_ := 4 }

/-- A function of scalars with `nt = 1`: `F(-1) = 2`, `F(0) = i`, `F(1) = 3`. -/
def sample_function_scalar : function :=
  { data_ := [⟨2, 0⟩, ⟨0, 1⟩, ⟨3, 0⟩], nt_ := 1, size1_ := 1, size2_ := 1,
    element_size_ := 1 }

/-- The function of 2x2 matrices with `nt = 0` whose values `F(-1)`, `F(0)` are the identity. -/
def sample_function_identity : function :=
  { data_ := [1, 0, 0, 1, 1, 0, 0, 1], nt_ := 0, size1_ := 2, size2_ := 2,
    element_size_ := 4 }

/-- The function of scalars with `nt = 1` whose values are the conjugates of those of
`sample_function_scalar`: `F(-1) = 2`, `F(0) = -i`, `F(1) = 3`. -/
def sample_function_scalar_adjoint : function :=
  { data_ := [⟨2, 0⟩, ⟨0, -1⟩, ⟨3, 0⟩], nt_ := 1, size1_ := 1, size2_ := 1,
    element_size_ := 1 }

/-- A scalar moving-window slice with `tc = 4`: retarded values `1, 2, 3, 4, 5` followed by
lesser values `6i, 7i, 8i, 9i, 10i`. -/
def sample_moving : herm_matrix_timestep_moving :=
  { data_ := [⟨1, 0⟩, ⟨2, 0⟩, ⟨3, 0⟩, ⟨4, 0⟩, ⟨5, 0⟩, ⟨0, 6⟩, ⟨0, 7⟩, ⟨0, 8⟩, ⟨0, 9⟩, ⟨0, 10⟩],
    les_ := 5, ret_ := 0, tc_ := 4, t0_ := 7, size1_ := 1, size2_ := 1, element_size_ := 1,
    sig_ := -1 }

/-- A container of 2x2 matrices with `nt = 1`, `ntau = 1`, its blocks laid out as
`mat(0..1)`, `ret(0,0)`, `ret(1,0)`, `ret(1,1)`, `tv(0,0..1)`, `tv(1,0..1)`, `les(0,0)`,
`les(0,1)`, `les(1,1)`; entry `k` of the buffer is `k + k i`. -/
def sample_container : herm_matrix :=
  { data_ := (List.range 48).map (fun (k : Nat) => (⟨(k : ℚ), (k : ℚ)⟩ : cplx)),
    nt_ := 1, ntau_ := 1, size1_ := 2, size2_ := 2, element_size_ := 4,
    matptr := fun i => i * 4,
    retptr := fun i j => (2 + (i * (i + 1)) / 2 + j) * 4,
    tvptr := fun i j => (5 + i * 2 + j) * 4,
    lesptr := fun i j => (9 + (j * (j + 1)) / 2 + i) * 4 }

/-- The scalar slice `herm_matrix_timestep(1, 1, 1, -1)` filled with distinct entries. -/
def sample_scalar_wide : herm_matrix_timestep :=
  { data_ := [⟨1, 2⟩, ⟨3, 4⟩, ⟨5, 6⟩, ⟨7, 8⟩, ⟨9, 1⟩, ⟨2, 3⟩], tstp_ := 1, ntau_ := 1,
    size1_ := 1, size2_ := 1, element_size_ := 1, total_size_ := 6, sig_ := -1 }

/-- A 1x2 slice at `tstp = 1`, `ntau = 1`, as built by `herm_matrix_timestep(1, 1, 1, 2, -1)`:
twelve zero entries. -/
def sample_row_slice : herm_matrix_timestep :=
  { data_ := List.replicate 12 0, tstp_ := 1, ntau_ := 1, size1_ := 1, size2_ := 2,
    element_size_ := 2, total_size_ := 12, sig_ := -1 }

/-- A 2x1 slice at `tstp = 0`, `ntau = 0`, as built by `herm_matrix_timestep(0, 0, 2, 1, -1)`
and filled with distinct entries. -/
def sample_column_slice : herm_matrix_timestep :=
  { data_ := [⟨1, 2⟩, ⟨3, 4⟩, ⟨5, 6⟩, ⟨7, 8⟩, ⟨9, 1⟩, ⟨2, 3⟩],
    tstp_ := 0, ntau_ := 0, size1_ := 2, size2_ := 1, element_size_ := 2, total_size_ := 6,
    sig_ := -1 }

/-- A scalar slice at `tstp = 0`, `ntau = 0` holding `1`, `i`, `3`. -/
def sample_units : herm_matrix_timestep :=
  { data_ := [⟨1, 0⟩, ⟨0, 1⟩, ⟨3, 0⟩], tstp_ := 0, ntau_ := 0, size1_ := 1, size2_ := 1,
    element_size_ := 1, total_size_ := 3, sig_ := -1 }

/-- A scalar slice of the same dimensions holding `2^53`, `2^53 i`, `0`. -/
def sample_huge : herm_matrix_timestep :=
  { data_ := [⟨9007199254740992, 0⟩, ⟨0, 9007199254740992⟩, ⟨0, 0⟩], tstp_ := 0, ntau_ := 0,
    size1_ := 1, size2_ := 1, element_size_ := 1, total_size_ := 3, sig_ := -1 }

/-- The `double` nearest to `0.1`. -/
def double_tenth : ℚ := 3602879701896397 / 36028797018963968

/-! ## Allocation and construction -/

theorem new_cplx_nonneg (len : Int) (h : 0 ≤ len) :
    new_cplx len = .ok (List.replicate len.toNat 0) := by
  unfold new_cplx
  rw [if_neg (not_lt.mpr h)]

theorem memset_zero_fresh (len : Int) (h : 0 ≤ len) :
    memset_zero (List.replicate len.toNat 0) 0 len = .ok (List.replicate len.toNat 0) := by
  unfold memset_zero
  have hlen : (0 : Int) + len ≤ ((List.replicate len.toNat (0 : cplx)).length : Int) := by
    simp [Int.toNat_of_nonneg h]
  rw [if_pos ⟨le_refl 0, h, hlen⟩]
  simp

theorem alloc_zeroed (len : Int) (h : 0 ≤ len) :
    (if len = 0 then (.ok [] : Except Fault (List cplx))
      else (new_cplx len).bind (fun d => memset_zero d 0 len)) =
      .ok (List.replicate len.toNat 0) := by
  by_cases h0 : len = 0
  · subst h0; simp
  · rw [if_neg h0, new_cplx_nonneg len h]
    exact memset_zero_fresh len h

theorem alloc_plain (len : Int) (h : 0 ≤ len) :
    (if len = 0 then (.ok [] : Except Fault (List cplx)) else new_cplx len) =
      .ok (List.replicate len.toNat 0) := by
  by_cases h0 : len = 0
  · subst h0; simp
  · rw [if_neg h0, new_cplx_nonneg len h]

theorem total_len_nonneg (tstp ntau size1 size2 : Int) (ht : tstp ≥ -1) (hn : ntau ≥ 0)
    (h1 : size1 ≥ 0) (h2 : size2 ≥ 0) :
    0 ≤ ((tstp + 1) * 2 + (ntau + 1)) * size1 * size2 := by
  have : 0 ≤ (tstp + 1) * 2 + (ntau + 1) := by omega
  positivity

theorem int_wrap_of_fits (x : Int) (h : fits_int x) : int_wrap x = x := by
  unfold fits_int at h
  unfold int_wrap
  omega

theorem element_len_fits (tstp ntau size1 size2 : Int) (ht : tstp ≥ -1) (hn : ntau ≥ 0)
    (h1 : size1 ≥ 0) (h2 : size2 ≥ 0)
    (hfit : ((tstp + 1) * 2 + (ntau + 1)) * size1 * size2 < 2147483648) :
    fits_int (((tstp + 1) * 2 + (ntau + 1)) * size1 * size2) ∧ fits_int (size1 * size2) := by
  have hlen := total_len_nonneg tstp ntau size1 size2 ht hn h1 h2
  have hes : 0 ≤ size1 * size2 := mul_nonneg h1 h2
  have hk : 1 ≤ (tstp + 1) * 2 + (ntau + 1) := by omega
  have hle : size1 * size2 ≤ ((tstp + 1) * 2 + (ntau + 1)) * (size1 * size2) :=
    le_mul_of_one_le_left hes hk
  have hassoc : ((tstp + 1) * 2 + (ntau + 1)) * (size1 * size2) =
      ((tstp + 1) * 2 + (ntau + 1)) * size1 * size2 := by ring
  unfold fits_int
  refine ⟨⟨by omega, hfit⟩, ⟨by omega, by omega⟩⟩

theorem construct5_eq (tstp ntau size1 size2 sig : Int) (ht : tstp ≥ -1) (hn : ntau ≥ 0)
    (h1 : size1 ≥ 0) (h2 : size2 ≥ 0)
    (hfit : ((tstp + 1) * 2 + (ntau + 1)) * size1 * size2 < 2147483648) :
    construct5 tstp ntau size1 size2 sig = .ok
      { data_ := List.replicate (((tstp + 1) * 2 + (ntau + 1)) * size1 * size2).toNat 0,
        size1_ := size1, size2_ := size2, element_size_ := size1 * size2, tstp_ := tstp,
        ntau_ := ntau, total_size_ := ((tstp + 1) * 2 + (ntau + 1)) * size1 * size2,
        sig_ := sig } := by
  obtain ⟨hf1, hf2⟩ := element_len_fits tstp ntau size1 size2 ht hn h1 h2 hfit
  unfold construct5
  simp only []
  rw [int_wrap_of_fits _ hf1, int_wrap_of_fits _ hf2, if_neg (not_not.mpr ⟨h1, ht, hn⟩),
    alloc_zeroed _ (total_len_nonneg tstp ntau size1 size2 ht hn h1 h2)]
  rfl

theorem construct3_eq (tstp ntau size1 : Int) (ht : tstp ≥ -1) (hn : ntau ≥ 0)
    (h1 : size1 ≥ 0) (hfit : ((tstp + 1) * 2 + (ntau + 1)) * size1 * size1 < 2147483648) :
    construct3 tstp ntau size1 = .ok
      { data_ := List.replicate (((tstp + 1) * 2 + (ntau + 1)) * size1 * size1).toNat 0,
        size1_ := size1, size2_ := size1, element_size_ := size1 * size1, tstp_ := tstp,
        ntau_ := ntau, total_size_ := ((tstp + 1) * 2 + (ntau + 1)) * size1 * size1,
        sig_ := -1 } := by
  obtain ⟨hf1, hf2⟩ := element_len_fits tstp ntau size1 size1 ht hn h1 h1 hfit
  unfold construct3
  simp only []
  rw [int_wrap_of_fits _ hf1, int_wrap_of_fits _ hf2, if_neg (not_not.mpr ⟨h1, ht, hn⟩),
    alloc_zeroed _ (total_len_nonneg tstp ntau size1 size1 ht hn h1 h1)]
  rfl

theorem construct4_eq (tstp ntau size1 sig : Int) (ht : tstp ≥ -1) (hn : ntau ≥ 0)
    (h1 : size1 ≥ 0) (hs : sig * sig = 1)
    (hfit : ((tstp + 1) * 2 + (ntau + 1)) * size1 * size1 < 2147483648) :
    construct4 tstp ntau size1 sig = .ok
      { data_ := List.replicate (((tstp + 1) * 2 + (ntau + 1)) * size1 * size1).toNat 0,
        size1_ := size1, size2_ := size1, element_size_ := size1 * size1, tstp_ := tstp,
        ntau_ := ntau, total_size_ := ((tstp + 1) * 2 + (ntau + 1)) * size1 * size1,
        sig_ := sig } := by
  obtain ⟨hf1, hf2⟩ := element_len_fits tstp ntau size1 size1 ht hn h1 h1 hfit
  unfold construct4
  simp only []
  rw [int_wrap_of_fits _ hf1, int_wrap_of_fits _ hf2, if_neg (not_not.mpr ⟨h1, ht, hn, hs⟩),
    alloc_zeroed _ (total_len_nonneg tstp ntau size1 size1 ht hn h1 h1)]
  rfl

/-- C1 (as amended): for `tstp >= -1`, `ntau >= 0`, `size1 >= 0`, `size2 >= 0` whose length
`((tstp+1)*2 + (ntau+1))*size1*size2` is below `2^31` and any `sig`, the five-argument
constructor returns a slice whose buffer has that length (which is `(ntau+1)*size1*size2`
when `tstp = -1`), whose every entry is zero, and whose `element_size_` is `size1*size2`. -/
theorem construct5_zero_buffer (tstp ntau size1 size2 sig : Int) (ht : tstp ≥ -1)
    (hn : ntau ≥ 0) (h1 : size1 ≥ 0) (h2 : size2 ≥ 0)
    (hfit : ((tstp + 1) * 2 + (ntau + 1)) * size1 * size2 < 2147483648) :
    ∃ g, construct5 tstp ntau size1 size2 sig = .ok g ∧
      (g.data_.length : Int) = ((tstp + 1) * 2 + (ntau + 1)) * size1 * size2 ∧
      (tstp = -1 → (g.data_.length : Int) = (ntau + 1) * size1 * size2) ∧
      (∀ z ∈ g.data_, z = 0) ∧
      g.element_size_ = size1 * size2 ∧
      g.tstp_ = tstp ∧ g.ntau_ = ntau ∧ g.size1_ = size1 ∧ g.size2_ = size2 ∧ g.sig_ = sig := by
  have hlen := total_len_nonneg tstp ntau size1 size2 ht hn h1 h2
  refine ⟨_, construct5_eq tstp ntau size1 size2 sig ht hn h1 h2 hfit, ?_, ?_, ?_, rfl, rfl,
    rfl, rfl, rfl, rfl⟩
  · simp [Int.toNat_of_nonneg hlen]
  · intro hm
    subst hm
    simp only [List.length_replicate, Int.toNat_of_nonneg hlen]
    ring
  · intro z hz
    exact List.eq_of_mem_replicate hz

/-- Instance of the amended C1 at `tstp = 2`, `ntau = 3`, `size1 = 2`, `size2 = 3`,
`sig = 1`. -/
theorem construct5_zero_buffer_witness :
    ∃ g, construct5 2 3 2 3 1 = .ok g ∧
      (g.data_.length : Int) = ((2 + 1) * 2 + (3 + 1)) * 2 * 3 ∧
      ((2 : Int) = -1 → (g.data_.length : Int) = (3 + 1) * 2 * 3) ∧
      (∀ z ∈ g.data_, z = 0) ∧
      g.element_size_ = 2 * 3 ∧
      g.tstp_ = 2 ∧ g.ntau_ = 3 ∧ g.size1_ = 2 ∧ g.size2_ = 3 ∧ g.sig_ = 1 :=
  construct5_zero_buffer 2 3 2 3 1 (by decide) (by decide) (by decide) (by decide)
    (by decide)

/-- C1 fails as stated: `construct(0, 0, 65536, 65536, -1)` has valid arguments, but the
`int` products `((0+1)*2 + (0+1))*65536*65536` and `65536*65536` wrap to 0, and the
constructor returns a slice with an empty buffer and `element_size_ = 0`. -/
theorem construct5_overflow_counterexample :
    construct5 0 0 65536 65536 (-1) = .ok
      { data_ := [], tstp_ := 0, ntau_ := 0, size1_ := 65536, size2_ := 65536,
        element_size_ := 0, total_size_ := 0, sig_ := -1 } ∧
    (([] : List cplx).length : Int) ≠ ((0 + 1) * 2 + (0 + 1)) * 65536 * 65536 ∧
    (0 : Int) ≠ 65536 * 65536 := by
  refine ⟨by decide, by decide, by decide⟩

theorem resize_eq (g : herm_matrix_timestep) (tstp ntau size1 : Int) (ht : tstp ≥ -1)
    (hn : ntau ≥ 0) (h1 : size1 ≥ 0)
    (hfit : ((tstp + 1) * 2 + (ntau + 1)) * size1 * size1 < 2147483648) :
    resize g tstp ntau size1 = .ok
      { data_ := List.replicate (((tstp + 1) * 2 + (ntau + 1)) * size1 * size1).toNat 0,
        size1_ := size1, size2_ := size1, element_size_ := size1 * size1, tstp_ := tstp,
        ntau_ := ntau, total_size_ := ((tstp + 1) * 2 + (ntau + 1)) * size1 * size1,
        sig_ := g.sig_ } := by
  obtain ⟨hf1, hf2⟩ := element_len_fits tstp ntau size1 size1 ht hn h1 h1 hfit
  unfold resize
  simp only []
  rw [int_wrap_of_fits _ hf1, int_wrap_of_fits _ hf2, if_neg (not_not.mpr ⟨hn, ht, h1⟩),
    alloc_plain _ (total_len_nonneg tstp ntau size1 size1 ht hn h1 h1)]
  rfl

/-- C2 (as amended): for valid `(tstp, ntau, size1, size2, sig)` whose lengths
`((tstp+1)*2 + (ntau+1))*size1*size2` and `((tstp+1)*2 + (ntau+1))*size1*size1` are below
`2^31`, constructing a slice and then calling `resize(tstp, ntau, size1)` succeeds and yields
an all-zero buffer of length `((tstp+1)*2 + (ntau+1))*size1*size1` with `size2_ = size1`; this
is the length `((tstp+1)*2 + (ntau+1))*size1*size2` (and `(ntau+1)*size1*size2` for
`tstp = -1`) whenever `size1 = size2`. -/
theorem construct5_then_resize (tstp ntau size1 size2 sig : Int) (ht : tstp ≥ -1)
    (hn : ntau ≥ 0) (h1 : size1 ≥ 0) (h2 : size2 ≥ 0)
    (hfit : ((tstp + 1) * 2 + (ntau + 1)) * size1 * size2 < 2147483648)
    (hfit1 : ((tstp + 1) * 2 + (ntau + 1)) * size1 * size1 < 2147483648) :
    ∃ g g1, construct5 tstp ntau size1 size2 sig = .ok g ∧
      resize g tstp ntau size1 = .ok g1 ∧
      (g1.data_.length : Int) = ((tstp + 1) * 2 + (ntau + 1)) * size1 * size1 ∧
      (∀ z ∈ g1.data_, z = 0) ∧
      g1.size1_ = size1 ∧ g1.size2_ = size1 ∧ g1.sig_ = sig ∧
      (size1 = size2 →
        (g1.data_.length : Int) = ((tstp + 1) * 2 + (ntau + 1)) * size1 * size2 ∧
        (tstp = -1 → (g1.data_.length : Int) = (ntau + 1) * size1 * size2)) := by
  have hlen := total_len_nonneg tstp ntau size1 size1 ht hn h1 h1
  refine ⟨_, _, construct5_eq tstp ntau size1 size2 sig ht hn h1 h2 hfit,
    resize_eq _ tstp ntau size1 ht hn h1 hfit1, ?_, ?_, rfl, rfl, rfl, ?_⟩
  · simp [Int.toNat_of_nonneg hlen]
  · intro z hz
    exact List.eq_of_mem_replicate hz
  · intro hs
    subst hs
    refine ⟨by simp [Int.toNat_of_nonneg hlen], ?_⟩
    intro hm
    subst hm
    simp only [List.length_replicate, Int.toNat_of_nonneg hlen]
    ring

/-- Instance of the amended C2 at `tstp = 1`, `ntau = 2`, `size1 = 2`, `size2 = 3`. -/
theorem construct5_then_resize_witness :
    ∃ g g1, construct5 1 2 2 3 (-1) = .ok g ∧
      resize g 1 2 2 = .ok g1 ∧
      (g1.data_.length : Int) = ((1 + 1) * 2 + (2 + 1)) * 2 * 2 ∧
      (∀ z ∈ g1.data_, z = 0) ∧
      g1.size1_ = 2 ∧ g1.size2_ = 2 ∧ g1.sig_ = -1 ∧
      ((2 : Int) = 3 →
        (g1.data_.length : Int) = ((1 + 1) * 2 + (2 + 1)) * 2 * 3 ∧
        ((1 : Int) = -1 → (g1.data_.length : Int) = (2 + 1) * 2 * 3)) :=
  construct5_then_resize 1 2 2 3 (-1) (by decide) (by decide) (by decide) (by decide)
    (by decide) (by decide)

/-- C2 fails as stated: after `construct(0, 0, 1, 2, -1)` (buffer length 6) the call
`resize(0, 0, 1)` leaves a buffer of length 3, not `((0+1)*2 + (0+1))*1*2 = 6`; and after
`construct(0, 0, 65536, 65536, -1)` the call `resize(0, 0, 65536)` leaves an empty buffer,
the `int` product `((0+1)*2 + (0+1))*65536*65536` having wrapped to 0. -/
theorem construct5_then_resize_counterexample :
    (∃ g g1, construct5 0 0 1 2 (-1) = .ok g ∧ resize g 0 0 1 = .ok g1 ∧
      (g1.data_.length : Int) = 3 ∧
      (g1.data_.length : Int) ≠ ((0 + 1) * 2 + (0 + 1)) * 1 * 2) ∧
    (∃ g g1, construct5 0 0 65536 65536 (-1) = .ok g ∧ resize g 0 0 65536 = .ok g1 ∧
      g1.data_ = [] ∧
      (g1.data_.length : Int) ≠ ((0 + 1) * 2 + (0 + 1)) * 65536 * 65536) := by
  constructor
  · refine ⟨_, _, construct5_eq 0 0 1 2 (-1) (by decide) (by decide) (by decide) (by decide)
      (by decide), resize_eq _ 0 0 1 (by decide) (by decide) (by decide) (by decide), ?_, ?_⟩
      <;> decide
  · exact ⟨(⟨[], 0, 0, 65536, 65536, 0, 0, -1⟩ : herm_matrix_timestep),
      (⟨[], 0, 0, 65536, 65536, 0, 0, -1⟩ : herm_matrix_timestep), by decide, by decide,
      by decide, by decide⟩

/-- C3, the code at the failing input: `construct(0, 0, 0, -1, -1)` passes the assertion
`size1>=0 && tstp>=-1 && ntau>=0` and returns a slice with `size2_ = -1`; and the assertion
fails exactly when `tstp < -1` or `ntau < 0` or `size1 < 0`, whatever `size2` is. -/
theorem construct5_negative_size2 :
    (∃ g, construct5 0 0 0 (-1) (-1) = .ok g ∧ g.size2_ = -1 ∧ g.data_ = []) ∧
    (∀ tstp ntau size1 size2 sig : Int,
      construct5 tstp ntau size1 size2 sig = .error .assertion ↔
        (tstp < -1 ∨ ntau < 0 ∨ size1 < 0)) := by
  constructor
  · exact ⟨(⟨[], 0, 0, 0, -1, 0, 0, -1⟩ : herm_matrix_timestep), by decide, by decide,
      by decide⟩
  · intro tstp ntau size1 size2 sig
    unfold construct5
    simp only []
    generalize int_wrap (((tstp + 1) * 2 + (ntau + 1)) * size1 * size2) = len
    by_cases h : size1 ≥ 0 ∧ tstp ≥ -1 ∧ ntau ≥ 0
    · rw [if_neg (not_not.mpr h)]
      constructor
      · intro hf
        exfalso
        by_cases h0 : len = 0
        · rw [if_pos h0] at hf
          cases hf
        · rw [if_neg h0] at hf
          unfold new_cplx at hf
          by_cases hneg : len < 0
          · rw [if_pos hneg] at hf
            cases hf
          · rw [if_neg hneg] at hf
            have hnn : 0 ≤ len := not_lt.mp hneg
            have := memset_zero_fresh _ hnn
            simp only [Except.bind] at hf
            rw [this] at hf
            cases hf
      · intro hc
        omega
    · rw [if_pos h]
      constructor
      · intro _
        by_contra hc
        apply h
        omega
      · intro _
        rfl

/-! ## Storage invariant, copy and move -/

theorem alloc_zeroed_length (len : Int) (d : List cplx)
    (h : (if len = 0 then (.ok [] : Except Fault (List cplx))
      else (new_cplx len).bind (fun d => memset_zero d 0 len)) = .ok d) :
    (d.length : Int) = len := by
  by_cases h0 : len = 0
  · rw [if_pos h0] at h
    cases h
    simp [h0]
  · by_cases hneg : len < 0
    · rw [if_neg h0] at h
      unfold new_cplx at h
      rw [if_pos hneg] at h
      cases h
    · have hnn : 0 ≤ len := not_lt.mp hneg
      rw [alloc_zeroed len hnn] at h
      cases h
      simp [Int.toNat_of_nonneg hnn]

theorem alloc_plain_length (len : Int) (d : List cplx)
    (h : (if len = 0 then (.ok [] : Except Fault (List cplx)) else new_cplx len) = .ok d) :
    (d.length : Int) = len := by
  by_cases h0 : len = 0
  · rw [if_pos h0] at h
    cases h
    simp [h0]
  · by_cases hneg : len < 0
    · rw [if_neg h0] at h
      unfold new_cplx at h
      rw [if_pos hneg] at h
      cases h
    · have hnn : 0 ≤ len := not_lt.mp hneg
      rw [alloc_plain len hnn] at h
      cases h
      simp [Int.toNat_of_nonneg hnn]

theorem construct3_invariant (tstp ntau size1 : Int) (g : herm_matrix_timestep)
    (hl : fits_int (((tstp + 1) * 2 + (ntau + 1)) * size1 * size1))
    (he : fits_int (size1 * size1)) (h : construct3 tstp ntau size1 = .ok g) : storage_invariant g := by
  unfold construct3 at h
  simp only [] at h
  rw [int_wrap_of_fits _ hl, int_wrap_of_fits _ he] at h
  split at h
  · cases h
  · cases hd : (if ((tstp + 1) * 2 + (ntau + 1)) * size1 * size1 = 0
        then (.ok [] : Except Fault (List cplx))
        else (new_cplx (((tstp + 1) * 2 + (ntau + 1)) * size1 * size1)).bind
          (fun d => memset_zero d 0 (((tstp + 1) * 2 + (ntau + 1)) * size1 * size1))) with
    | error e => rw [hd] at h; cases h
    | ok d =>
      rw [hd] at h
      cases h
      exact ⟨rfl, rfl, alloc_zeroed_length _ d hd⟩

theorem construct4_invariant (tstp ntau size1 sig : Int) (g : herm_matrix_timestep)
    (hl : fits_int (((tstp + 1) * 2 + (ntau + 1)) * size1 * size1))
    (he : fits_int (size1 * size1)) (h : construct4 tstp ntau size1 sig = .ok g) : storage_invariant g := by
  unfold construct4 at h
  simp only [] at h
  rw [int_wrap_of_fits _ hl, int_wrap_of_fits _ he] at h
  split at h
  · cases h
  · cases hd : (if ((tstp + 1) * 2 + (ntau + 1)) * size1 * size1 = 0
        then (.ok [] : Except Fault (List cplx))
        else (new_cplx (((tstp + 1) * 2 + (ntau + 1)) * size1 * size1)).bind
          (fun d => memset_zero d 0 (((tstp + 1) * 2 + (ntau + 1)) * size1 * size1))) with
    | error e => rw [hd] at h; cases h
    | ok d =>
      rw [hd] at h
      cases h
      exact ⟨rfl, rfl, alloc_zeroed_length _ d hd⟩

theorem construct5_invariant (tstp ntau size1 size2 sig : Int) (g : herm_matrix_timestep)
    (hl : fits_int (((tstp + 1) * 2 + (ntau + 1)) * size1 * size2))
    (he : fits_int (size1 * size2)) (h : construct5 tstp ntau size1 size2 sig = .ok g) : storage_invariant g := by
  unfold construct5 at h
  simp only [] at h
  rw [int_wrap_of_fits _ hl, int_wrap_of_fits _ he] at h
  split at h
  · cases h
  · cases hd : (if ((tstp + 1) * 2 + (ntau + 1)) * size1 * size2 = 0
        then (.ok [] : Except Fault (List cplx))
        else (new_cplx (((tstp + 1) * 2 + (ntau + 1)) * size1 * size2)).bind
          (fun d => memset_zero d 0 (((tstp + 1) * 2 + (ntau + 1)) * size1 * size2))) with
    | error e => rw [hd] at h; cases h
    | ok d =>
      rw [hd] at h
      cases h
      exact ⟨rfl, rfl, alloc_zeroed_length _ d hd⟩

theorem resize_invariant (g0 : herm_matrix_timestep) (tstp ntau size1 : Int)
    (g : herm_matrix_timestep)
    (hl : fits_int (((tstp + 1) * 2 + (ntau + 1)) * size1 * size1))
    (he : fits_int (size1 * size1)) (h : resize g0 tstp ntau size1 = .ok g) :
    storage_invariant g := by
  unfold resize at h
  simp only [] at h
  rw [int_wrap_of_fits _ hl, int_wrap_of_fits _ he] at h
  split at h
  · cases h
  · cases hd : (if ((tstp + 1) * 2 + (ntau + 1)) * size1 * size1 = 0
        then (.ok [] : Except Fault (List cplx))
        else new_cplx (((tstp + 1) * 2 + (ntau + 1)) * size1 * size1)) with
    | error e => rw [hd] at h; cases h
    | ok d =>
      rw [hd] at h
      cases h
      exact ⟨rfl, rfl, alloc_plain_length _ d hd⟩

theorem moved_from_invariant (g : herm_matrix_timestep) : storage_invariant (moved_from g) := by
  unfold storage_invariant moved_from
  simp

theorem memcpy_whole (dst src : List cplx) (n : Int) (hd : (dst.length : Int) = n)
    (hs : (src.length : Int) = n) : memcpy dst 0 src 0 n = .ok src := by
  have hn : 0 ≤ n := by rw [← hd]; exact Int.ofNat_nonneg _
  unfold memcpy
  rw [if_pos ⟨le_refl 0, le_refl 0, hn, by omega, by omega⟩]
  have h1 : n.toNat = src.length := by omega
  have h2 : ((0 : Int) + n).toNat = dst.length := by omega
  have h3 : dst.length ≤ src.length := by omega
  simp [h1, h2, h3]

theorem copy_construct_square (g : herm_matrix_timestep) (hinv : storage_invariant g)
    (hsq : g.size1_ = g.size2_) : copy_construct g = .ok g := by
  obtain ⟨hes, htot, hlen⟩ := hinv
  have hdl : (g.data_.length : Int) = g.total_size_ := by rw [hlen, htot]
  have hnn : 0 ≤ g.total_size_ := by rw [← hdl]; exact Int.ofNat_nonneg _
  have hdata : (if g.total_size_ > 0 then
      (new_cplx g.total_size_).bind (fun d => memcpy d 0 g.data_ 0 g.total_size_)
      else (.ok [] : Except Fault (List cplx))) = .ok g.data_ := by
    by_cases hpos : g.total_size_ > 0
    · rw [if_pos hpos, new_cplx_nonneg _ hnn]
      exact memcpy_whole _ _ _ (by simp [Int.toNat_of_nonneg hnn]) hdl
    · rw [if_neg hpos]
      have h0 : g.data_.length = 0 := by omega
      rw [List.length_eq_zero.mp h0]
  unfold copy_construct
  rw [hdata]
  cases g
  simp only [Except.bind] at *
  subst hsq
  subst hes
  rfl

theorem copy_assign_square (self g : herm_matrix_timestep) (hself : storage_invariant self)
    (hinv : storage_invariant g) (hsq : g.size1_ = g.size2_) :
    copy_assign false self g = .ok g := by
  obtain ⟨hes, htot, hlen⟩ := hinv
  obtain ⟨_, hstot, hslen⟩ := hself
  have hdl : (g.data_.length : Int) = g.total_size_ := by rw [hlen, htot]
  have hsdl : (self.data_.length : Int) = self.total_size_ := by rw [hslen, hstot]
  have hnn : 0 ≤ g.total_size_ := by rw [← hdl]; exact Int.ofNat_nonneg _
  unfold copy_assign
  simp only [Bool.false_eq_true, if_false]
  by_cases hne : self.total_size_ ≠ g.total_size_
  · rw [if_pos hne]
    by_cases hpos : g.total_size_ > 0
    · rw [if_pos hpos, new_cplx_nonneg _ hnn]
      simp only [Except.bind]
      rw [if_pos hpos, memcpy_whole _ _ _ (by simp [Int.toNat_of_nonneg hnn]) hdl]
      cases g
      simp only at *
      subst hsq
      subst hes
      rfl
    · rw [if_neg hpos]
      simp only [Except.bind]
      rw [if_neg hpos]
      have h0 : g.data_.length = 0 := by omega
      cases g
      simp only at *
      subst hsq
      subst hes
      rw [List.length_eq_zero.mp h0]
  · rw [if_neg hne]
    have heq : self.total_size_ = g.total_size_ := not_not.mp hne
    simp only [Except.bind]
    by_cases hpos : self.total_size_ > 0
    · rw [if_pos hpos, memcpy_whole _ _ _ hsdl (by rw [hdl, heq])]
      cases g
      simp only at *
      subst hsq
      subst hes
      rw [heq]
    · rw [if_neg hpos]
      have h0 : g.data_.length = 0 := by omega
      have h1 : self.data_.length = 0 := by omega
      cases g
      simp only at *
      subst hsq
      subst hes
      rw [List.length_eq_zero.mp h1, heq]
      rw [List.length_eq_zero.mp h0]

/-- C4 (as amended): the storage invariant `element_size_ = size1_*size2_`, buffer length
`= ((tstp_+1)*2 + (ntau_+1))*size1_*size2_` holds after default construction; after the three
dimensioned constructors and `resize` when the length computed from the arguments fits an
`int`: calls with `tstp >= -1`, `ntau >= 0`, nonnegative sizes and a length below `2^31`
return, and every call that returns with a length and an element size inside the `int` range
leaves the invariant; for both objects after a move construction or move assignment from a
source satisfying it; and after copy construction or copy assignment from a source satisfying
it that is square (`size1_ = size2_`). -/
theorem storage_invariant_after_operations :
    storage_invariant construct_default ∧
    (∀ tstp ntau size1 : Int, tstp ≥ -1 → ntau ≥ 0 → size1 ≥ 0 →
      ((tstp + 1) * 2 + (ntau + 1)) * size1 * size1 < 2147483648 →
      ∃ g, construct3 tstp ntau size1 = .ok g) ∧
    (∀ tstp ntau size1 g, fits_int (((tstp + 1) * 2 + (ntau + 1)) * size1 * size1) →
      fits_int (size1 * size1) → construct3 tstp ntau size1 = .ok g → storage_invariant g) ∧
    (∀ tstp ntau size1 sig : Int, tstp ≥ -1 → ntau ≥ 0 → size1 ≥ 0 → sig * sig = 1 →
      ((tstp + 1) * 2 + (ntau + 1)) * size1 * size1 < 2147483648 →
      ∃ g, construct4 tstp ntau size1 sig = .ok g) ∧
    (∀ tstp ntau size1 sig g, fits_int (((tstp + 1) * 2 + (ntau + 1)) * size1 * size1) →
      fits_int (size1 * size1) → construct4 tstp ntau size1 sig = .ok g →
      storage_invariant g) ∧
    (∀ tstp ntau size1 size2 sig : Int, tstp ≥ -1 → ntau ≥ 0 → size1 ≥ 0 → size2 ≥ 0 →
      ((tstp + 1) * 2 + (ntau + 1)) * size1 * size2 < 2147483648 →
      ∃ g, construct5 tstp ntau size1 size2 sig = .ok g) ∧
    (∀ tstp ntau size1 size2 sig g,
      fits_int (((tstp + 1) * 2 + (ntau + 1)) * size1 * size2) → fits_int (size1 * size2) →
      construct5 tstp ntau size1 size2 sig = .ok g → storage_invariant g) ∧
    (∀ (g0 : herm_matrix_timestep) (tstp ntau size1 : Int), tstp ≥ -1 → ntau ≥ 0 →
      size1 ≥ 0 → ((tstp + 1) * 2 + (ntau + 1)) * size1 * size1 < 2147483648 →
      ∃ g, resize g0 tstp ntau size1 = .ok g) ∧
    (∀ g0 tstp ntau size1 g, fits_int (((tstp + 1) * 2 + (ntau + 1)) * size1 * size1) →
      fits_int (size1 * size1) → resize g0 tstp ntau size1 = .ok g → storage_invariant g) ∧
    (∀ g, storage_invariant g →
      storage_invariant (move_construct g).1 ∧ storage_invariant (move_construct g).2) ∧
    (∀ same self g, storage_invariant self → storage_invariant g →
      storage_invariant (move_assign same self g).1 ∧
      storage_invariant (move_assign same self g).2) ∧
    (∀ g, storage_invariant g → g.size1_ = g.size2_ →
      ∃ g1, copy_construct g = .ok g1 ∧ storage_invariant g1) ∧
    (∀ same self g, storage_invariant self → storage_invariant g → g.size1_ = g.size2_ →
      ∃ g1, copy_assign same self g = .ok g1 ∧ storage_invariant g1) := by
  refine ⟨by decide, ?_, construct3_invariant, ?_, construct4_invariant, ?_,
    construct5_invariant, ?_, resize_invariant, ?_, ?_, ?_, ?_⟩
  · intro tstp ntau size1 ht hn h1 hfit
    exact ⟨_, construct3_eq tstp ntau size1 ht hn h1 hfit⟩
  · intro tstp ntau size1 sig ht hn h1 hs hfit
    exact ⟨_, construct4_eq tstp ntau size1 sig ht hn h1 hs hfit⟩
  · intro tstp ntau size1 size2 sig ht hn h1 h2 hfit
    exact ⟨_, construct5_eq tstp ntau size1 size2 sig ht hn h1 h2 hfit⟩
  · intro g0 tstp ntau size1 ht hn h1 hfit
    exact ⟨_, resize_eq g0 tstp ntau size1 ht hn h1 hfit⟩
  · intro g hg
    exact ⟨hg, moved_from_invariant g⟩
  · intro same self g hs hg
    cases same
    · exact ⟨hg, moved_from_invariant g⟩
    · exact ⟨hs, hg⟩
  · intro g hg hsq
    exact ⟨g, copy_construct_square g hg hsq, hg⟩
  · intro same self g hs hg hsq
    cases same
    · exact ⟨g, copy_assign_square self g hs hg hsq, hg⟩
    · exact ⟨self, rfl, hs⟩

/-- Instance of the amended C4: copying `sample_square` keeps the invariant. -/
theorem storage_invariant_after_operations_witness :
    storage_invariant sample_square ∧ sample_square.size1_ = sample_square.size2_ ∧
    ∃ g1, copy_construct sample_square = .ok g1 ∧ storage_invariant g1 :=
  ⟨by decide, by decide,
    storage_invariant_after_operations.2.2.2.2.2.2.2.2.2.2.2.1 sample_square (by decide) (by decide)⟩

/-- C4 fails as stated: `sample_nonsquare` satisfies the invariant (1x2 matrices, buffer
length 6), but its copy-constructed and copy-assigned copies have `size2_ = 1` with the
buffer length still 6 instead of `((0+1)*2 + (0+1))*1*1 = 3`; and the accepted calls
`construct(0, 0, 65536, 65536, -1)`, `construct(0, 0, 65536, -65536, -1)`,
`herm_matrix_timestep(0, 0, 65536)` and `resize(0, 0, 65536)`, whose `int` products wrap to
0, return slices with an empty buffer and `element_size_ = 0`, which do not satisfy it. -/
theorem storage_invariant_copy_counterexample :
    storage_invariant sample_nonsquare ∧
    (∃ g1, copy_construct sample_nonsquare = .ok g1 ∧ ¬ storage_invariant g1) ∧
    (∃ g1, copy_assign false construct_default sample_nonsquare = .ok g1 ∧
      ¬ storage_invariant g1) ∧
    (∃ g1, construct5 0 0 65536 65536 (-1) = .ok g1 ∧ g1.element_size_ = 0 ∧
      ¬ storage_invariant g1) ∧
    (∃ g1, construct5 0 0 65536 (-65536) (-1) = .ok g1 ∧ g1.element_size_ = 0 ∧
      g1.size2_ = -65536 ∧ ¬ storage_invariant g1) ∧
    (∃ g1, construct3 0 0 65536 = .ok g1 ∧ ¬ storage_invariant g1) ∧
    (∃ g1, resize construct_default 0 0 65536 = .ok g1 ∧ ¬ storage_invariant g1) := by
  refine ⟨by decide, ⟨(⟨sample_nonsquare.data_, 0, 0, 1, 1, 1, 6, -1⟩ : herm_matrix_timestep),
    by decide, by decide⟩,
    ⟨(⟨sample_nonsquare.data_, 0, 0, 1, 1, 1, 6, -1⟩ : herm_matrix_timestep),
    by decide, by decide⟩,
    ⟨(⟨[], 0, 0, 65536, 65536, 0, 0, -1⟩ : herm_matrix_timestep), by decide, by decide,
      by decide⟩,
    ⟨(⟨[], 0, 0, 65536, -65536, 0, 0, -1⟩ : herm_matrix_timestep), by decide, by decide,
      by decide, by decide⟩,
    ⟨(⟨[], 0, 0, 65536, 65536, 0, 0, -1⟩ : herm_matrix_timestep), by decide, by decide⟩,
    ⟨(⟨[], 0, 0, 65536, 65536, 0, 0, -1⟩ : herm_matrix_timestep), by decide, by decide⟩⟩

/-- C6 (as amended): for every square slice `g` satisfying the storage invariant, copy
construction from `g` and copy assignment from `g` (into any slice satisfying the invariant,
or into `g` itself) produce a slice equal to `g` in every member, in particular with the same
`tstp`, `ntau`, `size1`, `size2`, `sig` and an element-for-element equal buffer.  The source
is taken by const reference and is not written. -/
theorem copy_is_faithful_square (g : herm_matrix_timestep) (hinv : storage_invariant g)
    (hsq : g.size1_ = g.size2_) :
    copy_construct g = .ok g ∧
    (∀ self, storage_invariant self → copy_assign false self g = .ok g) ∧
    copy_assign true g g = .ok g :=
  ⟨copy_construct_square g hinv hsq, fun self hs => copy_assign_square self g hs hinv hsq, rfl⟩

/-- Instance of the amended C6 at `sample_square`. -/
theorem copy_is_faithful_square_witness :
    copy_construct sample_square = .ok sample_square ∧
    (∀ self, storage_invariant self → copy_assign false self sample_square = .ok sample_square) ∧
    copy_assign true sample_square sample_square = .ok sample_square :=
  copy_is_faithful_square sample_square (by decide) (by decide)

/-- C6 fails as stated: the copies of the non-square slice `sample_nonsquare`
(`size1_ = 1`, `size2_ = 2`) have `size2_ = 1`. -/
theorem copy_nonsquare_counterexample :
    (∃ g1, copy_construct sample_nonsquare = .ok g1 ∧ g1.size2_ = 1 ∧
      g1.size2_ ≠ sample_nonsquare.size2_) ∧
    (∃ g1, copy_assign false construct_default sample_nonsquare = .ok g1 ∧ g1.size2_ = 1 ∧
      g1.size2_ ≠ sample_nonsquare.size2_) := by
  refine ⟨⟨(⟨sample_nonsquare.data_, 0, 0, 1, 1, 1, 6, -1⟩ : herm_matrix_timestep),
    by decide, by decide, by decide⟩,
    ⟨(⟨sample_nonsquare.data_, 0, 0, 1, 1, 1, 6, -1⟩ : herm_matrix_timestep),
    by decide, by decide, by decide⟩⟩

/-- C7: after move construction or move assignment from `g` (a different object), the
destination holds exactly `g`s previous members, in particular its `tstp`, `ntau`, `size1`,
`size2`, `sig` and buffer, and `g` is left empty: buffer of length 0,
`size1_ = size2_ = element_size_ = 0`, `ntau_ = 0` (also `tstp_ = 0`, `total_size_ = 0`;
`sig_` is kept). -/
theorem move_transfers_state (self g : herm_matrix_timestep) :
    (move_construct g).1 = g ∧
    (move_assign false self g).1 = g ∧
    (move_construct g).2 = (move_assign false self g).2 ∧
    (move_construct g).2.data_.length = 0 ∧
    (move_construct g).2.size1_ = 0 ∧ (move_construct g).2.size2_ = 0 ∧
    (move_construct g).2.element_size_ = 0 ∧ (move_construct g).2.ntau_ = 0 ∧
    (move_construct g).2.tstp_ = 0 ∧ (move_construct g).2.total_size_ = 0 ∧
    (move_construct g).2.sig_ = g.sig_ :=
  ⟨rfl, rfl, rfl, rfl, rfl, rfl, rfl, rfl, rfl, rfl, rfl⟩

/-! ## Packing layout -/

theorem block_indices_nat (start : Int) (E : Nat) :
    block_indices start (E : Int) = (List.range E).map (fun (d : Nat) => start + (d : Int)) := by
  unfold block_indices
  simp

theorem blocks_concat (c : Int) (E n : Nat) :
    (List.range n).flatMap (fun (m : Nat) => block_indices (c + (m : Int) * (E : Int)) (E : Int)) =
      (List.range (n * E)).map (fun (d : Nat) => c + (d : Int)) := by
  induction n with
  | zero => simp
  | succ n ih =>
    rw [List.range_succ, List.flatMap_append, ih, Nat.succ_mul, List.range_add, List.map_append]
    congr 1
    simp only [List.flatMap_cons, List.flatMap_nil, List.append_nil, block_indices_nat,
      List.map_map]
    apply List.map_congr_left
    intro d _
    simp only [Function.comp]
    push_cast
    ring

theorem layout_indices_eq (T N E : Nat) :
    layout_indices (T : Int) (N : Int) (E : Int) =
      (List.range (((T + 1) * 2 + (N + 1)) * E)).map (fun (d : Nat) => (d : Int)) := by
  unfold layout_indices
  have h1 : ((T : Int) + 1).toNat = T + 1 := by omega
  have h2 : ((N : Int) + 1).toNat = N + 1 := by omega
  rw [h1, h2, blocks_concat, blocks_concat, blocks_concat]
  have hsplit : ((T + 1) * 2 + (N + 1)) * E = (T + 1) * E + ((N + 1) * E + (T + 1) * E) := by
    ring
  rw [hsplit, List.range_add, List.range_add]
  simp only [List.map_append, List.map_map, List.append_assoc]
  refine congrArg₂ (· ++ ·) ?_ (congrArg₂ (· ++ ·) ?_ ?_)
  · apply List.map_congr_left
    intro d _
    simp
  · apply List.map_congr_left
    intro d _
    simp only [Function.comp]
    push_cast
    ring
  · apply List.map_congr_left
    intro d _
    simp only [Function.comp]
    push_cast
    ring

theorem layout_indices_mat_eq (N E : Nat) :
    layout_indices_mat (N : Int) (E : Int) =
      (List.range ((N + 1) * E)).map (fun (d : Nat) => (d : Int)) := by
  unfold layout_indices_mat
  have h2 : ((N : Int) + 1).toNat = N + 1 := by omega
  rw [h2, blocks_concat]
  apply List.map_congr_left
  intro d _
  simp

/-- C5: for a slice satisfying the storage invariant with valid dimensions and element size
`es = size1_*size2_`: if `tstp_ >= 0`, the blocks of length `es` visited in program order,
retarded (start `k*es`, `k = 0..tstp_`), left-mixing (start `(tstp_+1+k)*es`, `k = 0..ntau_`),
lesser (start `(tstp_+1+ntau_+1+k)*es`, `k = 0..tstp_`), list the buffer indices
`0, 1, .., length-1` in increasing order, each exactly once (so the blocks are pairwise
disjoint, appear in this fixed order and cover the buffer exactly); if `tstp_ = -1`, the
`ntau_+1` Matsubara blocks (start `k*es`) do.  The block starts are the offsets `retptr`,
`tvptr`, `lesptr`, `matptr`. -/
theorem packing_layout_partitions_buffer (g : herm_matrix_timestep)
    (hinv : storage_invariant g) (hd : dims_valid g) :
    (0 ≤ g.tstp_ → layout_indices g.tstp_ g.ntau_ g.element_size_ =
      (List.range g.data_.length).map (fun (d : Nat) => (d : Int))) ∧
    (g.tstp_ = -1 → layout_indices_mat g.ntau_ g.element_size_ =
      (List.range g.data_.length).map (fun (d : Nat) => (d : Int))) ∧
    (∀ k : Int, retptr g k = 0 + k * g.element_size_ ∧
      tvptr g k = (g.tstp_ + 1) * g.element_size_ + k * g.element_size_ ∧
      lesptr g k = (g.tstp_ + 1 + g.ntau_ + 1) * g.element_size_ + k * g.element_size_ ∧
      matptr g k = 0 + k * g.element_size_ ∧
      retptr g k = k * (g.size1_ * g.size2_) ∧
      tvptr g k = (g.tstp_ + 1 + k) * (g.size1_ * g.size2_) ∧
      lesptr g k = (g.tstp_ + 1 + g.ntau_ + 1 + k) * (g.size1_ * g.size2_) ∧
      matptr g k = k * (g.size1_ * g.size2_)) := by
  obtain ⟨hes, _, hlen⟩ := hinv
  obtain ⟨ht, hn, h1, h2⟩ := hd
  have hes0 : 0 ≤ g.element_size_ := by rw [hes]; exact mul_nonneg h1 h2
  obtain ⟨E, hE⟩ := Int.eq_ofNat_of_zero_le hes0
  obtain ⟨N, hN⟩ := Int.eq_ofNat_of_zero_le hn
  refine ⟨?_, ?_, ?_⟩
  · intro ht0
    obtain ⟨T, hT⟩ := Int.eq_ofNat_of_zero_le ht0
    have hl : g.data_.length = ((T + 1) * 2 + (N + 1)) * E := by
      have : (g.data_.length : Int) = (((T + 1) * 2 + (N + 1)) * E : Nat) := by
        rw [hlen, mul_assoc, ← hes, hE, hT, hN]
        push_cast
        ring
      exact_mod_cast this
    rw [hE, hT, hN, hl]
    exact layout_indices_eq T N E
  · intro htm
    have hl : g.data_.length = (N + 1) * E := by
      have : (g.data_.length : Int) = ((N + 1) * E : Nat) := by
        rw [hlen, mul_assoc, ← hes, hE, htm, hN]
        push_cast
        ring
      exact_mod_cast this
    rw [hE, hN, hl]
    exact layout_indices_mat_eq N E
  · intro k
    unfold retptr tvptr lesptr matptr
    rw [← hes]
    refine ⟨by ring, by ring, by ring, by ring, rfl, rfl, rfl, rfl⟩

/-- Instance of C5 at the square slice `sample_square` (`tstp_ = 0`, `ntau_ = 1`, 2x2). -/
theorem packing_layout_partitions_buffer_witness :
    storage_invariant sample_square ∧ dims_valid sample_square ∧
    layout_indices sample_square.tstp_ sample_square.ntau_ sample_square.element_size_ =
      (List.range sample_square.data_.length).map (fun (d : Nat) => (d : Int)) :=
  ⟨by decide, by decide,
    (packing_layout_partitions_buffer sample_square (by decide) (by decide)).1 (by decide)⟩

/-! ## Element access -/

theorem poke_in_range (b : List cplx) (i : Int) (v : cplx) (h0 : 0 ≤ i) (h1 : i < b.length) :
    poke b i v = .ok (b.set i.toNat v) := by
  unfold poke
  rw [if_pos ⟨h0, h1⟩]

theorem poke_length (b b1 : List cplx) (i : Int) (v : cplx) (h : poke b i v = .ok b1) :
    b1.length = b.length := by
  unfold poke at h
  split at h
  · cases h
    simp
  · cases h

theorem peek_poke_same (b b1 : List cplx) (i : Int) (v : cplx) (h : poke b i v = .ok b1) :
    peek b1 i = .ok v := by
  unfold poke at h
  split at h
  · rename_i hr
    cases h
    unfold peek
    have hlt : i.toNat < b.length := by omega
    rw [if_pos ⟨hr.1, by simpa using hr.2⟩]
    simp [List.getD_eq_getElem?_getD, List.getElem?_set, hlt]
  · cases h

theorem peek_poke_other (b b1 : List cplx) (i k : Int) (v : cplx) (h : poke b i v = .ok b1)
    (hk : k ≠ i) : peek b1 k = peek b k := by
  unfold poke at h
  split at h
  · rename_i hr
    cases h
    unfold peek
    by_cases hkr : 0 ≤ k ∧ k < (b.length : Int)
    · have hne : i.toNat ≠ k.toNat := by omega
      rw [if_pos (by simpa using hkr), if_pos hkr]
      simp [List.getD_eq_getElem?_getD, List.getElem?_set, hne]
    · rw [if_neg (by simpa using hkr), if_neg hkr]
  · cases h

theorem loopE_append {σ α : Type} (body : σ → α → Except Fault σ) (l1 l2 : List α) (st : σ) :
    loopE body st (l1 ++ l2) = (loopE body st l1).bind (fun st1 => loopE body st1 l2) := by
  induction l1 generalizing st with
  | nil => rfl
  | cons a l ih =>
    simp only [List.cons_append, loopE]
    cases body st a with
    | error e => rfl
    | ok st1 => exact ih st1

theorem mapE_eq_map {α β : Type} (f : α → Except Fault β) (h : α → β) (l : List α)
    (hf : ∀ a ∈ l, f a = .ok (h a)) : mapE f l = .ok (l.map h) := by
  induction l with
  | nil => rfl
  | cons a l ih =>
    simp only [mapE, List.map_cons]
    rw [hf a (List.mem_cons_self a l), ih (fun x hx => hf x (List.mem_cons_of_mem a hx))]

theorem coeff_of_shape (M : Mat) (n c r s : Nat) (hM : M.has_shape n c) (hr : r < n)
    (hs : s < c) : M.coeff r s = .ok (M.entry r s) := by
  obtain ⟨hlen, hrows⟩ := hM
  have hr1 : r < M.length := by omega
  have hrow : (M[r]).length = c := hrows _ (List.getElem_mem hr1)
  have hs1 : s < (M[r]).length := by omega
  unfold Mat.coeff Mat.entry
  simp [List.getD_eq_getElem?_getD, List.getElem?_eq_getElem hr1, List.getElem?_eq_getElem hs1]

theorem mat_eq_table (M : Mat) (n c : Nat) (hM : M.has_shape n c) :
    M = (List.range n).map (fun (r : Nat) => (List.range c).map (fun (s : Nat) => M.entry r s)) := by
  obtain ⟨hlen, hrows⟩ := hM
  apply List.ext_getElem
  · simp [hlen]
  · intro r h1 h2
    have hrow : (M[r]).length = c := hrows _ (List.getElem_mem h1)
    simp only [List.getElem_map, List.getElem_range]
    apply List.ext_getElem
    · simp [hrow]
    · intro s h3 h4
      simp [Mat.entry, List.getD_eq_getElem?_getD, List.getElem?_eq_getElem h1,
        List.getElem?_eq_getElem h3]

theorem except_bind_ok {α β : Type} (a : α) (f : α → Except Fault β) :
    (Except.ok a : Except Fault α).bind f = f a := rfl

theorem loopE_single {σ α : Type} (body : σ → α → Except Fault σ) (st : σ) (a : α) :
    loopE body st [a] = body st a := by
  simp only [loopE]
  cases body st a <;> rfl

/-- Inner loop of `herm_matrix_SET_ELEMENT_MATRIX` for row `r`. -/
theorem set_row_loop (M : Mat) (r c : Nat) (x : Int) (hx : 0 ≤ x)
    (hco : ∀ s, s < c → M.coeff r s = .ok (M.entry r s)) :
    ∀ (m : Nat) (b : List cplx), m ≤ c →
      x + ((r : Int) * (c : Int) + (m : Int)) ≤ (b.length : Int) →
      ∃ b1, loopE (fun b1 (s : Nat) =>
            (M.coeff r s).bind (fun v => poke b1 (x + ((r : Int) * (c : Int) + (s : Int))) v))
          b (List.range m) = .ok b1 ∧
        b1.length = b.length ∧
        (∀ s, s < m → peek b1 (x + ((r : Int) * (c : Int) + (s : Int))) = .ok (M.entry r s)) ∧
        (∀ k : Int, (k < x + (r : Int) * (c : Int) ∨
            x + ((r : Int) * (c : Int) + (m : Int)) ≤ k) → peek b1 k = peek b k) := by
  intro m
  induction m with
  | zero =>
    intro b _ _
    exact ⟨b, rfl, rfl, fun s hs => absurd hs (Nat.not_lt_zero s), fun k _ => rfl⟩
  | succ m ih =>
    intro b hm hlen
    have hrc : (0 : Int) ≤ (r : Int) * (c : Int) := by positivity
    obtain ⟨b1, hb1, hl1, hin1, hout1⟩ := ih b (by omega) (by push_cast at hlen ⊢; omega)
    have hidx0 : 0 ≤ x + ((r : Int) * (c : Int) + (m : Int)) := by omega
    have hidx1 : x + ((r : Int) * (c : Int) + (m : Int)) < (b1.length : Int) := by
      rw [hl1]; push_cast at hlen; omega
    have hpoke := poke_in_range b1 _ (M.entry r m) hidx0 hidx1
    refine ⟨b1.set (x + ((r : Int) * (c : Int) + (m : Int))).toNat (M.entry r m), ?_, ?_, ?_, ?_⟩
    · rw [List.range_succ, loopE_append, hb1]
      simp only [Except.bind, loopE]
      rw [hco m (by omega)]
      simp only [Except.bind]
      rw [hpoke]
    · simp [hl1]
    · intro s hs
      by_cases hsm : s = m
      · subst hsm
        exact peek_poke_same _ _ _ _ hpoke
      · rw [peek_poke_other _ _ _ _ _ hpoke (by omega)]
        exact hin1 s (by omega)
    · intro k hk
      rw [peek_poke_other _ _ _ _ _ hpoke (by push_cast at hk; omega)]
      exact hout1 k (by push_cast at hk; omega)

/-- Both loops of `herm_matrix_SET_ELEMENT_MATRIX` on a matrix of the right shape and a block
inside the buffer: the block receives the matrix row by row, the rest is untouched. -/
theorem set_element_matrix_spec (M : Mat) (n c : Nat) (hM : M.has_shape n c) (x : Int)
    (hx : 0 ≤ x) (b : List cplx) (hlen : x + (n : Int) * (c : Int) ≤ (b.length : Int)) :
    ∃ b1, herm_matrix_SET_ELEMENT_MATRIX b x (n : Int) (c : Int) M = .ok b1 ∧
      b1.length = b.length ∧
      (∀ r s, r < n → s < c →
        peek b1 (x + ((r : Int) * (c : Int) + (s : Int))) = .ok (M.entry r s)) ∧
      (∀ k : Int, (k < x ∨ x + (n : Int) * (c : Int) ≤ k) → peek b1 k = peek b k) := by
  unfold herm_matrix_SET_ELEMENT_MATRIX
  simp only [Int.toNat_ofNat]
  have key : ∀ (m : Nat), m ≤ n →
      ∃ b1, loopE (fun b (r : Nat) =>
            loopE (fun b1 (s : Nat) =>
                (M.coeff r s).bind
                  (fun v => poke b1 (x + ((r : Int) * (c : Int) + (s : Int))) v))
              b (List.range c))
          b (List.range m) = .ok b1 ∧
        b1.length = b.length ∧
        (∀ r s, r < m → s < c →
          peek b1 (x + ((r : Int) * (c : Int) + (s : Int))) = .ok (M.entry r s)) ∧
        (∀ k : Int, (k < x ∨ x + (m : Int) * (c : Int) ≤ k) → peek b1 k = peek b k) := by
    intro m
    induction m with
    | zero =>
      intro _
      exact ⟨b, rfl, rfl, fun r s hr => absurd hr (Nat.not_lt_zero r), fun k _ => rfl⟩
    | succ m ih =>
      intro hm
      obtain ⟨b1, hb1, hl1, hin1, hout1⟩ := ih (by omega)
      have hmn : ((m : Int) + 1) * (c : Int) ≤ (n : Int) * (c : Int) := by
        apply mul_le_mul_of_nonneg_right _ (Int.ofNat_nonneg c)
        omega
      have hmc : (0 : Int) ≤ (m : Int) * (c : Int) := by positivity
      have hlen1 : x + ((m : Int) * (c : Int) + (c : Int)) ≤ (b1.length : Int) := by
        rw [hl1]
        have : ((m : Int) + 1) * (c : Int) = (m : Int) * (c : Int) + (c : Int) := by ring
        omega
      obtain ⟨b2, hb2, hl2, hin2, hout2⟩ :=
        set_row_loop M m c x hx (fun s hs => coeff_of_shape M n c m s hM (by omega) hs)
          c b1 (le_refl c) hlen1
      refine ⟨b2, ?_, by rw [hl2, hl1], ?_, ?_⟩
      · rw [List.range_succ, loopE_append, hb1]
        rw [except_bind_ok, loopE_single]
        exact hb2
      · intro r s hr hs
        by_cases hrm : r = m
        · subst hrm
          exact hin2 s hs
        · have hrlt : r < m := by omega
          have hrc : ((r : Int) + 1) * (c : Int) ≤ (m : Int) * (c : Int) := by
            apply mul_le_mul_of_nonneg_right _ (Int.ofNat_nonneg c)
            omega
          have hexp : ((r : Int) + 1) * (c : Int) = (r : Int) * (c : Int) + (c : Int) := by
            ring
          rw [hout2 _ (Or.inl (by omega))]
          exact hin1 r s hrlt hs
      · intro k hk
        have hexp : (((m + 1 : Nat) : Int)) * (c : Int) = (m : Int) * (c : Int) + (c : Int) := by
          push_cast
          ring
        rw [hexp] at hk
        rw [hout2 k (by omega)]
        exact hout1 k (by omega)
  exact key n (le_refl n)

theorem read_element_spec (buf : List cplx) (x : Int) (n : Nat) (V : Nat → Nat → cplx)
    (h : ∀ r s, r < n → s < n →
      peek buf (x + ((r : Int) * (n : Int) + (s : Int))) = .ok (V r s)) :
    herm_matrix_READ_ELEMENT buf x (n : Int) =
      .ok ((List.range n).map (fun (r : Nat) => (List.range n).map (fun (s : Nat) => V r s))) := by
  unfold herm_matrix_READ_ELEMENT
  simp only [Int.toNat_ofNat]
  apply mapE_eq_map
  intro r hr
  apply mapE_eq_map
  intro s hs
  exact h r s (List.mem_range.mp hr) (List.mem_range.mp hs)

/-- Retarded block `j` (`0 <= j <= tstp_`) of a square slice lies inside the buffer. -/
theorem ret_block_in_range (g : herm_matrix_timestep) (hinv : storage_invariant g)
    (hd : dims_valid g) (j : Int) (hj0 : 0 ≤ j) (hj : j ≤ g.tstp_) :
    0 ≤ retptr g j ∧ retptr g j + g.size1_ * g.size2_ ≤ (g.data_.length : Int) := by
  obtain ⟨hes, _, hlen⟩ := hinv
  obtain ⟨_, hn, h1, h2⟩ := hd
  have hes0 : 0 ≤ g.size1_ * g.size2_ := mul_nonneg h1 h2
  unfold retptr
  rw [hes, hlen, mul_assoc]
  constructor
  · exact mul_nonneg hj0 hes0
  · have hle : (j + 1) * (g.size1_ * g.size2_) ≤
        ((g.tstp_ + 1) * 2 + (g.ntau_ + 1)) * (g.size1_ * g.size2_) := by
      apply mul_le_mul_of_nonneg_right _ hes0
      omega
    have hexp : (j + 1) * (g.size1_ * g.size2_) =
        j * (g.size1_ * g.size2_) + g.size1_ * g.size2_ := by ring
    omega

/-- Writing a square matrix into a block and reading the block back returns the matrix. -/
theorem set_then_read_block (M : Mat) (n : Nat) (hM : M.has_shape n n) (x : Int) (hx : 0 ≤ x)
    (b : List cplx) (hlen : x + (n : Int) * (n : Int) ≤ (b.length : Int)) :
    ∃ b1, herm_matrix_SET_ELEMENT_MATRIX b x (n : Int) (n : Int) M = .ok b1 ∧
      herm_matrix_READ_ELEMENT b1 x (n : Int) = .ok M := by
  obtain ⟨b1, hset, _, hin, _⟩ := set_element_matrix_spec M n n hM x hx b hlen
  refine ⟨b1, hset, ?_⟩
  rw [read_element_spec b1 x n (fun r s => M.entry r s) hin]
  exact congrArg Except.ok (mat_eq_table M n n hM).symm

/-- C8 (as amended): for every square slice (`size1_ = size2_`) satisfying the storage
invariant with `tstp_ >= 0`, every `j` with `0 <= j <= tstp_` and every matrix `M` of the
slice shape, `set_ret(j, M)` as well as `set_ret(tstp_, j, M)` succeed, and a following
`get_ret(tstp_, j, M2)` yields `M2 = M`. -/
theorem set_ret_get_ret_roundtrip (g : herm_matrix_timestep) (hinv : storage_invariant g)
    (hd : dims_valid g) (hsq : g.size1_ = g.size2_) (j : Int) (hj0 : 0 ≤ j)
    (hj : j ≤ g.tstp_) (M : Mat) (hM : M.has_shape g.size1_.toNat g.size2_.toNat) :
    (∃ g1, set_ret g j M = .ok g1 ∧ get_ret g1 g.tstp_ j = .ok M) ∧
    (∃ g1, set_ret_ij g g.tstp_ j M = .ok g1 ∧ get_ret g1 g.tstp_ j = .ok M) := by
  obtain ⟨hx0, hx1⟩ := ret_block_in_range g hinv hd j hj0 hj
  obtain ⟨n, hn⟩ := Int.eq_ofNat_of_zero_le hd.2.2.1
  have hn2 : g.size2_ = (n : Int) := by rw [← hsq, hn]
  rw [hn, hn2] at hM hx1
  simp only [Int.toNat_ofNat] at hM
  obtain ⟨b1, hset, hread⟩ := set_then_read_block M n hM (retptr g j) hx0 g.data_ hx1
  have hget : get_ret { g with data_ := b1 } g.tstp_ j = .ok M := by
    unfold get_ret
    rw [if_neg (not_not.mpr ⟨rfl, hj⟩)]
    show herm_matrix_READ_ELEMENT b1 (retptr g j) g.size1_ = .ok M
    rw [hn]
    exact hread
  constructor
  · refine ⟨{ g with data_ := b1 }, ?_, hget⟩
    unfold set_ret
    rw [hn, hn2, hset]
    rfl
  · refine ⟨{ g with data_ := b1 }, ?_, hget⟩
    unfold set_ret_ij
    rw [if_neg (not_not.mpr rfl), if_neg (not_not.mpr hj), hn, hn2, hset]
    rfl

/-- Instance of the amended C8: writing a 2x2 matrix into retarded block 0 of
`sample_square` and reading it back. -/
theorem set_ret_get_ret_roundtrip_witness :
    (∃ g1, set_ret sample_square 0 [[⟨1, 1⟩, ⟨2, 2⟩], [⟨3, 3⟩, ⟨4, 4⟩]] = .ok g1 ∧
      get_ret g1 sample_square.tstp_ 0 = .ok [[⟨1, 1⟩, ⟨2, 2⟩], [⟨3, 3⟩, ⟨4, 4⟩]]) ∧
    (∃ g1, set_ret_ij sample_square sample_square.tstp_ 0
        [[⟨1, 1⟩, ⟨2, 2⟩], [⟨3, 3⟩, ⟨4, 4⟩]] = .ok g1 ∧
      get_ret g1 sample_square.tstp_ 0 = .ok [[⟨1, 1⟩, ⟨2, 2⟩], [⟨3, 3⟩, ⟨4, 4⟩]]) :=
  set_ret_get_ret_roundtrip sample_square (by decide) (by decide) (by decide) 0 (by decide)
    (by decide) [[⟨1, 1⟩, ⟨2, 2⟩], [⟨3, 3⟩, ⟨4, 4⟩]] (by decide)

/-- C8 fails as stated: on the 1x2 slice `sample_nonsquare`, `set_ret(0, M)` with the 1x2
matrix `M = (1 2)` followed by `get_ret(0, 0, M2)` yields the 1x1 matrix `M2 = (1)`. -/
theorem set_ret_get_ret_nonsquare_counterexample :
    Mat.has_shape [[⟨1, 0⟩, ⟨2, 0⟩]] sample_nonsquare.size1_.toNat
      sample_nonsquare.size2_.toNat ∧
    ∃ g1, set_ret sample_nonsquare 0 [[⟨1, 0⟩, ⟨2, 0⟩]] = .ok g1 ∧
      get_ret g1 sample_nonsquare.tstp_ 0 = .ok [[⟨1, 0⟩]] ∧
      get_ret g1 sample_nonsquare.tstp_ 0 ≠ .ok [[⟨1, 0⟩, ⟨2, 0⟩]] := by
  refine ⟨by decide,
    (⟨[⟨1, 0⟩, ⟨2, 0⟩, ⟨5, 6⟩, ⟨7, 8⟩, ⟨9, 1⟩, ⟨2, 3⟩], 0, 0, 1, 2, 2, 6, -1⟩ :
      herm_matrix_timestep), by decide, by decide, by decide⟩

/-! ## Conjugate symmetry of the retarded component -/

/-- C9 (as amended): on a scalar slice (`size1_ = 1`, `size2_ >= 1`) satisfying the storage
invariant, of any `sig_` (in particular `sig_ = -1`), for every `j` with `0 <= j <= tstp_`
and every complex `z`, `set_ret(tstp_, j, z)` succeeds and the swapped-order scalar read
`get_ret(j, tstp_, w)` then returns `w = -conj(z)` when `j < tstp_`; at `j = tstp_` the read
is not swapped and returns `w = z`. -/
theorem get_ret_swapped_scalar (g : herm_matrix_timestep) (hinv : storage_invariant g)
    (hd : dims_valid g) (h1 : g.size1_ = 1) (h2 : 1 ≤ g.size2_) (j : Int) (hj0 : 0 ≤ j)
    (hj : j ≤ g.tstp_) (z : cplx) :
    ∃ g1, set_ret_cplx g g.tstp_ j z = .ok g1 ∧
      get_ret_cplx g1 j g.tstp_ = .ok (if j = g.tstp_ then z else -(cplx.conj z)) := by
  obtain ⟨hx0, hx1⟩ := ret_block_in_range g hinv hd j hj0 hj
  have hlt : retptr g j < (g.data_.length : Int) := by
    rw [h1] at hx1
    omega
  have hpoke := poke_in_range g.data_ (retptr g j) z hx0 hlt
  refine ⟨{ g with data_ := g.data_.set (retptr g j).toNat z }, ?_, ?_⟩
  · unfold set_ret_cplx
    rw [if_neg (not_not.mpr ⟨rfl, hj⟩), hpoke]
    rfl
  · have hpeek : peek (g.data_.set (retptr g j).toNat z) (retptr g j) = .ok z :=
      peek_poke_same _ _ _ _ hpoke
    unfold get_ret_cplx
    rw [if_neg (not_not.mpr (Or.inr rfl))]
    by_cases hjt : j = g.tstp_
    · rw [if_pos hjt, if_pos hjt]
      subst hjt
      exact hpeek
    · rw [if_neg hjt, if_neg hjt]
      show (peek (g.data_.set (retptr g j).toNat z) (retptr g j)).bind _ = _
      rw [hpeek]
      rfl

/-- Instance of the amended C9 on `sample_scalar` (`tstp_ = 1`) at `j = 0`, `z = 1+2i`:
the swapped read returns `-1+2i`. -/
theorem get_ret_swapped_scalar_witness :
    ∃ g1, set_ret_cplx sample_scalar sample_scalar.tstp_ 0 ⟨1, 2⟩ = .ok g1 ∧
      get_ret_cplx g1 0 sample_scalar.tstp_ =
        .ok (if (0 : Int) = sample_scalar.tstp_ then ⟨1, 2⟩ else -(cplx.conj ⟨1, 2⟩)) :=
  get_ret_swapped_scalar sample_scalar (by decide) (by decide) (by decide) (by decide) 0
    (by decide) (by decide) ⟨1, 2⟩

/-- C9 fails as stated at `j = tstp`: on the scalar slice `sample_scalar` (`tstp_ = 1`,
`sig_ = -1`), after `set_ret(1, 1, 1+2i)` the read `get_ret(1, 1, w)` returns `w = 1+2i`,
which is not `-conj(1+2i) = -1+2i`. -/
theorem get_ret_swapped_scalar_counterexample :
    sample_scalar.size1_ = 1 ∧ sample_scalar.sig_ = -1 ∧ 0 ≤ sample_scalar.tstp_ ∧
    ∃ g1, set_ret_cplx sample_scalar sample_scalar.tstp_ 1 ⟨1, 2⟩ = .ok g1 ∧
      get_ret_cplx g1 1 sample_scalar.tstp_ = .ok ⟨1, 2⟩ ∧
      get_ret_cplx g1 1 sample_scalar.tstp_ ≠ .ok (-(cplx.conj ⟨1, 2⟩)) := by
  refine ⟨by decide, by decide, by decide,
    (⟨[0, ⟨1, 2⟩, 0, 0, 0], 1, 0, 1, 1, 1, 5, -1⟩ : herm_matrix_timestep), by decide,
    by decide, by decide⟩

theorem peek_in_range (b : List cplx) (i : Int) (h0 : 0 ≤ i) (h1 : i < b.length) :
    peek b i = .ok (b.getD i.toNat 0) := by
  unfold peek
  rw [if_pos ⟨h0, h1⟩]

theorem neg_conj_eq (w : cplx) : -(cplx.conj w) = ⟨-w.re, w.im⟩ := by
  show (⟨-w.re, -(-w.im)⟩ : cplx) = ⟨-w.re, w.im⟩
  rw [neg_neg]

theorem row_major_in_block (n r s : Nat) (hr : r < n) (hs : s < n) :
    0 ≤ (r : Int) * (n : Int) + (s : Int) ∧
      (r : Int) * (n : Int) + (s : Int) < (n : Int) * (n : Int) := by
  have h1 : ((r : Int) + 1) * (n : Int) ≤ (n : Int) * (n : Int) := by
    apply mul_le_mul_of_nonneg_right _ (Int.ofNat_nonneg n)
    omega
  have h2 : ((r : Int) + 1) * (n : Int) = (r : Int) * (n : Int) + (n : Int) := by ring
  have h3 : (0 : Int) ≤ (r : Int) * (n : Int) := by positivity
  constructor <;> omega

theorem read_element_minus_conj_spec (buf : List cplx) (x : Int) (n : Nat)
    (V : Nat → Nat → cplx)
    (h : ∀ r s, r < n → s < n →
      peek buf (x + ((r : Int) * (n : Int) + (s : Int))) = .ok (V r s)) :
    herm_matrix_READ_ELEMENT_MINUS_CONJ buf x (n : Int) =
      .ok ((List.range n).map (fun (r : Nat) =>
        (List.range n).map (fun (s : Nat) => -(cplx.conj (V s r))))) := by
  unfold herm_matrix_READ_ELEMENT_MINUS_CONJ
  simp only [Int.toNat_ofNat]
  apply mapE_eq_map
  intro r hr
  apply mapE_eq_map
  intro s hs
  rw [h s r (List.mem_range.mp hs) (List.mem_range.mp hr), except_bind_ok, neg_conj_eq]

theorem table_has_shape (n c : Nat) (f : Nat → Nat → cplx) :
    Mat.has_shape ((List.range n).map (fun (r : Nat) => (List.range c).map (fun (s : Nat) => f r s)))
      n c := by
  constructor
  · simp
  · intro row hrow
    obtain ⟨r, _, rfl⟩ := List.mem_map.mp hrow
    simp

theorem table_coeff (n c : Nat) (f : Nat → Nat → cplx) (r s : Nat) (hr : r < n) (hs : s < c) :
    Mat.coeff ((List.range n).map (fun (r : Nat) => (List.range c).map (fun (s : Nat) => f r s)))
      r s = .ok (f r s) := by
  unfold Mat.coeff
  simp [List.getElem?_map, List.getElem?_range hr, List.getElem?_range hs]

/-- C10: for every square slice satisfying the storage invariant with `tstp_ >= 0` and every
`i` with `0 <= i <= tstp_`, `get_ret_tstp_t(i, X)` and `get_ret_t_tstp(i, M)` succeed, both
matrices are `size1_ x size1_`, and `M(r,s) = -conj(X(s,r))` for all `r, s`.  In the scenario
`TimeSlice(tstp=2, ntau=3, size1=1, sig=-1)` with `R(2,0) = 1+2i`, `R(2,1) = 3+4i`,
`R(2,2) = 5+6i`, `get_ret_tstp_t(0)` gives `1+2i` and `get_ret_t_tstp(0)` gives `-1+2i`. -/
theorem get_ret_t_tstp_minus_conj_transpose :
    (∀ (g : herm_matrix_timestep), storage_invariant g → dims_valid g →
      g.size1_ = g.size2_ → ∀ i : Int, 0 ≤ i → i ≤ g.tstp_ →
      ∃ X M, get_ret_tstp_t g i = .ok X ∧ get_ret_t_tstp g i = .ok M ∧
        X.has_shape g.size1_.toNat g.size1_.toNat ∧
        M.has_shape g.size1_.toNat g.size1_.toNat ∧
        ∀ r s, r < g.size1_.toNat → s < g.size1_.toNat →
          ∃ w, X.coeff s r = .ok w ∧ M.coeff r s = .ok (-(cplx.conj w))) ∧
    scenario_slice.bind (fun g => get_ret_tstp_t g 0) = .ok [[⟨1, 2⟩]] ∧
    scenario_slice.bind (fun g => get_ret_t_tstp g 0) = .ok [[⟨-1, 2⟩]] := by
  refine ⟨?_, by decide, by decide⟩
  intro g hinv hd hsq i hi0 hi
  obtain ⟨hx0, hx1⟩ := ret_block_in_range g hinv hd i hi0 hi
  obtain ⟨n, hn⟩ := Int.eq_ofNat_of_zero_le hd.2.2.1
  rw [← hsq, hn] at hx1
  have hpeek : ∀ r s, r < n → s < n →
      peek g.data_ (retptr g i + ((r : Int) * (n : Int) + (s : Int))) =
        .ok (g.data_.getD (retptr g i + ((r : Int) * (n : Int) + (s : Int))).toNat 0) := by
    intro r s hr hs
    obtain ⟨hb0, hb1⟩ := row_major_in_block n r s hr hs
    exact peek_in_range _ _ (by omega) (by omega)
  unfold get_ret_tstp_t get_ret_t_tstp
  rw [hn, read_element_spec g.data_ (retptr g i) n _ hpeek,
    read_element_minus_conj_spec g.data_ (retptr g i) n _ hpeek]
  simp only [Int.toNat_ofNat]
  refine ⟨_, _, rfl, rfl, table_has_shape n n _, table_has_shape n n _, ?_⟩
  intro r s hr hs
  exact ⟨_, table_coeff n n _ s r hs hr, table_coeff n n _ r s hr hs⟩

/-- Instance of C10 at `sample_square`, `i = 0`. -/
theorem get_ret_t_tstp_minus_conj_transpose_witness :
    ∃ X M, get_ret_tstp_t sample_square 0 = .ok X ∧ get_ret_t_tstp sample_square 0 = .ok M ∧
      X.has_shape sample_square.size1_.toNat sample_square.size1_.toNat ∧
      M.has_shape sample_square.size1_.toNat sample_square.size1_.toNat ∧
      ∀ r s, r < sample_square.size1_.toNat → s < sample_square.size1_.toNat →
        ∃ w, X.coeff s r = .ok w ∧ M.coeff r s = .ok (-(cplx.conj w)) :=
  get_ret_t_tstp_minus_conj_transpose.1 sample_square (by decide) (by decide) (by decide) 0
    (by decide) (by decide)

/-! ## Lesser, mixing and Matsubara components -/

/-- Block number `k` (`0 <= k < (tstp_+1)*2 + (ntau_+1)`) lies inside the buffer. -/
theorem block_in_range (g : herm_matrix_timestep) (hinv : storage_invariant g)
    (hd : dims_valid g) (k : Int) (hk0 : 0 ≤ k)
    (hk : k < (g.tstp_ + 1) * 2 + (g.ntau_ + 1)) :
    0 ≤ k * g.element_size_ ∧
      k * g.element_size_ + g.size1_ * g.size2_ ≤ (g.data_.length : Int) := by
  obtain ⟨hes, _, hlen⟩ := hinv
  obtain ⟨_, _, h1, h2⟩ := hd
  have hes0 : 0 ≤ g.size1_ * g.size2_ := mul_nonneg h1 h2
  rw [hes, hlen, mul_assoc]
  constructor
  · exact mul_nonneg hk0 hes0
  · have hle : (k + 1) * (g.size1_ * g.size2_) ≤
        ((g.tstp_ + 1) * 2 + (g.ntau_ + 1)) * (g.size1_ * g.size2_) := by
      apply mul_le_mul_of_nonneg_right _ hes0
      omega
    have hexp : (k + 1) * (g.size1_ * g.size2_) =
        k * (g.size1_ * g.size2_) + g.size1_ * g.size2_ := by ring
    omega

/-- First entry of block number `k` of a slice with at least one entry per matrix. -/
theorem peek_block_start (g : herm_matrix_timestep) (hinv : storage_invariant g)
    (hd : dims_valid g) (h1 : 1 ≤ g.size1_) (h2 : 1 ≤ g.size2_) (k : Int) (hk0 : 0 ≤ k)
    (hk : k < (g.tstp_ + 1) * 2 + (g.ntau_ + 1)) :
    peek g.data_ (k * g.element_size_) =
      .ok (g.data_.getD (k * g.element_size_).toNat 0) := by
  obtain ⟨hx0, hx1⟩ := block_in_range g hinv hd k hk0 hk
  have hpos : 1 ≤ g.size1_ * g.size2_ := by nlinarith
  exact peek_in_range _ _ hx0 (by omega)

/-- C11 (as amended): on a scalar slice (`size1_ = 1`, `size2_ >= 1`) satisfying the storage
invariant with `tstp_ >= 0`, for every `j` with `0 <= j <= tstp_`, `get_les(j, tstp_, x)`
returns the stored value `l = L(t_j, tstp_)`, and `get_les(tstp_, j, x)` returns `-conj(l)`
when `j < tstp_`; at `j = tstp_` both calls are the same call and return `l`. -/
theorem get_les_swapped_scalar (g : herm_matrix_timestep) (hinv : storage_invariant g)
    (hd : dims_valid g) (h1 : g.size1_ = 1) (h2 : 1 ≤ g.size2_) (j : Int) (hj0 : 0 ≤ j)
    (hj : j ≤ g.tstp_) :
    ∃ l, peek g.data_ (lesptr g j) = .ok l ∧
      get_les_cplx g j g.tstp_ = .ok l ∧
      get_les_cplx g g.tstp_ j = .ok (if j = g.tstp_ then l else -(cplx.conj l)) := by
  have hn := hd.2.1
  have hpeek : peek g.data_ (lesptr g j) = .ok (g.data_.getD (lesptr g j).toNat 0) :=
    peek_block_start g hinv hd (by omega) h2 (g.tstp_ + 1 + g.ntau_ + 1 + j)
      (by omega) (by omega)
  refine ⟨_, hpeek, ?_, ?_⟩
  · unfold get_les_cplx
    rw [if_neg (not_not.mpr (Or.inr rfl)), if_pos rfl]
    exact hpeek
  · unfold get_les_cplx
    rw [if_neg (not_not.mpr (Or.inl rfl))]
    by_cases hjt : j = g.tstp_
    · rw [if_pos hjt, if_pos hjt]
      subst hjt
      exact hpeek
    · rw [if_neg hjt, if_neg hjt]
      rw [hpeek]
      rfl

/-- Instance of the amended C11 on `sample_scalar_filled` (`tstp_ = 1`) at `j = 0`. -/
theorem get_les_swapped_scalar_witness :
    ∃ l, peek sample_scalar_filled.data_ (lesptr sample_scalar_filled 0) = .ok l ∧
      get_les_cplx sample_scalar_filled 0 sample_scalar_filled.tstp_ = .ok l ∧
      get_les_cplx sample_scalar_filled sample_scalar_filled.tstp_ 0 =
        .ok (if (0 : Int) = sample_scalar_filled.tstp_ then l else -(cplx.conj l)) :=
  get_les_swapped_scalar sample_scalar_filled (by decide) (by decide) (by decide) (by decide) 0
    (by decide) (by decide)

/-- C11 fails as stated at `j = tstp`: on the scalar slice `sample_scalar_filled`
(`tstp_ = 1`, stored `L(t_1, 1) = 9+1i`) the read `get_les(1, 1, x)` returns `9+1i`, which is
not `-conj(9+1i) = -9+1i`. -/
theorem get_les_swapped_scalar_counterexample :
    sample_scalar_filled.size1_ = 1 ∧ 0 ≤ sample_scalar_filled.tstp_ ∧
    get_les_cplx sample_scalar_filled 1 sample_scalar_filled.tstp_ = .ok ⟨9, 1⟩ ∧
    get_les_cplx sample_scalar_filled sample_scalar_filled.tstp_ 1 = .ok ⟨9, 1⟩ ∧
    get_les_cplx sample_scalar_filled sample_scalar_filled.tstp_ 1 ≠
      .ok (-(cplx.conj ⟨9, 1⟩)) := by
  refine ⟨by decide, by decide, by decide, by decide, by decide⟩

/-- C12: on a scalar slice (`size1_ = 1`, `size2_ >= 1`) satisfying the storage invariant with
`tstp_ >= 0`, for every `i` with `0 <= i <= ntau_`, `get_vt(i, tstp_, x)` returns `conj(T)`
when `sig_ = -1` and `-conj(T)` otherwise (in particular when `sig_ = +1`), where `T` is the
stored left-mixing value at index `ntau_ - i`, the value `get_tv(tstp_, ntau_ - i, x)` reads. -/
theorem get_vt_scalar_derivation (g : herm_matrix_timestep) (hinv : storage_invariant g)
    (hd : dims_valid g) (h1 : g.size1_ = 1) (h2 : 1 ≤ g.size2_) (ht : 0 ≤ g.tstp_) (i : Int)
    (hi0 : 0 ≤ i) (hi : i ≤ g.ntau_) :
    ∃ T, peek g.data_ (tvptr g (g.ntau_ - i)) = .ok T ∧
      get_tv_cplx g g.tstp_ (g.ntau_ - i) = .ok T ∧
      (g.sig_ = -1 → get_vt_cplx g i g.tstp_ = .ok (cplx.conj T)) ∧
      (g.sig_ = 1 → get_vt_cplx g i g.tstp_ = .ok (-(cplx.conj T))) ∧
      get_vt_cplx g i g.tstp_ =
        .ok (if g.sig_ = -1 then cplx.conj T else -(cplx.conj T)) := by
  have hpeek : peek g.data_ (tvptr g (g.ntau_ - i)) =
      .ok (g.data_.getD (tvptr g (g.ntau_ - i)).toNat 0) :=
    peek_block_start g hinv hd (by omega) h2 (g.tstp_ + 1 + (g.ntau_ - i))
      (by omega) (by omega)
  have hvt : get_vt_cplx g i g.tstp_ =
      .ok (if g.sig_ = -1 then cplx.conj (g.data_.getD (tvptr g (g.ntau_ - i)).toNat 0)
        else -(cplx.conj (g.data_.getD (tvptr g (g.ntau_ - i)).toNat 0))) := by
    unfold get_vt_cplx
    rw [if_neg (not_not.mpr rfl)]
    rw [hpeek, except_bind_ok]
    split <;> rfl
  refine ⟨_, hpeek, ?_, ?_, ?_, hvt⟩
  · unfold get_tv_cplx
    rw [if_neg (not_not.mpr rfl)]
    exact hpeek
  · intro hs
    rw [hvt, if_pos hs]
  · intro hs
    rw [hvt, if_neg (by omega)]

/-- Instance of C12 on `sample_scalar_filled` at `i = 0`. -/
theorem get_vt_scalar_derivation_witness :
    ∃ T, peek sample_scalar_filled.data_
        (tvptr sample_scalar_filled (sample_scalar_filled.ntau_ - 0)) = .ok T ∧
      get_tv_cplx sample_scalar_filled sample_scalar_filled.tstp_
        (sample_scalar_filled.ntau_ - 0) = .ok T ∧
      (sample_scalar_filled.sig_ = -1 →
        get_vt_cplx sample_scalar_filled 0 sample_scalar_filled.tstp_ = .ok (cplx.conj T)) ∧
      (sample_scalar_filled.sig_ = 1 →
        get_vt_cplx sample_scalar_filled 0 sample_scalar_filled.tstp_ =
          .ok (-(cplx.conj T))) ∧
      get_vt_cplx sample_scalar_filled 0 sample_scalar_filled.tstp_ =
        .ok (if sample_scalar_filled.sig_ = -1 then cplx.conj T else -(cplx.conj T)) :=
  get_vt_scalar_derivation sample_scalar_filled (by decide) (by decide) (by decide)
    (by decide) (by decide) 0 (by decide) (by decide)

/-! ## Matrices given by their coefficients -/

theorem of_fn_has_shape (n c : Nat) (f : Nat → Nat → cplx) :
    (Mat.of_fn n c f).has_shape n c :=
  table_has_shape n c f

theorem of_fn_coeff (n c : Nat) (f : Nat → Nat → cplx) (r s : Nat) (hr : r < n) (hs : s < c) :
    (Mat.of_fn n c f).coeff r s = .ok (f r s) :=
  table_coeff n c f r s hr hs

theorem of_fn_entry (n c : Nat) (f : Nat → Nat → cplx) (r s : Nat) (hr : r < n) (hs : s < c) :
    (Mat.of_fn n c f).entry r s = f r s := by
  unfold Mat.of_fn Mat.entry
  simp [List.getD_eq_getElem?_getD, List.getElem?_map, List.getElem?_range hr,
    List.getElem?_range hs]

theorem of_fn_congr (n c : Nat) (f h : Nat → Nat → cplx)
    (hfh : ∀ r s, r < n → s < c → f r s = h r s) : Mat.of_fn n c f = Mat.of_fn n c h := by
  unfold Mat.of_fn
  apply List.map_congr_left
  intro r hr
  apply List.map_congr_left
  intro s hs
  exact hfh r s (List.mem_range.mp hr) (List.mem_range.mp hs)

theorem of_fn_nrows (n c : Nat) (f : Nat → Nat → cplx) : (Mat.of_fn n c f).nrows = n := by
  unfold Mat.of_fn Mat.nrows
  simp

theorem of_fn_ncols_square (n : Nat) (f : Nat → Nat → cplx) :
    (Mat.of_fn n n f).ncols = n := by
  unfold Mat.of_fn Mat.ncols
  cases n with
  | zero => rfl
  | succ m => simp [List.range_succ_eq_map]

theorem of_fn_map (n c : Nat) (f : Nat → Nat → cplx) (φ : cplx → cplx) :
    (Mat.of_fn n c f).map (fun row => row.map φ) = Mat.of_fn n c (fun r s => φ (f r s)) := by
  unfold Mat.of_fn
  simp [List.map_map, Function.comp]

theorem add_of_fn (n : Nat) (f h : Nat → Nat → cplx) :
    Mat.add (Mat.of_fn n n f) (Mat.of_fn n n h) = Mat.of_fn n n (fun r s => f r s + h r s) := by
  unfold Mat.add
  rw [of_fn_nrows, of_fn_ncols_square]
  apply of_fn_congr
  intro r s hr hs
  rw [of_fn_entry n n f r s hr hs, of_fn_entry n n h r s hr hs]

theorem adjoint_of_fn (n : Nat) (f : Nat → Nat → cplx) :
    Mat.adjoint (Mat.of_fn n n f) = Mat.of_fn n n (fun r s => cplx.conj (f s r)) := by
  unfold Mat.adjoint
  rw [of_fn_nrows, of_fn_ncols_square]
  apply of_fn_congr
  intro r s hr hs
  rw [of_fn_entry n n f s r hs hr]

theorem neg_of_fn (n c : Nat) (f : Nat → Nat → cplx) :
    Mat.neg (Mat.of_fn n c f) = Mat.of_fn n c (fun r s => -(f r s)) :=
  of_fn_map n c f (fun z => -z)

theorem smul_neg_one (M : Mat) : Mat.smul (-1) M = Mat.neg M := by
  unfold Mat.smul Mat.neg
  apply List.map_congr_left
  intro row _
  apply List.map_congr_left
  intro z _
  show (⟨-1 * z.re, -1 * z.im⟩ : cplx) = ⟨-z.re, -z.im⟩
  rw [neg_one_mul, neg_one_mul]

theorem smul_one (M : Mat) : Mat.smul 1 M = M := by
  unfold Mat.smul
  have hz : ∀ z : cplx, cplx.smul 1 z = z := by
    intro z
    show (⟨1 * z.re, 1 * z.im⟩ : cplx) = z
    rw [one_mul, one_mul]
  have hrow : ∀ row : List cplx, row.map (fun z => cplx.smul 1 z) = row := by
    intro row
    rw [List.map_congr_left (fun z _ => hz z), List.map_id']
  rw [List.map_congr_left (fun row _ => hrow row), List.map_id']

/-! ## Reading whole blocks of a square slice -/

/-- Entries of block number `k` of a square slice are inside the buffer. -/
theorem peek_block_entry (g : herm_matrix_timestep) (hinv : storage_invariant g)
    (hd : dims_valid g) (hsq : g.size1_ = g.size2_) (k : Int) (hk0 : 0 ≤ k)
    (hk : k < (g.tstp_ + 1) * 2 + (g.ntau_ + 1)) (r s : Nat) (hr : r < g.size1_.toNat)
    (hs : s < g.size1_.toNat) :
    peek g.data_ (k * g.element_size_ + ((r : Int) * g.size1_ + (s : Int))) =
      .ok (stored_coeff g (k * g.element_size_) r s) := by
  obtain ⟨hx0, hx1⟩ := block_in_range g hinv hd k hk0 hk
  obtain ⟨n, hn⟩ := Int.eq_ofNat_of_zero_le hd.2.2.1
  rw [← hsq, hn] at hx1
  rw [hn] at hr hs ⊢
  simp only [Int.toNat_ofNat] at hr hs
  obtain ⟨hb0, hb1⟩ := row_major_in_block n r s hr hs
  unfold stored_coeff
  rw [hn]
  exact peek_in_range _ _ (by omega) (by omega)

theorem read_block (g : herm_matrix_timestep) (hinv : storage_invariant g)
    (hd : dims_valid g) (hsq : g.size1_ = g.size2_) (k : Int) (hk0 : 0 ≤ k)
    (hk : k < (g.tstp_ + 1) * 2 + (g.ntau_ + 1)) :
    herm_matrix_READ_ELEMENT g.data_ (k * g.element_size_) g.size1_ =
      .ok (Mat.of_fn g.size1_.toNat g.size1_.toNat (stored_coeff g (k * g.element_size_))) := by
  have hpeek := peek_block_entry g hinv hd hsq k hk0 hk
  obtain ⟨n, hn⟩ := Int.eq_ofNat_of_zero_le hd.2.2.1
  rw [hn] at hpeek ⊢
  simp only [Int.toNat_ofNat] at hpeek ⊢
  exact read_element_spec g.data_ _ n _ hpeek

theorem read_block_minus_conj (g : herm_matrix_timestep) (hinv : storage_invariant g)
    (hd : dims_valid g) (hsq : g.size1_ = g.size2_) (k : Int) (hk0 : 0 ≤ k)
    (hk : k < (g.tstp_ + 1) * 2 + (g.ntau_ + 1)) :
    herm_matrix_READ_ELEMENT_MINUS_CONJ g.data_ (k * g.element_size_) g.size1_ =
      .ok (Mat.of_fn g.size1_.toNat g.size1_.toNat
        (fun r s => -(cplx.conj (stored_coeff g (k * g.element_size_) s r)))) := by
  have hpeek := peek_block_entry g hinv hd hsq k hk0 hk
  obtain ⟨n, hn⟩ := Int.eq_ofNat_of_zero_le hd.2.2.1
  rw [hn] at hpeek ⊢
  simp only [Int.toNat_ofNat] at hpeek ⊢
  exact read_element_minus_conj_spec g.data_ _ n _ hpeek

/-! ## Matsubara time reversal and the greater component -/

/-- C13 (as amended): for every slice satisfying the storage invariant with `tstp_ = -1`,
`sig_` in `{-1, +1}` and every `i` with `0 <= i <= ntau_`: if the slice has at least one
entry per matrix, the scalar `get_matminus(i, x)` returns `sig_ * m`, where `m` is the stored
scalar `get_mat(ntau_ - i, x)` reads; if the slice is square, the matrix forms
`get_matminus(i, M)` and `get_matminus(i, M, sig)` with `sig = sig_` return `sig_ * A`, where
`A` is the stored matrix `get_mat(ntau_ - i, M)` reads. -/
theorem get_matminus_time_reversal (g : herm_matrix_timestep) (hinv : storage_invariant g)
    (hd : dims_valid g) (ht : g.tstp_ = -1) (hsig : g.sig_ = -1 ∨ g.sig_ = 1) (i : Int)
    (hi0 : 0 ≤ i) (hi : i ≤ g.ntau_) :
    (1 ≤ g.size1_ → 1 ≤ g.size2_ →
      ∃ m, get_mat_cplx g (g.ntau_ - i) = .ok m ∧
        get_matminus_cplx g i = .ok (cplx.smul (g.sig_ : ℚ) m)) ∧
    (g.size1_ = g.size2_ →
      ∃ A, get_mat g (g.ntau_ - i) = .ok A ∧
        get_matminus g i = .ok (Mat.smul (g.sig_ : ℚ) A) ∧
        get_matminus_sig g i g.sig_ = .ok (Mat.smul (g.sig_ : ℚ) A)) := by
  constructor
  · intro h1 h2
    have hpeek : peek g.data_ (matptr g (g.ntau_ - i)) =
        .ok (g.data_.getD (matptr g (g.ntau_ - i)).toNat 0) :=
      peek_block_start g hinv hd h1 h2 (g.ntau_ - i) (by omega) (by omega)
    refine ⟨g.data_.getD (matptr g (g.ntau_ - i)).toNat 0, ?_, ?_⟩
    · unfold get_mat_cplx
      rw [if_neg (not_not.mpr ht)]
      exact hpeek
    · unfold get_matminus_cplx
      rw [if_neg (not_not.mpr ht), hpeek, except_bind_ok]
      rcases hsig with hs | hs
      · rw [if_pos hs, hs]
        apply congrArg Except.ok
        show (⟨-_, -_⟩ : cplx) = ⟨_ * _, _ * _⟩
        push_cast
        rw [neg_one_mul, neg_one_mul]
      · rw [if_neg (by omega), hs]
        apply congrArg Except.ok
        show _ = (⟨_ * _, _ * _⟩ : cplx)
        push_cast
        rw [one_mul, one_mul]
  · intro hsq
    have hread := read_block g hinv hd hsq (g.ntau_ - i) (by omega) (by omega)
    have hmm : ∀ sig : Int, sig = g.sig_ →
        (herm_matrix_READ_ELEMENT g.data_ (matptr g (g.ntau_ - i)) g.size1_).bind
          (fun M => if sig = -1 then .ok (Mat.neg M) else .ok M) =
        .ok (Mat.smul (g.sig_ : ℚ) (Mat.of_fn g.size1_.toNat g.size1_.toNat
          (stored_coeff g ((g.ntau_ - i) * g.element_size_)))) := by
      intro sig hsg
      subst hsg
      unfold matptr
      rw [hread, except_bind_ok]
      rcases hsig with hs | hs
      · rw [if_pos hs, hs]
        push_cast
        rw [smul_neg_one]
      · rw [if_neg (by omega), hs]
        push_cast
        rw [smul_one]
    exact ⟨_, hread, hmm g.sig_ rfl, hmm g.sig_ rfl⟩

/-- Instance of the amended C13 on the 2x2 Matsubara slice `sample_mat_square` at `i = 0`. -/
theorem get_matminus_time_reversal_witness :
    (1 ≤ sample_mat_square.size1_ → 1 ≤ sample_mat_square.size2_ →
      ∃ m, get_mat_cplx sample_mat_square (sample_mat_square.ntau_ - 0) = .ok m ∧
        get_matminus_cplx sample_mat_square 0 =
          .ok (cplx.smul (sample_mat_square.sig_ : ℚ) m)) ∧
    (sample_mat_square.size1_ = sample_mat_square.size2_ →
      ∃ A, get_mat sample_mat_square (sample_mat_square.ntau_ - 0) = .ok A ∧
        get_matminus sample_mat_square 0 = .ok (Mat.smul (sample_mat_square.sig_ : ℚ) A) ∧
        get_matminus_sig sample_mat_square 0 sample_mat_square.sig_ =
          .ok (Mat.smul (sample_mat_square.sig_ : ℚ) A)) :=
  get_matminus_time_reversal sample_mat_square (by decide) (by decide) (by decide)
    (by decide) 0 (by decide) (by decide)

/-- C13 fails as stated on a non-square slice: on the 1x2 Matsubara slice
`sample_mat_nonsquare` (`tstp_ = -1`, `sig_ = -1`), after `set_mat(0, M)` with the 1x2 matrix
`M = (1 2)` the matrix read `get_matminus(0, M2)` returns the 1x1 matrix `(-1)`, not
`sig_ * M = (-1 -2)`. -/
theorem get_matminus_nonsquare_counterexample :
    sample_mat_nonsquare.tstp_ = -1 ∧ sample_mat_nonsquare.sig_ = -1 ∧
    ∃ g1, set_mat sample_mat_nonsquare 0 [[⟨1, 0⟩, ⟨2, 0⟩]] = .ok g1 ∧
      get_matminus g1 0 = .ok [[⟨-1, 0⟩]] ∧
      get_matminus g1 0 ≠ .ok (Mat.smul (-1) [[⟨1, 0⟩, ⟨2, 0⟩]]) := by
  refine ⟨by decide, by decide,
    (⟨[⟨1, 0⟩, ⟨2, 0⟩], -1, 0, 1, 2, 2, 2, -1⟩ : herm_matrix_timestep), by decide,
    by decide, by decide!⟩

/-- C14: for every square slice satisfying the storage invariant with `tstp_ >= 0` and every
`i` with `0 <= i <= tstp_`, `get_gtr_tstp_t(i, M)` succeeds and returns the matrix sum of the
results of `get_ret_tstp_t(i, .)` and `get_les_tstp_t(i, .)`, and `get_gtr_t_tstp(i, M)`
the matrix sum of the results of `get_ret_t_tstp(i, .)` and `get_les_t_tstp(i, .)`; the sums
are `size1_ x size1_` and formed coefficient by coefficient. -/
theorem get_gtr_is_ret_plus_les (g : herm_matrix_timestep) (hinv : storage_invariant g)
    (hd : dims_valid g) (hsq : g.size1_ = g.size2_) (i : Int) (hi0 : 0 ≤ i)
    (hi : i ≤ g.tstp_) :
    (∃ R L G, get_ret_tstp_t g i = .ok R ∧ get_les_tstp_t g i = .ok L ∧
      get_gtr_tstp_t g i = .ok G ∧ G = Mat.add R L ∧
      G.has_shape g.size1_.toNat g.size1_.toNat ∧
      ∀ r s, r < g.size1_.toNat → s < g.size1_.toNat →
        ∃ a b, R.coeff r s = .ok a ∧ L.coeff r s = .ok b ∧ G.coeff r s = .ok (a + b)) ∧
    (∃ R L G, get_ret_t_tstp g i = .ok R ∧ get_les_t_tstp g i = .ok L ∧
      get_gtr_t_tstp g i = .ok G ∧ G = Mat.add R L ∧
      G.has_shape g.size1_.toNat g.size1_.toNat ∧
      ∀ r s, r < g.size1_.toNat → s < g.size1_.toNat →
        ∃ a b, R.coeff r s = .ok a ∧ L.coeff r s = .ok b ∧ G.coeff r s = .ok (a + b)) := by
  have hn := hd.2.1
  have hR := read_block g hinv hd hsq i hi0 (by omega)
  have hRc := read_block_minus_conj g hinv hd hsq i hi0 (by omega)
  have hL := read_block g hinv hd hsq (g.tstp_ + 1 + g.ntau_ + 1 + i) (by omega) (by omega)
  have hLc := read_block_minus_conj g hinv hd hsq (g.tstp_ + 1 + g.ntau_ + 1 + i) (by omega)
    (by omega)
  constructor
  · refine ⟨_, _, _, hR, hLc, ?_, rfl, ?_, ?_⟩
    · unfold get_gtr_tstp_t get_ret_tstp_t get_les_tstp_t retptr lesptr
      rw [hR, hLc, except_bind_ok, except_bind_ok]
    · rw [add_of_fn]
      exact of_fn_has_shape _ _ _
    · intro r s hr hs
      rw [add_of_fn]
      exact ⟨_, _, of_fn_coeff _ _ _ r s hr hs, of_fn_coeff _ _ _ r s hr hs,
        of_fn_coeff _ _ _ r s hr hs⟩
  · refine ⟨_, _, _, hRc, hL, ?_, rfl, ?_, ?_⟩
    · unfold get_gtr_t_tstp get_ret_t_tstp get_les_t_tstp retptr lesptr
      rw [hRc, hL, except_bind_ok, except_bind_ok]
    · rw [add_of_fn]
      exact of_fn_has_shape _ _ _
    · intro r s hr hs
      rw [add_of_fn]
      exact ⟨_, _, of_fn_coeff _ _ _ r s hr hs, of_fn_coeff _ _ _ r s hr hs,
        of_fn_coeff _ _ _ r s hr hs⟩

/-- Instance of C14 on `sample_square` at `i = 0`. -/
theorem get_gtr_is_ret_plus_les_witness :
    ∃ R L G, get_ret_tstp_t sample_square 0 = .ok R ∧ get_les_tstp_t sample_square 0 = .ok L ∧
      get_gtr_tstp_t sample_square 0 = .ok G ∧ G = Mat.add R L ∧
      G.has_shape sample_square.size1_.toNat sample_square.size1_.toNat ∧
      ∀ r s, r < sample_square.size1_.toNat → s < sample_square.size1_.toNat →
        ∃ a b, R.coeff r s = .ok a ∧ L.coeff r s = .ok b ∧ G.coeff r s = .ok (a + b) :=
  (get_gtr_is_ret_plus_les sample_square (by decide) (by decide) (by decide) 0 (by decide)
    (by decide)).1

/-! ## Density matrix -/

theorem cplx_eq_of_parts (a b c d : ℚ) (h1 : a = c) (h2 : b = d) :
    (⟨a, b⟩ : cplx) = ⟨c, d⟩ := by
  rw [h1, h2]

theorem i_sig_mul (sig : ℚ) (l : cplx) :
    (⟨0, sig⟩ : cplx) * l = (⟨0, 1⟩ : cplx) * cplx.smul sig l := by
  show (⟨0 * l.re - sig * l.im, 0 * l.im + sig * l.re⟩ : cplx) =
    ⟨0 * (sig * l.re) - 1 * (sig * l.im), 0 * (sig * l.im) + 1 * (sig * l.re)⟩
  apply cplx_eq_of_parts <;> ring

/-- C17: on a scalar slice (`size1_ = 1`, `size2_ >= 1`) satisfying the storage invariant,
`density_matrix(tstp)` called with the own `tstp_` returns `-m` when `tstp_ = -1`, where `m`
is the stored Matsubara value at index `ntau_`, and `i * sig_ * l` when `tstp_ >= 0`, where
`l` is the stored lesser value at index `tstp_`; `density_matrix(tstp, rho)` leaves the same
value in `rho`. -/
theorem density_matrix_scalar (g : herm_matrix_timestep) (hinv : storage_invariant g)
    (hd : dims_valid g) (h1 : g.size1_ = 1) (h2 : 1 ≤ g.size2_) :
    (g.tstp_ = -1 →
      ∃ m, peek g.data_ (matptr g g.ntau_) = .ok m ∧
        density_matrix g g.tstp_ = .ok (-m) ∧ density_matrix_rho g g.tstp_ = .ok (-m)) ∧
    (0 ≤ g.tstp_ →
      ∃ l, peek g.data_ (lesptr g g.tstp_) = .ok l ∧
        density_matrix g g.tstp_ = .ok ((⟨0, 1⟩ : cplx) * cplx.smul (g.sig_ : ℚ) l) ∧
        density_matrix_rho g g.tstp_ = .ok ((⟨0, 1⟩ : cplx) * cplx.smul (g.sig_ : ℚ) l)) := by
  have hn := hd.2.1
  constructor
  · intro ht
    have hpeek : peek g.data_ (matptr g g.ntau_) =
        .ok (g.data_.getD (matptr g g.ntau_).toNat 0) :=
      peek_block_start g hinv hd (by omega) h2 g.ntau_ (by omega) (by omega)
    have hmat : get_mat_cplx g g.ntau_ = .ok (g.data_.getD (matptr g g.ntau_).toNat 0) := by
      unfold get_mat_cplx
      rw [if_neg (not_not.mpr ht)]
      exact hpeek
    refine ⟨_, hpeek, ?_, ?_⟩
    · unfold density_matrix
      rw [if_neg (not_not.mpr rfl), if_pos ht, hmat]
      rfl
    · unfold density_matrix_rho
      rw [if_neg (not_not.mpr rfl), if_pos ht, hmat]
      rfl
  · intro ht
    have hpeek : peek g.data_ (lesptr g g.tstp_) =
        .ok (g.data_.getD (lesptr g g.tstp_).toNat 0) :=
      peek_block_start g hinv hd (by omega) h2 (g.tstp_ + 1 + g.ntau_ + 1 + g.tstp_)
        (by omega) (by omega)
    have hles : get_les_cplx g g.tstp_ g.tstp_ =
        .ok (g.data_.getD (lesptr g g.tstp_).toNat 0) := by
      unfold get_les_cplx
      rw [if_neg (not_not.mpr (Or.inl rfl)), if_pos rfl]
      exact hpeek
    refine ⟨_, hpeek, ?_, ?_⟩
    · unfold density_matrix
      rw [if_neg (not_not.mpr rfl), if_neg (by omega), hles, except_bind_ok, i_sig_mul]
    · unfold density_matrix_rho
      rw [if_neg (not_not.mpr rfl), if_neg (by omega), hles, except_bind_ok, i_sig_mul]

/-- Instance of C17 on `sample_scalar_filled` (`tstp_ = 1`). -/
theorem density_matrix_scalar_witness :
    ∃ l, peek sample_scalar_filled.data_
        (lesptr sample_scalar_filled sample_scalar_filled.tstp_) = .ok l ∧
      density_matrix sample_scalar_filled sample_scalar_filled.tstp_ =
        .ok ((⟨0, 1⟩ : cplx) * cplx.smul (sample_scalar_filled.sig_ : ℚ) l) ∧
      density_matrix_rho sample_scalar_filled sample_scalar_filled.tstp_ =
        .ok ((⟨0, 1⟩ : cplx) * cplx.smul (sample_scalar_filled.sig_ : ℚ) l) :=
  (density_matrix_scalar sample_scalar_filled (by decide) (by decide) (by decide)
    (by decide)).2 (by decide)

/-- C18, what the code does: on every square slice satisfying the storage invariant with
`tstp_ >= 0`, the matrix-valued `density_matrix(M)` and `density_matrix(tstp_, M)` return
`(-L^dagger) * (i * sig_)`, where `L` is the matrix `get_les(tstp_, tstp_, .)` returns; on
the scalar slice `sample_scalar_filled` (`L(1,1) = 9+1i`, `sig_ = -1`) they return `1+9i`,
while `i * sig_ * L` and the scalar `density_matrix(1)` are `1-9i`. -/
theorem density_matrix_mat_uses_minus_adjoint :
    (∀ g : herm_matrix_timestep, storage_invariant g → dims_valid g → g.size1_ = g.size2_ →
      0 ≤ g.tstp_ →
      ∃ L, get_les g g.tstp_ g.tstp_ = .ok L ∧
        density_matrix_mat g =
          .ok (Mat.mul_cplx (Mat.neg (Mat.adjoint L)) ⟨0, 1 * (g.sig_ : ℚ)⟩) ∧
        density_matrix_tstp_mat g g.tstp_ =
          .ok (Mat.mul_cplx (Mat.neg (Mat.adjoint L)) ⟨0, 1 * (g.sig_ : ℚ)⟩)) ∧
    get_les sample_scalar_filled 1 1 = .ok [[⟨9, 1⟩]] ∧
    Mat.mul_cplx [[⟨9, 1⟩]] ⟨0, ((-1 : Int) : ℚ)⟩ = [[⟨1, -9⟩]] ∧
    density_matrix sample_scalar_filled 1 = .ok ⟨1, -9⟩ ∧
    density_matrix_mat sample_scalar_filled = .ok [[⟨1, 9⟩]] ∧
    density_matrix_tstp_mat sample_scalar_filled 1 = .ok [[⟨1, 9⟩]] := by
  refine ⟨?_, by decide, by decide!, by decide!, by decide!, by decide!⟩
  intro g hinv hd hsq ht
  have hn := hd.2.1
  have hL := read_block g hinv hd hsq (g.tstp_ + 1 + g.ntau_ + 1 + g.tstp_) (by omega)
    (by omega)
  have hLc := read_block_minus_conj g hinv hd hsq (g.tstp_ + 1 + g.ntau_ + 1 + g.tstp_)
    (by omega) (by omega)
  have hles : get_les g g.tstp_ g.tstp_ = .ok (Mat.of_fn g.size1_.toNat g.size1_.toNat
      (stored_coeff g ((g.tstp_ + 1 + g.ntau_ + 1 + g.tstp_) * g.element_size_))) := by
    unfold get_les
    rw [if_neg (not_not.mpr ⟨rfl, le_refl _⟩)]
    exact hL
  have hlt : get_les_tstp_t g g.tstp_ = .ok (Mat.neg (Mat.adjoint
      (Mat.of_fn g.size1_.toNat g.size1_.toNat
        (stored_coeff g ((g.tstp_ + 1 + g.ntau_ + 1 + g.tstp_) * g.element_size_))))) := by
    unfold get_les_tstp_t lesptr
    rw [hLc, adjoint_of_fn, neg_of_fn]
  refine ⟨_, hles, ?_, ?_⟩
  · unfold density_matrix_mat
    rw [if_neg (by omega), hlt, except_bind_ok]
  · unfold density_matrix_tstp_mat
    rw [if_neg (not_not.mpr rfl), if_neg (by omega), hlt, except_bind_ok]

/-! ## Hermitian projection of the Matsubara block -/

theorem update_has_shape (M : Mat) (n c r s : Nat) (v : cplx) (hM : M.has_shape n c) :
    (M.update r s v).has_shape n c := by
  obtain ⟨hlen, hrows⟩ := hM
  unfold Mat.update
  constructor
  · rw [List.length_set, hlen]
  · intro row hrow
    by_cases hr : r < M.length
    · rcases List.mem_or_eq_of_mem_set hrow with h | h
      · exact hrows row h
      · rw [h, List.length_set]
        apply hrows
        rw [List.getD_eq_getElem?_getD, List.getElem?_eq_getElem hr]
        exact List.getElem_mem hr
    · rw [List.set_eq_of_length_le (not_lt.mp hr)] at hrow
      exact hrows row hrow

theorem foldl_has_shape {α : Type} (n c : Nat) (f : Mat → α → Mat)
    (hf : ∀ t a, t.has_shape n c → (f t a).has_shape n c) (l : List α) :
    ∀ t : Mat, t.has_shape n c → (l.foldl f t).has_shape n c := by
  induction l with
  | nil => intro t ht; exact ht
  | cons a l ih => intro t ht; exact ih (f t a) (hf t a ht)

theorem herm_average_has_shape (n : Nat) (M : Mat) (hM : M.has_shape n n) :
    (herm_average M).has_shape n n := by
  unfold herm_average
  apply foldl_has_shape n n _ _ _ M hM
  intro t s ht
  apply foldl_has_shape n n _ _ _ t ht
  intro t1 r ht1
  exact update_has_shape t1 n n r s _ ht1

theorem loopE_fixed {σ α : Type} (body : σ → α → Except Fault σ) (st : σ) (l : List α)
    (h : ∀ a ∈ l, body st a = .ok st) : loopE body st l = .ok st := by
  induction l with
  | nil => rfl
  | cons a l ih =>
    simp only [loopE]
    rw [h a (List.mem_cons_self a l)]
    exact ih (fun x hx => h x (List.mem_cons_of_mem a hx))

theorem peek_eq_getD (b : List cplx) (idx : Int) (v : cplx) (h : peek b idx = .ok v) :
    v = b.getD idx.toNat 0 := by
  unfold peek at h
  split at h
  · cases h
    rfl
  · cases h

theorem eq_of_peek_eq (b b1 : List cplx) (hlen : b1.length = b.length)
    (h : ∀ idx : Int, peek b1 idx = peek b idx) : b1 = b := by
  apply List.ext_getElem hlen
  intro k h1 h2
  have hk := h (k : Int)
  rw [peek_in_range b1 (k : Int) (Int.ofNat_nonneg k) (by exact_mod_cast h1),
    peek_in_range b (k : Int) (Int.ofNat_nonneg k) (by exact_mod_cast h2)] at hk
  have hv := Except.ok.inj hk
  simpa [List.getD_eq_getElem?_getD, List.getElem?_eq_getElem h1,
    List.getElem?_eq_getElem h2] using hv

/-- Every index of a block of `n*n` entries is `r*n + s` for some `r, s < n`. -/
theorem block_index_decompose (n : Nat) (x idx : Int) (h0 : x ≤ idx)
    (h1 : idx < x + (n : Int) * (n : Int)) :
    ∃ r s, r < n ∧ s < n ∧ idx = x + ((r : Int) * (n : Int) + (s : Int)) := by
  obtain ⟨d, hd⟩ := Int.eq_ofNat_of_zero_le (by omega : 0 ≤ idx - x)
  have hdn : d < n * n := by
    have : (d : Int) < (n : Int) * (n : Int) := by omega
    exact_mod_cast this
  have hnpos : 0 < n := by
    rcases Nat.eq_zero_or_pos n with h | h
    · subst h; simp at hdn
    · exact h
  refine ⟨d / n, d % n, (Nat.div_lt_iff_lt_mul hnpos).mpr hdn, Nat.mod_lt d hnpos, ?_⟩
  have hdm : (d : Int) = ((d / n : Nat) : Int) * (n : Int) + ((d % n : Nat) : Int) := by
    have := Nat.div_add_mod d n
    have h2 : n * (d / n) = d / n * n := Nat.mul_comm _ _
    exact_mod_cast (by omega : d = d / n * n + d % n)
  omega

/-- One pass of the loop body of `set_mat_herm` on block `i` whose entries are `V`. -/
theorem herm_step_spec (g : herm_matrix_timestep) (n : Nat) (hn1 : g.size1_ = (n : Int))
    (hn2 : g.size2_ = (n : Int)) (i : Nat) (hi : (i : Int) ≤ g.ntau_)
    (hx0 : 0 ≤ matptr g (i : Int))
    (hx1 : matptr g (i : Int) + (n : Int) * (n : Int) ≤ (g.data_.length : Int))
    (V : Nat → Nat → cplx)
    (hV : ∀ r s, r < n → s < n →
      peek g.data_ (matptr g (i : Int) + ((r : Int) * (n : Int) + (s : Int))) = .ok (V r s)) :
    ∃ b1, set_mat_herm_step g i = .ok { g with data_ := b1 } ∧
      b1.length = g.data_.length ∧
      (∀ r s, r < n → s < n →
        peek b1 (matptr g (i : Int) + ((r : Int) * (n : Int) + (s : Int))) =
          .ok ((herm_average (Mat.of_fn n n V)).entry r s)) ∧
      (∀ idx : Int, (idx < matptr g (i : Int) ∨
          matptr g (i : Int) + (n : Int) * (n : Int) ≤ idx) →
        peek b1 idx = peek g.data_ idx) := by
  have hget : get_mat g (i : Int) = .ok (Mat.of_fn n n V) := by
    unfold get_mat
    rw [hn1]
    exact read_element_spec g.data_ _ n V hV
  obtain ⟨b1, hset, hlen, hin, hout⟩ :=
    set_element_matrix_spec (herm_average (Mat.of_fn n n V)) n n
      (herm_average_has_shape n _ (of_fn_has_shape n n V)) (matptr g (i : Int)) hx0
      g.data_ hx1
  refine ⟨b1, ?_, hlen, hin, hout⟩
  · unfold set_mat_herm_step
    rw [hget, except_bind_ok]
    unfold set_mat
    rw [if_neg (not_not.mpr hi), hn1, hn2, hset]
    rfl

theorem with_own_data (g : herm_matrix_timestep) : { g with data_ := g.data_ } = g := by
  cases g
  rfl

/-- State of the buffer after the first `m` passes of the loop of `set_mat_herm` on a square
Matsubara slice: blocks `0..m-1` hold the result of the averaging assignment, everything from
block `m` on is as it was. -/
theorem set_mat_herm_loop (g : herm_matrix_timestep) (hinv : storage_invariant g)
    (hd : dims_valid g) (hsq : g.size1_ = g.size2_) (ht : g.tstp_ = -1) (n : Nat)
    (hn1 : g.size1_ = (n : Int)) :
    ∀ m : Nat, (m : Int) ≤ g.ntau_ →
      ∃ b, loopE set_mat_herm_step g (List.range m) = .ok { g with data_ := b } ∧
        b.length = g.data_.length ∧
        (∀ i r s, i < m → r < n → s < n →
          peek b ((i : Int) * g.element_size_ + ((r : Int) * (n : Int) + (s : Int))) =
            .ok ((herm_average
              (Mat.of_fn n n (stored_coeff g ((i : Int) * g.element_size_)))).entry r s)) ∧
        (∀ idx : Int, (m : Int) * g.element_size_ ≤ idx → peek b idx = peek g.data_ idx) := by
  have hn2 : g.size2_ = (n : Int) := by rw [← hsq, hn1]
  have hE : g.element_size_ = (n : Int) * (n : Int) := by rw [hinv.1, hn1, hn2]
  have hE0 : 0 ≤ g.element_size_ := by rw [hE]; positivity
  have htn : g.size1_.toNat = n := by rw [hn1]; simp
  intro m
  induction m with
  | zero =>
    intro _
    refine ⟨g.data_, ?_, rfl, fun i r s hi => absurd hi (Nat.not_lt_zero i), fun idx _ => rfl⟩
    rw [with_own_data]
    rfl
  | succ m ih =>
    intro hm
    have hm1 : (m : Int) ≤ g.ntau_ := by push_cast at hm; omega
    obtain ⟨b, hloop, hlen, hin, hout⟩ := ih hm1
    obtain ⟨hx0, hx1⟩ := block_in_range g hinv hd (m : Int) (Int.ofNat_nonneg m)
      (by rw [ht]; omega)
    rw [hn1, hn2] at hx1
    have hV : ∀ r s, r < n → s < n →
        peek b ((m : Int) * g.element_size_ + ((r : Int) * (n : Int) + (s : Int))) =
          .ok (stored_coeff g ((m : Int) * g.element_size_) r s) := by
      intro r s hr hs
      obtain ⟨hb0, _⟩ := row_major_in_block n r s hr hs
      rw [hout _ (by omega)]
      have := peek_block_entry g hinv hd hsq (m : Int) (Int.ofNat_nonneg m)
        (by rw [ht]; omega) r s (by omega) (by omega)
      rw [hn1] at this
      exact this
    obtain ⟨b1, hstep, hlen1, hin1, hout1⟩ :=
      herm_step_spec { g with data_ := b } n hn1 hn2 m hm1 hx0 (by rw [hlen]; exact hx1)
        (stored_coeff g ((m : Int) * g.element_size_)) hV
    refine ⟨b1, ?_, by rw [hlen1]; exact hlen, ?_, ?_⟩
    · rw [List.range_succ, loopE_append, hloop, except_bind_ok, loopE_single]
      exact hstep
    · intro i r s hi hr hs
      by_cases him : i = m
      · subst him
        exact hin1 r s hr hs
      · have hilt : i < m := by omega
        obtain ⟨_, hb1⟩ := row_major_in_block n r s hr hs
        have hle : ((i : Int) + 1) * g.element_size_ ≤ (m : Int) * g.element_size_ := by
          apply mul_le_mul_of_nonneg_right _ hE0
          omega
        have hexp : ((i : Int) + 1) * g.element_size_ =
            (i : Int) * g.element_size_ + g.element_size_ := by ring
        have hidx : (i : Int) * g.element_size_ + ((r : Int) * (n : Int) + (s : Int)) <
            (m : Int) * g.element_size_ := by
          rw [hE] at hexp hle ⊢
          omega
        rw [hout1 _ (Or.inl hidx)]
        exact hin i r s hilt hr hs
    · intro idx hidx
      have hexp : ((m + 1 : Nat) : Int) * g.element_size_ =
          (m : Int) * g.element_size_ + (n : Int) * (n : Int) := by
        push_cast
        rw [hE]
        ring
      rw [hexp] at hidx
      rw [hout1 idx (Or.inr hidx)]
      exact hout idx (by rw [hE] at hE0; omega)

/-- Result of `set_mat_herm` on a square Matsubara slice: it succeeds, the blocks
`0..ntau_-1` hold the result of the averaging assignment and block `ntau_` is as it was. -/
theorem set_mat_herm_result (g : herm_matrix_timestep) (hinv : storage_invariant g)
    (hd : dims_valid g) (hsq : g.size1_ = g.size2_) (ht : g.tstp_ = -1) (n : Nat)
    (hn1 : g.size1_ = (n : Int)) :
    ∃ b, set_mat_herm g = .ok { g with data_ := b } ∧
      b.length = g.data_.length ∧
      (∀ i r s : Nat, (i : Int) < g.ntau_ → r < n → s < n →
        peek b ((i : Int) * g.element_size_ + ((r : Int) * (n : Int) + (s : Int))) =
          .ok ((herm_average
            (Mat.of_fn n n (stored_coeff g ((i : Int) * g.element_size_)))).entry r s)) ∧
      (∀ idx : Int, g.ntau_ * g.element_size_ ≤ idx → peek b idx = peek g.data_ idx) := by
  obtain ⟨N, hN⟩ := Int.eq_ofNat_of_zero_le hd.2.1
  obtain ⟨b, hloop, hlen, hin, hout⟩ :=
    set_mat_herm_loop g hinv hd hsq ht n hn1 N (by omega)
  refine ⟨b, ?_, hlen, ?_, ?_⟩
  · have hNt : g.ntau_.toNat = N := by omega
    unfold set_mat_herm
    rw [hNt]
    exact hloop
  · intro i r s hi hr hs
    exact hin i r s (by omega) hr hs
  · intro idx hidx
    rw [hN] at hidx
    exact hout idx hidx

/-- C15, what the code does: on every square slice satisfying the storage invariant with
`tstp_ = -1`, `set_mat_herm()` succeeds, replaces `M(tau_i)` by the result of the assignment
`tmp = (tmp + tmp.adjoint()) / 2.0` for `i = 0, .., ntau_ - 1` and leaves `M(tau_ntau)` as it
was (the loop runs over `i < ntau_`); on `sample_mat_scalar` (`ntau_ = 1`,
`M(tau_1) = 3+4i`) the last value stays `3+4i`, which is not `(A + A^dagger)/2 = 3`. -/
theorem set_mat_herm_skips_last_index :
    (∀ g : herm_matrix_timestep, storage_invariant g → dims_valid g → g.size1_ = g.size2_ →
      g.tstp_ = -1 →
      ∃ g1, set_mat_herm g = .ok g1 ∧
        (∀ i : Nat, (i : Int) < g.ntau_ →
          ∃ A, get_mat g (i : Int) = .ok A ∧ get_mat g1 (i : Int) = .ok (herm_average A)) ∧
        get_mat g1 g.ntau_ = get_mat g g.ntau_) ∧
    (∃ g1, set_mat_herm sample_mat_scalar = .ok g1 ∧
      g1.data_ = [⟨1, 0⟩, ⟨3, 4⟩] ∧
      get_mat sample_mat_scalar 1 = .ok [[⟨3, 4⟩]] ∧
      get_mat g1 1 = .ok [[⟨3, 4⟩]] ∧
      herm_average [[⟨3, 4⟩]] = [[⟨3, 0⟩]]) := by
  constructor
  · intro g hinv hd hsq ht
    obtain ⟨n, hn1⟩ := Int.eq_ofNat_of_zero_le hd.2.2.1
    have htn : g.size1_.toNat = n := by rw [hn1]; simp
    obtain ⟨b, hres, hlen, hin, hout⟩ := set_mat_herm_result g hinv hd hsq ht n hn1
    refine ⟨{ g with data_ := b }, hres, ?_, ?_⟩
    · intro i hi
      have hA := read_block g hinv hd hsq (i : Int) (Int.ofNat_nonneg i) (by rw [ht]; omega)
      rw [htn] at hA
      refine ⟨_, hA, ?_⟩
      have e := read_element_spec b ((i : Int) * g.element_size_) n _
        (fun r s hr hs => hin i r s hi hr hs)
      rw [← mat_eq_table _ n n (herm_average_has_shape n _ (of_fn_has_shape n n _))] at e
      unfold get_mat
      show herm_matrix_READ_ELEMENT b ((i : Int) * g.element_size_) g.size1_ = _
      rw [hn1]
      exact e
    · have hn := hd.2.1
      have hA := read_block g hinv hd hsq g.ntau_ hn (by rw [ht]; omega)
      have hpeek := peek_block_entry g hinv hd hsq g.ntau_ hn (by rw [ht]; omega)
      rw [htn] at hA hpeek
      unfold get_mat matptr
      rw [hA]
      show herm_matrix_READ_ELEMENT b (g.ntau_ * g.element_size_) g.size1_ = _
      rw [hn1]
      apply read_element_spec b _ n _
      intro r s hr hs
      obtain ⟨hb0, _⟩ := row_major_in_block n r s hr hs
      rw [hout _ (by omega)]
      have := hpeek r s hr hs
      rw [hn1] at this
      exact this
  · exact ⟨(⟨[⟨1, 0⟩, ⟨3, 4⟩], -1, 1, 1, 1, 1, 2, -1⟩ : herm_matrix_timestep), by decide!,
      by decide, by decide, by decide, by decide!⟩

/-- C16, the code at the failing input: on the 2x2 Matsubara slice `sample_mat_square`
(`ntau_ = 1`, `M(tau_0) = [[1+2i, 3+4i], [5+6i, 7+8i]]`) both calls of `set_mat_herm()`
return, and the second call changes the buffer again.  The first call leaves
`M(tau_0) = [[1, 7/2 + 3/2 i], [4 + i, 7]]`, which is not hermitian and is not
`(A + A^dagger)/2 = [[1, 4 - i], [4 + i, 7]]`: the coefficient `(0, 1)` is averaged with the
coefficient `(1, 0)` that the same assignment has already overwritten.  The second call
leaves `[[1, 29/8 + 7/8 i], [15/4 - 1/4 i, 7]]`. -/
theorem set_mat_herm_not_idempotent :
    storage_invariant sample_mat_square ∧ sample_mat_square.size1_ = sample_mat_square.size2_ ∧
    sample_mat_square.tstp_ = -1 ∧
    ∃ g1 g2, set_mat_herm sample_mat_square = .ok g1 ∧ set_mat_herm g1 = .ok g2 ∧
      g1.data_ = [⟨1, 0⟩, ⟨7 / 2, 3 / 2⟩, ⟨4, 1⟩, ⟨7, 0⟩, ⟨9, 1⟩, ⟨2, 3⟩, ⟨4, 5⟩, ⟨6, 7⟩] ∧
      g2.data_ =
        [⟨1, 0⟩, ⟨29 / 8, 7 / 8⟩, ⟨15 / 4, -1 / 4⟩, ⟨7, 0⟩, ⟨9, 1⟩, ⟨2, 3⟩, ⟨4, 5⟩, ⟨6, 7⟩] ∧
      g2.data_ ≠ g1.data_ ∧
      Mat.div_real (Mat.add [[⟨1, 2⟩, ⟨3, 4⟩], [⟨5, 6⟩, ⟨7, 8⟩]]
          (Mat.adjoint [[⟨1, 2⟩, ⟨3, 4⟩], [⟨5, 6⟩, ⟨7, 8⟩]])) 2 =
        [[⟨1, 0⟩, ⟨4, -1⟩], [⟨4, 1⟩, ⟨7, 0⟩]] := by
  refine ⟨by decide, by decide, by decide,
    { sample_mat_square with
      data_ := [⟨1, 0⟩, ⟨7 / 2, 3 / 2⟩, ⟨4, 1⟩, ⟨7, 0⟩, ⟨9, 1⟩, ⟨2, 3⟩, ⟨4, 5⟩, ⟨6, 7⟩] },
    { sample_mat_square with
      data_ := [⟨1, 0⟩, ⟨29 / 8, 7 / 8⟩, ⟨15 / 4, -1 / 4⟩, ⟨7, 0⟩, ⟨9, 1⟩, ⟨2, 3⟩, ⟨4, 5⟩,
        ⟨6, 7⟩] },
    by decide!, by decide!, rfl, rfl, by decide!, by decide!⟩

/-! ## Increment -/

theorem peek_zipWith (f : cplx → cplx → cplx) (d src : List cplx) (k : Nat)
    (hk0 : k < d.length) (hk1 : k < src.length) :
    peek (List.zipWith f d src) (k : Int) = .ok (f (d.getD k 0) (src.getD k 0)) := by
  have hk : k < (List.zipWith f d src).length := by
    rw [List.length_zipWith]
    omega
  rw [peek_in_range _ (k : Int) (Int.ofNat_nonneg k) (by exact_mod_cast hk)]
  simp [List.getD_eq_getElem?_getD, List.getElem?_eq_getElem hk,
    List.getElem?_eq_getElem hk0, List.getElem?_eq_getElem hk1]

/-- The loop of `incr` over two buffers of the running length. -/
theorem incr_loop (src d0 : List cplx) (w : ℚ) (hlen : src.length = d0.length) :
    ∀ m : Nat, m ≤ d0.length →
      ∃ d, loopE (incr_step src w) d0 (List.range m) = .ok d ∧
        d.length = d0.length ∧
        (∀ k : Nat, k < m →
          peek d (k : Int) = .ok (d0.getD k 0 + cplx.smul w (src.getD k 0))) ∧
        (∀ idx : Int, (m : Int) ≤ idx → peek d idx = peek d0 idx) := by
  intro m
  induction m with
  | zero =>
    intro _
    exact ⟨d0, rfl, rfl, fun k hk => absurd hk (Nat.not_lt_zero k), fun idx _ => rfl⟩
  | succ m ih =>
    intro hm
    obtain ⟨d, hloop, hl, hin, hout⟩ := ih (by omega)
    have hx : peek d (m : Int) = .ok (d0.getD m 0) := by
      rw [hout (m : Int) (le_refl _)]
      exact peek_in_range d0 (m : Int) (Int.ofNat_nonneg m) (by exact_mod_cast hm)
    have hy : peek src (m : Int) = .ok (src.getD m 0) :=
      peek_in_range src (m : Int) (Int.ofNat_nonneg m) (by rw [hlen]; exact_mod_cast hm)
    have hpoke := poke_in_range d (m : Int) (d0.getD m 0 + cplx.smul w (src.getD m 0))
      (Int.ofNat_nonneg m) (by rw [hl]; exact_mod_cast hm)
    refine ⟨d.set (m : Int).toNat (d0.getD m 0 + cplx.smul w (src.getD m 0)), ?_, ?_, ?_, ?_⟩
    · rw [List.range_succ, loopE_append, hloop, except_bind_ok, loopE_single]
      unfold incr_step
      rw [hx, except_bind_ok, hy, except_bind_ok]
      exact hpoke
    · rw [poke_length _ _ _ _ hpoke, hl]
    · intro k hk
      by_cases hkm : k = m
      · subst hkm
        exact peek_poke_same _ _ _ _ hpoke
      · rw [peek_poke_other _ _ _ _ _ hpoke (by omega)]
        exact hin k (by omega)
    · intro idx hidx
      rw [peek_poke_other _ _ _ _ _ hpoke (by push_cast at hidx; omega)]
      exact hout idx (by push_cast at hidx; omega)

theorem incr_buffers (src d0 : List cplx) (w : ℚ) (hlen : src.length = d0.length) :
    loopE (incr_step src w) d0 (List.range d0.length) =
      .ok (axpy_list w d0 src) := by
  obtain ⟨d, hloop, hl, hin, _⟩ := incr_loop src d0 w hlen d0.length (le_refl _)
  rw [hloop]
  unfold axpy_list
  apply congrArg Except.ok
  apply List.ext_getElem
  · rw [hl, List.length_zipWith]
    omega
  · intro k h1 h2
    have hk0 : k < d0.length := by rw [← hl]; exact h1
    have hk := hin k hk0
    rw [peek_in_range d (k : Int) (Int.ofNat_nonneg k) (by exact_mod_cast h1)] at hk
    have hv := Except.ok.inj hk
    simp only [List.getElem_zipWith]
    simpa [List.getD_eq_getElem?_getD, List.getElem?_eq_getElem h1,
      List.getElem?_eq_getElem hk0, List.getElem?_eq_getElem (hlen ▸ hk0)] using hv

/-- Both increments by a slice of identical dimensions reduce to the element-wise update. -/
theorem incr_eq (self other : herm_matrix_timestep) (w : ℚ) (hs : storage_invariant self)
    (ho : storage_invariant other) (h1 : other.size1_ = self.size1_)
    (h2 : other.size2_ = self.size2_) (hn : other.ntau_ = self.ntau_)
    (ht : other.tstp_ = self.tstp_) :
    incr self other w =
      .ok { self with data_ := axpy_list w self.data_ other.data_ } ∧
    incr_timestep self self.tstp_ other w =
      .ok { self with data_ := axpy_list w self.data_ other.data_ } := by
  obtain ⟨_, hst, hsl⟩ := hs
  obtain ⟨_, _, hol⟩ := ho
  have hlen : other.data_.length = self.data_.length := by
    have : (other.data_.length : Int) = (self.data_.length : Int) := by
      rw [hol, hsl, h1, h2, hn, ht]
    exact_mod_cast this
  have htot : self.total_size_.toNat = self.data_.length := by
    rw [hst, ← hsl]
    simp
  constructor
  · unfold incr
    rw [if_neg (not_not.mpr ⟨h1, hn, ht⟩), htot, incr_buffers _ _ w hlen]
    rfl
  · unfold incr_timestep
    rw [if_neg (not_not.mpr rfl), if_neg (not_not.mpr ⟨h1, hn, ht⟩), htot,
      incr_buffers _ _ w hlen]
    rfl

theorem zipWith_getD (f : cplx → cplx → cplx) (d src : List cplx) (k : Nat)
    (hk0 : k < d.length) (hk1 : k < src.length) :
    (List.zipWith f d src).getD k 0 = f (d.getD k 0) (src.getD k 0) := by
  have hk : k < (List.zipWith f d src).length := by
    rw [List.length_zipWith]
    omega
  simp [List.getD_eq_getElem?_getD, List.getElem?_eq_getElem hk,
    List.getElem?_eq_getElem hk0, List.getElem?_eq_getElem hk1]

theorem add_smul_zero (x y : cplx) : x + cplx.smul 0 y = x := by
  cases x with
  | mk a b =>
    show (⟨a + 0 * y.re, b + 0 * y.im⟩ : cplx) = ⟨a, b⟩
    apply cplx_eq_of_parts <;> ring

theorem add_smul_cancel (w : ℚ) (x y : cplx) :
    x + cplx.smul w y + cplx.smul (-w) y = x := by
  cases x with
  | mk a b =>
    show (⟨a + w * y.re + -w * y.re, b + w * y.im + -w * y.im⟩ : cplx) = ⟨a, b⟩
    apply cplx_eq_of_parts <;> ring

theorem zipWith_left_id (f : cplx → cplx → cplx) (hf : ∀ x y, f x y = x) :
    ∀ d src : List cplx, src.length = d.length → List.zipWith f d src = d := by
  intro d
  induction d with
  | nil => intro src _; simp
  | cons x d ih =>
    intro src hlen
    cases src with
    | nil => simp at hlen
    | cons y src =>
      simp only [List.zipWith_cons_cons, hf]
      rw [ih src (by simpa using hlen)]

/-- C19: for two slices of identical dimensions satisfying the storage invariant and every
real `weight`, `this.incr(other, weight)` (and `incr_timestep(tstp_, other, weight)`)
succeeds, keeps the length of the buffer and every member but the buffer, and leaves in every
entry `m` its previous value plus `weight * other[m]`; with `weight = 0` the slice is
unchanged.  `other` is only read. -/
theorem incr_is_axpy (self other : herm_matrix_timestep) (w : ℚ)
    (hs : storage_invariant self) (ho : storage_invariant other)
    (h1 : other.size1_ = self.size1_) (h2 : other.size2_ = self.size2_)
    (hn : other.ntau_ = self.ntau_) (ht : other.tstp_ = self.tstp_) :
    (∃ g1, incr self other w = .ok g1 ∧ incr_timestep self self.tstp_ other w = .ok g1 ∧
      g1.data_.length = self.data_.length ∧
      (∀ m : Nat, m < self.data_.length →
        g1.data_.getD m 0 = self.data_.getD m 0 + cplx.smul w (other.data_.getD m 0)) ∧
      g1.data_ = axpy_list w self.data_ other.data_ ∧
      g1.tstp_ = self.tstp_ ∧ g1.ntau_ = self.ntau_ ∧ g1.size1_ = self.size1_ ∧
      g1.size2_ = self.size2_ ∧ g1.element_size_ = self.element_size_ ∧
      g1.total_size_ = self.total_size_ ∧ g1.sig_ = self.sig_) ∧
    incr self other 0 = .ok self := by
  have hlen : other.data_.length = self.data_.length := by
    have : (other.data_.length : Int) = (self.data_.length : Int) := by
      rw [ho.2.2, hs.2.2, h1, h2, hn, ht]
    exact_mod_cast this
  constructor
  · refine ⟨_, (incr_eq self other w hs ho h1 h2 hn ht).1,
      (incr_eq self other w hs ho h1 h2 hn ht).2, ?_, ?_, rfl, rfl, rfl, rfl, rfl, rfl, rfl,
      rfl⟩
    · show (axpy_list w self.data_ other.data_).length = _
      unfold axpy_list
      rw [List.length_zipWith]
      omega
    · intro m hm
      exact zipWith_getD _ _ _ m hm (by omega)
  · rw [(incr_eq self other 0 hs ho h1 h2 hn ht).1]
    unfold axpy_list
    rw [zipWith_left_id _ add_smul_zero self.data_ other.data_ hlen, with_own_data]

/-- Instance of C19: incrementing `sample_scalar_filled` by `sample_scalar` (same
dimensions) with weight `2`. -/
theorem incr_is_axpy_witness :
    (∃ g1, incr sample_scalar_filled sample_scalar 2 = .ok g1 ∧
      incr_timestep sample_scalar_filled sample_scalar_filled.tstp_ sample_scalar 2 = .ok g1 ∧
      g1.data_.length = sample_scalar_filled.data_.length ∧
      (∀ m : Nat, m < sample_scalar_filled.data_.length →
        g1.data_.getD m 0 =
          sample_scalar_filled.data_.getD m 0 + cplx.smul 2 (sample_scalar.data_.getD m 0)) ∧
      g1.data_ = axpy_list 2 sample_scalar_filled.data_ sample_scalar.data_ ∧
      g1.tstp_ = sample_scalar_filled.tstp_ ∧ g1.ntau_ = sample_scalar_filled.ntau_ ∧
      g1.size1_ = sample_scalar_filled.size1_ ∧ g1.size2_ = sample_scalar_filled.size2_ ∧
      g1.element_size_ = sample_scalar_filled.element_size_ ∧
      g1.total_size_ = sample_scalar_filled.total_size_ ∧
      g1.sig_ = sample_scalar_filled.sig_) ∧
    incr sample_scalar_filled sample_scalar 0 = .ok sample_scalar_filled :=
  incr_is_axpy sample_scalar_filled sample_scalar 2 (by decide) (by decide) (by decide)
    (by decide) (by decide) (by decide)

/-- Over exact arithmetic `incr(other, w)` followed by `incr(other, -w)` succeeds and restores
the original slice, buffer included. -/
theorem incr_opposite_exact (self other : herm_matrix_timestep) (w : ℚ)
    (hs : storage_invariant self) (ho : storage_invariant other)
    (h1 : other.size1_ = self.size1_) (h2 : other.size2_ = self.size2_)
    (hn : other.ntau_ = self.ntau_) (ht : other.tstp_ = self.tstp_) :
    ∃ g1, incr self other w = .ok g1 ∧ incr g1 other (-w) = .ok self := by
  have hlen : other.data_.length = self.data_.length := by
    have : (other.data_.length : Int) = (self.data_.length : Int) := by
      rw [ho.2.2, hs.2.2, h1, h2, hn, ht]
    exact_mod_cast this
  refine ⟨_, (incr_eq self other w hs ho h1 h2 hn ht).1, ?_⟩
  have hs1 : storage_invariant { self with data_ := axpy_list w self.data_ other.data_ } := by
    refine ⟨hs.1, hs.2.1, ?_⟩
    show ((axpy_list w self.data_ other.data_).length : Int) = _
    unfold axpy_list
    rw [List.length_zipWith, hlen, Nat.min_self]
    exact hs.2.2
  rw [(incr_eq _ other (-w) hs1 ho h1 h2 hn ht).1]
  have hback : axpy_list (-w) (axpy_list w self.data_ other.data_) other.data_ =
      self.data_ := by
    unfold axpy_list
    apply List.ext_getElem
    · simp [List.length_zipWith, hlen]
    · intro k hk1 hk2
      simp only [List.getElem_zipWith]
      exact add_smul_cancel w _ _
  show Except.ok { self with data_ := _ } = _
  rw [hback, with_own_data]

/-! ## Calls rejected by an assertion -/

theorem peek_not_assertion (b : List cplx) (i : Int) : peek b i ≠ .error .assertion := by
  unfold peek
  split <;> simp

theorem poke_not_assertion (b : List cplx) (i : Int) (v : cplx) :
    poke b i v ≠ .error .assertion := by
  unfold poke
  split <;> simp

theorem coeff_not_assertion (M : Mat) (r s : Nat) : M.coeff r s ≠ .error .assertion := by
  unfold Mat.coeff
  split
  · split <;> simp
  · simp

theorem bind_not_assertion {α β : Type} (e : Except Fault α) (f : α → Except Fault β)
    (h1 : e ≠ .error .assertion) (h2 : ∀ a, f a ≠ .error .assertion) :
    e.bind f ≠ .error .assertion := by
  cases e with
  | ok a => exact h2 a
  | error err =>
    intro h
    apply h1
    simpa [Except.bind] using h

theorem mapE_not_assertion {α β : Type} (f : α → Except Fault β)
    (h : ∀ a, f a ≠ .error .assertion) : ∀ l : List α, mapE f l ≠ .error .assertion := by
  intro l
  induction l with
  | nil => simp [mapE]
  | cons a l ih =>
    unfold mapE
    have ha := h a
    cases hfa : f a with
    | ok b =>
      cases hl : mapE f l with
      | ok bs => simp
      | error e =>
        rw [hl] at ih
        simpa using ih
    | error e =>
      rw [hfa] at ha
      simpa using ha

theorem loopE_not_assertion {σ α : Type} (body : σ → α → Except Fault σ)
    (h : ∀ st a, body st a ≠ .error .assertion) :
    ∀ (l : List α) (st : σ), loopE body st l ≠ .error .assertion := by
  intro l
  induction l with
  | nil => intro st; simp [loopE]
  | cons a l ih =>
    intro st
    unfold loopE
    have ha := h st a
    cases hb : body st a with
    | ok st1 => exact ih st1
    | error e =>
      rw [hb] at ha
      simpa using ha

theorem read_element_not_assertion (buf : List cplx) (x size1 : Int) :
    herm_matrix_READ_ELEMENT buf x size1 ≠ .error .assertion := by
  unfold herm_matrix_READ_ELEMENT
  exact mapE_not_assertion _
    (fun r => mapE_not_assertion _ (fun s => peek_not_assertion _ _) _) _

theorem set_element_matrix_not_assertion (buf : List cplx) (x size1 size2 : Int) (M : Mat) :
    herm_matrix_SET_ELEMENT_MATRIX buf x size1 size2 M ≠ .error .assertion := by
  unfold herm_matrix_SET_ELEMENT_MATRIX
  exact loopE_not_assertion _ (fun b r => loopE_not_assertion _
    (fun b1 s => bind_not_assertion _ _ (coeff_not_assertion _ _ _)
      (fun v => poke_not_assertion _ _ _)) _ _) _ _

theorem ok_not_assertion {α : Type} (a : α) :
    (Except.ok a : Except Fault α) ≠ .error .assertion := by
  simp

theorem incr_step_not_assertion (src : List cplx) (w : ℚ) (d : List cplx) (m : Nat) :
    incr_step src w d m ≠ .error .assertion := by
  unfold incr_step
  exact bind_not_assertion _ _ (peek_not_assertion _ _)
    (fun x => bind_not_assertion _ _ (peek_not_assertion _ _)
      (fun y => poke_not_assertion _ _ _))

theorem incr_rejected_iff (self g1 : herm_matrix_timestep) (w : ℚ) :
    incr self g1 w = .error .assertion ↔
      ¬ (g1.size1_ = self.size1_ ∧ g1.ntau_ = self.ntau_ ∧ g1.tstp_ = self.tstp_) := by
  unfold incr
  constructor
  · intro h hc
    rw [if_neg (not_not.mpr hc)] at h
    exact bind_not_assertion _ _ (loopE_not_assertion _ (incr_step_not_assertion _ _) _ _)
      (fun _ => ok_not_assertion _) h
  · intro h
    rw [if_pos h]

theorem incr_timestep_rejected_iff (self g1 : herm_matrix_timestep) (tstp : Int) (w : ℚ) :
    incr_timestep self tstp g1 w = .error .assertion ↔
      ¬ (tstp = self.tstp_ ∧ g1.size1_ = self.size1_ ∧ g1.ntau_ = self.ntau_ ∧
        g1.tstp_ = self.tstp_) := by
  unfold incr_timestep
  constructor
  · intro h hc
    rw [if_neg (not_not.mpr hc.1), if_neg (not_not.mpr hc.2)] at h
    exact bind_not_assertion _ _ (loopE_not_assertion _ (incr_step_not_assertion _ _) _ _)
      (fun _ => ok_not_assertion _) h
  · intro h
    by_cases ht : tstp = self.tstp_
    · rw [if_neg (not_not.mpr ht), if_pos (fun hc => h ⟨ht, hc⟩)]
    · rw [if_pos ht]

/-- C21: `incr` and `incr_timestep` compare `size1_`, `ntau_` and `tstp_` only.  A 1x2 slice
incremented by a 1x1 slice of equal `tstp`, `ntau`, `size1` passes the assertions and then
reads `g1.data_[3]`, outside the three entries of the other buffer; a call is rejected by an
assertion exactly when `size1`, `ntau` or `tstp` (or the passed `tstp`) differ. -/
theorem incr_accepts_other_size2 :
    sample_narrow.size2_ ≠ sample_nonsquare.size2_ ∧
    incr sample_nonsquare sample_narrow 1 = .error .out_of_range ∧
    incr_timestep sample_nonsquare 0 sample_narrow 1 = .error .out_of_range ∧
    (∀ (self g1 : herm_matrix_timestep) (w : ℚ),
      incr self g1 w = .error .assertion ↔
        ¬ (g1.size1_ = self.size1_ ∧ g1.ntau_ = self.ntau_ ∧ g1.tstp_ = self.tstp_)) ∧
    (∀ (self g1 : herm_matrix_timestep) (tstp : Int) (w : ℚ),
      incr_timestep self tstp g1 w = .error .assertion ↔
        ¬ (tstp = self.tstp_ ∧ g1.size1_ = self.size1_ ∧ g1.ntau_ = self.ntau_ ∧
          g1.tstp_ = self.tstp_)) := by
  refine ⟨by decide, by decide!, by decide!, incr_rejected_iff, ?_⟩
  intro self g1 tstp w
  exact incr_timestep_rejected_iff self g1 tstp w

/-! ## Preconditions of the two-index reads and writes -/

theorem read_element_minus_conj_not_assertion (buf : List cplx) (x size1 : Int) :
    herm_matrix_READ_ELEMENT_MINUS_CONJ buf x size1 ≠ .error .assertion := by
  unfold herm_matrix_READ_ELEMENT_MINUS_CONJ
  exact mapE_not_assertion _ (fun r => mapE_not_assertion _
    (fun s => bind_not_assertion _ _ (peek_not_assertion _ _) (fun w => ok_not_assertion _)) _) _

theorem rejected_iff {α : Type} (c : Prop) [Decidable c] (e : Except Fault α)
    (he : e ≠ .error .assertion) :
    (if ¬ c then (.error .assertion : Except Fault α) else e) = .error .assertion ↔ ¬ c := by
  constructor
  · intro h hc
    rw [if_neg (not_not.mpr hc)] at h
    exact he h
  · intro h
    rw [if_pos h]

theorem store_not_assertion (g : herm_matrix_timestep) (e : Except Fault (List cplx))
    (he : e ≠ .error .assertion) :
    e.bind (fun d => (.ok { g with data_ := d } : Except Fault herm_matrix_timestep)) ≠
      .error .assertion :=
  bind_not_assertion _ _ he (fun _ => ok_not_assertion _)

theorem get_ret_cplx_rejected_iff (g : herm_matrix_timestep) (i j : Int) :
    get_ret_cplx g i j = .error .assertion ↔ ¬ (i = g.tstp_ ∨ j = g.tstp_) := by
  unfold get_ret_cplx
  apply rejected_iff
  split
  · exact peek_not_assertion _ _
  · exact bind_not_assertion _ _ (peek_not_assertion _ _) (fun x => ok_not_assertion _)

theorem get_les_cplx_rejected_iff (g : herm_matrix_timestep) (i j : Int) :
    get_les_cplx g i j = .error .assertion ↔ ¬ (i = g.tstp_ ∨ j = g.tstp_) := by
  unfold get_les_cplx
  apply rejected_iff
  split
  · exact peek_not_assertion _ _
  · exact bind_not_assertion _ _ (peek_not_assertion _ _) (fun x => ok_not_assertion _)

theorem get_ret_rejected_iff (g : herm_matrix_timestep) (i j : Int) :
    get_ret g i j = .error .assertion ↔ ¬ (i = g.tstp_ ∧ j ≤ g.tstp_) := by
  unfold get_ret
  exact rejected_iff _ _ (read_element_not_assertion _ _ _)

theorem get_les_rejected_iff (g : herm_matrix_timestep) (i j : Int) :
    get_les g i j = .error .assertion ↔ ¬ (j = g.tstp_ ∧ i ≤ g.tstp_) := by
  unfold get_les
  exact rejected_iff _ _ (read_element_not_assertion _ _ _)

theorem set_ret_ij_rejected_iff (g : herm_matrix_timestep) (i j : Int) (M : Mat) :
    set_ret_ij g i j M = .error .assertion ↔ ¬ (i = g.tstp_ ∧ j ≤ i) := by
  unfold set_ret_ij
  constructor
  · intro h hc
    rw [if_neg (not_not.mpr hc.1), if_neg (not_not.mpr hc.2)] at h
    exact store_not_assertion g _ (set_element_matrix_not_assertion _ _ _ _ _) h
  · intro h
    by_cases hi : i = g.tstp_
    · rw [if_neg (not_not.mpr hi), if_pos (fun hc => h ⟨hi, hc⟩)]
    · rw [if_pos hi]

theorem set_les_ij_rejected_iff (g : herm_matrix_timestep) (i j : Int) (M : Mat) :
    set_les_ij g i j M = .error .assertion ↔ ¬ (j = g.tstp_ ∧ i ≤ j) := by
  unfold set_les_ij
  constructor
  · intro h hc
    rw [if_neg (not_not.mpr hc.1), if_neg (not_not.mpr hc.2)] at h
    exact store_not_assertion g _ (set_element_matrix_not_assertion _ _ _ _ _) h
  · intro h
    by_cases hj : j = g.tstp_
    · rw [if_neg (not_not.mpr hj), if_pos (fun hc => h ⟨hj, hc⟩)]
    · rw [if_pos hj]

theorem set_ret_cplx_rejected_iff (g : herm_matrix_timestep) (i j : Int) (x : cplx) :
    set_ret_cplx g i j x = .error .assertion ↔ ¬ (i = g.tstp_ ∧ j ≤ i) := by
  unfold set_ret_cplx
  exact rejected_iff _ _ (store_not_assertion g _ (poke_not_assertion _ _ _))

theorem set_les_cplx_rejected_iff (g : herm_matrix_timestep) (i j : Int) (x : cplx) :
    set_les_cplx g i j x = .error .assertion ↔ ¬ (j = g.tstp_ ∧ i ≤ j) := by
  unfold set_les_cplx
  exact rejected_iff _ _ (store_not_assertion g _ (poke_not_assertion _ _ _))

theorem block_write_read (g : herm_matrix_timestep) (hinv : storage_invariant g)
    (hd : dims_valid g) (hsq : g.size1_ = g.size2_) (k : Int) (hk0 : 0 ≤ k)
    (hk : k < (g.tstp_ + 1) * 2 + (g.ntau_ + 1)) (M : Mat)
    (hM : M.has_shape g.size1_.toNat g.size2_.toNat) :
    ∃ b1, herm_matrix_SET_ELEMENT_MATRIX g.data_ (k * g.element_size_) g.size1_ g.size2_ M
        = .ok b1 ∧
      herm_matrix_READ_ELEMENT b1 (k * g.element_size_) g.size1_ = .ok M := by
  obtain ⟨hx0, hx1⟩ := block_in_range g hinv hd k hk0 hk
  obtain ⟨n, hn⟩ := Int.eq_ofNat_of_zero_le hd.2.2.1
  have hn2 : g.size2_ = (n : Int) := by rw [← hsq, hn]
  rw [hn, hn2] at hM hx1
  simp only [Int.toNat_ofNat] at hM
  obtain ⟨b1, hset, hread⟩ := set_then_read_block M n hM (k * g.element_size_) hx0 g.data_ hx1
  refine ⟨b1, ?_, ?_⟩
  · rw [hn, hn2, hset]
  · rw [hn, hread]

theorem block_poke_peek (g : herm_matrix_timestep) (hinv : storage_invariant g)
    (hd : dims_valid g) (h1 : 1 ≤ g.size1_) (h2 : 1 ≤ g.size2_) (k : Int) (hk0 : 0 ≤ k)
    (hk : k < (g.tstp_ + 1) * 2 + (g.ntau_ + 1)) (x : cplx) :
    ∃ b1, poke g.data_ (k * g.element_size_) x = .ok b1 ∧
      peek b1 (k * g.element_size_) = .ok x := by
  obtain ⟨hx0, hx1⟩ := block_in_range g hinv hd k hk0 hk
  have hpos : 1 ≤ g.size1_ * g.size2_ := by nlinarith
  have hlt : k * g.element_size_ < (g.data_.length : Int) := by omega
  have hpoke := poke_in_range g.data_ (k * g.element_size_) x hx0 hlt
  exact ⟨_, hpoke, peek_poke_same _ _ _ _ hpoke⟩

/-- C29 (as amended): `set_ret(i, j, .)` is rejected by its assertion exactly when not
(`i = tstp_` and `j <= i`), `set_les(i, j, .)` exactly when not (`j = tstp_` and `i <= j`),
for the matrix and the scalar forms.  On a slice satisfying the storage invariant, an accepted
write with free index `k`, `0 <= k <= tstp_`, is read back by the `get` of the same component
at the same indices: the matrix forms on a square slice (`size1_ = size2_`) and a matrix of
the slice shape, the scalar forms on a slice whose matrices have at least one entry. -/
theorem two_index_write_domain (g : herm_matrix_timestep) (hinv : storage_invariant g)
    (hd : dims_valid g) (k : Int) (hk0 : 0 ≤ k) (hk : k ≤ g.tstp_) (M : Mat) (x : cplx) :
    (∀ i j : Int,
      (set_ret_ij g i j M = .error .assertion ↔ ¬ (i = g.tstp_ ∧ j ≤ i)) ∧
      (set_ret_cplx g i j x = .error .assertion ↔ ¬ (i = g.tstp_ ∧ j ≤ i)) ∧
      (set_les_ij g i j M = .error .assertion ↔ ¬ (j = g.tstp_ ∧ i ≤ j)) ∧
      (set_les_cplx g i j x = .error .assertion ↔ ¬ (j = g.tstp_ ∧ i ≤ j))) ∧
    (g.size1_ = g.size2_ → M.has_shape g.size1_.toNat g.size2_.toNat →
      (∃ g1, set_ret_ij g g.tstp_ k M = .ok g1 ∧ get_ret g1 g.tstp_ k = .ok M) ∧
      (∃ g1, set_les_ij g k g.tstp_ M = .ok g1 ∧ get_les g1 k g.tstp_ = .ok M)) ∧
    (1 ≤ g.size1_ → 1 ≤ g.size2_ →
      (∃ g1, set_ret_cplx g g.tstp_ k x = .ok g1 ∧ get_ret_cplx g1 g.tstp_ k = .ok x) ∧
      (∃ g1, set_les_cplx g k g.tstp_ x = .ok g1 ∧ get_les_cplx g1 k g.tstp_ = .ok x)) := by
  have hd1 := hd.1
  have hd2 := hd.2.1
  have hr0 : (0 : Int) ≤ k := hk0
  have hr1 : k < (g.tstp_ + 1) * 2 + (g.ntau_ + 1) := by omega
  have hl0 : (0 : Int) ≤ g.tstp_ + 1 + g.ntau_ + 1 + k := by omega
  have hl1 : g.tstp_ + 1 + g.ntau_ + 1 + k < (g.tstp_ + 1) * 2 + (g.ntau_ + 1) := by omega
  refine ⟨fun i j => ⟨set_ret_ij_rejected_iff g i j M, set_ret_cplx_rejected_iff g i j x,
    set_les_ij_rejected_iff g i j M, set_les_cplx_rejected_iff g i j x⟩, ?_, ?_⟩
  · intro hsq hM
    constructor
    · obtain ⟨b1, hset, hread⟩ := block_write_read g hinv hd hsq k hr0 hr1 M hM
      refine ⟨{ g with data_ := b1 }, ?_, ?_⟩
      · unfold set_ret_ij
        rw [if_neg (not_not.mpr rfl), if_neg (not_not.mpr hk)]
        unfold retptr
        rw [hset]
        rfl
      · unfold get_ret
        rw [if_neg (not_not.mpr ⟨rfl, hk⟩)]
        exact hread
    · obtain ⟨b1, hset, hread⟩ :=
        block_write_read g hinv hd hsq (g.tstp_ + 1 + g.ntau_ + 1 + k) hl0 hl1 M hM
      refine ⟨{ g with data_ := b1 }, ?_, ?_⟩
      · unfold set_les_ij
        rw [if_neg (not_not.mpr rfl), if_neg (not_not.mpr hk)]
        unfold lesptr
        rw [hset]
        rfl
      · unfold get_les
        rw [if_neg (not_not.mpr ⟨rfl, hk⟩)]
        exact hread
  · intro h1 h2
    constructor
    · obtain ⟨b1, hpoke, hpeek⟩ := block_poke_peek g hinv hd h1 h2 k hr0 hr1 x
      refine ⟨{ g with data_ := b1 }, ?_, ?_⟩
      · unfold set_ret_cplx
        rw [if_neg (not_not.mpr ⟨rfl, hk⟩)]
        unfold retptr
        rw [hpoke]
        rfl
      · unfold get_ret_cplx
        rw [if_neg (not_not.mpr (Or.inl rfl)), if_pos rfl]
        exact hpeek
    · obtain ⟨b1, hpoke, hpeek⟩ :=
        block_poke_peek g hinv hd h1 h2 (g.tstp_ + 1 + g.ntau_ + 1 + k) hl0 hl1 x
      refine ⟨{ g with data_ := b1 }, ?_, ?_⟩
      · unfold set_les_cplx
        rw [if_neg (not_not.mpr ⟨rfl, hk⟩)]
        unfold lesptr
        rw [hpoke]
        rfl
      · unfold get_les_cplx
        rw [if_neg (not_not.mpr (Or.inr rfl)), if_pos rfl]
        exact hpeek

/-- Instance of the amended C29 on `sample_square` (`tstp_ = 0`) with free index 0: the
matrix and scalar writes of the retarded and the lesser component are read back. -/
theorem two_index_write_domain_witness :
    (∃ g1, set_ret_ij sample_square sample_square.tstp_ 0
        [[⟨1, 1⟩, ⟨2, 2⟩], [⟨3, 3⟩, ⟨4, 4⟩]] = .ok g1 ∧
      get_ret g1 sample_square.tstp_ 0 = .ok [[⟨1, 1⟩, ⟨2, 2⟩], [⟨3, 3⟩, ⟨4, 4⟩]]) ∧
    (∃ g1, set_les_ij sample_square 0 sample_square.tstp_
        [[⟨1, 1⟩, ⟨2, 2⟩], [⟨3, 3⟩, ⟨4, 4⟩]] = .ok g1 ∧
      get_les g1 0 sample_square.tstp_ = .ok [[⟨1, 1⟩, ⟨2, 2⟩], [⟨3, 3⟩, ⟨4, 4⟩]]) ∧
    (∃ g1, set_ret_cplx sample_square sample_square.tstp_ 0 ⟨5, 5⟩ = .ok g1 ∧
      get_ret_cplx g1 sample_square.tstp_ 0 = .ok ⟨5, 5⟩) ∧
    (∃ g1, set_les_cplx sample_square 0 sample_square.tstp_ ⟨5, 5⟩ = .ok g1 ∧
      get_les_cplx g1 0 sample_square.tstp_ = .ok ⟨5, 5⟩) :=
  have h := two_index_write_domain sample_square (by decide) (by decide) 0 (by decide)
    (by decide) [[⟨1, 1⟩, ⟨2, 2⟩], [⟨3, 3⟩, ⟨4, 4⟩]] ⟨5, 5⟩
  ⟨(h.2.1 (by decide) (by decide)).1, (h.2.1 (by decide) (by decide)).2,
    (h.2.2 (by decide) (by decide)).1, (h.2.2 (by decide) (by decide)).2⟩

/-- C29 fails as stated: on the 1x2 slice `sample_nonsquare` (`tstp_ = 0`) the accepted write
`set_les(0, 0, M)` of the 1x2 matrix `M = (1 2)` is followed by a `get_les(0, 0, M2)` that
yields the 1x1 matrix `M2 = (1)`, and likewise for `set_ret(0, 0, M)`, `get_ret(0, 0, M2)`. -/
theorem two_index_write_nonsquare_counterexample :
    Mat.has_shape [[⟨1, 0⟩, ⟨2, 0⟩]] sample_nonsquare.size1_.toNat
      sample_nonsquare.size2_.toNat ∧
    (∃ g1, set_les_ij sample_nonsquare 0 0 [[⟨1, 0⟩, ⟨2, 0⟩]] = .ok g1 ∧
      get_les g1 0 0 = .ok [[⟨1, 0⟩]] ∧ get_les g1 0 0 ≠ .ok [[⟨1, 0⟩, ⟨2, 0⟩]]) ∧
    (∃ g1, set_ret_ij sample_nonsquare 0 0 [[⟨1, 0⟩, ⟨2, 0⟩]] = .ok g1 ∧
      get_ret g1 0 0 = .ok [[⟨1, 0⟩]] ∧ get_ret g1 0 0 ≠ .ok [[⟨1, 0⟩, ⟨2, 0⟩]]) := by
  refine ⟨by decide,
    ⟨(⟨[⟨1, 2⟩, ⟨3, 4⟩, ⟨5, 6⟩, ⟨7, 8⟩, ⟨1, 0⟩, ⟨2, 0⟩], 0, 0, 1, 2, 2, 6, -1⟩ :
      herm_matrix_timestep), by decide, by decide, by decide⟩,
    ⟨(⟨[⟨1, 0⟩, ⟨2, 0⟩, ⟨5, 6⟩, ⟨7, 8⟩, ⟨9, 1⟩, ⟨2, 3⟩], 0, 0, 1, 2, 2, 6, -1⟩ :
      herm_matrix_timestep), by decide, by decide, by decide⟩⟩

/-- C30 (as amended): the scalar reads `get_ret(i, j, x)` and `get_les(i, j, x)` are rejected
by their assertion exactly when neither `i` nor `j` equals `tstp_`, and in the swapped
ordering (the index that is not `tstp_` in the position of `tstp_`) they return minus the
conjugate of what the stored ordering returns; on a slice satisfying the storage invariant
whose matrices have at least one entry both orderings return for `0 <= i < tstp_`.  The matrix
reads accept the stored ordering only: `get_ret(i, j, M)` is rejected exactly when not
(`i = tstp_` and `j <= tstp_`), `get_les(i, j, M)` exactly when not (`j = tstp_` and
`i <= tstp_`). -/
theorem two_index_read_precondition (g : herm_matrix_timestep) (i j : Int) :
    (get_ret_cplx g i j = .error .assertion ↔ ¬ (i = g.tstp_ ∨ j = g.tstp_)) ∧
    (get_les_cplx g i j = .error .assertion ↔ ¬ (i = g.tstp_ ∨ j = g.tstp_)) ∧
    (get_ret g i j = .error .assertion ↔ ¬ (i = g.tstp_ ∧ j ≤ g.tstp_)) ∧
    (get_les g i j = .error .assertion ↔ ¬ (j = g.tstp_ ∧ i ≤ g.tstp_)) ∧
    (i ≠ g.tstp_ →
      get_ret_cplx g i g.tstp_ =
        (get_ret_cplx g g.tstp_ i).bind (fun x => .ok (-(cplx.conj x)))) ∧
    (i ≠ g.tstp_ →
      get_les_cplx g g.tstp_ i =
        (get_les_cplx g i g.tstp_).bind (fun x => .ok (-(cplx.conj x)))) ∧
    (storage_invariant g → dims_valid g → 1 ≤ g.size1_ → 1 ≤ g.size2_ → 0 ≤ i →
      i < g.tstp_ →
      ∃ x y, get_ret_cplx g g.tstp_ i = .ok x ∧
        get_ret_cplx g i g.tstp_ = .ok (-(cplx.conj x)) ∧
        get_les_cplx g i g.tstp_ = .ok y ∧
        get_les_cplx g g.tstp_ i = .ok (-(cplx.conj y))) := by
  have hswap_ret : i ≠ g.tstp_ →
      get_ret_cplx g i g.tstp_ =
        (get_ret_cplx g g.tstp_ i).bind (fun x => .ok (-(cplx.conj x))) := by
    intro hi
    unfold get_ret_cplx
    rw [if_neg (not_not.mpr (Or.inr rfl)), if_neg hi, if_neg (not_not.mpr (Or.inl rfl)),
      if_pos rfl]
  have hswap_les : i ≠ g.tstp_ →
      get_les_cplx g g.tstp_ i =
        (get_les_cplx g i g.tstp_).bind (fun x => .ok (-(cplx.conj x))) := by
    intro hi
    unfold get_les_cplx
    rw [if_neg (not_not.mpr (Or.inl rfl)), if_neg hi, if_neg (not_not.mpr (Or.inr rfl)),
      if_pos rfl]
  refine ⟨get_ret_cplx_rejected_iff g i j, get_les_cplx_rejected_iff g i j,
    get_ret_rejected_iff g i j, get_les_rejected_iff g i j, hswap_ret, hswap_les, ?_⟩
  intro hinv hd h1 h2 hi0 hi
  have hn := hd.2.1
  have hret : get_ret_cplx g g.tstp_ i = .ok (g.data_.getD (i * g.element_size_).toNat 0) := by
    unfold get_ret_cplx
    rw [if_neg (not_not.mpr (Or.inl rfl)), if_pos rfl]
    exact peek_block_start g hinv hd h1 h2 i hi0 (by omega)
  have hles : get_les_cplx g i g.tstp_ =
      .ok (g.data_.getD ((g.tstp_ + 1 + g.ntau_ + 1 + i) * g.element_size_).toNat 0) := by
    unfold get_les_cplx
    rw [if_neg (not_not.mpr (Or.inr rfl)), if_pos rfl]
    exact peek_block_start g hinv hd h1 h2 (g.tstp_ + 1 + g.ntau_ + 1 + i) (by omega)
      (by omega)
  refine ⟨_, _, hret, ?_, hles, ?_⟩
  · rw [hswap_ret (by omega), hret, except_bind_ok]
  · rw [hswap_les (by omega), hles, except_bind_ok]

/-- Instance of the amended C30 on `sample_scalar_filled` (`tstp_ = 1`, `R(1, t_0) = 1+2i`,
`L(t_0, 1) = 7+8i`): the swapped scalar reads return `-1+2i` and `-7+8i`, and both orderings
return. -/
theorem two_index_read_precondition_witness :
    get_ret_cplx sample_scalar_filled 0 1 = .ok ⟨-1, 2⟩ ∧
    get_les_cplx sample_scalar_filled 1 0 = .ok ⟨-7, 8⟩ ∧
    ∃ x y, get_ret_cplx sample_scalar_filled sample_scalar_filled.tstp_ 0 = .ok x ∧
      get_ret_cplx sample_scalar_filled 0 sample_scalar_filled.tstp_ = .ok (-(cplx.conj x)) ∧
      get_les_cplx sample_scalar_filled 0 sample_scalar_filled.tstp_ = .ok y ∧
      get_les_cplx sample_scalar_filled sample_scalar_filled.tstp_ 0 =
        .ok (-(cplx.conj y)) :=
  ⟨((two_index_read_precondition sample_scalar_filled 0 1).2.2.2.2.1 (by decide)).trans
      (by decide!),
    ((two_index_read_precondition sample_scalar_filled 0 1).2.2.2.2.2.1 (by decide)).trans
      (by decide!),
    (two_index_read_precondition sample_scalar_filled 0 1).2.2.2.2.2.2 (by decide)
      (by decide) (by decide) (by decide) (by decide) (by decide)⟩

/-- C30 fails as stated for the matrix overloads: on `sample_scalar_filled` (`tstp_ = 1`)
the reads `get_ret(0, 1, M)` and `get_les(1, 0, M)` have one index equal to `tstp_` and are
rejected by the assertion. -/
theorem matrix_read_swapped_counterexample :
    ((0 : Int) = sample_scalar_filled.tstp_ ∨ (1 : Int) = sample_scalar_filled.tstp_) ∧
    get_ret sample_scalar_filled 0 1 = .error .assertion ∧
    get_les sample_scalar_filled 1 0 = .error .assertion := by
  refine ⟨by decide, by decide, by decide⟩

/-! ## Bulk copy and zero fill -/

theorem memset_zero_spec (buf : List cplx) (off n : Int) (h0 : 0 ≤ off) (hn : 0 ≤ n)
    (h : off + n ≤ (buf.length : Int)) :
    ∃ b1, memset_zero buf off n = .ok b1 ∧ b1.length = buf.length ∧
      (∀ k : Int, off ≤ k → k < off + n → peek b1 k = .ok 0) ∧
      (∀ k : Int, (k < off ∨ off + n ≤ k) → peek b1 k = peek buf k) := by
  refine ⟨buf.take off.toNat ++ List.replicate n.toNat 0 ++ buf.drop (off + n).toNat, ?_, ?_,
    ?_, ?_⟩
  · unfold memset_zero
    rw [if_pos ⟨h0, hn, h⟩]
  · simp only [List.length_append, List.length_take, List.length_replicate, List.length_drop]
    omega
  · intro k hk0 hk1
    have hlen : ((buf.take off.toNat ++ List.replicate n.toNat 0 ++
        buf.drop (off + n).toNat).length : Int) = buf.length := by
      simp only [List.length_append, List.length_take, List.length_replicate, List.length_drop]
      omega
    rw [peek_in_range _ k (by omega) (by omega)]
    congr 1
    rw [List.getD_eq_getElem?_getD, List.append_assoc, List.getElem?_append_right (by
      simp only [List.length_take]; omega), List.getElem?_append_left (by
      simp only [List.length_take, List.length_replicate]; omega)]
    simp only [List.getElem?_replicate]
    rw [if_pos (by simp only [List.length_take]; omega)]
    rfl
  · intro k hk
    unfold peek
    have hlen : ((buf.take off.toNat ++ List.replicate n.toNat 0 ++
        buf.drop (off + n).toNat).length : Int) = buf.length := by
      simp only [List.length_append, List.length_take, List.length_replicate, List.length_drop]
      omega
    rw [hlen]
    by_cases hr : 0 ≤ k ∧ k < (buf.length : Int)
    · rw [if_pos hr, if_pos hr]
      congr 1
      rw [List.getD_eq_getElem?_getD, List.getD_eq_getElem?_getD]
      congr 1
      rcases hk with hk | hk
      · rw [List.append_assoc, List.getElem?_append_left (by
          simp only [List.length_take]; omega), List.getElem?_take_of_lt (by omega)]
      · rw [List.getElem?_append_right (by
          simp only [List.length_append, List.length_take, List.length_replicate]; omega),
          List.getElem?_drop]
        congr 1
        simp only [List.length_append, List.length_take, List.length_replicate]
        omega
    · rw [if_neg hr, if_neg hr]

theorem memcpy_spec (dst : List cplx) (doff : Int) (src : List cplx) (soff n : Int)
    (h0 : 0 ≤ doff) (hs0 : 0 ≤ soff) (hn : 0 ≤ n) (h : doff + n ≤ (dst.length : Int))
    (hs : soff + n ≤ (src.length : Int)) :
    ∃ b1, memcpy dst doff src soff n = .ok b1 ∧ b1.length = dst.length ∧
      (∀ k : Int, doff ≤ k → k < doff + n → peek b1 k = peek src (soff + (k - doff))) ∧
      (∀ k : Int, (k < doff ∨ doff + n ≤ k) → peek b1 k = peek dst k) := by
  have hlen : ((dst.take doff.toNat ++ (src.drop soff.toNat).take n.toNat ++
      dst.drop (doff + n).toNat).length : Int) = dst.length := by
    simp only [List.length_append, List.length_take, List.length_drop]
    omega
  refine ⟨dst.take doff.toNat ++ (src.drop soff.toNat).take n.toNat ++
    dst.drop (doff + n).toNat, ?_, ?_, ?_, ?_⟩
  · unfold memcpy
    rw [if_pos ⟨h0, hs0, hn, h, hs⟩]
  · exact Int.ofNat_inj.mp hlen
  · intro k hk0 hk1
    rw [peek_in_range _ k (by omega) (by omega),
      peek_in_range src (soff + (k - doff)) (by omega) (by omega)]
    congr 1
    rw [List.getD_eq_getElem?_getD, List.getD_eq_getElem?_getD]
    congr 1
    rw [List.append_assoc, List.getElem?_append_right (by
      simp only [List.length_take]; omega), List.getElem?_append_left (by
      simp only [List.length_take, List.length_drop]; omega),
      List.getElem?_take_of_lt (by simp only [List.length_take]; omega), List.getElem?_drop]
    congr 1
    simp only [List.length_take]
    omega
  · intro k hk
    unfold peek
    rw [hlen]
    by_cases hr : 0 ≤ k ∧ k < (dst.length : Int)
    · rw [if_pos hr, if_pos hr]
      congr 1
      rw [List.getD_eq_getElem?_getD, List.getD_eq_getElem?_getD]
      congr 1
      rcases hk with hk | hk
      · rw [List.append_assoc, List.getElem?_append_left (by
          simp only [List.length_take]; omega), List.getElem?_take_of_lt (by omega)]
      · rw [List.getElem?_append_right (by
          simp only [List.length_append, List.length_take, List.length_drop]; omega),
          List.getElem?_drop]
        congr 1
        simp only [List.length_append, List.length_take, List.length_drop]
        omega
    · rw [if_neg hr, if_neg hr]

theorem peek_out_of_range (b : List cplx) (k : Int) (h : ¬ (0 ≤ k ∧ k < (b.length : Int))) :
    peek b k = .error .out_of_range := by
  unfold peek
  rw [if_neg h]

theorem eq_replicate_of_peek (b : List cplx)
    (h : ∀ k : Int, 0 ≤ k → k < (b.length : Int) → peek b k = .ok 0) :
    b = List.replicate b.length 0 := by
  apply eq_of_peek_eq _ _ (by simp)
  intro k
  by_cases hr : 0 ≤ k ∧ k < (b.length : Int)
  · rw [h k hr.1 hr.2, peek_in_range _ k hr.1 (by simpa using hr.2)]
    congr 1
    rw [List.getD_eq_getElem?_getD, List.getElem?_replicate, if_pos (by omega)]
    rfl
  · rw [peek_out_of_range _ k hr, peek_out_of_range _ k (by simpa using hr)]

theorem memset_zero_three (buf : List cplx) (a b : Int) (ha : 0 ≤ a) (hb : 0 ≤ b)
    (hlen : (buf.length : Int) = a + b + a) :
    ∃ d1 d2, memset_zero buf 0 a = .ok d1 ∧ memset_zero d1 a b = .ok d2 ∧
      memset_zero d2 (a + b) a = .ok (List.replicate buf.length 0) := by
  obtain ⟨d1, h1, hl1, hin1, _⟩ := memset_zero_spec buf 0 a (le_refl 0) ha (by omega)
  obtain ⟨d2, h2, hl2, hin2, hout2⟩ := memset_zero_spec d1 a b ha hb (by omega)
  obtain ⟨d3, h3, hl3, hin3, hout3⟩ := memset_zero_spec d2 (a + b) a (by omega) ha (by omega)
  refine ⟨d1, d2, h1, h2, ?_⟩
  rw [h3]
  congr 1
  have hl : d3.length = buf.length := by omega
  rw [← hl]
  apply eq_replicate_of_peek
  intro k hk0 hk1
  by_cases hc : k < a + b
  · rw [hout3 k (Or.inl hc)]
    by_cases hc2 : k < a
    · rw [hout2 k (Or.inl hc2)]
      exact hin1 k hk0 (by omega)
    · exact hin2 k (by omega) hc
  · exact hin3 k (by omega) (by omega)

theorem memcpy_three (dst src : List cplx) (a b : Int) (ha : 0 ≤ a) (hb : 0 ≤ b)
    (hlen : (dst.length : Int) = a + b + a) (hsrc : src.length = dst.length) :
    ∃ d1 d2, memcpy dst 0 src 0 a = .ok d1 ∧ memcpy d1 a src a b = .ok d2 ∧
      memcpy d2 (a + b) src (a + b) a = .ok src := by
  obtain ⟨d1, h1, hl1, hin1, _⟩ :=
    memcpy_spec dst 0 src 0 a (le_refl 0) (le_refl 0) ha (by omega) (by omega)
  obtain ⟨d2, h2, hl2, hin2, hout2⟩ := memcpy_spec d1 a src a b ha ha hb (by omega) (by omega)
  obtain ⟨d3, h3, hl3, hin3, hout3⟩ :=
    memcpy_spec d2 (a + b) src (a + b) a (by omega) (by omega) ha (by omega) (by omega)
  refine ⟨d1, d2, h1, h2, ?_⟩
  rw [h3]
  congr 1
  apply eq_of_peek_eq src d3 (by omega)
  intro k
  by_cases hr : 0 ≤ k ∧ k < (src.length : Int)
  · by_cases hc : k < a + b
    · rw [hout3 k (Or.inl hc)]
      by_cases hc2 : k < a
      · rw [hout2 k (Or.inl hc2), hin1 k hr.1 (by omega)]
        congr 1
        omega
      · rw [hin2 k (by omega) hc]
        congr 1
        omega
    · rw [hin3 k (by omega) (by omega)]
      congr 1
      omega
  · rw [peek_out_of_range _ k hr, peek_out_of_range _ k (by omega)]

theorem memset_zero_not_assertion (buf : List cplx) (off n : Int) :
    memset_zero buf off n ≠ .error .assertion := by
  unfold memset_zero
  split <;> simp

theorem memcpy_not_assertion (dst : List cplx) (doff : Int) (src : List cplx) (soff n : Int) :
    memcpy dst doff src soff n ≠ .error .assertion := by
  unfold memcpy
  split <;> simp

/-- Lengths of the blocks of a valid slice: `a` entries of the retarded block, `b` of the
left-mixing block and again `a` of the lesser block fill the buffer. -/
theorem block_lengths (g : herm_matrix_timestep) (hinv : storage_invariant g)
    (hd : dims_valid g) :
    0 ≤ (g.tstp_ + 1) * g.element_size_ ∧ 0 ≤ (g.ntau_ + 1) * g.element_size_ ∧
      (g.data_.length : Int) = (g.tstp_ + 1) * g.element_size_ +
        (g.ntau_ + 1) * g.element_size_ + (g.tstp_ + 1) * g.element_size_ ∧
      g.total_size_ = (g.data_.length : Int) := by
  obtain ⟨hes, htot, hlen⟩ := hinv
  obtain ⟨ht, hn, h1, h2⟩ := hd
  have hes0 : 0 ≤ g.element_size_ := by rw [hes]; exact mul_nonneg h1 h2
  refine ⟨mul_nonneg (by omega) hes0, mul_nonneg (by omega) hes0, ?_, ?_⟩
  · rw [hlen, hes]
    ring
  · rw [hlen, htot]

/-- C28: on a slice satisfying the storage invariant (with valid dimensions),
`set_timestep_zero(tstp_)` returns and leaves the slice with an all-zero buffer of the same
length and unchanged `tstp_`, `ntau_`, sizes and `sig_`, which is exactly the state `clear()`
leaves; with a `tstp` other than the slice's own the call is rejected by the assertion. -/
theorem set_timestep_zero_eq_clear (g : herm_matrix_timestep) (hinv : storage_invariant g)
    (hd : dims_valid g) :
    set_timestep_zero g g.tstp_ = .ok { g with data_ := List.replicate g.data_.length 0 } ∧
    set_timestep_zero g g.tstp_ = clear g ∧
    (∀ (g1 : herm_matrix_timestep) (tstp : Int),
      set_timestep_zero g1 tstp = .error .assertion ↔ ¬ (tstp = g1.tstp_ ∧ tstp ≥ -1)) := by
  obtain ⟨ha, hb, hlen, htot⟩ := block_lengths g hinv hd
  have hclear : clear g = .ok { g with data_ := List.replicate g.data_.length 0 } := by
    unfold clear
    by_cases hpos : g.total_size_ > 0
    · rw [if_pos hpos]
      obtain ⟨d1, h1, hl1, hin1, _⟩ :=
        memset_zero_spec g.data_ 0 g.total_size_ (le_refl 0) (by omega) (by omega)
      rw [h1, except_bind_ok]
      congr 2
      rw [← hl1]
      exact eq_replicate_of_peek d1 (fun k hk0 hk1 => hin1 k hk0 (by omega))
    · rw [if_neg hpos]
      have h0 : g.data_.length = 0 := by omega
      have hnil : g.data_ = [] := List.length_eq_zero.mp h0
      rw [h0]
      congr 1
      cases g
      simp only [herm_matrix_timestep.mk.injEq, and_true, true_and] at hnil ⊢
      simpa using hnil
  have hzero : set_timestep_zero g g.tstp_ =
      .ok { g with data_ := List.replicate g.data_.length 0 } := by
    unfold set_timestep_zero
    rw [if_neg (not_not.mpr rfl), if_neg (not_not.mpr hd.1)]
    by_cases hm : g.tstp_ = -1
    · rw [if_pos hm]
      have hx : matptr g 0 = 0 := by unfold matptr; ring
      have ha0 : (g.tstp_ + 1) * g.element_size_ = 0 := by rw [hm]; ring
      obtain ⟨d1, h1, hl1, hin1, _⟩ :=
        memset_zero_spec g.data_ 0 ((g.ntau_ + 1) * g.element_size_) (le_refl 0) hb (by omega)
      rw [hx, h1, except_bind_ok]
      congr 2
      rw [← hl1]
      exact eq_replicate_of_peek d1 (fun k hk0 hk1 => hin1 k hk0 (by omega))
    · rw [if_neg hm]
      have hx1 : retptr g 0 = 0 := by unfold retptr; ring
      have hx2 : tvptr g 0 = (g.tstp_ + 1) * g.element_size_ := by unfold tvptr; ring
      have hx3 : lesptr g 0 =
          (g.tstp_ + 1) * g.element_size_ + (g.ntau_ + 1) * g.element_size_ := by
        unfold lesptr; ring
      obtain ⟨d1, d2, h1, h2, h3⟩ := memset_zero_three g.data_ _ _ ha hb hlen
      rw [hx1, hx2, hx3, h1, except_bind_ok, h2, except_bind_ok, h3, except_bind_ok]
  refine ⟨hzero, hzero.trans hclear.symm, ?_⟩
  intro g1 tstp
  unfold set_timestep_zero
  constructor
  · intro h hc
    rw [if_neg (not_not.mpr hc.1), if_neg (not_not.mpr hc.2)] at h
    revert h
    split
    · exact store_not_assertion g1 _ (memset_zero_not_assertion _ _ _)
    · exact bind_not_assertion _ _ (memset_zero_not_assertion _ _ _) (fun d1 =>
        bind_not_assertion _ _ (memset_zero_not_assertion _ _ _) (fun d2 =>
          store_not_assertion g1 _ (memset_zero_not_assertion _ _ _)))
  · intro h
    by_cases ht : tstp = g1.tstp_
    · rw [if_neg (not_not.mpr ht), if_pos (fun hc => h ⟨ht, hc⟩)]
    · rw [if_pos ht]

/-- Instance of C28 on `sample_square`: `set_timestep_zero(0)` and `clear()` both leave
sixteen zeros. -/
theorem set_timestep_zero_eq_clear_witness :
    set_timestep_zero sample_square sample_square.tstp_ =
      .ok { sample_square with data_ := List.replicate sample_square.data_.length 0 } ∧
    set_timestep_zero sample_square sample_square.tstp_ = clear sample_square :=
  ⟨(set_timestep_zero_eq_clear sample_square (by decide) (by decide)).1,
    (set_timestep_zero_eq_clear sample_square (by decide) (by decide)).2.1⟩

theorem set_timestep_rejected_iff (self g1 : herm_matrix_timestep) (tstp : Int) :
    set_timestep self tstp g1 = .error .assertion ↔
      ¬ (tstp = self.tstp_ ∧ tstp = g1.tstp_ ∧ tstp ≥ -1 ∧ g1.size1_ = self.size1_ ∧
        g1.ntau_ = self.ntau_) := by
  unfold set_timestep
  constructor
  · intro h hc
    obtain ⟨c1, c2, c3, c4, c5⟩ := hc
    rw [if_neg (not_not.mpr c1), if_neg (not_not.mpr c2),
      if_neg (not_not.mpr ⟨c3, le_of_eq c2⟩), if_neg (not_not.mpr c4),
      if_neg (not_not.mpr c5)] at h
    revert h
    split
    · exact store_not_assertion self _ (memcpy_not_assertion _ _ _ _ _)
    · exact bind_not_assertion _ _ (memcpy_not_assertion _ _ _ _ _) (fun d1 =>
        bind_not_assertion _ _ (memcpy_not_assertion _ _ _ _ _) (fun d2 =>
          store_not_assertion self _ (memcpy_not_assertion _ _ _ _ _)))
  · intro h
    by_cases c1 : tstp = self.tstp_
    · rw [if_neg (not_not.mpr c1)]
      by_cases c2 : tstp = g1.tstp_
      · rw [if_neg (not_not.mpr c2)]
        by_cases c3 : tstp ≥ -1 ∧ tstp ≤ g1.tstp_
        · rw [if_neg (not_not.mpr c3)]
          by_cases c4 : g1.size1_ = self.size1_
          · rw [if_neg (not_not.mpr c4), if_pos (fun c5 => h ⟨c1, c2, c3.1, c4, c5⟩)]
          · rw [if_pos c4]
        · rw [if_pos c3]
      · rw [if_pos c2]
    · rw [if_pos c1]

/-- C27: for square slices `self` and `g1` satisfying the storage invariant, with equal
`tstp_`, `ntau_` and `size1_`, `self.set_timestep(tstp_, g1)` returns and leaves in `self`
the buffer of `g1`, entry for entry, the other fields of `self` being unchanged.  For any
two slices the call is rejected by an assertion exactly when `tstp` differs from `tstp_` of
`self` or of `g1`, `tstp < -1`, or `size1_` or `ntau_` of the two differ. -/
theorem set_timestep_copies_buffer (self g1 : herm_matrix_timestep)
    (hinv : storage_invariant self) (hd : dims_valid self) (hinv1 : storage_invariant g1)
    (hsq : self.size1_ = self.size2_) (hsq1 : g1.size1_ = g1.size2_)
    (ht : g1.tstp_ = self.tstp_) (hn : g1.ntau_ = self.ntau_)
    (h1 : g1.size1_ = self.size1_) :
    set_timestep self self.tstp_ g1 = .ok { self with data_ := g1.data_ } ∧
    (∀ (a b : herm_matrix_timestep) (tstp : Int),
      set_timestep a tstp b = .error .assertion ↔
        ¬ (tstp = a.tstp_ ∧ tstp = b.tstp_ ∧ tstp ≥ -1 ∧ b.size1_ = a.size1_ ∧
          b.ntau_ = a.ntau_)) := by
  refine ⟨?_, set_timestep_rejected_iff⟩
  obtain ⟨ha, hb, hlen, _⟩ := block_lengths self hinv hd
  have hes : g1.element_size_ = self.element_size_ := by
    rw [hinv1.1, hinv.1, ← hsq1, ← hsq, h1]
  have hsrc : g1.data_.length = self.data_.length := by
    have e1 := hinv1.2.2
    have e2 := hinv.2.2
    rw [ht, hn, h1, ← hsq1, h1] at e1
    rw [← hsq] at e2
    omega
  unfold set_timestep
  rw [if_neg (not_not.mpr rfl), if_neg (not_not.mpr ht.symm),
    if_neg (not_not.mpr ⟨hd.1, le_of_eq ht.symm⟩), if_neg (not_not.mpr h1),
    if_neg (not_not.mpr hn)]
  by_cases hm : self.tstp_ = -1
  · rw [if_pos hm]
    have hx : matptr self 0 = 0 := by unfold matptr; ring
    have hx1 : matptr g1 0 = 0 := by unfold matptr; ring
    have ha0 : (self.tstp_ + 1) * self.element_size_ = 0 := by rw [hm]; ring
    obtain ⟨d1, hc, hl1, hin1, _⟩ :=
      memcpy_spec self.data_ 0 g1.data_ 0 ((self.ntau_ + 1) * self.element_size_) (le_refl 0)
        (le_refl 0) hb (by omega) (by omega)
    rw [hx, hx1, hc, except_bind_ok]
    congr 2
    apply eq_of_peek_eq g1.data_ d1 (by omega)
    intro k
    by_cases hr : 0 ≤ k ∧ k < (g1.data_.length : Int)
    · rw [hin1 k hr.1 (by omega)]
      congr 1
      omega
    · rw [peek_out_of_range _ k hr, peek_out_of_range _ k (by omega)]
  · rw [if_neg hm]
    have hx1 : retptr self 0 = 0 := by unfold retptr; ring
    have hx2 : tvptr self 0 = (self.tstp_ + 1) * self.element_size_ := by unfold tvptr; ring
    have hx3 : lesptr self 0 =
        (self.tstp_ + 1) * self.element_size_ + (self.ntau_ + 1) * self.element_size_ := by
      unfold lesptr; ring
    have hy1 : retptr g1 0 = 0 := by unfold retptr; ring
    have hy2 : tvptr g1 0 = (self.tstp_ + 1) * self.element_size_ := by
      unfold tvptr; rw [ht, hes]; ring
    have hy3 : lesptr g1 0 =
        (self.tstp_ + 1) * self.element_size_ + (self.ntau_ + 1) * self.element_size_ := by
      unfold lesptr; rw [ht, hn, hes]; ring
    obtain ⟨d1, d2, e1, e2, e3⟩ := memcpy_three self.data_ g1.data_ _ _ ha hb hlen hsrc
    rw [hx1, hx2, hx3, hy1, hy2, hy3, e1, except_bind_ok, e2, except_bind_ok, e3,
      except_bind_ok]

/-- Instance of C27: `sample_scalar.set_timestep(1, sample_scalar_filled)` leaves the five
entries of `sample_scalar_filled` in `sample_scalar`. -/
theorem set_timestep_copies_buffer_witness :
    set_timestep sample_scalar sample_scalar.tstp_ sample_scalar_filled =
      .ok { sample_scalar with data_ := sample_scalar_filled.data_ } :=
  (set_timestep_copies_buffer sample_scalar sample_scalar_filled (by decide) (by decide)
    (by decide) (by decide) (by decide) (by decide) (by decide) (by decide)).1

/-! ## Blocks as matrices -/

theorem block_at_has_shape (d : List cplx) (x : Int) (n : Nat) :
    (block_at d x n).has_shape n n :=
  of_fn_has_shape n n _

theorem block_at_entry (d : List cplx) (x : Int) (n r s : Nat) (hr : r < n) (hs : s < n) :
    (block_at d x n).entry r s = d.getD (x + ((r : Int) * (n : Int) + (s : Int))).toNat 0 :=
  of_fn_entry n n _ r s hr hs

theorem peek_block_at (d : List cplx) (x : Int) (n : Nat) (hx0 : 0 ≤ x)
    (hx1 : x + (n : Int) * (n : Int) ≤ (d.length : Int)) (r s : Nat) (hr : r < n)
    (hs : s < n) :
    peek d (x + ((r : Int) * (n : Int) + (s : Int))) = .ok ((block_at d x n).entry r s) := by
  obtain ⟨h0, h1⟩ := row_major_in_block n r s hr hs
  rw [block_at_entry d x n r s hr hs]
  exact peek_in_range _ _ (by omega) (by omega)

theorem element_get_in_range (d : List cplx) (x : Int) (n : Nat) (hx0 : 0 ≤ x)
    (hx1 : x + (n : Int) * (n : Int) ≤ (d.length : Int)) :
    element_get (n : Int) d x = .ok (block_at d x n) := by
  unfold element_get
  rw [read_element_spec d x n (fun r s => (block_at d x n).entry r s)
    (fun r s hr hs => peek_block_at d x n hx0 hx1 r s hr hs)]
  exact congrArg Except.ok (mat_eq_table _ n n (block_at_has_shape d x n)).symm

theorem block_at_of_peek (d : List cplx) (x : Int) (n : Nat) (M : Mat) (hM : M.has_shape n n)
    (h : ∀ r s, r < n → s < n →
      peek d (x + ((r : Int) * (n : Int) + (s : Int))) = .ok (M.entry r s)) :
    block_at d x n = M := by
  have e : block_at d x n = Mat.of_fn n n (fun r s => M.entry r s) := by
    unfold block_at
    apply of_fn_congr
    intro r s hr hs
    exact (peek_eq_getD d _ _ (h r s hr hs)).symm
  rw [e]
  exact (mat_eq_table M n n hM).symm

theorem block_at_congr (d d1 : List cplx) (x : Int) (n : Nat) (hx0 : 0 ≤ x)
    (hx1 : x + (n : Int) * (n : Int) ≤ (d.length : Int))
    (h : ∀ k : Int, x ≤ k → k < x + (n : Int) * (n : Int) → peek d1 k = peek d k) :
    block_at d1 x n = block_at d x n := by
  apply block_at_of_peek d1 x n _ (block_at_has_shape d x n)
  intro r s hr hs
  obtain ⟨h0, h1⟩ := row_major_in_block n r s hr hs
  rw [h _ (by omega) (by omega)]
  exact peek_block_at d x n hx0 hx1 r s hr hs

theorem block_apply_spec (n : Nat) (T : Mat → Mat) (d : List cplx) (x : Int) (hx0 : 0 ≤ x)
    (hx1 : x + (n : Int) * (n : Int) ≤ (d.length : Int))
    (hT : (T (block_at d x n)).has_shape n n) :
    ∃ d1, block_apply (n : Int) T d x = .ok d1 ∧ d1.length = d.length ∧
      block_at d1 x n = T (block_at d x n) ∧
      (∀ k : Int, (k < x ∨ x + (n : Int) * (n : Int) ≤ k) → peek d1 k = peek d k) := by
  obtain ⟨d1, hset, hl, hin, hout⟩ :=
    set_element_matrix_spec (T (block_at d x n)) n n hT x hx0 d hx1
  refine ⟨d1, ?_, hl, block_at_of_peek d1 x n _ hT hin, hout⟩
  unfold block_apply
  rw [element_get_in_range d x n hx0 hx1, except_bind_ok]
  exact hset

theorem block_apply_fixed (n : Nat) (T : Mat → Mat) (d : List cplx) (x : Int) (hx0 : 0 ≤ x)
    (hx1 : x + (n : Int) * (n : Int) ≤ (d.length : Int))
    (hT : T (block_at d x n) = block_at d x n) :
    block_apply (n : Int) T d x = .ok d := by
  obtain ⟨d1, happ, hl, hblk, hout⟩ :=
    block_apply_spec n T d x hx0 hx1 (by rw [hT]; exact block_at_has_shape d x n)
  rw [happ]
  congr 1
  apply eq_of_peek_eq d d1 hl
  intro k
  by_cases hk : k < x ∨ x + (n : Int) * (n : Int) ≤ k
  · exact hout k hk
  · obtain ⟨r, s, hr, hs, rfl⟩ := block_index_decompose n x k (by omega) (by omega)
    have hx1' : x + (n : Int) * (n : Int) ≤ (d1.length : Int) := by omega
    rw [peek_block_at d1 x n hx0 hx1' r s hr hs, peek_block_at d x n hx0 hx1 r s hr hs,
      hblk, hT]

/-! ## The loops of the multiply routines -/

theorem multiply_loop_spec (n : Nat) (E : Int) (hE : E = (n : Int) * (n : Int))
    (T : Mat → Mat → Mat) (hT : ∀ F X, (T F X).has_shape n n) (fm : Nat → Except Fault Mat)
    (Fs : Nat → Mat) (x0 : Int) (hx0 : 0 ≤ x0) (d0 : List cplx) :
    ∀ K : Nat, (∀ m, m < K → fm m = .ok (Fs m)) →
      x0 + (K : Int) * E ≤ (d0.length : Int) →
      ∃ d, loopE (fun d1 (m : Nat) =>
            (fm m).bind (fun Fm => block_apply (n : Int) (T Fm) d1 (x0 + (m : Int) * E)))
          d0 (List.range K) = .ok d ∧
        d.length = d0.length ∧
        (∀ m, m < K →
          block_at d (x0 + (m : Int) * E) n = T (Fs m) (block_at d0 (x0 + (m : Int) * E) n)) ∧
        (∀ k : Int, (k < x0 ∨ x0 + (K : Int) * E ≤ k) → peek d k = peek d0 k) := by
  have hE0 : 0 ≤ E := by rw [hE]; positivity
  intro K
  induction K with
  | zero =>
    intro _ _
    exact ⟨d0, rfl, rfl, fun m hm => absurd hm (Nat.not_lt_zero m), fun k _ => rfl⟩
  | succ K ih =>
    intro hfm hlen
    have hstep : ((K + 1 : Nat) : Int) * E = (K : Int) * E + E := by push_cast; ring
    obtain ⟨d, hloop, hl, hin, hout⟩ :=
      ih (fun m hm => hfm m (Nat.lt_succ_of_lt hm)) (by omega)
    have hK0 : 0 ≤ (K : Int) * E := mul_nonneg (Int.ofNat_nonneg K) hE0
    have hb0 : 0 ≤ x0 + (K : Int) * E := by omega
    have hb1 : x0 + (K : Int) * E + (n : Int) * (n : Int) ≤ (d.length : Int) := by
      rw [← hE]; omega
    obtain ⟨d1, happ, hl1, hblk, hout1⟩ :=
      block_apply_spec n (T (Fs K)) d (x0 + (K : Int) * E) hb0 hb1 (hT _ _)
    refine ⟨d1, ?_, by omega, ?_, ?_⟩
    · rw [List.range_succ, loopE_append, hloop, except_bind_ok, loopE_single,
        hfm K (Nat.lt_succ_self K), except_bind_ok]
      exact happ
    · intro m hm
      rcases Nat.lt_succ_iff_lt_or_eq.mp hm with hlt | heq
      · have hmK : (m : Int) * E + E ≤ (K : Int) * E := by
          have h1 : ((m : Int) + 1) * E ≤ (K : Int) * E :=
            mul_le_mul_of_nonneg_right (by omega) hE0
          have h2 : ((m : Int) + 1) * E = (m : Int) * E + E := by ring
          omega
        have hm0 : 0 ≤ (m : Int) * E := mul_nonneg (Int.ofNat_nonneg m) hE0
        rw [← hin m hlt]
        apply block_at_congr d d1 _ n (by omega) (by rw [← hE]; omega)
        intro k hk0 hk1
        apply hout1 k
        left
        rw [← hE] at hk1
        omega
      · subst heq
        rw [hblk]
        congr 1
        apply block_at_congr d0 d _ n hb0 (by omega)
        intro k hk0 hk1
        exact hout k (Or.inr hk0)
    · intro k hk
      rw [hout1 k (by rw [← hE]; omega), hout k (by omega)]

theorem multiply_loop_ok (n : Nat) (E : Int) (hE : E = (n : Int) * (n : Int))
    (T : Mat → Mat → Mat) (hT : ∀ F X, (T F X).has_shape n n) (fm : Nat → Except Fault Mat)
    (Fs : Nat → Mat) (x0 : Int) (hx0 : 0 ≤ x0) (last : Int) (hlast : -1 ≤ last)
    (d0 : List cplx) (hfm : ∀ m : Nat, (m : Int) ≤ last → fm m = .ok (Fs m))
    (hlen : x0 + (last + 1) * E ≤ (d0.length : Int)) :
    ∃ d, multiply_loop (n : Int) E T fm x0 last d0 = .ok d ∧ d.length = d0.length ∧
      (∀ m : Nat, (m : Int) ≤ last →
        block_at d (x0 + (m : Int) * E) n = T (Fs m) (block_at d0 (x0 + (m : Int) * E) n)) ∧
      (∀ k : Int, (k < x0 ∨ x0 + (last + 1) * E ≤ k) → peek d k = peek d0 k) := by
  have hK : (((last + 1).toNat : Nat) : Int) = last + 1 := Int.toNat_of_nonneg (by omega)
  obtain ⟨d, hloop, hl, hin, hout⟩ :=
    multiply_loop_spec n E hE T hT fm Fs x0 hx0 d0 (last + 1).toNat
      (fun m hm => hfm m (by omega)) (by rw [hK]; exact hlen)
  refine ⟨d, hloop, hl, fun m hm => hin m (by omega), ?_⟩
  intro k hk
  apply hout k
  rw [hK]
  exact hk

theorem multiply_loop_congr (size1 es : Int) (T : Mat → Mat → Mat)
    (fm fm1 : Nat → Except Fault Mat) (x0 last : Int) (d : List cplx)
    (h : ∀ m : Nat, (m : Int) ≤ last → fm m = fm1 m) :
    multiply_loop size1 es T fm x0 last d = multiply_loop size1 es T fm1 x0 last d := by
  unfold multiply_loop
  have hmem : ∀ m ∈ List.range (last + 1).toNat, fm m = fm1 m := by
    intro m hm
    apply h
    have := List.mem_range.mp hm
    omega
  generalize List.range (last + 1).toNat = l at hmem
  induction l generalizing d with
  | nil => rfl
  | cons a l ih =>
    unfold loopE
    rw [hmem a (List.mem_cons_self a l)]
    cases fm1 a with
    | error e => rfl
    | ok Fm =>
      simp only [except_bind_ok]
      cases block_apply size1 (T Fm) d (x0 + (a : Int) * es) with
      | error e => rfl
      | ok d1 => exact ih d1 (fun m hm => hmem m (List.mem_cons_of_mem a hm))

theorem multiply_loop_fixed (n : Nat) (E : Int) (hE : E = (n : Int) * (n : Int))
    (T : Mat → Mat → Mat) (fm : Nat → Except Fault Mat) (Fs : Nat → Mat) (x0 : Int)
    (hx0 : 0 ≤ x0) (last : Int) (d : List cplx)
    (hfm : ∀ m : Nat, (m : Int) ≤ last → fm m = .ok (Fs m))
    (hlen : x0 + (last + 1) * E ≤ (d.length : Int))
    (hT : ∀ m : Nat, (m : Int) ≤ last →
      T (Fs m) (block_at d (x0 + (m : Int) * E) n) = block_at d (x0 + (m : Int) * E) n) :
    multiply_loop (n : Int) E T fm x0 last d = .ok d := by
  have hE0 : 0 ≤ E := by rw [hE]; positivity
  unfold multiply_loop
  apply loopE_fixed
  intro m hm
  have hm1 : (m : Int) ≤ last := by
    have := List.mem_range.mp hm
    omega
  have hmE : (m : Int) * E + E ≤ (last + 1) * E := by
    have h1 : ((m : Int) + 1) * E ≤ (last + 1) * E :=
      mul_le_mul_of_nonneg_right (by omega) hE0
    have h2 : ((m : Int) + 1) * E = (m : Int) * E + E := by ring
    omega
  have hm0 : 0 ≤ (m : Int) * E := mul_nonneg (Int.ofNat_nonneg m) hE0
  show (fm m).bind (fun Fm => block_apply (n : Int) (T Fm) d (x0 + (m : Int) * E)) = .ok d
  rw [hfm m hm1, except_bind_ok]
  exact block_apply_fixed n (T (Fs m)) d _ (by omega) (by rw [← hE]; omega) (hT m hm1)

theorem block_bound (m last E : Int) (hm0 : 0 ≤ m) (hm : m ≤ last) (hE0 : 0 ≤ E) :
    0 ≤ m * E ∧ m * E + E ≤ (last + 1) * E := by
  constructor
  · exact mul_nonneg hm0 hE0
  · have h1 : (m + 1) * E ≤ (last + 1) * E := mul_le_mul_of_nonneg_right (by omega) hE0
    have h2 : (m + 1) * E = m * E + E := by ring
    omega

theorem product_has_shape (n : Nat) (w : ℚ) :
    (∀ F X, (left_product (n : Int) w F X).has_shape n n) ∧
    (∀ F X, (right_product (n : Int) w F X).has_shape n n) := by
  constructor
  · intro F X
    unfold left_product element_smul
    rw [Int.toNat_ofNat]
    exact of_fn_has_shape n n _
  · intro F X
    unfold right_product element_smul
    rw [Int.toNat_ofNat]
    exact of_fn_has_shape n n _

theorem square_element_size (g : herm_matrix_timestep) (hinv : storage_invariant g)
    (hd : dims_valid g) (hsq : g.size1_ = g.size2_) :
    ∃ n : Nat, g.size1_ = (n : Int) ∧ g.element_size_ = (n : Int) * (n : Int) := by
  obtain ⟨n, hn⟩ := Int.eq_ofNat_of_zero_le hd.2.2.1
  refine ⟨n, hn, ?_⟩
  rw [hinv.1, ← hsq, hn]

theorem multiply_matsubara_spec (g : herm_matrix_timestep) (hinv : storage_invariant g)
    (hd : dims_valid g) (n : Nat) (hn : g.size1_ = (n : Int))
    (hE : g.element_size_ = (n : Int) * (n : Int)) (hm1 : g.tstp_ = -1)
    (T : Mat → Mat → Mat) (hT : ∀ F X, (T F X).has_shape n n)
    (fmat : Nat → Except Fault Mat) (Fmat : Nat → Mat)
    (hf : ∀ m : Nat, (m : Int) ≤ g.ntau_ → fmat m = .ok (Fmat m)) :
    ∃ d, multiply_matsubara g T fmat = .ok { g with data_ := d } ∧
      d.length = g.data_.length ∧
      (∀ m : Nat, (m : Int) ≤ g.ntau_ →
        block_at d ((m : Int) * g.element_size_) n =
          T (Fmat m) (block_at g.data_ ((m : Int) * g.element_size_) n)) := by
  obtain ⟨ha, hb, hlen, _⟩ := block_lengths g hinv hd
  have ha0 : (g.tstp_ + 1) * g.element_size_ = 0 := by rw [hm1]; ring
  obtain ⟨d, hloop, hl, hin, _⟩ :=
    multiply_loop_ok n g.element_size_ hE T hT fmat Fmat 0 (le_refl 0) g.ntau_
      (by have := hd.2.1; omega) g.data_ hf (by omega)
  refine ⟨d, ?_, hl, ?_⟩
  · unfold multiply_matsubara
    rw [hn, hloop, except_bind_ok]
  · intro m hm
    have := hin m hm
    rwa [zero_add] at this

theorem multiply_real_time_spec (g : herm_matrix_timestep) (hinv : storage_invariant g)
    (hd : dims_valid g) (n : Nat) (hn : g.size1_ = (n : Int))
    (hE : g.element_size_ = (n : Int) * (n : Int))
    (T : Mat → Mat → Mat) (hT : ∀ F X, (T F X).has_shape n n)
    (fret ftv fles : Nat → Except Fault Mat) (Fret Ftv Fles : Nat → Mat)
    (hfret : ∀ m : Nat, (m : Int) ≤ g.tstp_ → fret m = .ok (Fret m))
    (hftv : ∀ m : Nat, (m : Int) ≤ g.ntau_ → ftv m = .ok (Ftv m))
    (hfles : ∀ m : Nat, (m : Int) ≤ g.tstp_ → fles m = .ok (Fles m)) :
    ∃ d, multiply_real_time g T fret ftv fles = .ok { g with data_ := d } ∧
      d.length = g.data_.length ∧
      (∀ m : Nat, (m : Int) ≤ g.tstp_ →
        block_at d ((m : Int) * g.element_size_) n =
          T (Fret m) (block_at g.data_ ((m : Int) * g.element_size_) n)) ∧
      (∀ m : Nat, (m : Int) ≤ g.ntau_ →
        block_at d ((g.tstp_ + 1 + (m : Int)) * g.element_size_) n =
          T (Ftv m) (block_at g.data_ ((g.tstp_ + 1 + (m : Int)) * g.element_size_) n)) ∧
      (∀ m : Nat, (m : Int) ≤ g.tstp_ →
        block_at d ((g.tstp_ + 1 + g.ntau_ + 1 + (m : Int)) * g.element_size_) n =
          T (Fles m)
            (block_at g.data_ ((g.tstp_ + 1 + g.ntau_ + 1 + (m : Int)) * g.element_size_)
              n)) := by
  obtain ⟨ha, hb, hlen, _⟩ := block_lengths g hinv hd
  have hE0 : 0 ≤ g.element_size_ := by rw [hE]; positivity
  have ht := hd.1
  have hnt := hd.2.1
  have hx3 : (g.tstp_ + 1 + g.ntau_ + 1) * g.element_size_ =
      (g.tstp_ + 1) * g.element_size_ + (g.ntau_ + 1) * g.element_size_ := by ring
  obtain ⟨d1, hloop1, hl1, hin1, hout1⟩ :=
    multiply_loop_ok n g.element_size_ hE T hT fret Fret 0 (le_refl 0) g.tstp_ ht g.data_
      hfret (by omega)
  obtain ⟨d2, hloop2, hl2, hin2, hout2⟩ :=
    multiply_loop_ok n g.element_size_ hE T hT ftv Ftv ((g.tstp_ + 1) * g.element_size_) ha
      g.ntau_ (by omega) d1 hftv (by omega)
  obtain ⟨d3, hloop3, hl3, hin3, hout3⟩ :=
    multiply_loop_ok n g.element_size_ hE T hT fles Fles
      ((g.tstp_ + 1 + g.ntau_ + 1) * g.element_size_) (by omega) g.tstp_ ht d2 hfles
      (by omega)
  refine ⟨d3, ?_, by omega, ?_, ?_, ?_⟩
  · unfold multiply_real_time
    rw [hn, hloop1, except_bind_ok, hloop2, except_bind_ok, hloop3, except_bind_ok]
  · intro m hm
    obtain ⟨b0, b1⟩ := block_bound (m : Int) g.tstp_ g.element_size_ (Int.ofNat_nonneg m) hm hE0
    have e1 := hin1 m hm
    rw [zero_add] at e1
    rw [← e1]
    have e2 : block_at d2 ((m : Int) * g.element_size_) n =
        block_at d1 ((m : Int) * g.element_size_) n :=
      block_at_congr d1 d2 _ n b0 (by rw [← hE]; omega)
        (fun k hk0 hk1 => hout2 k (Or.inl (by rw [← hE] at hk1; omega)))
    rw [← e2]
    exact block_at_congr d2 d3 _ n b0 (by rw [← hE]; omega)
      (fun k hk0 hk1 => hout3 k (Or.inl (by rw [← hE] at hk1; omega)))
  · intro m hm
    obtain ⟨b0, b1⟩ := block_bound (m : Int) g.ntau_ g.element_size_ (Int.ofNat_nonneg m) hm hE0
    have hx : (g.tstp_ + 1 + (m : Int)) * g.element_size_ =
        (g.tstp_ + 1) * g.element_size_ + (m : Int) * g.element_size_ := by ring
    rw [hx]
    have e0 : block_at d1 ((g.tstp_ + 1) * g.element_size_ + (m : Int) * g.element_size_) n =
        block_at g.data_ ((g.tstp_ + 1) * g.element_size_ + (m : Int) * g.element_size_) n :=
      block_at_congr g.data_ d1 _ n (by omega) (by rw [← hE]; omega)
        (fun k hk0 hk1 => hout1 k (Or.inr (by omega)))
    rw [← e0, ← hin2 m hm]
    exact block_at_congr d2 d3 _ n (by omega) (by rw [← hE]; omega)
      (fun k hk0 hk1 => hout3 k (Or.inl (by rw [← hE] at hk1; omega)))
  · intro m hm
    obtain ⟨b0, b1⟩ := block_bound (m : Int) g.tstp_ g.element_size_ (Int.ofNat_nonneg m) hm hE0
    have hx : (g.tstp_ + 1 + g.ntau_ + 1 + (m : Int)) * g.element_size_ =
        (g.tstp_ + 1 + g.ntau_ + 1) * g.element_size_ + (m : Int) * g.element_size_ := by
      ring
    rw [hx]
    have e0 : block_at d1
          ((g.tstp_ + 1 + g.ntau_ + 1) * g.element_size_ + (m : Int) * g.element_size_) n =
        block_at g.data_
          ((g.tstp_ + 1 + g.ntau_ + 1) * g.element_size_ + (m : Int) * g.element_size_) n :=
      block_at_congr g.data_ d1 _ n (by omega) (by rw [← hE]; omega)
        (fun k hk0 hk1 => hout1 k (Or.inr (by omega)))
    have e1 : block_at d2
          ((g.tstp_ + 1 + g.ntau_ + 1) * g.element_size_ + (m : Int) * g.element_size_) n =
        block_at d1
          ((g.tstp_ + 1 + g.ntau_ + 1) * g.element_size_ + (m : Int) * g.element_size_) n :=
      block_at_congr d1 d2 _ n (by omega) (by rw [← hE]; omega)
        (fun k hk0 hk1 => hout2 k (Or.inr (by omega)))
    rw [← e0, ← e1]
    exact hin3 m hm

/-! ## Block semantics of `left_multiply` and `right_multiply` -/

theorem scratch_block_ok (g : herm_matrix_timestep) (n : Nat) (hn : g.size1_ = (n : Int))
    (hE : g.element_size_ = (n : Int) * (n : Int)) : scratch_block g = .ok () := by
  unfold scratch_block
  have hE0 : 0 ≤ g.element_size_ := by rw [hE]; positivity
  rw [new_cplx_nonneg _ hE0, except_bind_ok, List.length_replicate, hn, Int.toNat_ofNat,
    if_pos]
  have h : ((n * n : Nat) : Int) = g.element_size_ := by rw [hE]; push_cast; ring
  omega

theorem function_read (F : function) (hF : function_invariant F) (n : Nat)
    (h1 : F.size1_ = (n : Int)) (hE : F.element_size_ = (n : Int) * (n : Int)) (t : Int)
    (ht0 : -1 ≤ t) (ht : t ≤ F.nt_) :
    element_get (n : Int) F.data_ (F.ptr t) = .ok (F.value t) := by
  have hE0 : 0 ≤ F.element_size_ := by rw [hE]; positivity
  obtain ⟨b0, b1⟩ := block_bound (t + 1) (F.nt_ + 1) F.element_size_ (by omega) (by omega) hE0
  have hlen := hF.2.2
  have e : F.nt_ + 1 + 1 = F.nt_ + 2 := by ring
  rw [e] at b1
  unfold function.value
  rw [h1, Int.toNat_ofNat]
  unfold function.ptr
  exact element_get_in_range F.data_ _ n b0 (by rw [← hE]; omega)

theorem read_after_update (g : herm_matrix_timestep) (hinv : storage_invariant g)
    (hd : dims_valid g) (n : Nat) (hn : g.size1_ = (n : Int))
    (hE : g.element_size_ = (n : Int) * (n : Int)) (d : List cplx)
    (hl : d.length = g.data_.length) (k : Int) (hk0 : 0 ≤ k)
    (hk : k < (g.tstp_ + 1) * 2 + (g.ntau_ + 1)) (M1 : Mat)
    (hblk : block_at d (k * g.element_size_) n = M1) :
    herm_matrix_READ_ELEMENT d (k * g.element_size_) g.size1_ = .ok M1 := by
  obtain ⟨hx0, hx1⟩ := block_in_range g hinv hd k hk0 hk
  have hes := hinv.1
  rw [hn, ← hblk]
  exact element_get_in_range d _ n hx0 (by rw [← hE]; omega)

/-- What a multiply routine leaves in the slice, read through the accessors: every block is
`T F X` for its former value `X` and the factor `F` of its loop. -/
theorem multiply_reads (g : herm_matrix_timestep) (hinv : storage_invariant g)
    (hd : dims_valid g) (n : Nat) (hn : g.size1_ = (n : Int))
    (hE : g.element_size_ = (n : Int) * (n : Int)) (T : Mat → Mat → Mat)
    (hT : ∀ F X, (T F X).has_shape n n)
    (fmat fret ftv fles : Nat → Except Fault Mat) (Fmat Fret Ftv Fles : Nat → Mat)
    (hfmat : g.tstp_ = -1 → ∀ m : Nat, (m : Int) ≤ g.ntau_ → fmat m = .ok (Fmat m))
    (hfret : 0 ≤ g.tstp_ → ∀ m : Nat, (m : Int) ≤ g.tstp_ → fret m = .ok (Fret m))
    (hftv : 0 ≤ g.tstp_ → ∀ m : Nat, (m : Int) ≤ g.ntau_ → ftv m = .ok (Ftv m))
    (hfles : 0 ≤ g.tstp_ → ∀ m : Nat, (m : Int) ≤ g.tstp_ → fles m = .ok (Fles m)) :
    ∃ g1, (if g.tstp_ = -1 then multiply_matsubara g T fmat
        else multiply_real_time g T fret ftv fles) = .ok g1 ∧
      g1 = { g with data_ := g1.data_ } ∧
      (g.tstp_ = -1 → ∀ m : Nat, (m : Int) ≤ g.ntau_ →
        ∃ M, get_mat g (m : Int) = .ok M ∧ get_mat g1 (m : Int) = .ok (T (Fmat m) M)) ∧
      (0 ≤ g.tstp_ →
        (∀ m : Nat, (m : Int) ≤ g.tstp_ →
          ∃ R, get_ret_tstp_t g (m : Int) = .ok R ∧
            get_ret_tstp_t g1 (m : Int) = .ok (T (Fret m) R)) ∧
        (∀ m : Nat, (m : Int) ≤ g.ntau_ →
          ∃ V, get_tv_j g (m : Int) = .ok V ∧ get_tv_j g1 (m : Int) = .ok (T (Ftv m) V)) ∧
        (∀ m : Nat, (m : Int) ≤ g.tstp_ →
          ∃ L, get_les_t_tstp g (m : Int) = .ok L ∧
            get_les_t_tstp g1 (m : Int) = .ok (T (Fles m) L))) := by
  have ht := hd.1
  have hnt := hd.2.1
  by_cases hm1 : g.tstp_ = -1
  · rw [if_pos hm1]
    obtain ⟨d, hres, hl, hin⟩ :=
      multiply_matsubara_spec g hinv hd n hn hE hm1 T hT fmat Fmat (hfmat hm1)
    refine ⟨{ g with data_ := d }, hres, rfl, ?_, ?_⟩
    · intro _ m hm
      refine ⟨block_at g.data_ ((m : Int) * g.element_size_) n, ?_, ?_⟩
      · exact read_after_update g hinv hd n hn hE g.data_ rfl (m : Int) (Int.ofNat_nonneg m)
          (by omega) _ rfl
      · exact read_after_update g hinv hd n hn hE d hl (m : Int) (Int.ofNat_nonneg m)
          (by omega) _ (hin m hm)
    · intro h0
      omega
  · rw [if_neg hm1]
    have h0 : 0 ≤ g.tstp_ := by omega
    obtain ⟨d, hres, hl, hret, htv, hles⟩ :=
      multiply_real_time_spec g hinv hd n hn hE T hT fret ftv fles Fret Ftv Fles (hfret h0)
        (hftv h0) (hfles h0)
    refine ⟨{ g with data_ := d }, hres, rfl, fun h => absurd h hm1, fun _ => ⟨?_, ?_, ?_⟩⟩
    · intro m hm
      refine ⟨block_at g.data_ ((m : Int) * g.element_size_) n, ?_, ?_⟩
      · exact read_after_update g hinv hd n hn hE g.data_ rfl (m : Int) (Int.ofNat_nonneg m)
          (by omega) _ rfl
      · exact read_after_update g hinv hd n hn hE d hl (m : Int) (Int.ofNat_nonneg m)
          (by omega) _ (hret m hm)
    · intro m hm
      refine ⟨block_at g.data_ ((g.tstp_ + 1 + (m : Int)) * g.element_size_) n, ?_, ?_⟩
      · exact read_after_update g hinv hd n hn hE g.data_ rfl (g.tstp_ + 1 + (m : Int))
          (by omega) (by omega) _ rfl
      · exact read_after_update g hinv hd n hn hE d hl (g.tstp_ + 1 + (m : Int))
          (by omega) (by omega) _ (htv m hm)
    · intro m hm
      refine ⟨block_at g.data_ ((g.tstp_ + 1 + g.ntau_ + 1 + (m : Int)) * g.element_size_) n,
        ?_, ?_⟩
      · exact read_after_update g hinv hd n hn hE g.data_ rfl
          (g.tstp_ + 1 + g.ntau_ + 1 + (m : Int)) (by omega) (by omega) _ rfl
      · exact read_after_update g hinv hd n hn hE d hl
          (g.tstp_ + 1 + g.ntau_ + 1 + (m : Int)) (by omega) (by omega) _ (hles m hm)

theorem function_element_size (g : herm_matrix_timestep) (hinv : storage_invariant g)
    (F : function) (hF : function_invariant F) (hF1 : F.size1_ = g.size1_)
    (hF2 : F.size2_ = g.size2_) : F.element_size_ = g.element_size_ := by
  rw [hF.2.1, hinv.1, hF1, hF2]

theorem function_ptr_shift (F : function) (es t : Int) (h : F.element_size_ = es) :
    F.ptr 0 + t * es = F.ptr t := by
  unfold function.ptr
  rw [h]
  ring

/-- C22: on a square slice satisfying the storage invariant, for a function `F` of matrices
of the slice shape with `F.nt() >= tstp_` and a real `w`, `left_multiply(F, w)` returns,
changes no field but the buffer, and the accessors then give: for `tstp_ = -1` every
Matsubara matrix `M(tau_m)`, `m = 0..ntau_`, as `w * F(-1) * M(tau_m)`; for `tstp_ >= 0` every
retarded matrix `R(tstp_, t_m)`, `m = 0..tstp_`, as `w * F(tstp_) * R(tstp_, t_m)`, every
left-mixing matrix, `m = 0..ntau_`, as `w * F(tstp_) * (old value)`, and every lesser matrix
`L(t_m, tstp_)`, `m = 0..tstp_`, as `w * F(t_m) * L(t_m, tstp_)`. -/
theorem left_multiply_block_semantics (g : herm_matrix_timestep)
    (hinv : storage_invariant g) (hd : dims_valid g) (hsq : g.size1_ = g.size2_)
    (F : function) (hF : function_invariant F) (hF1 : F.size1_ = g.size1_)
    (hF2 : F.size2_ = g.size2_) (hnt : F.nt_ ≥ g.tstp_) (w : ℚ) :
    ∃ g1, left_multiply g F w = .ok g1 ∧ g1 = { g with data_ := g1.data_ } ∧
      (g.tstp_ = -1 → ∀ m : Nat, (m : Int) ≤ g.ntau_ →
        ∃ M, get_mat g (m : Int) = .ok M ∧
          get_mat g1 (m : Int) = .ok (left_product g.size1_ w (F.value (-1)) M)) ∧
      (0 ≤ g.tstp_ →
        (∀ m : Nat, (m : Int) ≤ g.tstp_ →
          ∃ R, get_ret_tstp_t g (m : Int) = .ok R ∧
            get_ret_tstp_t g1 (m : Int) = .ok (left_product g.size1_ w (F.value g.tstp_) R)) ∧
        (∀ m : Nat, (m : Int) ≤ g.ntau_ →
          ∃ V, get_tv_j g (m : Int) = .ok V ∧
            get_tv_j g1 (m : Int) = .ok (left_product g.size1_ w (F.value g.tstp_) V)) ∧
        (∀ m : Nat, (m : Int) ≤ g.tstp_ →
          ∃ L, get_les_t_tstp g (m : Int) = .ok L ∧
            get_les_t_tstp g1 (m : Int) =
              .ok (left_product g.size1_ w (F.value (m : Int)) L))) := by
  obtain ⟨n, hn, hE⟩ := square_element_size g hinv hd hsq
  have hFE := function_element_size g hinv F hF hF1 hF2
  have hFn : F.size1_ = (n : Int) := by rw [hF1, hn]
  have hFE1 : F.element_size_ = (n : Int) * (n : Int) := by rw [hFE, hE]
  have hT : ∀ A X, (left_product g.size1_ w A X).has_shape n n := by
    rw [hn]; exact (product_has_shape n w).1
  have hread : ∀ t : Int, -1 ≤ t → t ≤ F.nt_ →
      element_get g.size1_ F.data_ (F.ptr t) = .ok (F.value t) := by
    intro t ht0 ht
    rw [hn]
    exact function_read F hF n hFn hFE1 t ht0 ht
  have ht := hd.1
  obtain ⟨g1, hres, hfields, hmat, hrt⟩ :=
    multiply_reads g hinv hd n hn hE (left_product g.size1_ w) hT
      (fun _ => element_get g.size1_ F.data_ (F.ptr (-1)))
      (fun _ => element_get g.size1_ F.data_ (F.ptr 0 + g.tstp_ * g.element_size_))
      (fun _ => element_get g.size1_ F.data_ (F.ptr 0 + g.tstp_ * g.element_size_))
      (fun m => element_get g.size1_ F.data_ (F.ptr 0 + (m : Int) * g.element_size_))
      (fun _ => F.value (-1)) (fun _ => F.value g.tstp_) (fun _ => F.value g.tstp_)
      (fun m => F.value (m : Int))
      (fun _ m _ => hread (-1) (le_refl _) (by omega))
      (fun _ m _ => by
        rw [function_ptr_shift F _ _ hFE]
        exact hread g.tstp_ ht hnt)
      (fun _ m _ => by
        rw [function_ptr_shift F _ _ hFE]
        exact hread g.tstp_ ht hnt)
      (fun _ m hm => by
        show element_get g.size1_ F.data_ (F.ptr 0 + (m : Int) * g.element_size_) = _
        rw [function_ptr_shift F _ _ hFE]
        exact hread (m : Int) (by omega) (by omega))
  refine ⟨g1, ?_, hfields, hmat, hrt⟩
  unfold left_multiply
  rw [if_neg (not_not.mpr hnt)]
  unfold left_multiply_ptr
  rw [scratch_block_ok g n hn hE, except_bind_ok]
  exact hres

/-- Instance of C22 on `sample_scalar_filled` (`tstp_ = 1`) with `F(-1) = 2`, `F(0) = i`,
`F(1) = 3` and `w = 2`: the call returns and the lesser block `L(t_0, 1)` becomes
`2 * F(0) * L(t_0, 1)`. -/
theorem left_multiply_block_semantics_witness :
    ∃ g1, left_multiply sample_scalar_filled sample_function_scalar 2 = .ok g1 ∧
      ∃ L, get_les_t_tstp sample_scalar_filled 0 = .ok L ∧
        get_les_t_tstp g1 0 =
          .ok (left_product sample_scalar_filled.size1_ 2 (sample_function_scalar.value 0) L) :=
  (left_multiply_block_semantics sample_scalar_filled (by decide) (by decide) (by decide)
    sample_function_scalar (by decide) (by decide) (by decide) (by decide) 2).imp
    (fun _ h => ⟨h.1, (h.2.2.2 (by decide)).2.2 0 (by decide)⟩)

/-- C23: on a square slice satisfying the storage invariant, for a function `F` of matrices
of the slice shape with `F.nt() >= tstp_` and a real `w`, `right_multiply(F, w)` returns,
changes no field but the buffer, and the accessors then give: for `tstp_ = -1` every
Matsubara matrix `M(tau_m)`, `m = 0..ntau_`, as `w * M(tau_m) * F(-1)`; for `tstp_ >= 0` every
retarded matrix `R(tstp_, t_m)`, `m = 0..tstp_`, as `w * R(tstp_, t_m) * F(t_m)`, every
left-mixing matrix, `m = 0..ntau_`, as `w * (old value) * F(-1)`, and every lesser matrix
`L(t_m, tstp_)`, `m = 0..tstp_`, as `w * L(t_m, tstp_) * F(tstp_)`. -/
theorem right_multiply_block_semantics (g : herm_matrix_timestep)
    (hinv : storage_invariant g) (hd : dims_valid g) (hsq : g.size1_ = g.size2_)
    (F : function) (hF : function_invariant F) (hF1 : F.size1_ = g.size1_)
    (hF2 : F.size2_ = g.size2_) (hnt : F.nt_ ≥ g.tstp_) (w : ℚ) :
    ∃ g1, right_multiply g F w = .ok g1 ∧ g1 = { g with data_ := g1.data_ } ∧
      (g.tstp_ = -1 → ∀ m : Nat, (m : Int) ≤ g.ntau_ →
        ∃ M, get_mat g (m : Int) = .ok M ∧
          get_mat g1 (m : Int) = .ok (right_product g.size1_ w (F.value (-1)) M)) ∧
      (0 ≤ g.tstp_ →
        (∀ m : Nat, (m : Int) ≤ g.tstp_ →
          ∃ R, get_ret_tstp_t g (m : Int) = .ok R ∧
            get_ret_tstp_t g1 (m : Int) =
              .ok (right_product g.size1_ w (F.value (m : Int)) R)) ∧
        (∀ m : Nat, (m : Int) ≤ g.ntau_ →
          ∃ V, get_tv_j g (m : Int) = .ok V ∧
            get_tv_j g1 (m : Int) = .ok (right_product g.size1_ w (F.value (-1)) V)) ∧
        (∀ m : Nat, (m : Int) ≤ g.tstp_ →
          ∃ L, get_les_t_tstp g (m : Int) = .ok L ∧
            get_les_t_tstp g1 (m : Int) =
              .ok (right_product g.size1_ w (F.value g.tstp_) L))) := by
  obtain ⟨n, hn, hE⟩ := square_element_size g hinv hd hsq
  have hFE := function_element_size g hinv F hF hF1 hF2
  have hFn : F.size1_ = (n : Int) := by rw [hF1, hn]
  have hFE1 : F.element_size_ = (n : Int) * (n : Int) := by rw [hFE, hE]
  have hT : ∀ A X, (right_product g.size1_ w A X).has_shape n n := by
    rw [hn]; exact (product_has_shape n w).2
  have hread : ∀ t : Int, -1 ≤ t → t ≤ F.nt_ →
      element_get g.size1_ F.data_ (F.ptr t) = .ok (F.value t) := by
    intro t ht0 ht
    rw [hn]
    exact function_read F hF n hFn hFE1 t ht0 ht
  have ht := hd.1
  obtain ⟨g1, hres, hfields, hmat, hrt⟩ :=
    multiply_reads g hinv hd n hn hE (right_product g.size1_ w) hT
      (fun _ => element_get g.size1_ F.data_ (F.ptr (-1)))
      (fun m => element_get g.size1_ F.data_ (F.ptr 0 + (m : Int) * g.element_size_))
      (fun _ => element_get g.size1_ F.data_ (F.ptr (-1)))
      (fun _ => element_get g.size1_ F.data_ (F.ptr 0 + g.tstp_ * g.element_size_))
      (fun _ => F.value (-1)) (fun m => F.value (m : Int)) (fun _ => F.value (-1))
      (fun _ => F.value g.tstp_)
      (fun _ m _ => hread (-1) (le_refl _) (by omega))
      (fun _ m hm => by
        show element_get g.size1_ F.data_ (F.ptr 0 + (m : Int) * g.element_size_) = _
        rw [function_ptr_shift F _ _ hFE]
        exact hread (m : Int) (by omega) (by omega))
      (fun _ m _ => hread (-1) (le_refl _) (by omega))
      (fun _ m _ => by
        rw [function_ptr_shift F _ _ hFE]
        exact hread g.tstp_ ht hnt)
  refine ⟨g1, ?_, hfields, hmat, hrt⟩
  unfold right_multiply
  rw [if_neg (not_not.mpr hnt)]
  unfold right_multiply_ptr
  rw [scratch_block_ok g n hn hE, except_bind_ok]
  exact hres

/-- Instance of C23 on `sample_scalar_filled` (`tstp_ = 1`) with `F(-1) = 2`, `F(0) = i`,
`F(1) = 3` and `w = 1`: the call returns and the retarded block `R(1, t_0)` becomes
`R(1, t_0) * F(0)`. -/
theorem right_multiply_block_semantics_witness :
    ∃ g1, right_multiply sample_scalar_filled sample_function_scalar 1 = .ok g1 ∧
      ∃ R, get_ret_tstp_t sample_scalar_filled 0 = .ok R ∧
        get_ret_tstp_t g1 0 =
          .ok (right_product sample_scalar_filled.size1_ 1 (sample_function_scalar.value 0)
            R) :=
  (right_multiply_block_semantics sample_scalar_filled (by decide) (by decide) (by decide)
    sample_function_scalar (by decide) (by decide) (by decide) (by decide) 1).imp
    (fun _ h => ⟨h.1, (h.2.2.2 (by decide)).1 0 (by decide)⟩)

/-! ## Multiplying by the identity -/

theorem sum_delta (v : Nat → cplx) (r : Nat) :
    ∀ n : Nat, ((List.range n).map (fun (k : Nat) => (if r = k then (1 : cplx) else 0) * v k)).sum
      = if r < n then v r else 0 := by
  intro n
  induction n with
  | zero => simp
  | succ n ih =>
    rw [List.range_succ, List.map_append, List.sum_append, ih, List.map_singleton,
      List.sum_singleton]
    by_cases h1 : r < n
    · rw [if_pos h1, if_neg (by omega), if_pos (by omega), zero_mul, add_zero]
    · rw [if_neg h1]
      by_cases h2 : r = n
      · rw [if_pos h2, if_pos (by omega), one_mul, zero_add, h2]
      · rw [if_neg h2, if_neg (by omega), zero_mul, add_zero]

theorem cplx_smul_one (z : cplx) : cplx.smul 1 z = z := by
  cases z
  simp [cplx.smul]

theorem left_product_identity (n : Nat) (V : Nat → Nat → cplx) :
    left_product (n : Int) 1 (Mat.identity n) (Mat.of_fn n n V) = Mat.of_fn n n V := by
  unfold left_product element_smul element_mult
  rw [Int.toNat_ofNat]
  apply of_fn_congr
  intro r s hr hs
  rw [of_fn_entry n n _ r s hr hs, cplx_smul_one]
  have e : (List.range n).map (fun (k : Nat) =>
        (Mat.identity n).entry r k * (Mat.of_fn n n V).entry k s) =
      (List.range n).map (fun (k : Nat) => (if r = k then (1 : cplx) else 0) * V k s) := by
    apply List.map_congr_left
    intro k hk
    have hk1 := List.mem_range.mp hk
    unfold Mat.identity
    rw [of_fn_entry n n _ r k hr hk1, of_fn_entry n n _ k s hk1 hs]
  rw [e, sum_delta (fun k => V k s) r n, if_pos hr]

/-- C24: on a square slice satisfying the storage invariant, with any buffer contents and
`tstp_ = -1` or `tstp_ >= 0`, `left_multiply(F, 1)` with a function `F` of matrices of the
slice shape whose values `F(t)`, `t = -1..tstp_`, are all the identity matrix returns and
leaves the slice, every buffer entry included, as it was. -/
theorem left_multiply_identity (g : herm_matrix_timestep) (hinv : storage_invariant g)
    (hd : dims_valid g) (hsq : g.size1_ = g.size2_) (F : function)
    (hF : function_invariant F) (hF1 : F.size1_ = g.size1_) (hF2 : F.size2_ = g.size2_)
    (hnt : F.nt_ ≥ g.tstp_)
    (hid : ∀ t : Int, -1 ≤ t → t ≤ g.tstp_ → F.value t = Mat.identity g.size1_.toNat) :
    left_multiply g F 1 = .ok g := by
  obtain ⟨n, hn, hE⟩ := square_element_size g hinv hd hsq
  obtain ⟨ha, hb, hlen, _⟩ := block_lengths g hinv hd
  have hFE := function_element_size g hinv F hF hF1 hF2
  have hFn : F.size1_ = (n : Int) := by rw [hF1, hn]
  have hFE1 : F.element_size_ = (n : Int) * (n : Int) := by rw [hFE, hE]
  have ht := hd.1
  have hnt0 := hd.2.1
  have hread : ∀ t : Int, -1 ≤ t → t ≤ g.tstp_ →
      element_get (n : Int) F.data_ (F.ptr t) = .ok (Mat.identity n) := by
    intro t ht0 ht1
    rw [function_read F hF n hFn hFE1 t ht0 (by omega), hid t ht0 ht1, hn, Int.toNat_ofNat]
  have hfix : ∀ (x : Int),
      left_product (n : Int) 1 (Mat.identity n) (block_at g.data_ x n) =
        block_at g.data_ x n := by
    intro x
    exact left_product_identity n _
  have hx3 : (g.tstp_ + 1 + g.ntau_ + 1) * g.element_size_ =
      (g.tstp_ + 1) * g.element_size_ + (g.ntau_ + 1) * g.element_size_ := by ring
  unfold left_multiply
  rw [if_neg (not_not.mpr hnt)]
  unfold left_multiply_ptr
  rw [scratch_block_ok g n hn hE, except_bind_ok]
  by_cases hm1 : g.tstp_ = -1
  · rw [if_pos hm1]
    unfold multiply_matsubara
    have ha0 : (g.tstp_ + 1) * g.element_size_ = 0 := by rw [hm1]; ring
    rw [hn, multiply_loop_fixed n g.element_size_ hE (left_product (n : Int) 1)
      (fun _ => element_get (n : Int) F.data_ (F.ptr (-1))) (fun _ => Mat.identity n) 0
      (le_refl 0) g.ntau_ g.data_ (fun m _ => hread (-1) (le_refl _) ht) (by omega)
      (fun m _ => hfix _), except_bind_ok]
    rw [← hn, with_own_data]
  · rw [if_neg hm1]
    unfold multiply_real_time
    rw [function_ptr_shift F _ _ hFE, hn]
    rw [multiply_loop_fixed n g.element_size_ hE (left_product (n : Int) 1)
      (fun _ => element_get (n : Int) F.data_ (F.ptr g.tstp_)) (fun _ => Mat.identity n) 0
      (le_refl 0) g.tstp_ g.data_ (fun m _ => hread g.tstp_ ht (le_refl _)) (by omega)
      (fun m _ => hfix _), except_bind_ok]
    rw [multiply_loop_fixed n g.element_size_ hE (left_product (n : Int) 1)
      (fun _ => element_get (n : Int) F.data_ (F.ptr g.tstp_)) (fun _ => Mat.identity n)
      ((g.tstp_ + 1) * g.element_size_) ha g.ntau_ g.data_
      (fun m _ => hread g.tstp_ ht (le_refl _)) (by omega) (fun m _ => hfix _),
      except_bind_ok]
    rw [multiply_loop_fixed n g.element_size_ hE (left_product (n : Int) 1)
      (fun m => element_get (n : Int) F.data_ (F.ptr 0 + (m : Int) * g.element_size_))
      (fun _ => Mat.identity n) ((g.tstp_ + 1 + g.ntau_ + 1) * g.element_size_) (by omega)
      g.tstp_ g.data_
      (fun m hm => by
        show element_get (n : Int) F.data_ (F.ptr 0 + (m : Int) * g.element_size_) = _
        rw [function_ptr_shift F _ _ hFE]
        exact hread (m : Int) (by omega) hm)
      (by omega) (fun m _ => hfix _), except_bind_ok]
    rw [← hn, with_own_data]

/-- Instance of C24: `sample_square.left_multiply(F, 1)` with `F(-1) = F(0) = 1` leaves the
sixteen entries of `sample_square` unchanged. -/
theorem left_multiply_identity_witness :
    left_multiply sample_square sample_function_identity 1 = .ok sample_square :=
  left_multiply_identity sample_square (by decide) (by decide) (by decide)
    sample_function_identity (by decide) (by decide) (by decide) (by decide)
    (fun t h1 h2 => by
      have h3 : t ≤ 0 := h2
      interval_cases t <;> decide)

/-! ## The `_hermconj` variants -/

theorem multiply_matsubara_congr (g : herm_matrix_timestep) (T : Mat → Mat → Mat)
    (fmat fmat1 : Nat → Except Fault Mat)
    (h : ∀ m : Nat, (m : Int) ≤ g.ntau_ → fmat m = fmat1 m) :
    multiply_matsubara g T fmat = multiply_matsubara g T fmat1 := by
  unfold multiply_matsubara
  rw [multiply_loop_congr _ _ T fmat fmat1 _ _ _ h]

theorem multiply_real_time_congr (g : herm_matrix_timestep) (T : Mat → Mat → Mat)
    (fret ftv fles fret1 ftv1 fles1 : Nat → Except Fault Mat)
    (h1 : ∀ m : Nat, (m : Int) ≤ g.tstp_ → fret m = fret1 m)
    (h2 : ∀ m : Nat, (m : Int) ≤ g.ntau_ → ftv m = ftv1 m)
    (h3 : ∀ m : Nat, (m : Int) ≤ g.tstp_ → fles m = fles1 m) :
    multiply_real_time g T fret ftv fles = multiply_real_time g T fret1 ftv1 fles1 := by
  unfold multiply_real_time
  rw [multiply_loop_congr _ _ T fret fret1 _ _ _ h1]
  congr 1
  funext d1
  rw [multiply_loop_congr _ _ T ftv ftv1 _ _ _ h2]
  congr 1
  funext d2
  rw [multiply_loop_congr _ _ T fles fles1 _ _ _ h3]

theorem element_conj_eq_adjoint (n : Nat) (d : List cplx) (x : Int) :
    element_conj (n : Int) (block_at d x n) = Mat.adjoint (block_at d x n) := by
  unfold element_conj Mat.adjoint
  rw [Int.toNat_ofNat]
  unfold block_at
  rw [of_fn_nrows, of_fn_ncols_square]

theorem multiply_canonical (g : herm_matrix_timestep) (hinv : storage_invariant g)
    (hd : dims_valid g) (n : Nat) (hn : g.size1_ = (n : Int))
    (hE : g.element_size_ = (n : Int) * (n : Int)) (T : Mat → Mat → Mat)
    (hT : ∀ F X, (T F X).has_shape n n) (Fmat Fret Ftv Fles : Nat → Mat) :
    ∃ g1, (if g.tstp_ = -1 then multiply_matsubara g T (fun m => .ok (Fmat m))
        else multiply_real_time g T (fun m => .ok (Fret m)) (fun m => .ok (Ftv m))
          (fun m => .ok (Fles m))) = .ok g1 := by
  obtain ⟨g1, h, _⟩ := multiply_reads g hinv hd n hn hE T hT (fun m => .ok (Fmat m))
    (fun m => .ok (Fret m)) (fun m => .ok (Ftv m)) (fun m => .ok (Fles m)) Fmat Fret Ftv Fles
    (fun _ _ _ => rfl) (fun _ _ _ => rfl) (fun _ _ _ => rfl) (fun _ _ _ => rfl)
  exact ⟨g1, h⟩

/-- C25: on a square slice satisfying the storage invariant, for functions `F` and `Fd` of
matrices of the slice shape with `nt() >= tstp_`, `Fd(t)` being the conjugate transpose of
`F(t)` for every `t = -1..tstp_`, and a real `w`: `left_multiply_hermconj(tstp_, F, w)` and
`left_multiply(tstp_, Fd, w)` both return and leave the same slice, and so do
`right_multiply_hermconj(tstp_, F, w)` and `right_multiply(tstp_, Fd, w)`. -/
theorem hermconj_is_multiply_by_adjoint (g : herm_matrix_timestep)
    (hinv : storage_invariant g) (hd : dims_valid g) (hsq : g.size1_ = g.size2_)
    (F Fd : function) (hF : function_invariant F) (hF1 : F.size1_ = g.size1_)
    (hF2 : F.size2_ = g.size2_) (hnt : F.nt_ ≥ g.tstp_) (hFd : function_invariant Fd)
    (hFd1 : Fd.size1_ = g.size1_) (hFd2 : Fd.size2_ = g.size2_) (hntd : Fd.nt_ ≥ g.tstp_)
    (hadj : ∀ t : Int, -1 ≤ t → t ≤ g.tstp_ → Fd.value t = Mat.adjoint (F.value t))
    (w : ℚ) :
    (∃ g1, left_multiply_hermconj g g.tstp_ F w = .ok g1 ∧
      left_multiply_tstp g g.tstp_ Fd w = .ok g1) ∧
    (∃ g1, right_multiply_hermconj g g.tstp_ F w = .ok g1 ∧
      right_multiply_tstp g g.tstp_ Fd w = .ok g1) := by
  obtain ⟨n, hn, hE⟩ := square_element_size g hinv hd hsq
  have hFE := function_element_size g hinv F hF hF1 hF2
  have hFdE := function_element_size g hinv Fd hFd hFd1 hFd2
  have hFn : F.size1_ = (n : Int) := by rw [hF1, hn]
  have hFdn : Fd.size1_ = (n : Int) := by rw [hFd1, hn]
  have ht := hd.1
  have hreadF : ∀ t : Int, -1 ≤ t → t ≤ g.tstp_ →
      element_get g.size1_ F.data_ (F.ptr t) = .ok (F.value t) := by
    intro t ht0 ht1
    rw [hn]
    exact function_read F hF n hFn (by rw [hFE, hE]) t ht0 (by omega)
  have hreadFd : ∀ t : Int, -1 ≤ t → t ≤ g.tstp_ →
      element_get g.size1_ Fd.data_ (Fd.ptr t) = .ok (element_conj g.size1_ (F.value t)) := by
    intro t ht0 ht1
    have e : element_conj g.size1_ (F.value t) = Mat.adjoint (F.value t) := by
      rw [hn]
      unfold function.value
      rw [hFn, Int.toNat_ofNat]
      exact element_conj_eq_adjoint n _ _
    rw [e, ← hadj t ht0 ht1, hn]
    exact function_read Fd hFd n hFdn (by rw [hFdE, hE]) t ht0 (by omega)
  have hTl : ∀ A X, (left_product g.size1_ w A X).has_shape n n := by
    rw [hn]; exact (product_has_shape n w).1
  have hTr : ∀ A X, (right_product g.size1_ w A X).has_shape n n := by
    rw [hn]; exact (product_has_shape n w).2
  have hscr := scratch_block_ok g n hn hE
  have hE0 : 0 ≤ g.element_size_ := by rw [hE]; positivity
  have hroom : scratch_room g (List.replicate g.element_size_.toNat 0) = .ok () := by
    unfold scratch_room
    rw [List.length_replicate, hn, Int.toNat_ofNat, if_pos]
    have h : ((n * n : Nat) : Int) = g.element_size_ := by rw [hE]; push_cast; ring
    omega
  constructor
  · obtain ⟨g1, hcanon⟩ := multiply_canonical g hinv hd n hn hE (left_product g.size1_ w) hTl
      (fun _ => element_conj g.size1_ (F.value (-1)))
      (fun _ => element_conj g.size1_ (F.value g.tstp_))
      (fun _ => element_conj g.size1_ (F.value g.tstp_))
      (fun m => element_conj g.size1_ (F.value (m : Int)))
    refine ⟨g1, ?_, ?_⟩
    · rw [← hcanon]
      unfold left_multiply_hermconj
      rw [if_neg (not_not.mpr rfl), new_cplx_nonneg _ hE0, except_bind_ok, except_bind_ok,
        if_neg (not_not.mpr ⟨ht, hnt, hF1, hF2⟩), hroom, except_bind_ok,
        hreadF (-1) (le_refl _) ht, except_bind_ok]
      by_cases hm1 : g.tstp_ = -1
      · rw [if_pos hm1, if_pos hm1]
      · rw [if_neg hm1, if_neg hm1, hreadF g.tstp_ ht (le_refl _), except_bind_ok]
        apply multiply_real_time_congr
        · intro m _; rfl
        · intro m _; rfl
        · intro m hm
          show (element_get g.size1_ F.data_ (F.ptr (m : Int))).bind _ = _
          rw [hreadF (m : Int) (by omega) hm, except_bind_ok]
    · rw [← hcanon]
      unfold left_multiply_tstp
      rw [if_neg (not_not.mpr rfl), if_neg (not_not.mpr hntd)]
      unfold left_multiply_ptr
      rw [hscr, except_bind_ok]
      by_cases hm1 : g.tstp_ = -1
      · rw [if_pos hm1, if_pos hm1]
        apply multiply_matsubara_congr
        intro m _
        exact hreadFd (-1) (le_refl _) ht
      · rw [if_neg hm1, if_neg hm1]
        apply multiply_real_time_congr
        · intro m _
          show element_get g.size1_ Fd.data_ (Fd.ptr 0 + g.tstp_ * g.element_size_) = _
          rw [function_ptr_shift Fd _ _ hFdE]
          exact hreadFd g.tstp_ ht (le_refl _)
        · intro m _
          show element_get g.size1_ Fd.data_ (Fd.ptr 0 + g.tstp_ * g.element_size_) = _
          rw [function_ptr_shift Fd _ _ hFdE]
          exact hreadFd g.tstp_ ht (le_refl _)
        · intro m hm
          show element_get g.size1_ Fd.data_ (Fd.ptr 0 + (m : Int) * g.element_size_) = _
          rw [function_ptr_shift Fd _ _ hFdE]
          exact hreadFd (m : Int) (by omega) hm
  · obtain ⟨g1, hcanon⟩ := multiply_canonical g hinv hd n hn hE (right_product g.size1_ w) hTr
      (fun _ => element_conj g.size1_ (F.value (-1)))
      (fun m => element_conj g.size1_ (F.value (m : Int)))
      (fun _ => element_conj g.size1_ (F.value (-1)))
      (fun _ => element_conj g.size1_ (F.value g.tstp_))
    refine ⟨g1, ?_, ?_⟩
    · rw [← hcanon]
      unfold right_multiply_hermconj
      rw [if_neg (not_not.mpr rfl), new_cplx_nonneg _ hE0, except_bind_ok, except_bind_ok,
        if_neg (not_not.mpr hF1), if_neg (not_not.mpr hnt), if_neg (not_not.mpr ht), hroom,
        except_bind_ok, hreadF (-1) (le_refl _) ht, except_bind_ok]
      by_cases hm1 : g.tstp_ = -1
      · rw [if_pos hm1, if_pos hm1]
      · rw [if_neg hm1, if_neg hm1]
        apply multiply_real_time_congr
        · intro m hm
          show (element_get g.size1_ F.data_ (F.ptr (m : Int))).bind _ = _
          rw [hreadF (m : Int) (by omega) hm, except_bind_ok]
        · intro m _; rfl
        · intro m _
          show (element_get g.size1_ F.data_ (F.ptr g.tstp_)).bind _ = _
          rw [hreadF g.tstp_ ht (le_refl _), except_bind_ok]
    · rw [← hcanon]
      unfold right_multiply_tstp
      rw [if_neg (not_not.mpr rfl), if_neg (not_not.mpr hntd)]
      unfold right_multiply_ptr
      rw [hscr, except_bind_ok]
      by_cases hm1 : g.tstp_ = -1
      · rw [if_pos hm1, if_pos hm1]
        apply multiply_matsubara_congr
        intro m _
        exact hreadFd (-1) (le_refl _) ht
      · rw [if_neg hm1, if_neg hm1]
        apply multiply_real_time_congr
        · intro m hm
          show element_get g.size1_ Fd.data_ (Fd.ptr 0 + (m : Int) * g.element_size_) = _
          rw [function_ptr_shift Fd _ _ hFdE]
          exact hreadFd (m : Int) (by omega) hm
        · intro m _
          exact hreadFd (-1) (le_refl _) ht
        · intro m _
          show element_get g.size1_ Fd.data_ (Fd.ptr 0 + g.tstp_ * g.element_size_) = _
          rw [function_ptr_shift Fd _ _ hFdE]
          exact hreadFd g.tstp_ ht (le_refl _)

/-- Instance of C25 on `sample_scalar_filled` (`tstp_ = 1`) with `F = (2, i, 3)`,
`Fd = (2, -i, 3)` and `w = 2`. -/
theorem hermconj_is_multiply_by_adjoint_witness :
    (∃ g1, left_multiply_hermconj sample_scalar_filled sample_scalar_filled.tstp_
        sample_function_scalar 2 = .ok g1 ∧
      left_multiply_tstp sample_scalar_filled sample_scalar_filled.tstp_
        sample_function_scalar_adjoint 2 = .ok g1) ∧
    (∃ g1, right_multiply_hermconj sample_scalar_filled sample_scalar_filled.tstp_
        sample_function_scalar 2 = .ok g1 ∧
      right_multiply_tstp sample_scalar_filled sample_scalar_filled.tstp_
        sample_function_scalar_adjoint 2 = .ok g1) :=
  hermconj_is_multiply_by_adjoint sample_scalar_filled (by decide) (by decide) (by decide)
    sample_function_scalar sample_function_scalar_adjoint (by decide) (by decide) (by decide)
    (by decide) (by decide) (by decide) (by decide) (by decide)
    (fun t h1 h2 => by
      have h3 : t ≤ 1 := h2
      interval_cases t <;> decide!)
    2

/-! ## Preconditions of the multiply routines -/

theorem block_apply_not_assertion (size1 : Int) (T : Mat → Mat) (d : List cplx) (x : Int) :
    block_apply size1 T d x ≠ .error .assertion := by
  unfold block_apply element_get element_set
  exact bind_not_assertion _ _ (read_element_not_assertion _ _ _)
    (fun X => set_element_matrix_not_assertion _ _ _ _ _)

theorem multiply_loop_not_assertion (size1 es : Int) (T : Mat → Mat → Mat)
    (fm : Nat → Except Fault Mat) (hfm : ∀ m, fm m ≠ .error .assertion) (x0 last : Int)
    (d : List cplx) : multiply_loop size1 es T fm x0 last d ≠ .error .assertion := by
  unfold multiply_loop
  exact loopE_not_assertion _ (fun d1 m => bind_not_assertion _ _ (hfm m)
    (fun Fm => block_apply_not_assertion _ _ _ _)) _ _

theorem scratch_block_not_assertion (g : herm_matrix_timestep) :
    scratch_block g ≠ .error .assertion := by
  unfold scratch_block new_cplx
  split
  · simp [Except.bind]
  · rw [except_bind_ok]
    split <;> simp

theorem multiply_branches_not_assertion (g : herm_matrix_timestep) (T : Mat → Mat → Mat)
    (fmat fret ftv fles : Nat → Except Fault Mat)
    (h0 : ∀ m, fmat m ≠ .error .assertion) (h1 : ∀ m, fret m ≠ .error .assertion)
    (h2 : ∀ m, ftv m ≠ .error .assertion) (h3 : ∀ m, fles m ≠ .error .assertion) :
    (if g.tstp_ = -1 then multiply_matsubara g T fmat
      else multiply_real_time g T fret ftv fles) ≠ .error .assertion := by
  split
  · unfold multiply_matsubara
    exact store_not_assertion g _ (multiply_loop_not_assertion _ _ _ _ h0 _ _ _)
  · unfold multiply_real_time
    exact bind_not_assertion _ _ (multiply_loop_not_assertion _ _ _ _ h1 _ _ _) (fun d1 =>
      bind_not_assertion _ _ (multiply_loop_not_assertion _ _ _ _ h2 _ _ _) (fun d2 =>
        store_not_assertion g _ (multiply_loop_not_assertion _ _ _ _ h3 _ _ _)))

theorem multiply_ptr_not_assertion (g : herm_matrix_timestep) (fbuf : List cplx)
    (f0 ft : Int) (w : ℚ) :
    left_multiply_ptr g fbuf f0 ft w ≠ .error .assertion ∧
    right_multiply_ptr g fbuf f0 ft w ≠ .error .assertion := by
  constructor
  · unfold left_multiply_ptr
    exact bind_not_assertion _ _ (scratch_block_not_assertion g) (fun _ =>
      multiply_branches_not_assertion g _ _ _ _ _
        (fun _ => read_element_not_assertion _ _ _) (fun _ => read_element_not_assertion _ _ _)
        (fun _ => read_element_not_assertion _ _ _) (fun _ => read_element_not_assertion _ _ _))
  · unfold right_multiply_ptr
    exact bind_not_assertion _ _ (scratch_block_not_assertion g) (fun _ =>
      multiply_branches_not_assertion g _ _ _ _ _
        (fun _ => read_element_not_assertion _ _ _) (fun _ => read_element_not_assertion _ _ _)
        (fun _ => read_element_not_assertion _ _ _) (fun _ => read_element_not_assertion _ _ _))

theorem multiply_tstp_rejected_iff (g : herm_matrix_timestep) (tstp : Int) (F : function)
    (w : ℚ) :
    (left_multiply_tstp g tstp F w = .error .assertion ↔
      ¬ (tstp = g.tstp_ ∧ F.nt_ ≥ g.tstp_)) ∧
    (right_multiply_tstp g tstp F w = .error .assertion ↔
      ¬ (tstp = g.tstp_ ∧ F.nt_ ≥ g.tstp_)) := by
  constructor
  · unfold left_multiply_tstp
    constructor
    · intro h hc
      rw [if_neg (not_not.mpr hc.1), if_neg (not_not.mpr hc.2)] at h
      exact (multiply_ptr_not_assertion g _ _ _ w).1 h
    · intro h
      by_cases h1 : tstp = g.tstp_
      · rw [if_neg (not_not.mpr h1), if_pos (fun hc => h ⟨h1, hc⟩)]
      · rw [if_pos h1]
  · unfold right_multiply_tstp
    constructor
    · intro h hc
      rw [if_neg (not_not.mpr hc.1), if_neg (not_not.mpr hc.2)] at h
      exact (multiply_ptr_not_assertion g _ _ _ w).2 h
    · intro h
      by_cases h1 : tstp = g.tstp_
      · rw [if_neg (not_not.mpr h1), if_pos (fun hc => h ⟨h1, hc⟩)]
      · rw [if_pos h1]

/-- C26: `left_multiply(tstp, F, weight)` and `right_multiply(tstp, F, weight)` assert
`tstp == tstp_` and `ft.nt() >= tstp_` only.  On the scalar Matsubara slice
`sample_mat_scalar` the function `sample_function_2x2` of 2x2 matrices is accepted and
multiplied in, its entry `F(-1)(0, 0) = 2` taken for the value `F(-1)`, whereas
`left_multiply_hermconj` rejects the same call; for every slice and function the two
routines are rejected by an assertion exactly when `tstp != tstp_` or `ft.nt() < tstp_`. -/
theorem multiply_accepts_mismatched_function :
    sample_function_2x2.size1_ ≠ sample_mat_scalar.size1_ ∧
    left_multiply_tstp sample_mat_scalar (-1) sample_function_2x2 1 =
      .ok { sample_mat_scalar with data_ := [⟨2, 4⟩, ⟨6, 8⟩] } ∧
    right_multiply_tstp sample_mat_scalar (-1) sample_function_2x2 1 =
      .ok { sample_mat_scalar with data_ := [⟨2, 4⟩, ⟨6, 8⟩] } ∧
    left_multiply_hermconj sample_mat_scalar (-1) sample_function_2x2 1 = .error .assertion ∧
    (∀ (g : herm_matrix_timestep) (tstp : Int) (F : function) (w : ℚ),
      (left_multiply_tstp g tstp F w = .error .assertion ↔
        ¬ (tstp = g.tstp_ ∧ F.nt_ ≥ g.tstp_)) ∧
      (right_multiply_tstp g tstp F w = .error .assertion ↔
        ¬ (tstp = g.tstp_ ∧ F.nt_ ≥ g.tstp_))) :=
  ⟨by decide, by decide!, by decide!, by decide!, multiply_tstp_rejected_iff⟩

/-! ## The statistics sign -/

theorem alloc_not_assertion (len : Int) :
    (if len = 0 then (.ok [] : Except Fault (List cplx))
      else (new_cplx len).bind (fun d => memset_zero d 0 len)) ≠ .error .assertion := by
  split
  · exact ok_not_assertion _
  · apply bind_not_assertion
    · unfold new_cplx
      split <;> simp
    · intro d
      exact memset_zero_not_assertion _ _ _

theorem construct5_rejected_iff (tstp ntau size1 size2 sig : Int) :
    construct5 tstp ntau size1 size2 sig = .error .assertion ↔
      ¬ (size1 ≥ 0 ∧ tstp ≥ -1 ∧ ntau ≥ 0) := by
  unfold construct5
  exact rejected_iff _ _ (bind_not_assertion _ _ (alloc_not_assertion _)
    (fun _ => ok_not_assertion _))

theorem construct4_rejected_iff (tstp ntau size1 sig : Int) :
    construct4 tstp ntau size1 sig = .error .assertion ↔
      ¬ (size1 ≥ 0 ∧ tstp ≥ -1 ∧ ntau ≥ 0 ∧ sig * sig = 1) := by
  unfold construct4
  exact rejected_iff _ _ (bind_not_assertion _ _ (alloc_not_assertion _)
    (fun _ => ok_not_assertion _))

/-- C33: the five-argument constructor asserts `size1>=0 && tstp>=-1 && ntau>=0` only;
`herm_matrix_timestep(0, 0, 1, 1, 0)` and `herm_matrix_timestep(0, 0, 1, 1, 2)` return slices
with `sig_ = 0` and `sig_ = 2`.  The four-argument form, with `sig*sig==1` in its assertion,
rejects the same values of `sig`; whether the five-argument form rejects does not depend on
`sig` at all. -/
theorem construct5_accepts_any_sig :
    construct5 0 0 1 1 0 = .ok
      { data_ := [0, 0, 0], tstp_ := 0, ntau_ := 0, size1_ := 1, size2_ := 1,
        element_size_ := 1, total_size_ := 3, sig_ := 0 } ∧
    construct5 0 0 1 1 2 = .ok
      { data_ := [0, 0, 0], tstp_ := 0, ntau_ := 0, size1_ := 1, size2_ := 1,
        element_size_ := 1, total_size_ := 3, sig_ := 2 } ∧
    construct4 0 0 1 0 = .error .assertion ∧
    construct4 0 0 1 2 = .error .assertion ∧
    (∀ tstp ntau size1 size2 sig : Int,
      construct5 tstp ntau size1 size2 sig = .error .assertion ↔
        ¬ (size1 ≥ 0 ∧ tstp ≥ -1 ∧ ntau ≥ 0)) ∧
    (∀ tstp ntau size1 sig : Int,
      construct4 tstp ntau size1 sig = .error .assertion ↔
        ¬ (size1 ≥ 0 ∧ tstp ≥ -1 ∧ ntau ≥ 0 ∧ sig * sig = 1)) :=
  ⟨by decide, by decide, by decide, by decide, construct5_rejected_iff,
    construct4_rejected_iff⟩

/-! ## Greater reads and the matrix right-mixing read -/

theorem conj_sum_minus (a b : cplx) :
    -(cplx.conj (a + -(cplx.conj b))) = -(cplx.conj a) + b := by
  rcases a with ⟨a1, a2⟩
  rcases b with ⟨b1, b2⟩
  show (⟨-(a1 + -b1), -(-(a2 + -(-b2)))⟩ : cplx) = ⟨-a1 + b1, -(-a2) + b2⟩
  congr 1 <;> ring

/-- C37: on a square slice satisfying the storage invariant, with any buffer contents, for
every `i` with `0 <= i <= tstp_` both greater reads return, and the matrix of
`get_gtr_t_tstp(i, M)` is minus the conjugate transpose of the matrix of
`get_gtr_tstp_t(i, M)`. -/
theorem get_gtr_minus_adjoint (g : herm_matrix_timestep) (hinv : storage_invariant g)
    (hd : dims_valid g) (hsq : g.size1_ = g.size2_) (i : Int) (hi0 : 0 ≤ i)
    (hi : i ≤ g.tstp_) :
    ∃ G1 G2, get_gtr_tstp_t g i = .ok G1 ∧ get_gtr_t_tstp g i = .ok G2 ∧
      G2 = Mat.neg (Mat.adjoint G1) := by
  have hn := hd.2.1
  have hr1 : i < (g.tstp_ + 1) * 2 + (g.ntau_ + 1) := by omega
  have hl0 : (0 : Int) ≤ g.tstp_ + 1 + g.ntau_ + 1 + i := by omega
  have hl1 : g.tstp_ + 1 + g.ntau_ + 1 + i < (g.tstp_ + 1) * 2 + (g.ntau_ + 1) := by omega
  have e1 : get_ret_tstp_t g i = .ok (Mat.of_fn g.size1_.toNat g.size1_.toNat
      (stored_coeff g (i * g.element_size_))) := read_block g hinv hd hsq i hi0 hr1
  have e2 : get_les_tstp_t g i = .ok (Mat.of_fn g.size1_.toNat g.size1_.toNat
      (fun r s => -(cplx.conj
        (stored_coeff g ((g.tstp_ + 1 + g.ntau_ + 1 + i) * g.element_size_) s r)))) :=
    read_block_minus_conj g hinv hd hsq _ hl0 hl1
  have e3 : get_ret_t_tstp g i = .ok (Mat.of_fn g.size1_.toNat g.size1_.toNat
      (fun r s => -(cplx.conj (stored_coeff g (i * g.element_size_) s r)))) :=
    read_block_minus_conj g hinv hd hsq i hi0 hr1
  have e4 : get_les_t_tstp g i = .ok (Mat.of_fn g.size1_.toNat g.size1_.toNat
      (stored_coeff g ((g.tstp_ + 1 + g.ntau_ + 1 + i) * g.element_size_))) :=
    read_block g hinv hd hsq _ hl0 hl1
  refine ⟨Mat.add (Mat.of_fn g.size1_.toNat g.size1_.toNat
        (stored_coeff g (i * g.element_size_)))
      (Mat.of_fn g.size1_.toNat g.size1_.toNat (fun r s => -(cplx.conj
        (stored_coeff g ((g.tstp_ + 1 + g.ntau_ + 1 + i) * g.element_size_) s r)))),
    Mat.add (Mat.of_fn g.size1_.toNat g.size1_.toNat
        (fun r s => -(cplx.conj (stored_coeff g (i * g.element_size_) s r))))
      (Mat.of_fn g.size1_.toNat g.size1_.toNat
        (stored_coeff g ((g.tstp_ + 1 + g.ntau_ + 1 + i) * g.element_size_))), ?_, ?_, ?_⟩
  · unfold get_gtr_tstp_t
    rw [e1, except_bind_ok, e2, except_bind_ok]
  · unfold get_gtr_t_tstp
    rw [e3, except_bind_ok, e4, except_bind_ok]
  · rw [add_of_fn, add_of_fn, adjoint_of_fn, neg_of_fn]
    apply of_fn_congr
    intro r s _ _
    exact (conj_sum_minus _ _).symm

/-- Instance of C37 on `sample_square` at `i = 0`. -/
theorem get_gtr_minus_adjoint_witness :
    ∃ G1 G2, get_gtr_tstp_t sample_square 0 = .ok G1 ∧ get_gtr_t_tstp sample_square 0 = .ok G2 ∧
      G2 = Mat.neg (Mat.adjoint G1) :=
  get_gtr_minus_adjoint sample_square (by decide) (by decide) (by decide) 0 (by decide)
    (by decide)

/-- C39: on a scalar slice (`size1_ = size2_ = 1`) satisfying the storage invariant, for every
`i` with `0 <= i <= ntau_`, the scalar `get_vt(i, tstp_, x)` returns a value `x` and the matrix
`get_vt(i, M, sig_)`, called with the sign of the slice, returns the 1x1 matrix with entry
`x`; this holds for either sign. -/
theorem get_vt_matrix_agrees_with_scalar (g : herm_matrix_timestep)
    (hinv : storage_invariant g) (hd : dims_valid g) (h1 : g.size1_ = 1) (h2 : g.size2_ = 1)
    (i : Int) (hi0 : 0 ≤ i) (hi : i ≤ g.ntau_) :
    ∃ x, get_vt_cplx g i g.tstp_ = .ok x ∧ get_vt_sig g i g.sig_ = .ok [[x]] := by
  have ht := hd.1
  have hk0 : (0 : Int) ≤ g.tstp_ + 1 + (g.ntau_ - i) := by omega
  have hk1 : g.tstp_ + 1 + (g.ntau_ - i) < (g.tstp_ + 1) * 2 + (g.ntau_ + 1) := by omega
  have hsq : g.size1_ = g.size2_ := by rw [h1, h2]
  have hpeek := peek_block_start g hinv hd (by omega) (by omega) _ hk0 hk1
  have hread := read_block_minus_conj g hinv hd hsq _ hk0 hk1
  have hst : stored_coeff g ((g.tstp_ + 1 + (g.ntau_ - i)) * g.element_size_) 0 0 =
      g.data_.getD ((g.tstp_ + 1 + (g.ntau_ - i)) * g.element_size_).toNat 0 := by
    unfold stored_coeff
    congr 2
    rw [h1]
    simp
  have hmat : Mat.of_fn g.size1_.toNat g.size1_.toNat (fun r s =>
      -(cplx.conj (stored_coeff g ((g.tstp_ + 1 + (g.ntau_ - i)) * g.element_size_) s r))) =
      [[-(cplx.conj (g.data_.getD ((g.tstp_ + 1 + (g.ntau_ - i)) * g.element_size_).toNat 0))]] := by
    rw [h1, ← hst]
    rfl
  rw [hmat] at hread
  by_cases hs : g.sig_ = -1
  · refine ⟨cplx.conj (g.data_.getD ((g.tstp_ + 1 + (g.ntau_ - i)) * g.element_size_).toNat 0),
      ?_, ?_⟩
    · unfold get_vt_cplx tvptr
      rw [if_neg (not_not.mpr rfl), hpeek, except_bind_ok, if_pos hs]
    · unfold get_vt_sig tvptr
      rw [hread, except_bind_ok, if_pos hs]
      show Except.ok [[-(-(cplx.conj _))]] = _
      rw [neg_neg]
  · refine ⟨-(cplx.conj
      (g.data_.getD ((g.tstp_ + 1 + (g.ntau_ - i)) * g.element_size_).toNat 0)), ?_, ?_⟩
    · unfold get_vt_cplx tvptr
      rw [if_neg (not_not.mpr rfl), hpeek, except_bind_ok, if_neg hs]
    · unfold get_vt_sig tvptr
      rw [hread, except_bind_ok, if_neg hs]

/-- Instance of C39 on `sample_scalar_filled` (`tstp_ = 1`, `ntau_ = 0`, `sig_ = -1`) at
`i = 0`. -/
theorem get_vt_matrix_agrees_with_scalar_witness :
    ∃ x, get_vt_cplx sample_scalar_filled 0 sample_scalar_filled.tstp_ = .ok x ∧
      get_vt_sig sample_scalar_filled 0 sample_scalar_filled.sig_ = .ok [[x]] :=
  get_vt_matrix_agrees_with_scalar sample_scalar_filled (by decide) (by decide) (by decide)
    (by decide) 0 (by decide) (by decide)

/-! ## Writes are local to one block -/

theorem block_write_frame (g : herm_matrix_timestep) (hinv : storage_invariant g)
    (hd : dims_valid g) (k : Int) (hk0 : 0 ≤ k)
    (hk : k < (g.tstp_ + 1) * 2 + (g.ntau_ + 1)) (M : Mat)
    (hM : M.has_shape g.size1_.toNat g.size2_.toNat) :
    ∃ b1, herm_matrix_SET_ELEMENT_MATRIX g.data_ (k * g.element_size_) g.size1_ g.size2_ M
        = .ok b1 ∧ b1.length = g.data_.length ∧
      (∀ r s, r < g.size1_.toNat → s < g.size2_.toNat →
        peek b1 (k * g.element_size_ + ((r : Int) * g.size2_ + (s : Int))) =
          .ok (M.entry r s)) ∧
      (∀ idx : Int, (idx < k * g.element_size_ ∨
          k * g.element_size_ + g.size1_ * g.size2_ ≤ idx) → peek b1 idx = peek g.data_ idx) := by
  obtain ⟨hx0, hx1⟩ := block_in_range g hinv hd k hk0 hk
  obtain ⟨n, hn⟩ := Int.eq_ofNat_of_zero_le hd.2.2.1
  obtain ⟨c, hc⟩ := Int.eq_ofNat_of_zero_le hd.2.2.2
  rw [hn, hc] at hM hx1
  simp only [Int.toNat_ofNat] at hM
  obtain ⟨b1, hset, hl, hin, hout⟩ :=
    set_element_matrix_spec M n c hM (k * g.element_size_) hx0 g.data_ hx1
  refine ⟨b1, ?_, hl, ?_, ?_⟩
  · rw [hn, hc, hset]
  · intro r s hr hs
    rw [hn] at hr
    rw [hc] at hs ⊢
    simp only [Int.toNat_ofNat] at hr hs
    exact hin r s hr hs
  · intro idx hidx
    rw [hn, hc] at hidx
    exact hout idx hidx

/-- C36: on a slice satisfying the storage invariant, for a matrix `M` of the slice shape and
`j >= 0`: `set_ret(tstp_, j, M)` (`j <= tstp_`), `set_les(j, tstp_, M)` (`j <= tstp_`),
`set_tv(tstp_, j, M)` (`j <= ntau_`) and `set_mat(j, M)` (`j <= ntau_`) return, change no field
but the buffer, keep its length, leave `M(r, s)` at entry `r * size2_ + s` of the addressed
block, and leave every buffer entry outside the `size1_ * size2_` entries of that block as it
was. -/
theorem writes_are_local (g : herm_matrix_timestep) (hinv : storage_invariant g)
    (hd : dims_valid g) (M : Mat) (hM : M.has_shape g.size1_.toNat g.size2_.toNat) (j : Int)
    (hj0 : 0 ≤ j) :
    (j ≤ g.tstp_ →
      ∃ g1, set_ret_ij g g.tstp_ j M = .ok g1 ∧ g1 = { g with data_ := g1.data_ } ∧
        g1.data_.length = g.data_.length ∧
        (∀ r s, r < g.size1_.toNat → s < g.size2_.toNat →
          peek g1.data_ (retptr g j + ((r : Int) * g.size2_ + (s : Int))) = .ok (M.entry r s)) ∧
        (∀ idx : Int, (idx < retptr g j ∨ retptr g j + g.size1_ * g.size2_ ≤ idx) →
          peek g1.data_ idx = peek g.data_ idx)) ∧
    (j ≤ g.tstp_ →
      ∃ g1, set_les_ij g j g.tstp_ M = .ok g1 ∧ g1 = { g with data_ := g1.data_ } ∧
        g1.data_.length = g.data_.length ∧
        (∀ r s, r < g.size1_.toNat → s < g.size2_.toNat →
          peek g1.data_ (lesptr g j + ((r : Int) * g.size2_ + (s : Int))) = .ok (M.entry r s)) ∧
        (∀ idx : Int, (idx < lesptr g j ∨ lesptr g j + g.size1_ * g.size2_ ≤ idx) →
          peek g1.data_ idx = peek g.data_ idx)) ∧
    (j ≤ g.ntau_ →
      ∃ g1, set_tv_ij g g.tstp_ j M = .ok g1 ∧ g1 = { g with data_ := g1.data_ } ∧
        g1.data_.length = g.data_.length ∧
        (∀ r s, r < g.size1_.toNat → s < g.size2_.toNat →
          peek g1.data_ (tvptr g j + ((r : Int) * g.size2_ + (s : Int))) = .ok (M.entry r s)) ∧
        (∀ idx : Int, (idx < tvptr g j ∨ tvptr g j + g.size1_ * g.size2_ ≤ idx) →
          peek g1.data_ idx = peek g.data_ idx)) ∧
    (j ≤ g.ntau_ →
      ∃ g1, set_mat g j M = .ok g1 ∧ g1 = { g with data_ := g1.data_ } ∧
        g1.data_.length = g.data_.length ∧
        (∀ r s, r < g.size1_.toNat → s < g.size2_.toNat →
          peek g1.data_ (matptr g j + ((r : Int) * g.size2_ + (s : Int))) = .ok (M.entry r s)) ∧
        (∀ idx : Int, (idx < matptr g j ∨ matptr g j + g.size1_ * g.size2_ ≤ idx) →
          peek g1.data_ idx = peek g.data_ idx)) := by
  have ht := hd.1
  have hn := hd.2.1
  refine ⟨?_, ?_, ?_, ?_⟩
  · intro hj
    obtain ⟨b1, hset, hl, hin, hout⟩ := block_write_frame g hinv hd j hj0 (by omega) M hM
    refine ⟨{ g with data_ := b1 }, ?_, rfl, hl, hin, hout⟩
    unfold set_ret_ij retptr
    rw [if_neg (not_not.mpr rfl), if_neg (not_not.mpr hj), hset]
    rfl
  · intro hj
    obtain ⟨b1, hset, hl, hin, hout⟩ :=
      block_write_frame g hinv hd (g.tstp_ + 1 + g.ntau_ + 1 + j) (by omega) (by omega) M hM
    refine ⟨{ g with data_ := b1 }, ?_, rfl, hl, hin, hout⟩
    unfold set_les_ij lesptr
    rw [if_neg (not_not.mpr rfl), if_neg (not_not.mpr hj), hset]
    rfl
  · intro hj
    obtain ⟨b1, hset, hl, hin, hout⟩ :=
      block_write_frame g hinv hd (g.tstp_ + 1 + j) (by omega) (by omega) M hM
    refine ⟨{ g with data_ := b1 }, ?_, rfl, hl, hin, hout⟩
    unfold set_tv_ij tvptr
    rw [if_neg (not_not.mpr rfl), if_neg (not_not.mpr hj), hset]
    rfl
  · intro hj
    obtain ⟨b1, hset, hl, hin, hout⟩ := block_write_frame g hinv hd j hj0 (by omega) M hM
    refine ⟨{ g with data_ := b1 }, ?_, rfl, hl, hin, hout⟩
    unfold set_mat matptr
    rw [if_neg (not_not.mpr hj), hset]
    rfl

/-- Instance of C36 on the 1x2 slice `sample_nonsquare` (`tstp_ = 0`, `ntau_ = 0`) with the
matrix `(1 2)` at `j = 0`: `set_ret(0, 0, M)` returns and only the two entries of retarded
block 0 can differ. -/
theorem writes_are_local_witness :
    ∃ g1, set_ret_ij sample_nonsquare sample_nonsquare.tstp_ 0 [[⟨1, 0⟩, ⟨2, 0⟩]] = .ok g1 ∧
      g1 = { sample_nonsquare with data_ := g1.data_ } ∧
      g1.data_.length = sample_nonsquare.data_.length ∧
      (∀ r s, r < sample_nonsquare.size1_.toNat → s < sample_nonsquare.size2_.toNat →
        peek g1.data_ (retptr sample_nonsquare 0 +
            ((r : Int) * sample_nonsquare.size2_ + (s : Int))) =
          .ok (Mat.entry [[⟨1, 0⟩, ⟨2, 0⟩]] r s)) ∧
      (∀ idx : Int, (idx < retptr sample_nonsquare 0 ∨
          retptr sample_nonsquare 0 + sample_nonsquare.size1_ * sample_nonsquare.size2_
            ≤ idx) →
        peek g1.data_ idx = peek sample_nonsquare.data_ idx) :=
  (writes_are_local sample_nonsquare (by decide) (by decide) [[⟨1, 0⟩, ⟨2, 0⟩]] (by decide) 0
    (by decide)).1 (by decide)

/-! ## Scaling -/

theorem zipWith_diag (f : cplx → cplx → cplx) :
    ∀ d : List cplx, List.zipWith f d d = d.map (fun x => f x x) := by
  intro d
  induction d with
  | nil => rfl
  | cons a l ih => simp [ih]

theorem add_smul_self (w : ℚ) (x : cplx) : x + cplx.smul (w - 1) x = cplx.smul w x := by
  rcases x with ⟨a, b⟩
  show (⟨a + (w - 1) * a, b + (w - 1) * b⟩ : cplx) = ⟨w * a, w * b⟩
  congr 1 <;> ring

theorem copy_construct_data (g : herm_matrix_timestep) (hinv : storage_invariant g) :
    copy_construct g = .ok
      { tstp_ := g.tstp_, ntau_ := g.ntau_, size1_ := g.size1_, size2_ := g.size1_,
        element_size_ := g.size1_ * g.size1_, total_size_ := g.total_size_,
        data_ := g.data_, sig_ := g.sig_ } := by
  have htot : g.total_size_ = (g.data_.length : Int) := by rw [hinv.2.2, hinv.2.1]
  unfold copy_construct
  by_cases hpos : g.total_size_ > 0
  · rw [if_pos hpos, new_cplx_nonneg _ (by omega), except_bind_ok,
      memcpy_whole _ g.data_ g.total_size_ (by
        rw [List.length_replicate]; exact Int.toNat_of_nonneg (by omega)) htot.symm,
      except_bind_ok]
  · rw [if_neg hpos, except_bind_ok]
    have h0 : g.data_.length = 0 := by omega
    rw [List.length_eq_zero.mp h0]

/-- Over exact arithmetic: `smul(w)` returns the slice with every buffer entry `x` replaced by
`w * x` and `tstp_`, `ntau_`, the sizes and `sig_` unchanged; `smul(tstp_, w)` does the same
and any other `tstp` is rejected by the assertion; `smul(1)` returns the slice unchanged; and
on a slice satisfying the storage invariant, `incr(c, w - 1)` with `c` the copy made by the
copy constructor returns what `smul(w)` returns. -/
theorem smul_scales_exact (g : herm_matrix_timestep) (hinv : storage_invariant g) (w : ℚ) :
    smul g w = .ok { g with data_ := g.data_.map (fun x => cplx.smul w x) } ∧
    smul_tstp g g.tstp_ w = smul g w ∧
    (∀ tstp : Int, tstp ≠ g.tstp_ → smul_tstp g tstp w = .error .assertion) ∧
    smul g 1 = .ok g ∧
    (∃ c, copy_construct g = .ok c ∧ incr g c (w - 1) = smul g w) := by
  refine ⟨rfl, ?_, ?_, ?_, ?_⟩
  · unfold smul_tstp smul
    rw [if_neg (not_not.mpr rfl)]
  · intro tstp ht
    unfold smul_tstp
    rw [if_pos ht]
  · unfold smul view_smul
    have e : g.data_.map (fun z => cplx.smul 1 z) = g.data_ := by
      have : (fun z => cplx.smul 1 z) = (fun z : cplx => z) := by
        funext z
        exact cplx_smul_one z
      rw [this, List.map_id']
    rw [e, with_own_data]
  · refine ⟨_, copy_construct_data g hinv, ?_⟩
    have htot : g.total_size_ = (g.data_.length : Int) := by rw [hinv.2.2, hinv.2.1]
    unfold incr
    rw [if_neg (not_not.mpr ⟨rfl, rfl, rfl⟩)]
    show (loopE (incr_step g.data_ (w - 1)) g.data_ (List.range g.total_size_.toNat)).bind _ = _
    rw [htot, Int.toNat_ofNat, incr_buffers g.data_ g.data_ (w - 1) rfl, except_bind_ok]
    unfold smul view_smul axpy_list
    rw [zipWith_diag]
    have : (fun x => x + cplx.smul (w - 1) x) = (fun z : cplx => cplx.smul w z) := by
      funext x
      exact add_smul_self w x
    rw [this, ← htot]

/-! ## Offsets of the moving-window slice -/

theorem moving_block_in_range (g : herm_matrix_timestep_moving) (hinv : moving_invariant g)
    (j : Int) (hj0 : 0 ≤ j) (hj : j ≤ g.tc_) :
    (g.les_ ≤ g.lesptr j ∧ g.lesptr j + g.element_size_ ≤ g.les_ + (g.tc_ + 1) * g.element_size_) ∧
    (g.ret_ ≤ g.retptr j ∧ g.retptr j + g.element_size_ ≤ g.ret_ + (g.tc_ + 1) * g.element_size_) := by
  obtain ⟨_, hes, h1, h2, _⟩ := hinv
  have hE0 : 0 ≤ g.element_size_ := by rw [hes]; exact mul_nonneg h1 h2
  obtain ⟨b0, b1⟩ := block_bound j g.tc_ g.element_size_ hj0 hj hE0
  unfold herm_matrix_timestep_moving.lesptr herm_matrix_timestep_moving.retptr
  constructor <;> constructor <;> omega

theorem moving_block_outside (g : herm_matrix_timestep_moving) (hE : 1 ≤ g.element_size_)
    (j : Int) (hj : j < 0 ∨ g.tc_ < j) :
    ¬ (g.les_ ≤ g.lesptr j ∧
      g.lesptr j + g.element_size_ ≤ g.les_ + (g.tc_ + 1) * g.element_size_) ∧
    ¬ (g.ret_ ≤ g.retptr j ∧
      g.retptr j + g.element_size_ ≤ g.ret_ + (g.tc_ + 1) * g.element_size_) := by
  unfold herm_matrix_timestep_moving.lesptr herm_matrix_timestep_moving.retptr
  have key : ¬ (0 ≤ j * g.element_size_ ∧
      j * g.element_size_ + g.element_size_ ≤ (g.tc_ + 1) * g.element_size_) := by
    rintro ⟨c0, c1⟩
    rcases hj with hj | hj
    · have : j * g.element_size_ ≤ (-1) * g.element_size_ :=
        mul_le_mul_of_nonneg_right (by omega) (by omega)
      omega
    · have h3 : (g.tc_ + 2) * g.element_size_ ≤ (j + 1) * g.element_size_ :=
        mul_le_mul_of_nonneg_right (by omega) (by omega)
      have h4 : (j + 1) * g.element_size_ = j * g.element_size_ + g.element_size_ := by ring
      have h5 : (g.tc_ + 2) * g.element_size_ =
          (g.tc_ + 1) * g.element_size_ + g.element_size_ := by ring
      omega
  constructor
  · rintro ⟨c0, c1⟩
    exact key ⟨by omega, by omega⟩
  · rintro ⟨c0, c1⟩
    exact key ⟨by omega, by omega⟩

/-- C34: for a well-formed moving-window slice with `tc_ = 4` whose matrices have at least
one entry, the reads and writes `get_les`, `get_ret`, `set_les`, `set_ret` (scalar and matrix
forms) are rejected by their assertion exactly for the offsets outside `0..4`, in particular
every write at offset 5; for `j = 0..4` the scalar writes return and are read back, and the
block at `lesptr(j)` (`retptr(j)`) lies inside the lesser (retarded) sub-buffer exactly for
`j = 0..4`. -/
theorem moving_window_bounded (g : herm_matrix_timestep_moving) (hinv : moving_invariant g)
    (htc : g.tc_ = 4) (h1 : 1 ≤ g.size1_) (h2 : 1 ≤ g.size2_) (x : cplx) (M : Mat) :
    (∀ j : Int,
      (g.set_les j x = .error .assertion ↔ ¬ (0 ≤ j ∧ j ≤ 4)) ∧
      (g.set_ret j x = .error .assertion ↔ ¬ (0 ≤ j ∧ j ≤ 4)) ∧
      (g.set_les_mat j M = .error .assertion ↔ ¬ (0 ≤ j ∧ j ≤ 4)) ∧
      (g.set_ret_mat j M = .error .assertion ↔ ¬ (0 ≤ j ∧ j ≤ 4)) ∧
      (g.get_les j = .error .assertion ↔ ¬ (0 ≤ j ∧ j ≤ 4)) ∧
      (g.get_ret j = .error .assertion ↔ ¬ (0 ≤ j ∧ j ≤ 4)) ∧
      (g.get_les_mat j = .error .assertion ↔ ¬ (0 ≤ j ∧ j ≤ 4)) ∧
      (g.get_ret_mat j = .error .assertion ↔ ¬ (0 ≤ j ∧ j ≤ 4)) ∧
      ((g.les_ ≤ g.lesptr j ∧
          g.lesptr j + g.element_size_ ≤ g.les_ + (g.tc_ + 1) * g.element_size_) ↔
        (0 ≤ j ∧ j ≤ 4)) ∧
      ((g.ret_ ≤ g.retptr j ∧
          g.retptr j + g.element_size_ ≤ g.ret_ + (g.tc_ + 1) * g.element_size_) ↔
        (0 ≤ j ∧ j ≤ 4))) ∧
    (∀ j : Int, 0 ≤ j → j ≤ 4 →
      (∃ g1, g.set_les j x = .ok g1 ∧ g1.get_les j = .ok x) ∧
      (∃ g1, g.set_ret j x = .ok g1 ∧ g1.get_ret j = .ok x)) ∧
    g.set_les 5 x = .error .assertion ∧ g.set_ret 5 x = .error .assertion ∧
    g.set_les_mat 5 M = .error .assertion ∧ g.set_ret_mat 5 M = .error .assertion := by
  have hE1 : 1 ≤ g.element_size_ := by rw [hinv.2.1]; nlinarith
  have hstore : ∀ e : Except Fault (List cplx), e ≠ .error .assertion →
      e.bind (fun d => (.ok { g with data_ := d } :
        Except Fault herm_matrix_timestep_moving)) ≠ .error .assertion :=
    fun e he => bind_not_assertion _ _ he (fun _ => ok_not_assertion _)
  have hb : ∀ j : Int, ¬ (0 ≤ j ∧ j ≤ g.tc_) ↔ ¬ (0 ≤ j ∧ j ≤ 4) := by
    intro j
    rw [htc]
  refine ⟨?_, ?_, ?_, ?_, ?_, ?_⟩
  · intro j
    refine ⟨?_, ?_, ?_, ?_, ?_, ?_, ?_, ?_, ?_, ?_⟩
    · unfold herm_matrix_timestep_moving.set_les
      exact (rejected_iff _ _ (hstore _ (poke_not_assertion _ _ _))).trans (hb j)
    · unfold herm_matrix_timestep_moving.set_ret
      exact (rejected_iff _ _ (hstore _ (poke_not_assertion _ _ _))).trans (hb j)
    · unfold herm_matrix_timestep_moving.set_les_mat
      exact (rejected_iff _ _ (hstore _ (set_element_matrix_not_assertion _ _ _ _ _))).trans (hb j)
    · unfold herm_matrix_timestep_moving.set_ret_mat
      exact (rejected_iff _ _ (hstore _ (set_element_matrix_not_assertion _ _ _ _ _))).trans (hb j)
    · unfold herm_matrix_timestep_moving.get_les
      exact (rejected_iff _ _ (peek_not_assertion _ _)).trans (hb j)
    · unfold herm_matrix_timestep_moving.get_ret
      exact (rejected_iff _ _ (peek_not_assertion _ _)).trans (hb j)
    · unfold herm_matrix_timestep_moving.get_les_mat
      exact (rejected_iff _ _ (read_element_not_assertion _ _ _)).trans (hb j)
    · unfold herm_matrix_timestep_moving.get_ret_mat
      exact (rejected_iff _ _ (read_element_not_assertion _ _ _)).trans (hb j)
    · constructor
      · intro h
        by_contra hc
        exact (moving_block_outside g hE1 j (by rw [htc]; omega)).1 h
      · intro h
        exact (moving_block_in_range g hinv j h.1 (by rw [htc]; exact h.2)).1
    · constructor
      · intro h
        by_contra hc
        exact (moving_block_outside g hE1 j (by rw [htc]; omega)).2 h
      · intro h
        exact (moving_block_in_range g hinv j h.1 (by rw [htc]; exact h.2)).2
  · intro j hj0 hj
    obtain ⟨⟨l0, l1⟩, ⟨r0, r1⟩⟩ := moving_block_in_range g hinv j hj0 (by rw [htc]; exact hj)
    obtain ⟨_, _, _, _, hr, hl, hrl, hll, _⟩ := hinv
    constructor
    · have hpoke := poke_in_range g.data_ (g.lesptr j) x (by omega) (by omega)
      refine ⟨{ g with data_ := g.data_.set (g.lesptr j).toNat x }, ?_, ?_⟩
      · unfold herm_matrix_timestep_moving.set_les
        rw [if_neg (not_not.mpr ⟨hj0, by rw [htc]; exact hj⟩), hpoke]
        rfl
      · unfold herm_matrix_timestep_moving.get_les
        rw [if_neg (not_not.mpr ⟨hj0, by rw [htc]; exact hj⟩)]
        exact peek_poke_same _ _ _ _ hpoke
    · have hpoke := poke_in_range g.data_ (g.retptr j) x (by omega) (by omega)
      refine ⟨{ g with data_ := g.data_.set (g.retptr j).toNat x }, ?_, ?_⟩
      · unfold herm_matrix_timestep_moving.set_ret
        rw [if_neg (not_not.mpr ⟨hj0, by rw [htc]; exact hj⟩), hpoke]
        rfl
      · unfold herm_matrix_timestep_moving.get_ret
        rw [if_neg (not_not.mpr ⟨hj0, by rw [htc]; exact hj⟩)]
        exact peek_poke_same _ _ _ _ hpoke
  · unfold herm_matrix_timestep_moving.set_les
    rw [if_pos (by omega)]
  · unfold herm_matrix_timestep_moving.set_ret
    rw [if_pos (by omega)]
  · unfold herm_matrix_timestep_moving.set_les_mat
    rw [if_pos (by omega)]
  · unfold herm_matrix_timestep_moving.set_ret_mat
    rw [if_pos (by omega)]

/-- Instance of C34 on `sample_moving` (`tc_ = 4`): the scalar writes at offset 4 are read
back and those at offset 5 are rejected. -/
theorem moving_window_bounded_witness :
    ((∃ g1, sample_moving.set_les 4 ⟨1, 1⟩ = .ok g1 ∧ g1.get_les 4 = .ok ⟨1, 1⟩) ∧
      (∃ g1, sample_moving.set_ret 4 ⟨1, 1⟩ = .ok g1 ∧ g1.get_ret 4 = .ok ⟨1, 1⟩)) ∧
    sample_moving.set_les 5 ⟨1, 1⟩ = .error .assertion ∧
    sample_moving.set_ret 5 ⟨1, 1⟩ = .error .assertion :=
  have h := moving_window_bounded sample_moving (by decide) (by decide) (by decide)
    (by decide) ⟨1, 1⟩ [[⟨1, 1⟩]]
  ⟨h.2.1 4 (by decide) (by decide), h.2.2.1, h.2.2.2.1⟩

/-! ## Accesses inside the buffer -/

theorem peek_block_ok (g : herm_matrix_timestep) (hinv : storage_invariant g)
    (hd : dims_valid g) (h1 : 1 ≤ g.size1_) (h2 : 1 ≤ g.size2_) (k : Int) (hk0 : 0 ≤ k)
    (hk : k < (g.tstp_ + 1) * 2 + (g.ntau_ + 1)) :
    peek g.data_ (k * g.element_size_) ≠ .error .out_of_range := by
  rw [peek_block_start g hinv hd h1 h2 k hk0 hk]
  simp

theorem poke_block_ok (g : herm_matrix_timestep) (hinv : storage_invariant g)
    (hd : dims_valid g) (h1 : 1 ≤ g.size1_) (h2 : 1 ≤ g.size2_) (k : Int) (hk0 : 0 ≤ k)
    (hk : k < (g.tstp_ + 1) * 2 + (g.ntau_ + 1)) (x : cplx) :
    (poke g.data_ (k * g.element_size_) x).bind
      (fun d => (.ok { g with data_ := d } : Except Fault herm_matrix_timestep)) ≠
      .error .out_of_range := by
  obtain ⟨b1, hpoke, _⟩ := block_poke_peek g hinv hd h1 h2 k hk0 hk x
  rw [hpoke, except_bind_ok]
  simp

theorem set_block_ok (g : herm_matrix_timestep) (hinv : storage_invariant g)
    (hd : dims_valid g) (k : Int) (hk0 : 0 ≤ k)
    (hk : k < (g.tstp_ + 1) * 2 + (g.ntau_ + 1)) (M : Mat)
    (hM : M.has_shape g.size1_.toNat g.size2_.toNat) :
    (herm_matrix_SET_ELEMENT_MATRIX g.data_ (k * g.element_size_) g.size1_ g.size2_ M).bind
      (fun d => (.ok { g with data_ := d } : Except Fault herm_matrix_timestep)) ≠
      .error .out_of_range := by
  obtain ⟨b1, hset, _⟩ := block_write_frame g hinv hd k hk0 hk M hM
  rw [hset, except_bind_ok]
  simp

theorem assertion_not_range {α : Type} :
    (.error .assertion : Except Fault α) ≠ .error .out_of_range := by
  simp

theorem bind_conj_not_range (e : Except Fault cplx) (f : cplx → cplx)
    (he : e ≠ .error .out_of_range) :
    e.bind (fun x => (.ok (f x) : Except Fault cplx)) ≠ .error .out_of_range := by
  cases e with
  | ok a => simp [Except.bind]
  | error err =>
    intro h
    apply he
    simpa [Except.bind] using h

theorem read_window (g : herm_matrix_timestep) (hinv : storage_invariant g)
    (hd : dims_valid g) (h12 : g.size1_ ≤ g.size2_) (k : Int) (hk0 : 0 ≤ k)
    (hk : k < (g.tstp_ + 1) * 2 + (g.ntau_ + 1)) :
    ∃ n : Nat, g.size1_ = (n : Int) ∧ ∀ r s, r < n → s < n →
      peek g.data_ (k * g.element_size_ + ((r : Int) * (n : Int) + (s : Int))) =
        .ok (g.data_.getD
          (k * g.element_size_ + ((r : Int) * (n : Int) + (s : Int))).toNat 0) := by
  obtain ⟨hx0, hx1⟩ := block_in_range g hinv hd k hk0 hk
  obtain ⟨n, hn⟩ := Int.eq_ofNat_of_zero_le hd.2.2.1
  refine ⟨n, hn, ?_⟩
  intro r s hr hs
  obtain ⟨hb0, hb1⟩ := row_major_in_block n r s hr hs
  have hsq : (n : Int) * (n : Int) ≤ g.size1_ * g.size2_ := by
    rw [hn]
    exact mul_le_mul_of_nonneg_left (by rw [← hn]; exact h12) (Int.ofNat_nonneg n)
  exact peek_in_range _ _ (by omega) (by omega)

/-- The matrix reads of the block starting at entry `k * element_size_` stay inside the buffer
when the rows of the stored matrices are at least as long as the `size1_` entries read from
each. -/
theorem read_block_ok (g : herm_matrix_timestep) (hinv : storage_invariant g)
    (hd : dims_valid g) (h12 : g.size1_ ≤ g.size2_) (k : Int) (hk0 : 0 ≤ k)
    (hk : k < (g.tstp_ + 1) * 2 + (g.ntau_ + 1)) :
    herm_matrix_READ_ELEMENT g.data_ (k * g.element_size_) g.size1_ ≠ .error .out_of_range ∧
    ∀ sig : Int,
      (herm_matrix_READ_ELEMENT_MINUS_CONJ g.data_ (k * g.element_size_) g.size1_).bind
        (fun M => if sig = -1 then (.ok (Mat.neg M) : Except Fault Mat) else .ok M) ≠
        .error .out_of_range := by
  obtain ⟨n, hn, hpeek⟩ := read_window g hinv hd h12 k hk0 hk
  constructor
  · rw [hn, read_element_spec _ _ n _ hpeek]
    simp
  · intro sig
    rw [hn, read_element_minus_conj_spec _ _ n _ hpeek, except_bind_ok]
    split <;> simp

/-- C31 (as amended): on a slice satisfying the storage invariant whose matrices have at
least one entry, an accessor never touches an entry outside the buffer when its free time
index lies in the range of its component.  Reads: `get_ret(i, j, x)` and `get_les(i, j, x)`
with `0 <= i, j <= tstp_`, `get_tv(i, j, x)` with `0 <= j <= ntau_`, `get_vt(i, j, x)` and
`get_mat(i, x)` with `0 <= i <= ntau_`.  Writes (scalar, and matrix forms with a matrix of the
slice shape): `set_ret(i, j, .)` and `set_tv(i, j, .)` with `j >= 0`, `set_les(i, j, .)` and
`set_mat(i, .)` with `i >= 0`, the upper bound being part of their assertions.  Matrix reads,
on a slice with `size1_ <= size2_`: `get_ret(i, j, M)` with `j >= 0`, `get_les(i, j, M)` with
`i >= 0`, `get_tv(i, j, M)` with `0 <= j <= ntau_`, `get_vt(i, M, sig)` and `get_mat(i, M)`
with `0 <= i <= ntau_`. -/
theorem accessors_stay_in_buffer (g : herm_matrix_timestep) (hinv : storage_invariant g)
    (hd : dims_valid g) (h1 : 1 ≤ g.size1_) (h2 : 1 ≤ g.size2_) (i j : Int) (x : cplx)
    (M : Mat) (hM : M.has_shape g.size1_.toNat g.size2_.toNat) :
    (0 ≤ i → i ≤ g.tstp_ → 0 ≤ j → j ≤ g.tstp_ →
      get_ret_cplx g i j ≠ .error .out_of_range ∧
      get_les_cplx g i j ≠ .error .out_of_range) ∧
    (0 ≤ j → j ≤ g.ntau_ → get_tv_cplx g i j ≠ .error .out_of_range) ∧
    (0 ≤ i → i ≤ g.ntau_ →
      get_vt_cplx g i j ≠ .error .out_of_range ∧ get_mat_cplx g i ≠ .error .out_of_range) ∧
    (0 ≤ j →
      set_ret_ij g i j M ≠ .error .out_of_range ∧
      set_ret_cplx g i j x ≠ .error .out_of_range ∧
      set_tv_ij g i j M ≠ .error .out_of_range ∧
      set_tv_cplx g i j x ≠ .error .out_of_range) ∧
    (0 ≤ i →
      set_les_ij g i j M ≠ .error .out_of_range ∧
      set_les_cplx g i j x ≠ .error .out_of_range ∧
      set_mat g i M ≠ .error .out_of_range ∧
      set_mat_cplx g i x ≠ .error .out_of_range) ∧
    (g.size1_ ≤ g.size2_ →
      (0 ≤ j → get_ret g i j ≠ .error .out_of_range) ∧
      (0 ≤ i → get_les g i j ≠ .error .out_of_range) ∧
      (0 ≤ j → j ≤ g.ntau_ → get_tv_ij g i j ≠ .error .out_of_range) ∧
      (0 ≤ i → i ≤ g.ntau_ →
        (∀ sig : Int, get_vt_sig g i sig ≠ .error .out_of_range) ∧
        get_mat g i ≠ .error .out_of_range)) := by
  have ht := hd.1
  have hn := hd.2.1
  refine ⟨?_, ?_, ?_, ?_, ?_, ?_⟩
  · intro hi0 hi hj0 hj
    constructor
    · unfold get_ret_cplx retptr
      split
      · exact assertion_not_range
      · split
        · exact peek_block_ok g hinv hd h1 h2 j hj0 (by omega)
        · exact bind_conj_not_range _ _ (peek_block_ok g hinv hd h1 h2 i hi0 (by omega))
    · unfold get_les_cplx lesptr
      split
      · exact assertion_not_range
      · split
        · exact peek_block_ok g hinv hd h1 h2 _ (by omega) (by omega)
        · exact bind_conj_not_range _ _
            (peek_block_ok g hinv hd h1 h2 _ (by omega) (by omega))
  · intro hj0 hj
    unfold get_tv_cplx tvptr
    split
    · exact assertion_not_range
    · exact peek_block_ok g hinv hd h1 h2 _ (by omega) (by omega)
  · intro hi0 hi
    constructor
    · unfold get_vt_cplx tvptr
      split
      · exact assertion_not_range
      · have hp := peek_block_start g hinv hd h1 h2 (g.tstp_ + 1 + (g.ntau_ - i)) (by omega)
          (by omega)
        rw [hp, except_bind_ok]
        split <;> simp
    · unfold get_mat_cplx matptr
      split
      · exact assertion_not_range
      · rename_i hm
        have hm1 : g.tstp_ = -1 := not_not.mp hm
        exact peek_block_ok g hinv hd h1 h2 i hi0 (by omega)
  · intro hj0
    refine ⟨?_, ?_, ?_, ?_⟩
    · unfold set_ret_ij retptr
      split
      · exact assertion_not_range
      · split
        · exact assertion_not_range
        · rename_i hi hj
          exact set_block_ok g hinv hd j hj0 (by have := not_not.mp hi; omega) M hM
    · unfold set_ret_cplx retptr
      split
      · exact assertion_not_range
      · rename_i hc
        have hc1 := not_not.mp hc
        exact poke_block_ok g hinv hd h1 h2 j hj0 (by omega) x
    · unfold set_tv_ij tvptr
      split
      · exact assertion_not_range
      · split
        · exact assertion_not_range
        · exact set_block_ok g hinv hd _ (by omega) (by omega) M hM
    · unfold set_tv_cplx tvptr
      split
      · exact assertion_not_range
      · split
        · exact assertion_not_range
        · exact poke_block_ok g hinv hd h1 h2 _ (by omega) (by omega) x
  · intro hi0
    refine ⟨?_, ?_, ?_, ?_⟩
    · unfold set_les_ij lesptr
      split
      · exact assertion_not_range
      · split
        · exact assertion_not_range
        · rename_i hj hi
          exact set_block_ok g hinv hd _ (by omega)
            (by have := not_not.mp hj; omega) M hM
    · unfold set_les_cplx lesptr
      split
      · exact assertion_not_range
      · rename_i hc
        have hc1 := not_not.mp hc
        exact poke_block_ok g hinv hd h1 h2 _ (by omega) (by omega) x
    · unfold set_mat matptr
      split
      · exact assertion_not_range
      · exact set_block_ok g hinv hd i hi0 (by omega) M hM
    · unfold set_mat_cplx matptr
      split
      · exact assertion_not_range
      · exact poke_block_ok g hinv hd h1 h2 i hi0 (by omega) x
  · intro h12
    refine ⟨?_, ?_, ?_, ?_⟩
    · intro hj0
      unfold get_ret retptr
      split
      · exact assertion_not_range
      · rename_i hc
        have hc1 := not_not.mp hc
        exact (read_block_ok g hinv hd h12 j hj0 (by omega)).1
    · intro hi0
      unfold get_les lesptr
      split
      · exact assertion_not_range
      · rename_i hc
        have hc1 := not_not.mp hc
        exact (read_block_ok g hinv hd h12 _ (by omega) (by omega)).1
    · intro hj0 hj
      unfold get_tv_ij tvptr
      split
      · exact assertion_not_range
      · exact (read_block_ok g hinv hd h12 _ (by omega) (by omega)).1
    · intro hi0 hi
      constructor
      · intro sig
        unfold get_vt_sig tvptr
        exact (read_block_ok g hinv hd h12 (g.tstp_ + 1 + (g.ntau_ - i)) (by omega)
          (by omega)).2 sig
      · unfold get_mat matptr
        exact (read_block_ok g hinv hd h12 i hi0 (by omega)).1

/-- Instance of the amended C31 on `sample_scalar_filled` (`tstp_ = 1`, `ntau_ = 0`) at
`(i, j) = (1, 0)`. -/
theorem accessors_stay_in_buffer_witness :
    (get_ret_cplx sample_scalar_filled 1 0 ≠ .error .out_of_range ∧
      get_les_cplx sample_scalar_filled 1 0 ≠ .error .out_of_range) ∧
    set_ret_cplx sample_scalar_filled 1 0 ⟨5, 5⟩ ≠ .error .out_of_range ∧
    get_ret sample_scalar_filled 1 0 ≠ .error .out_of_range :=
  have h := accessors_stay_in_buffer sample_scalar_filled (by decide) (by decide)
    (by decide) (by decide) 1 0 ⟨5, 5⟩ [[⟨5, 5⟩]] (by decide)
  ⟨h.1 (by decide) (by decide) (by decide) (by decide), (h.2.2.2.1 (by decide)).2.1,
    (h.2.2.2.2.2 (by decide)).1 (by decide)⟩

/-- C31 fails as stated: `sample_scalar_filled` (`tstp_ = 1`, `ntau_ = 0`, five entries)
satisfies the storage invariant, and `get_ret(1, -1, x)`, `set_ret(1, -1, x)`,
`set_les(-6, 1, x)`, `get_tv(1, 3, x)`, `set_tv(1, -4, x)`, `set_mat(-1, x)`, and the reads
above the range `get_ret(1, 7, x)`, `get_les(7, 1, x)`, `get_vt(3, 1, x)`, all pass their
assertions and then touch an entry outside the buffer; so does `get_ret(0, 0, x)` on the
default-constructed slice, which has no entries; and so does the matrix read
`get_les(0, 0, M)`, with both indices in range, on the 2x1 slice `sample_column_slice`, which
reads the four entries from entry 4 of a buffer of six. -/
theorem negative_index_counterexample :
    storage_invariant sample_scalar_filled ∧
    get_ret_cplx sample_scalar_filled 1 (-1) = .error .out_of_range ∧
    set_ret_cplx sample_scalar_filled 1 (-1) ⟨5, 5⟩ = .error .out_of_range ∧
    set_les_cplx sample_scalar_filled (-6) 1 ⟨5, 5⟩ = .error .out_of_range ∧
    get_tv_cplx sample_scalar_filled 1 3 = .error .out_of_range ∧
    set_tv_cplx sample_scalar_filled 1 (-4) ⟨5, 5⟩ = .error .out_of_range ∧
    set_mat_cplx sample_scalar_filled (-1) ⟨5, 5⟩ = .error .out_of_range ∧
    get_ret_cplx sample_scalar_filled 1 7 = .error .out_of_range ∧
    get_les_cplx sample_scalar_filled 7 1 = .error .out_of_range ∧
    get_vt_cplx sample_scalar_filled 3 1 = .error .out_of_range ∧
    storage_invariant construct_default ∧
    get_ret_cplx construct_default 0 0 = .error .out_of_range ∧
    storage_invariant sample_column_slice ∧
    get_les sample_column_slice 0 0 = .error .out_of_range := by
  refine ⟨by decide, by decide, by decide, by decide, by decide, by decide, by decide,
    by decide, by decide, by decide, by decide, by decide, by decide, by decide⟩

/-! ## Loops that store one entry per pass -/

theorem poke_loop (x0 : Int) (hx0 : 0 ≤ x0) (W : Nat → cplx) (d0 : List cplx)
    (body : List cplx → Nat → Except Fault (List cplx)) :
    ∀ K : Nat, x0 + (K : Int) ≤ (d0.length : Int) →
      (∀ i, i < K → ∀ d1 : List cplx, d1.length = d0.length →
        (∀ k : Int, x0 + (i : Int) ≤ k → peek d1 k = peek d0 k) →
        body d1 i = poke d1 (x0 + (i : Int)) (W i)) →
      ∃ d, loopE body d0 (List.range K) = .ok d ∧ d.length = d0.length ∧
        (∀ i, i < K → peek d (x0 + (i : Int)) = .ok (W i)) ∧
        (∀ k : Int, (k < x0 ∨ x0 + (K : Int) ≤ k) → peek d k = peek d0 k) := by
  intro K
  induction K with
  | zero =>
    intro _ _
    exact ⟨d0, rfl, rfl, fun i hi => absurd hi (Nat.not_lt_zero i), fun k _ => rfl⟩
  | succ K ih =>
    intro hlen hbody
    obtain ⟨d, hloop, hl, hin, hout⟩ :=
      ih (by push_cast at hlen; omega) (fun i hi => hbody i (Nat.lt_succ_of_lt hi))
    have hb := hbody K (Nat.lt_succ_self K) d hl (fun k hk => hout k (Or.inr hk))
    have hpoke := poke_in_range d (x0 + (K : Int)) (W K) (by omega)
      (by push_cast at hlen; omega)
    refine ⟨d.set (x0 + (K : Int)).toNat (W K), ?_, ?_, ?_, ?_⟩
    · rw [List.range_succ, loopE_append, hloop, except_bind_ok, loopE_single, hb, hpoke]
    · rw [List.length_set, hl]
    · intro i hi
      rcases Nat.lt_succ_iff_lt_or_eq.mp hi with hlt | heq
      · rw [peek_poke_other d _ (x0 + (K : Int)) (x0 + (i : Int)) (W K) hpoke (by omega)]
        exact hin i hlt
      · subst heq
        exact peek_poke_same d _ _ _ hpoke
    · intro k hk
      rw [peek_poke_other d _ (x0 + (K : Int)) k (W K) hpoke (by push_cast at hk; omega)]
      exact hout k (by push_cast at hk; omega)

theorem matrixelement_loop_spec (src : List cplx) (ptr : Nat → Int) (x0 last : Int)
    (hx0 : 0 ≤ x0) (hlast : -1 ≤ last) (d0 : List cplx)
    (hlen : x0 + (last + 1) ≤ (d0.length : Int))
    (hsrc : ∀ i : Nat, i < (last + 1).toNat → 0 ≤ ptr i ∧ ptr i < (src.length : Int)) :
    ∃ d, matrixelement_loop src ptr x0 last d0 = .ok d ∧ d.length = d0.length ∧
      (∀ i : Nat, (i : Int) ≤ last → peek d (x0 + (i : Int)) = peek src (ptr i)) ∧
      (∀ k : Int, (k < x0 ∨ x0 + (last + 1) ≤ k) → peek d k = peek d0 k) := by
  have hK : (((last + 1).toNat : Nat) : Int) = last + 1 := Int.toNat_of_nonneg (by omega)
  obtain ⟨d, hloop, hl, hin, hout⟩ :=
    poke_loop x0 hx0 (fun i => src.getD (ptr i).toNat 0) d0
      (fun d1 (i : Nat) => (peek src (ptr i)).bind (fun v => poke d1 (x0 + (i : Int)) v))
      (last + 1).toNat (by rw [hK]; exact hlen)
      (fun i hi d1 _ _ => by
        show (peek src (ptr i)).bind _ = _
        rw [peek_in_range src (ptr i) (hsrc i hi).1 (hsrc i hi).2, except_bind_ok])
  refine ⟨d, hloop, hl, ?_, ?_⟩
  · intro i hi
    have hi1 : i < (last + 1).toNat := by omega
    rw [hin i hi1, peek_in_range src (ptr i) (hsrc i hi1).1 (hsrc i hi1).2]
  · intro k hk
    apply hout k
    rw [hK]
    exact hk

theorem matrixelement_loop_not_assertion (src : List cplx) (ptr : Nat → Int) (x0 last : Int)
    (d : List cplx) : matrixelement_loop src ptr x0 last d ≠ .error .assertion := by
  unfold matrixelement_loop
  exact loopE_not_assertion _ (fun d1 i => bind_not_assertion _ _ (peek_not_assertion _ _)
    (fun v => poke_not_assertion _ _ _)) _ _

/-! ## Carving out one matrix element -/

theorem get_matrixelement_rejected_iff (self : herm_matrix_timestep) (i1 i2 : Int)
    (g : herm_matrix) :
    get_matrixelement self i1 i2 g = .error .assertion ↔
      ¬ (self.tstp_ ≤ g.nt_ ∧ 0 ≤ i1 ∧ i1 < g.size1_ ∧ 0 ≤ i2 ∧ i2 < g.size1_ ∧
        self.size1_ = 1) := by
  unfold get_matrixelement
  constructor
  · intro h hc
    rw [if_neg (not_not.mpr hc.1), if_neg (not_not.mpr hc.2)] at h
    revert h
    split
    · exact store_not_assertion self _ (matrixelement_loop_not_assertion _ _ _ _ _)
    · exact bind_not_assertion _ _ (matrixelement_loop_not_assertion _ _ _ _ _) (fun d1 =>
        bind_not_assertion _ _ (matrixelement_loop_not_assertion _ _ _ _ _) (fun d2 =>
          store_not_assertion self _ (matrixelement_loop_not_assertion _ _ _ _ _)))
  · intro h
    by_cases c1 : self.tstp_ ≤ g.nt_
    · rw [if_neg (not_not.mpr c1), if_pos (fun hc => h ⟨c1, hc⟩)]
    · rw [if_pos c1]

/-- C32 (as amended): for a scalar slice (`size1_ = size2_ = 1`) satisfying the storage
invariant and a container `g` with `tstp_ <= g.nt()` whose entries `(i1, i2)`,
`0 <= i1, i2 < g.size1()`, of the blocks of slice `tstp_` are readable,
`get_matrixelement(i1, i2, g)` returns and changes no field but the buffer; afterwards, with `sij = i1 * g.size1() + i2`: for `tstp_ = -1`,
`get_mat(k, x)` gives `*(g.matptr(k) + sij)`, `k = 0..ntau_`; for `tstp_ >= 0`,
`get_ret(tstp_, k, x)` gives `*(g.retptr(tstp_, k) + sij)` and `get_les(k, tstp_, x)` gives
`*(g.lesptr(k, tstp_) + sij)`, `k = 0..tstp_`, and `get_tv(tstp_, k, x)` gives
`*(g.tvptr(tstp_, k) + sij)`, `k = 0..ntau_`.  For any slice and container the call is
rejected by an assertion exactly when `tstp_ > g.nt()`, `i1` or `i2` is outside
`0..g.size1()-1`, or `size1_ != 1`. -/
theorem get_matrixelement_carves (self : herm_matrix_timestep)
    (hinv : storage_invariant self) (hd : dims_valid self) (h1 : self.size1_ = 1)
    (h2 : self.size2_ = 1) (g : herm_matrix) (i1 i2 : Int) (hnt : self.tstp_ ≤ g.nt_)
    (hi1 : 0 ≤ i1 ∧ i1 < g.size1_) (hi2 : 0 ≤ i2 ∧ i2 < g.size1_)
    (hread : matrixelement_readable self g (i1 * g.size1_ + i2)) :
    (∃ s1, get_matrixelement self i1 i2 g = .ok s1 ∧ s1 = { self with data_ := s1.data_ } ∧
      (self.tstp_ = -1 → ∀ k : Nat, (k : Int) ≤ self.ntau_ →
        ∃ v, peek g.data_ (g.matptr (k : Int) + (i1 * g.size1_ + i2)) = .ok v ∧
          get_mat_cplx s1 (k : Int) = .ok v) ∧
      (0 ≤ self.tstp_ →
        (∀ k : Nat, (k : Int) ≤ self.tstp_ →
          (∃ v, peek g.data_ (g.retptr self.tstp_ (k : Int) + (i1 * g.size1_ + i2)) = .ok v ∧
            get_ret_cplx s1 self.tstp_ (k : Int) = .ok v) ∧
          (∃ v, peek g.data_ (g.lesptr (k : Int) self.tstp_ + (i1 * g.size1_ + i2)) = .ok v ∧
            get_les_cplx s1 (k : Int) self.tstp_ = .ok v)) ∧
        (∀ k : Nat, (k : Int) ≤ self.ntau_ →
          ∃ v, peek g.data_ (g.tvptr self.tstp_ (k : Int) + (i1 * g.size1_ + i2)) = .ok v ∧
            get_tv_cplx s1 self.tstp_ (k : Int) = .ok v))) ∧
    (∀ (s : herm_matrix_timestep) (j1 j2 : Int) (c : herm_matrix),
      get_matrixelement s j1 j2 c = .error .assertion ↔
        ¬ (s.tstp_ ≤ c.nt_ ∧ 0 ≤ j1 ∧ j1 < c.size1_ ∧ 0 ≤ j2 ∧ j2 < c.size1_ ∧
          s.size1_ = 1)) := by
  refine ⟨?_, get_matrixelement_rejected_iff⟩
  obtain ⟨ha, hb, hlen, _⟩ := block_lengths self hinv hd
  have hes : self.element_size_ = 1 := by rw [hinv.1, h1, h2]; rfl
  have ht := hd.1
  have hn := hd.2.1
  have hx2 : (self.tstp_ + 1) * self.element_size_ = self.tstp_ + 1 := by rw [hes, mul_one]
  have hx3 : (self.tstp_ + 1 + self.ntau_ + 1) * self.element_size_ =
      self.tstp_ + 1 + self.ntau_ + 1 := by rw [hes, mul_one]
  have hxn : (self.ntau_ + 1) * self.element_size_ = self.ntau_ + 1 := by rw [hes, mul_one]
  rw [hx2, hxn] at hlen
  have hok : ∀ p : Int, 0 ≤ p ∧ p < (g.data_.length : Int) →
      peek g.data_ p = .ok (g.data_.getD p.toNat 0) :=
    fun p hp => peek_in_range _ _ hp.1 hp.2
  unfold matrixelement_readable at hread
  unfold get_matrixelement
  rw [if_neg (not_not.mpr hnt), if_neg (not_not.mpr ⟨hi1.1, hi1.2, hi2.1, hi2.2, h1⟩)]
  by_cases hm1 : self.tstp_ = -1
  · rw [if_pos hm1] at hread ⊢
    obtain ⟨d, hloop, hl, hin, _⟩ :=
      matrixelement_loop_spec g.data_ (fun i => g.matptr (i : Int) + (i1 * g.size1_ + i2)) 0
        self.ntau_ (le_refl 0) (by omega) self.data_ (by omega) hread
    rw [hloop, except_bind_ok]
    refine ⟨{ self with data_ := d }, rfl, rfl, ?_, fun h0 => by omega⟩
    intro _ k hk
    refine ⟨_, hok _ (hread k (by omega)), ?_⟩
    unfold get_mat_cplx matptr
    rw [if_neg (not_not.mpr hm1)]
    show peek d ((k : Int) * self.element_size_) = _
    rw [hes, mul_one, ← hok _ (hread k (by omega))]
    have := hin k hk
    rwa [zero_add] at this
  · rw [if_neg hm1] at hread ⊢
    have h0 : 0 ≤ self.tstp_ := by omega
    obtain ⟨hrl, htv⟩ := hread
    obtain ⟨d1, hloop1, hl1, hin1, hout1⟩ :=
      matrixelement_loop_spec g.data_
        (fun i => g.retptr self.tstp_ (i : Int) + (i1 * g.size1_ + i2)) 0 self.tstp_
        (le_refl 0) ht self.data_ (by omega) (fun i hi => (hrl i hi).1)
    obtain ⟨d2, hloop2, hl2, hin2, hout2⟩ :=
      matrixelement_loop_spec g.data_
        (fun i => g.tvptr self.tstp_ (i : Int) + (i1 * g.size1_ + i2)) (self.tstp_ + 1)
        self.ntau_ (by omega) (by omega) d1 (by omega) htv
    obtain ⟨d3, hloop3, hl3, hin3, hout3⟩ :=
      matrixelement_loop_spec g.data_
        (fun i => g.lesptr (i : Int) self.tstp_ + (i1 * g.size1_ + i2))
        (self.tstp_ + 1 + self.ntau_ + 1) self.tstp_ (by omega) ht d2 (by omega)
        (fun i hi => (hrl i hi).2)
    rw [hx2, hx3, hloop1, except_bind_ok, hloop2, except_bind_ok, hloop3, except_bind_ok]
    refine ⟨{ self with data_ := d3 }, rfl, rfl, fun h => absurd h hm1, fun _ => ⟨?_, ?_⟩⟩
    · intro k hk
      constructor
      · refine ⟨_, hok _ (hrl k (by omega)).1, ?_⟩
        unfold get_ret_cplx retptr
        rw [if_neg (not_not.mpr (Or.inl rfl)), if_pos rfl]
        show peek d3 ((k : Int) * self.element_size_) = _
        rw [hes, mul_one, ← hok _ (hrl k (by omega)).1, hout3 _ (Or.inl (by omega)),
          hout2 _ (Or.inl (by omega))]
        have := hin1 k hk
        rwa [zero_add] at this
      · refine ⟨_, hok _ (hrl k (by omega)).2, ?_⟩
        unfold get_les_cplx lesptr
        rw [if_neg (not_not.mpr (Or.inr rfl)), if_pos rfl]
        show peek d3 ((self.tstp_ + 1 + self.ntau_ + 1 + (k : Int)) * self.element_size_) = _
        rw [hes, mul_one, ← hok _ (hrl k (by omega)).2]
        exact hin3 k hk
    · intro k hk
      refine ⟨_, hok _ (htv k (by omega)), ?_⟩
      unfold get_tv_cplx tvptr
      rw [if_neg (not_not.mpr rfl)]
      show peek d3 ((self.tstp_ + 1 + (k : Int)) * self.element_size_) = _
      rw [hes, mul_one, ← hok _ (htv k (by omega)), hout3 _ (Or.inl (by omega))]
      exact hin2 k hk

/-- Instance of the amended C32: the entry `(0, 1)` of `sample_container` carved into
`sample_scalar_wide` (`tstp_ = 1`, `ntau_ = 1`); the retarded value at `k = 1` is entry 17 of
the container. -/
theorem get_matrixelement_carves_witness :
    ∃ s1, get_matrixelement sample_scalar_wide 0 1 sample_container = .ok s1 ∧
      ∃ v, peek sample_container.data_ (sample_container.retptr sample_scalar_wide.tstp_
          ((1 : Nat) : Int) + (0 * sample_container.size1_ + 1)) = .ok v ∧
        get_ret_cplx s1 sample_scalar_wide.tstp_ ((1 : Nat) : Int) = .ok v :=
  (get_matrixelement_carves sample_scalar_wide (by decide) (by decide) (by decide)
    (by decide) sample_container 0 1 (by decide) (by decide) (by decide) (by decide)).1.imp
    (fun _ h => ⟨h.1, ((h.2.2.2 (by decide)).1 1 (by decide)).1⟩)

/-- C32 fails as stated: `sample_row_slice` is a slice with `size1_ = 1` (1x2 matrices,
`tstp_ = 1`, `ntau_ = 1`) satisfying the storage invariant, and
`get_matrixelement(0, 1, sample_container)` is accepted and returns; but afterwards
`get_ret(1, 1, x)` gives 0, not the entry `(0, 1)` of the retarded block `(1, 1)` of the
container, which is `17 + 17i`: the loops store the values at consecutive entries while
`retptr(1)` is entry 2. -/
theorem get_matrixelement_row_counterexample :
    storage_invariant sample_row_slice ∧ sample_row_slice.size1_ = 1 ∧
    sample_row_slice.tstp_ ≤ sample_container.nt_ ∧
    sample_row_slice.ntau_ = sample_container.ntau_ ∧
    ∃ s1, get_matrixelement sample_row_slice 0 1 sample_container = .ok s1 ∧
      peek sample_container.data_
        (sample_container.retptr 1 1 + (0 * sample_container.size1_ + 1)) = .ok ⟨17, 17⟩ ∧
      get_ret_cplx s1 1 1 = .ok 0 := by
  refine ⟨by decide, by decide, by decide, by decide,
    { sample_row_slice with data_ := [⟨13, 13⟩, ⟨17, 17⟩, 0, 0, ⟨29, 29⟩, ⟨33, 33⟩, 0, 0,
        ⟨41, 41⟩, ⟨45, 45⟩, 0, 0] }, by decide!, by decide!, by decide!⟩

/-! ## Increment by a slice of the two-time container -/

theorem getD_of_peek_eq (d d1 : List cplx) (k : Int) (h0 : 0 ≤ k)
    (h1 : k < (d.length : Int)) (hl : d1.length = d.length) (h : peek d1 k = peek d k) :
    d1.getD k.toNat 0 = d.getD k.toNat 0 := by
  rw [peek_in_range d1 k h0 (by omega), peek_in_range d k h0 h1] at h
  exact Except.ok.inj h

theorem incr_macro_spec (alpha : ℚ) (src : List cplx) (x x0 len : Int) (hx : 0 ≤ x)
    (hx0 : 0 ≤ x0) (hlen0 : 0 ≤ len) (d0 : List cplx)
    (h1 : x0 + len ≤ (d0.length : Int)) (h2 : x + len ≤ (src.length : Int)) :
    ∃ d, HERM_MATRIX_INCR_TSTP alpha src x x0 len d0 = .ok d ∧ d.length = d0.length ∧
      (∀ k : Int, x0 ≤ k → k < x0 + len →
        peek d k = .ok (d0.getD k.toNat 0 + cplx.smul alpha (src.getD (x + (k - x0)).toNat 0))) ∧
      (∀ k : Int, (k < x0 ∨ x0 + len ≤ k) → peek d k = peek d0 k) := by
  have hK : ((len.toNat : Nat) : Int) = len := Int.toNat_of_nonneg hlen0
  have hbody : ∀ (v : cplx → cplx → cplx),
      (∀ a b, v a b = a + cplx.smul alpha b) →
      ∀ i, i < len.toNat → ∀ d1 : List cplx, d1.length = d0.length →
        (∀ k : Int, x0 + (i : Int) ≤ k → peek d1 k = peek d0 k) →
        (peek d1 (x0 + (i : Int))).bind (fun a =>
          (peek src (x + (i : Int))).bind (fun b => poke d1 (x0 + (i : Int)) (v a b))) =
        poke d1 (x0 + (i : Int))
          (d0.getD (x0 + (i : Int)).toNat 0 + cplx.smul alpha (src.getD (x + (i : Int)).toNat 0)) := by
    intro v hv i hi d1 hl hag
    rw [hag _ (le_refl _), peek_in_range d0 _ (by omega) (by omega), except_bind_ok,
      peek_in_range src _ (by omega) (by omega), except_bind_ok, hv]
  have hmain : ∀ (v : cplx → cplx → cplx), (∀ a b, v a b = a + cplx.smul alpha b) →
      ∃ d, loopE (fun d1 (i : Nat) =>
            (peek d1 (x0 + (i : Int))).bind (fun a =>
              (peek src (x + (i : Int))).bind (fun b => poke d1 (x0 + (i : Int)) (v a b))))
          d0 (List.range len.toNat) = .ok d ∧ d.length = d0.length ∧
        (∀ k : Int, x0 ≤ k → k < x0 + len →
          peek d k = .ok (d0.getD k.toNat 0 +
            cplx.smul alpha (src.getD (x + (k - x0)).toNat 0))) ∧
        (∀ k : Int, (k < x0 ∨ x0 + len ≤ k) → peek d k = peek d0 k) := by
    intro v hv
    obtain ⟨d, hloop, hl, hin, hout⟩ :=
      poke_loop x0 hx0 (fun i => d0.getD (x0 + (i : Int)).toNat 0 +
          cplx.smul alpha (src.getD (x + (i : Int)).toNat 0)) d0 _ len.toNat
        (by rw [hK]; exact h1) (hbody v hv)
    refine ⟨d, hloop, hl, ?_, ?_⟩
    · intro k hk0 hk1
      obtain ⟨i, hi⟩ := Int.eq_ofNat_of_zero_le (by omega : 0 ≤ k - x0)
      have hk : k = x0 + (i : Int) := by omega
      have := hin i (by omega)
      rw [hk, this]
      congr 4
      omega
    · intro k hk
      apply hout k
      rw [hK]
      exact hk
  unfold HERM_MATRIX_INCR_TSTP
  by_cases ha : alpha = 1
  · rw [if_pos ha]
    exact hmain (fun a b => a + b) (fun a b => by rw [ha, cplx_smul_one])
  · rw [if_neg ha]
    exact hmain (fun a b => a + cplx.smul alpha b) (fun a b => rfl)

theorem incr_macro_not_assertion (alpha : ℚ) (src : List cplx) (x x0 len : Int)
    (d : List cplx) : HERM_MATRIX_INCR_TSTP alpha src x x0 len d ≠ .error .assertion := by
  unfold HERM_MATRIX_INCR_TSTP
  split
  · exact loopE_not_assertion _ (fun d1 i => bind_not_assertion _ _ (peek_not_assertion _ _)
      (fun a => bind_not_assertion _ _ (peek_not_assertion _ _)
        (fun b => poke_not_assertion _ _ _))) _ _
  · exact loopE_not_assertion _ (fun d1 i => bind_not_assertion _ _ (peek_not_assertion _ _)
      (fun a => bind_not_assertion _ _ (peek_not_assertion _ _)
        (fun b => poke_not_assertion _ _ _))) _ _

theorem axpy_of_peeks (alpha : ℚ) (d0 d dB : List cplx) (V : Int → cplx)
    (hl : d.length = d0.length) (hlB : dB.length = d0.length)
    (h1 : ∀ idx : Int, 0 ≤ idx → idx < (d0.length : Int) →
      peek d idx = .ok (d0.getD idx.toNat 0 + cplx.smul alpha (V idx)))
    (h2 : ∀ idx : Int, 0 ≤ idx → idx < (d0.length : Int) → peek dB idx = .ok (V idx)) :
    d = axpy_list alpha d0 dB := by
  have hlz : (axpy_list alpha d0 dB).length = d0.length := by
    unfold axpy_list
    rw [List.length_zipWith, hlB, Nat.min_self]
  apply eq_of_peek_eq (axpy_list alpha d0 dB) d (by omega)
  intro idx
  by_cases hr : 0 ≤ idx ∧ idx < (d0.length : Int)
  · obtain ⟨k, hk⟩ := Int.eq_ofNat_of_zero_le hr.1
    have hkl : k < d0.length := by omega
    rw [h1 idx hr.1 hr.2, hk]
    unfold axpy_list
    rw [peek_zipWith _ d0 dB k hkl (by omega)]
    have e := peek_eq_getD dB idx (V idx) (h2 idx hr.1 hr.2)
    rw [hk] at e
    simp only [Int.toNat_ofNat] at e ⊢
    rw [← e]
  · rw [peek_out_of_range _ idx (by omega), peek_out_of_range _ idx (by omega)]

theorem three_regions_incr (alpha : ℚ) (S : List cplx) (p1 p2 p3 a b : Int) (ha : 0 ≤ a)
    (hb : 0 ≤ b) (hp1 : 0 ≤ p1) (hp2 : 0 ≤ p2) (hp3 : 0 ≤ p3) (d0 : List cplx)
    (hlen : (d0.length : Int) = a + b + a) (hs1 : p1 + a ≤ (S.length : Int))
    (hs2 : p2 + b ≤ (S.length : Int)) (hs3 : p3 + a ≤ (S.length : Int)) :
    ∃ d1 d2 d3, HERM_MATRIX_INCR_TSTP alpha S p1 0 a d0 = .ok d1 ∧
      HERM_MATRIX_INCR_TSTP alpha S p2 a b d1 = .ok d2 ∧
      HERM_MATRIX_INCR_TSTP alpha S p3 (a + b) a d2 = .ok d3 ∧ d3.length = d0.length ∧
      ∀ idx : Int, 0 ≤ idx → idx < (d0.length : Int) →
        peek d3 idx =
          .ok (d0.getD idx.toNat 0 + cplx.smul alpha (region_value S p1 p2 p3 a b idx)) := by
  obtain ⟨d1, e1, l1, in1, out1⟩ :=
    incr_macro_spec alpha S p1 0 a hp1 (le_refl 0) ha d0 (by omega) hs1
  obtain ⟨d2, e2, l2, in2, out2⟩ :=
    incr_macro_spec alpha S p2 a b hp2 ha hb d1 (by omega) hs2
  obtain ⟨d3, e3, l3, in3, out3⟩ :=
    incr_macro_spec alpha S p3 (a + b) a hp3 (by omega) ha d2 (by omega) hs3
  refine ⟨d1, d2, d3, e1, e2, e3, by omega, ?_⟩
  intro idx h0 h1
  unfold region_value
  by_cases c1 : idx < a
  · rw [if_pos c1, out3 idx (Or.inl (by omega)), out2 idx (Or.inl c1),
      in1 idx h0 (by omega)]
    congr 4
    omega
  · rw [if_neg c1]
    by_cases c2 : idx < a + b
    · rw [if_pos c2, out3 idx (Or.inl c2), in2 idx (by omega) c2,
        getD_of_peek_eq d0 d1 idx h0 h1 l1 (out1 idx (Or.inr (by omega)))]
    · rw [if_neg c2, in3 idx (by omega) (by omega),
        getD_of_peek_eq d1 d2 idx h0 (by omega) l2 (out2 idx (Or.inr (by omega))),
        getD_of_peek_eq d0 d1 idx h0 h1 l1 (out1 idx (Or.inr (by omega)))]

theorem three_regions_memcpy (S : List cplx) (p1 p2 p3 a b : Int) (ha : 0 ≤ a) (hb : 0 ≤ b)
    (hp1 : 0 ≤ p1) (hp2 : 0 ≤ p2) (hp3 : 0 ≤ p3) (dst : List cplx)
    (hlen : (dst.length : Int) = a + b + a) (hs1 : p1 + a ≤ (S.length : Int))
    (hs2 : p2 + b ≤ (S.length : Int)) (hs3 : p3 + a ≤ (S.length : Int)) :
    ∃ d1 d2 d3, memcpy dst 0 S p1 a = .ok d1 ∧ memcpy d1 a S p2 b = .ok d2 ∧
      memcpy d2 (a + b) S p3 a = .ok d3 ∧ d3.length = dst.length ∧
      ∀ idx : Int, 0 ≤ idx → idx < (dst.length : Int) →
        peek d3 idx = .ok (region_value S p1 p2 p3 a b idx) := by
  obtain ⟨d1, e1, l1, in1, _⟩ :=
    memcpy_spec dst 0 S p1 a (le_refl 0) hp1 ha (by omega) hs1
  obtain ⟨d2, e2, l2, in2, out2⟩ := memcpy_spec d1 a S p2 b ha hp2 hb (by omega) hs2
  obtain ⟨d3, e3, l3, in3, out3⟩ :=
    memcpy_spec d2 (a + b) S p3 a (by omega) hp3 ha (by omega) hs3
  refine ⟨d1, d2, d3, e1, e2, e3, by omega, ?_⟩
  intro idx h0 h1
  unfold region_value
  by_cases c1 : idx < a
  · rw [if_pos c1, out3 idx (Or.inl (by omega)), out2 idx (Or.inl c1),
      in1 idx h0 (by omega), peek_in_range S _ (by omega) (by omega)]
    congr 3
    omega
  · rw [if_neg c1]
    by_cases c2 : idx < a + b
    · rw [if_pos c2, out3 idx (Or.inl c2), in2 idx (by omega) c2,
        peek_in_range S _ (by omega) (by omega)]
    · rw [if_neg c2, in3 idx (by omega) (by omega),
        peek_in_range S _ (by omega) (by omega)]

theorem incr_of_copy (A B : herm_matrix_timestep) (dB : List cplx) (w : ℚ)
    (hl : dB.length = A.data_.length) (htot : A.total_size_ = (A.data_.length : Int))
    (hBt : B.tstp_ = A.tstp_) (hBn : B.ntau_ = A.ntau_) (hB1 : B.size1_ = A.size1_) :
    incr A { B with data_ := dB } w = .ok { A with data_ := axpy_list w A.data_ dB } := by
  unfold incr
  rw [if_neg (not_not.mpr ⟨hB1, hBn, hBt⟩)]
  have hn : A.total_size_.toNat = A.data_.length := by omega
  show (loopE (incr_step dB w) A.data_ (List.range A.total_size_.toNat)).bind _ = _
  rw [hn, incr_buffers dB A.data_ w hl]
  rfl

theorem same_dims_storage (A B : herm_matrix_timestep) (hinv : storage_invariant A)
    (hinvB : storage_invariant B) (hBt : B.tstp_ = A.tstp_) (hBn : B.ntau_ = A.ntau_)
    (hB1 : B.size1_ = A.size1_) (hB2 : B.size2_ = A.size2_) :
    B.element_size_ = A.element_size_ ∧ B.data_.length = A.data_.length := by
  obtain ⟨e1, _, l1⟩ := hinv
  obtain ⟨e2, _, l2⟩ := hinvB
  rw [hBt, hBn, hB1, hB2] at l2
  rw [hB1, hB2] at e2
  refine ⟨by rw [e1, e2], ?_⟩
  have : (B.data_.length : Int) = (A.data_.length : Int) := by rw [l1, l2]
  exact_mod_cast this

/-- C40: for a slice `A` with a valid buffer and a two-time container `G` with
`A.tstp_ <= G.nt()`, equal `ntau` and equal `size1` whose slice `A.tstp_` lies in its storage,
and for every real `alpha` (also `alpha = 1`, which takes the special-cased branch),
`A.incr(G, alpha)` returns, and it leaves `A` in the same state as copying the slice of `G`
into a slice `B` of the dimensions of `A` with `B.set_timestep(tstp_, G)` and then calling
`A.incr(B, alpha)`; `A.incr_timestep(tstp_, G, alpha)` returns the same state, and with a
`tstp` other than the one of `A` it is rejected by its first assertion.  Entries are exact
rationals. -/
theorem incr_slow_path_agrees (A B : herm_matrix_timestep) (G : herm_matrix) (alpha : ℚ)
    (hinv : storage_invariant A) (hd : dims_valid A) (hinvB : storage_invariant B)
    (hBt : B.tstp_ = A.tstp_) (hBn : B.ntau_ = A.ntau_) (hB1 : B.size1_ = A.size1_)
    (hB2 : B.size2_ = A.size2_) (hnt : A.tstp_ ≤ G.nt_) (hntau : A.ntau_ = G.ntau_)
    (hs1 : A.size1_ = G.size1_) (hread : slice_readable A G) :
    (∃ r, incr_herm_matrix A G alpha = .ok r ∧
      incr_timestep_herm_matrix A A.tstp_ G alpha = .ok r ∧
      (set_timestep_herm_matrix B A.tstp_ G).bind (fun B1 => incr A B1 alpha) = .ok r) ∧
    (∀ tstp : Int, tstp ≠ A.tstp_ →
      incr_timestep_herm_matrix A tstp G alpha = .error .assertion) := by
  obtain ⟨ha, hb, hlen, htot⟩ := block_lengths A hinv hd
  obtain ⟨hBes, hBlen⟩ := same_dims_storage A B hinv hinvB hBt hBn hB1 hB2
  have hBlenI : (B.data_.length : Int) = (A.data_.length : Int) := by exact_mod_cast hBlen
  refine ⟨?_, ?_⟩
  swap
  · intro tstp hne
    unfold incr_timestep_herm_matrix
    rw [if_pos hne]
  have hfast : ∀ r, incr_herm_matrix_body A G alpha = .ok r →
      incr_herm_matrix A G alpha = .ok r ∧
        incr_timestep_herm_matrix A A.tstp_ G alpha = .ok r := by
    intro r hr
    unfold incr_herm_matrix incr_timestep_herm_matrix
    rw [if_neg (not_not.mpr ⟨hnt, hntau, hs1⟩), if_neg (not_not.mpr rfl)]
    exact ⟨hr, hr⟩
  have hpre : set_timestep_herm_matrix B A.tstp_ G =
        (if A.tstp_ = -1 then
          (memcpy B.data_ (matptr B 0) G.data_ (G.matptr 0)
              ((B.ntau_ + 1) * B.element_size_)).bind
            (fun d => .ok { B with data_ := d })
        else
          (memcpy B.data_ (retptr B 0) G.data_ (G.retptr A.tstp_ 0)
              ((A.tstp_ + 1) * B.element_size_)).bind (fun d1 =>
            (memcpy d1 (tvptr B 0) G.data_ (G.tvptr A.tstp_ 0)
                ((B.ntau_ + 1) * B.element_size_)).bind (fun d2 =>
              (memcpy d2 (lesptr B 0) G.data_ (G.lesptr 0 A.tstp_)
                  ((A.tstp_ + 1) * B.element_size_)).bind
                (fun d3 => .ok { B with data_ := d3 })))) := by
    unfold set_timestep_herm_matrix
    rw [if_neg (not_not.mpr hBt.symm), if_neg (not_not.mpr ⟨hd.1, hnt⟩),
      if_neg (not_not.mpr (hs1.symm.trans hB1.symm)),
      if_neg (not_not.mpr (hntau.symm.trans hBn.symm))]
  rw [hpre]
  have hm0 : matptr B 0 = 0 := by unfold matptr; ring
  have hr0 : retptr B 0 = 0 := by unfold retptr; ring
  have ht0 : tvptr B 0 = (A.tstp_ + 1) * A.element_size_ := by
    unfold tvptr; rw [hBt, hBes]; ring
  have hl0 : lesptr B 0 =
      (A.tstp_ + 1) * A.element_size_ + (A.ntau_ + 1) * A.element_size_ := by
    unfold lesptr; rw [hBt, hBn, hBes]; ring
  have hnB : (B.ntau_ + 1) * B.element_size_ = (A.ntau_ + 1) * A.element_size_ := by
    rw [hBn, hBes]
  have htB : (A.tstp_ + 1) * B.element_size_ = (A.tstp_ + 1) * A.element_size_ := by
    rw [hBes]
  rw [hm0, hr0, ht0, hl0, hnB, htB]
  unfold slice_readable at hread
  by_cases ht : A.tstp_ = -1
  · rw [if_pos ht] at hread
    rw [if_pos ht]
    have ha0 : (A.tstp_ + 1) * A.element_size_ = 0 := by rw [ht]; ring
    obtain ⟨d1, e1, l1, in1, _⟩ := incr_macro_spec alpha G.data_ (G.matptr 0) 0
      ((A.ntau_ + 1) * A.element_size_) hread.1 (le_refl 0) hb A.data_ (by omega) hread.2
    obtain ⟨dB, eB, lB, inB, _⟩ := memcpy_spec B.data_ 0 G.data_ (G.matptr 0)
      ((A.ntau_ + 1) * A.element_size_) (le_refl 0) hread.1 hb (by omega) hread.2
    have hax := axpy_of_peeks alpha A.data_ d1 dB
      (fun idx => G.data_.getD (G.matptr 0 + (idx - 0)).toNat 0) l1 (by omega)
      (fun idx h0 h1 => in1 idx h0 (by omega))
      (fun idx h0 h1 => by
        rw [inB idx h0 (by omega), peek_in_range G.data_ _ (by omega) (by omega)])
    refine ⟨{ A with data_ := d1 }, ?_⟩
    have hbody : incr_herm_matrix_body A G alpha = .ok { A with data_ := d1 } := by
      unfold incr_herm_matrix_body
      rw [if_pos ht, e1]
      rfl
    refine ⟨(hfast _ hbody).1, (hfast _ hbody).2, ?_⟩
    rw [eB]
    show incr A { B with data_ := dB } alpha = _
    rw [incr_of_copy A B dB alpha (by omega) htot hBt hBn hB1, hax]
  · rw [if_neg ht] at hread
    rw [if_neg ht]
    obtain ⟨⟨hp1, hq1⟩, ⟨hp2, hq2⟩, ⟨hp3, hq3⟩⟩ := hread
    obtain ⟨d1, d2, d3, e1, e2, e3, l3, in3⟩ := three_regions_incr alpha G.data_
      (G.retptr A.tstp_ 0) (G.tvptr A.tstp_ 0) (G.lesptr 0 A.tstp_)
      ((A.tstp_ + 1) * A.element_size_) ((A.ntau_ + 1) * A.element_size_) ha hb hp1 hp2 hp3
      A.data_ hlen hq1 hq2 hq3
    obtain ⟨c1, c2, c3, f1, f2, f3, m3, im3⟩ := three_regions_memcpy G.data_
      (G.retptr A.tstp_ 0) (G.tvptr A.tstp_ 0) (G.lesptr 0 A.tstp_)
      ((A.tstp_ + 1) * A.element_size_) ((A.ntau_ + 1) * A.element_size_) ha hb hp1 hp2 hp3
      B.data_ (by omega) hq1 hq2 hq3
    have hax := axpy_of_peeks alpha A.data_ d3 c3
      (region_value G.data_ (G.retptr A.tstp_ 0) (G.tvptr A.tstp_ 0) (G.lesptr 0 A.tstp_)
        ((A.tstp_ + 1) * A.element_size_) ((A.ntau_ + 1) * A.element_size_)) l3 (by omega)
      in3 (fun idx h0 h1 => im3 idx h0 (by omega))
    refine ⟨{ A with data_ := d3 }, ?_⟩
    have hes : (A.tstp_ + 1 + A.ntau_ + 1) * A.element_size_ =
        (A.tstp_ + 1) * A.element_size_ + (A.ntau_ + 1) * A.element_size_ := by ring
    have hbody : incr_herm_matrix_body A G alpha = .ok { A with data_ := d3 } := by
      unfold incr_herm_matrix_body
      rw [if_neg ht, hes, e1]
      show (HERM_MATRIX_INCR_TSTP alpha G.data_ _ _ _ d1).bind _ = _
      rw [e2]
      show (HERM_MATRIX_INCR_TSTP alpha G.data_ _ _ _ d2).bind _ = _
      rw [e3]
      rfl
    refine ⟨(hfast _ hbody).1, (hfast _ hbody).2, ?_⟩
    rw [f1]
    show ((memcpy c1 _ G.data_ _ _).bind _).bind _ = _
    rw [f2]
    show ((memcpy c2 _ G.data_ _ _).bind _).bind _ = _
    rw [f3]
    show incr A { B with data_ := c3 } alpha = _
    rw [incr_of_copy A B c3 alpha (by omega) htot hBt hBn hB1, hax]

/-- Witness for C40 with `alpha = 1`: the square slice `sample_square` (`tstp_ = 0`,
`ntau_ = 1`, 2x2), the container `sample_container` and a zero-filled temporary slice of the
same dimensions. -/
theorem incr_slow_path_agrees_witness :
    ∃ r, incr_herm_matrix sample_square sample_container 1 = .ok r ∧
      incr_timestep_herm_matrix sample_square sample_square.tstp_ sample_container 1 = .ok r ∧
      (set_timestep_herm_matrix { sample_square with data_ := List.replicate 16 0 }
          sample_square.tstp_ sample_container).bind
        (fun B1 => incr sample_square B1 1) = .ok r :=
  (incr_slow_path_agrees sample_square { sample_square with data_ := List.replicate 16 0 }
    sample_container 1 (by decide) (by decide) (by decide) rfl rfl rfl rfl (by decide)
    (by decide) (by decide) (by decide)).1

/-! ## Left and right multiplication commute -/

theorem list_sum_range (n : Nat) (f : Nat → cplx) :
    ((List.range n).map f).sum = Finset.sum (Finset.range n) f := by
  induction n with
  | zero => rfl
  | succ n ih =>
    rw [List.range_succ, List.map_append, List.sum_append, ih, Finset.sum_range_succ]
    simp

theorem cplx_smul_eq_mul (w : ℚ) (z : cplx) : cplx.smul w z = (⟨w, 0⟩ : cplx) * z := by
  show cplx.mk (w * z.re) (w * z.im) = cplx.mk (w * z.re - 0 * z.im) (w * z.im + 0 * z.re)
  congr 1 <;> ring

theorem left_product_entry (n : Nat) (a : ℚ) (F X : Mat) (i j : Nat) (hi : i < n)
    (hj : j < n) :
    (left_product (n : Int) a F X).entry i j =
      (⟨a, 0⟩ : cplx) * Finset.sum (Finset.range n) (fun k => F.entry i k * X.entry k j) := by
  unfold left_product element_smul element_mult
  rw [Int.toNat_ofNat, of_fn_entry n n _ i j hi hj, of_fn_entry n n _ i j hi hj,
    cplx_smul_eq_mul, list_sum_range]

theorem right_product_entry (n : Nat) (b : ℚ) (H X : Mat) (i j : Nat) (hi : i < n)
    (hj : j < n) :
    (right_product (n : Int) b H X).entry i j =
      (⟨b, 0⟩ : cplx) * Finset.sum (Finset.range n) (fun k => X.entry i k * H.entry k j) := by
  unfold right_product element_smul element_mult
  rw [Int.toNat_ofNat, of_fn_entry n n _ i j hi hj, of_fn_entry n n _ i j hi hj,
    cplx_smul_eq_mul, list_sum_range]

/-- The products `w * F * X` and `w * X * H` of the multiply routines commute: matrix
multiplication is associative and the real weights are central. -/
theorem left_right_product_comm (n : Nat) (a b : ℚ) (F H X : Mat) :
    right_product (n : Int) b H (left_product (n : Int) a F X) =
      left_product (n : Int) a F (right_product (n : Int) b H X) := by
  have hl : ∀ Y, left_product (n : Int) a F Y =
      Mat.of_fn n n (fun i j => (⟨a, 0⟩ : cplx) *
        Finset.sum (Finset.range n) (fun k => F.entry i k * Y.entry k j)) := by
    intro Y
    unfold left_product element_smul element_mult
    rw [Int.toNat_ofNat]
    apply of_fn_congr
    intro i j hi hj
    rw [of_fn_entry n n _ i j hi hj, cplx_smul_eq_mul, list_sum_range]
  have hr : ∀ Y, right_product (n : Int) b H Y =
      Mat.of_fn n n (fun i j => (⟨b, 0⟩ : cplx) *
        Finset.sum (Finset.range n) (fun k => Y.entry i k * H.entry k j)) := by
    intro Y
    unfold right_product element_smul element_mult
    rw [Int.toNat_ofNat]
    apply of_fn_congr
    intro i j hi hj
    rw [of_fn_entry n n _ i j hi hj, cplx_smul_eq_mul, list_sum_range]
  rw [hr (left_product (n : Int) a F X), hl (right_product (n : Int) b H X)]
  apply of_fn_congr
  intro i j hi hj
  have e1 : Finset.sum (Finset.range n)
        (fun k => (left_product (n : Int) a F X).entry i k * H.entry k j) =
      Finset.sum (Finset.range n) (fun k => ((⟨a, 0⟩ : cplx) *
        Finset.sum (Finset.range n) (fun l => F.entry i l * X.entry l k)) * H.entry k j) := by
    apply Finset.sum_congr rfl
    intro k hk
    rw [left_product_entry n a F X i k hi (Finset.mem_range.mp hk)]
  have e2 : Finset.sum (Finset.range n)
        (fun k => F.entry i k * (right_product (n : Int) b H X).entry k j) =
      Finset.sum (Finset.range n) (fun k => F.entry i k * ((⟨b, 0⟩ : cplx) *
        Finset.sum (Finset.range n) (fun l => X.entry k l * H.entry l j))) := by
    apply Finset.sum_congr rfl
    intro k hk
    rw [right_product_entry n b H X k j (Finset.mem_range.mp hk) hj]
  rw [e1, e2]
  simp only [Finset.mul_sum, Finset.sum_mul]
  rw [Finset.sum_comm]
  apply Finset.sum_congr rfl
  intro k _
  apply Finset.sum_congr rfl
  intro l _
  ring

theorem eq_of_blocks_eq (n K : Nat) (d d1 : List cplx)
    (hl : (d.length : Int) = (K : Int) * ((n : Int) * (n : Int)))
    (hl1 : d1.length = d.length)
    (h : ∀ k : Nat, k < K →
      block_at d1 ((k : Int) * ((n : Int) * (n : Int))) n =
        block_at d ((k : Int) * ((n : Int) * (n : Int))) n) : d1 = d := by
  apply eq_of_peek_eq d d1 hl1
  intro idx
  by_cases hr : 0 ≤ idx ∧ idx < (d.length : Int)
  · obtain ⟨h0, h1⟩ := hr
    have hE0 : 0 ≤ (n : Int) * (n : Int) := mul_nonneg (Int.ofNat_nonneg n) (Int.ofNat_nonneg n)
    have hEpos : 0 < (n : Int) * (n : Int) := by
      rcases lt_or_eq_of_le hE0 with hp | hz
      · exact hp
      · rw [← hz, mul_zero] at hl
        omega
    have hq0 : 0 ≤ idx / ((n : Int) * (n : Int)) := Int.ediv_nonneg h0 hE0
    obtain ⟨k, hk⟩ := Int.eq_ofNat_of_zero_le hq0
    have hdm := Int.ediv_add_emod idx ((n : Int) * (n : Int))
    have hm0 := Int.emod_nonneg idx (ne_of_gt hEpos)
    have hm1 := Int.emod_lt_of_pos idx hEpos
    rw [hk] at hdm
    have hx : (k : Int) * ((n : Int) * (n : Int)) = (n : Int) * (n : Int) * (k : Int) :=
      mul_comm _ _
    have hkK : k < K := by
      by_contra hc
      have hKk : (K : Int) ≤ (k : Int) := by exact_mod_cast Nat.le_of_not_lt hc
      have := mul_le_mul_of_nonneg_right hKk hE0
      omega
    obtain ⟨r, s, hr, hs, hidx⟩ :=
      block_index_decompose n ((k : Int) * ((n : Int) * (n : Int))) idx (by omega) (by omega)
    have he := congrArg (fun M => Mat.entry M r s) (h k hkK)
    simp only [] at he
    rw [block_at_entry _ _ n r s hr hs, block_at_entry _ _ n r s hr hs, ← hidx] at he
    rw [peek_in_range d1 idx h0 (by omega), peek_in_range d idx h0 h1, he]
  · rw [peek_out_of_range _ idx (by omega), peek_out_of_range _ idx (by omega)]

theorem multiply_all_blocks (g : herm_matrix_timestep) (hinv : storage_invariant g)
    (hd : dims_valid g) (n : Nat) (hn : g.size1_ = (n : Int))
    (hE : g.element_size_ = (n : Int) * (n : Int)) (T : Mat → Mat → Mat)
    (hT : ∀ F X, (T F X).has_shape n n) (fmat fret ftv fles : Nat → Except Fault Mat)
    (Fk : Nat → Mat)
    (hfmat : g.tstp_ = -1 → ∀ m : Nat, (m : Int) ≤ g.ntau_ → fmat m = .ok (Fk m))
    (hfret : 0 ≤ g.tstp_ → ∀ m : Nat, (m : Int) ≤ g.tstp_ → fret m = .ok (Fk m))
    (hftv : 0 ≤ g.tstp_ → ∀ m : Nat, (m : Int) ≤ g.ntau_ →
      ftv m = .ok (Fk ((g.tstp_ + 1).toNat + m)))
    (hfles : 0 ≤ g.tstp_ → ∀ m : Nat, (m : Int) ≤ g.tstp_ →
      fles m = .ok (Fk ((g.tstp_ + 1 + g.ntau_ + 1).toNat + m))) :
    ∃ d, (if g.tstp_ = -1 then multiply_matsubara g T fmat
        else multiply_real_time g T fret ftv fles) = .ok { g with data_ := d } ∧
      d.length = g.data_.length ∧
      ∀ k : Nat, (k : Int) < (g.tstp_ + 1) * 2 + (g.ntau_ + 1) →
        block_at d ((k : Int) * g.element_size_) n =
          T (Fk k) (block_at g.data_ ((k : Int) * g.element_size_) n) := by
  have ht := hd.1
  have hnt := hd.2.1
  by_cases hm1 : g.tstp_ = -1
  · rw [if_pos hm1]
    obtain ⟨d, e, l, hb⟩ :=
      multiply_matsubara_spec g hinv hd n hn hE hm1 T hT fmat Fk (hfmat hm1)
    exact ⟨d, e, l, fun k hk => hb k (by omega)⟩
  · rw [if_neg hm1]
    have h0 : 0 ≤ g.tstp_ := by omega
    obtain ⟨d, e, l, hret, htv, hles⟩ :=
      multiply_real_time_spec g hinv hd n hn hE T hT fret ftv fles Fk
        (fun m => Fk ((g.tstp_ + 1).toNat + m))
        (fun m => Fk ((g.tstp_ + 1 + g.ntau_ + 1).toNat + m))
        (hfret h0) (hftv h0) (hfles h0)
    refine ⟨d, e, l, ?_⟩
    intro k hk
    by_cases c1 : (k : Int) ≤ g.tstp_
    · exact hret k c1
    · by_cases c2 : (k : Int) ≤ g.tstp_ + 1 + g.ntau_
      · have hm := htv (k - (g.tstp_ + 1).toNat) (by omega)
        have ek : (g.tstp_ + 1).toNat + (k - (g.tstp_ + 1).toNat) = k := by omega
        have ei : g.tstp_ + 1 + ((k - (g.tstp_ + 1).toNat : Nat) : Int) = (k : Int) := by omega
        rw [ek, ei] at hm
        exact hm
      · have hm := hles (k - (g.tstp_ + 1 + g.ntau_ + 1).toNat) (by omega)
        have ek : (g.tstp_ + 1 + g.ntau_ + 1).toNat +
            (k - (g.tstp_ + 1 + g.ntau_ + 1).toNat) = k := by omega
        have ei : g.tstp_ + 1 + g.ntau_ + 1 +
            ((k - (g.tstp_ + 1 + g.ntau_ + 1).toNat : Nat) : Int) = (k : Int) := by omega
        rw [ek, ei] at hm
        exact hm

/-- Every block of the buffer after `left_multiply(F, w)`: block `k` is multiplied from the
left by `F(-1)` on a Matsubara slice, by `F(tstp_)` in the retarded and left-mixing regions and
by `F(t_m)` at position `m` of the lesser region. -/
theorem left_multiply_blocks (g : herm_matrix_timestep) (hinv : storage_invariant g)
    (hd : dims_valid g) (n : Nat) (hn : g.size1_ = (n : Int))
    (hE : g.element_size_ = (n : Int) * (n : Int)) (F : function)
    (hF : function_invariant F) (hFn : F.size1_ = (n : Int))
    (hFE : F.element_size_ = g.element_size_) (hnt : F.nt_ ≥ g.tstp_) (w : ℚ) :
    ∃ d, left_multiply g F w = .ok { g with data_ := d } ∧ d.length = g.data_.length ∧
      ∀ k : Nat, (k : Int) < (g.tstp_ + 1) * 2 + (g.ntau_ + 1) →
        block_at d ((k : Int) * g.element_size_) n =
          left_product g.size1_ w
            (F.value (if g.tstp_ = -1 then -1
              else if (k : Int) ≤ g.tstp_ + 1 + g.ntau_ then g.tstp_
              else (k : Int) - (g.tstp_ + 1 + g.ntau_ + 1)))
            (block_at g.data_ ((k : Int) * g.element_size_) n) := by
  have hFE1 : F.element_size_ = (n : Int) * (n : Int) := by rw [hFE, hE]
  have hT : ∀ A X, (left_product g.size1_ w A X).has_shape n n := by
    rw [hn]; exact (product_has_shape n w).1
  have hread : ∀ t : Int, -1 ≤ t → t ≤ F.nt_ →
      element_get g.size1_ F.data_ (F.ptr t) = .ok (F.value t) := by
    intro t ht0 ht
    rw [hn]
    exact function_read F hF n hFn hFE1 t ht0 ht
  have ht := hd.1
  have hnta := hd.2.1
  obtain ⟨d, hres, hl, hb⟩ :=
    multiply_all_blocks g hinv hd n hn hE (left_product g.size1_ w) hT
      (fun _ => element_get g.size1_ F.data_ (F.ptr (-1)))
      (fun _ => element_get g.size1_ F.data_ (F.ptr 0 + g.tstp_ * g.element_size_))
      (fun _ => element_get g.size1_ F.data_ (F.ptr 0 + g.tstp_ * g.element_size_))
      (fun m => element_get g.size1_ F.data_ (F.ptr 0 + (m : Int) * g.element_size_))
      (fun k => F.value (if g.tstp_ = -1 then -1
        else if (k : Int) ≤ g.tstp_ + 1 + g.ntau_ then g.tstp_
        else (k : Int) - (g.tstp_ + 1 + g.ntau_ + 1)))
      (fun h1 m _ => by
        beta_reduce
        show element_get g.size1_ F.data_ (F.ptr (-1)) = _
        rw [if_pos h1]
        exact hread (-1) (le_refl _) (by omega))
      (fun h0 m hm => by
        beta_reduce
        show element_get g.size1_ F.data_ (F.ptr 0 + g.tstp_ * g.element_size_) = _
        rw [function_ptr_shift F _ _ hFE, if_neg (by omega), if_pos (by omega)]
        exact hread g.tstp_ ht hnt)
      (fun h0 m hm => by
        beta_reduce
        show element_get g.size1_ F.data_ (F.ptr 0 + g.tstp_ * g.element_size_) = _
        rw [function_ptr_shift F _ _ hFE, if_neg (by omega), if_pos (by push_cast; omega)]
        exact hread g.tstp_ ht hnt)
      (fun h0 m hm => by
        beta_reduce
        show element_get g.size1_ F.data_ (F.ptr 0 + (m : Int) * g.element_size_) = _
        rw [function_ptr_shift F _ _ hFE, if_neg (by omega), if_neg (by push_cast; omega)]
        have e : (((g.tstp_ + 1 + g.ntau_ + 1).toNat + m : Nat) : Int) -
            (g.tstp_ + 1 + g.ntau_ + 1) = (m : Int) := by push_cast; omega
        rw [e]
        exact hread (m : Int) (by omega) (by omega))
  refine ⟨d, ?_, hl, hb⟩
  unfold left_multiply
  rw [if_neg (not_not.mpr hnt)]
  unfold left_multiply_ptr
  rw [scratch_block_ok g n hn hE, except_bind_ok]
  exact hres

/-- Every block of the buffer after `right_multiply(F, w)`: block `k` is multiplied from the
right by `F(-1)` on a Matsubara slice and in the left-mixing region, by `F(t_m)` at position
`m` of the retarded region and by `F(tstp_)` in the lesser region. -/
theorem right_multiply_blocks (g : herm_matrix_timestep) (hinv : storage_invariant g)
    (hd : dims_valid g) (n : Nat) (hn : g.size1_ = (n : Int))
    (hE : g.element_size_ = (n : Int) * (n : Int)) (F : function)
    (hF : function_invariant F) (hFn : F.size1_ = (n : Int))
    (hFE : F.element_size_ = g.element_size_) (hnt : F.nt_ ≥ g.tstp_) (w : ℚ) :
    ∃ d, right_multiply g F w = .ok { g with data_ := d } ∧ d.length = g.data_.length ∧
      ∀ k : Nat, (k : Int) < (g.tstp_ + 1) * 2 + (g.ntau_ + 1) →
        block_at d ((k : Int) * g.element_size_) n =
          right_product g.size1_ w
            (F.value (if g.tstp_ = -1 then -1
              else if (k : Int) ≤ g.tstp_ then (k : Int)
              else if (k : Int) ≤ g.tstp_ + 1 + g.ntau_ then -1
              else g.tstp_))
            (block_at g.data_ ((k : Int) * g.element_size_) n) := by
  have hFE1 : F.element_size_ = (n : Int) * (n : Int) := by rw [hFE, hE]
  have hT : ∀ A X, (right_product g.size1_ w A X).has_shape n n := by
    rw [hn]; exact (product_has_shape n w).2
  have hread : ∀ t : Int, -1 ≤ t → t ≤ F.nt_ →
      element_get g.size1_ F.data_ (F.ptr t) = .ok (F.value t) := by
    intro t ht0 ht
    rw [hn]
    exact function_read F hF n hFn hFE1 t ht0 ht
  have ht := hd.1
  have hnta := hd.2.1
  obtain ⟨d, hres, hl, hb⟩ :=
    multiply_all_blocks g hinv hd n hn hE (right_product g.size1_ w) hT
      (fun _ => element_get g.size1_ F.data_ (F.ptr (-1)))
      (fun m => element_get g.size1_ F.data_ (F.ptr 0 + (m : Int) * g.element_size_))
      (fun _ => element_get g.size1_ F.data_ (F.ptr (-1)))
      (fun _ => element_get g.size1_ F.data_ (F.ptr 0 + g.tstp_ * g.element_size_))
      (fun k => F.value (if g.tstp_ = -1 then -1
        else if (k : Int) ≤ g.tstp_ then (k : Int)
        else if (k : Int) ≤ g.tstp_ + 1 + g.ntau_ then -1
        else g.tstp_))
      (fun h1 m _ => by
        beta_reduce
        show element_get g.size1_ F.data_ (F.ptr (-1)) = _
        rw [if_pos h1]
        exact hread (-1) (le_refl _) (by omega))
      (fun h0 m hm => by
        beta_reduce
        show element_get g.size1_ F.data_ (F.ptr 0 + (m : Int) * g.element_size_) = _
        rw [function_ptr_shift F _ _ hFE, if_neg (by omega), if_pos hm]
        exact hread (m : Int) (by omega) (by omega))
      (fun h0 m hm => by
        beta_reduce
        show element_get g.size1_ F.data_ (F.ptr (-1)) = _
        rw [if_neg (by omega), if_neg (by push_cast; omega), if_pos (by push_cast; omega)]
        exact hread (-1) (le_refl _) (by omega))
      (fun h0 m hm => by
        beta_reduce
        show element_get g.size1_ F.data_ (F.ptr 0 + g.tstp_ * g.element_size_) = _
        rw [function_ptr_shift F _ _ hFE, if_neg (by omega), if_neg (by push_cast; omega),
          if_neg (by push_cast; omega)]
        exact hread g.tstp_ ht hnt)
  refine ⟨d, ?_, hl, hb⟩
  unfold right_multiply
  rw [if_neg (not_not.mpr hnt)]
  unfold right_multiply_ptr
  rw [scratch_block_ok g n hn hE, except_bind_ok]
  exact hres

/-- C38: on a square slice satisfying the storage invariant, for functions `F` and `H` of
matrices of the slice shape with `F.nt() >= tstp_` and `H.nt() >= tstp_` and real weights `a`,
`b`, both `left_multiply(F, a)` followed by `right_multiply(H, b)` and `right_multiply(H, b)`
followed by `left_multiply(F, a)` return, and they leave the slice in the same state, every
buffer entry included.  Entries are exact rationals. -/
theorem multiply_left_right_commute (g : herm_matrix_timestep) (hinv : storage_invariant g)
    (hd : dims_valid g) (hsq : g.size1_ = g.size2_) (F H : function)
    (hF : function_invariant F) (hF1 : F.size1_ = g.size1_) (hF2 : F.size2_ = g.size2_)
    (hFnt : F.nt_ ≥ g.tstp_) (hH : function_invariant H) (hH1 : H.size1_ = g.size1_)
    (hH2 : H.size2_ = g.size2_) (hHnt : H.nt_ ≥ g.tstp_) (a b : ℚ) :
    ∃ r, (left_multiply g F a).bind (fun g1 => right_multiply g1 H b) = .ok r ∧
      (right_multiply g H b).bind (fun g1 => left_multiply g1 F a) = .ok r := by
  obtain ⟨n, hn, hE⟩ := square_element_size g hinv hd hsq
  have hFE := function_element_size g hinv F hF hF1 hF2
  have hHE := function_element_size g hinv H hH hH1 hH2
  have hFn : F.size1_ = (n : Int) := by rw [hF1, hn]
  have hHn : H.size1_ = (n : Int) := by rw [hH1, hn]
  obtain ⟨d1, e1, l1, b1⟩ := left_multiply_blocks g hinv hd n hn hE F hF hFn hFE hFnt a
  obtain ⟨d2, e2, l2, b2⟩ := right_multiply_blocks g hinv hd n hn hE H hH hHn hHE hHnt b
  have hinv1 : storage_invariant { g with data_ := d1 } :=
    ⟨hinv.1, hinv.2.1, by show (d1.length : Int) = _; rw [l1]; exact hinv.2.2⟩
  have hinv2 : storage_invariant { g with data_ := d2 } :=
    ⟨hinv.1, hinv.2.1, by show (d2.length : Int) = _; rw [l2]; exact hinv.2.2⟩
  obtain ⟨d12, e12, l12, b12⟩ :=
    right_multiply_blocks { g with data_ := d1 } hinv1 hd n hn hE H hH hHn hHE hHnt b
  obtain ⟨d21, e21, l21, b21⟩ :=
    left_multiply_blocks { g with data_ := d2 } hinv2 hd n hn hE F hF hFn hFE hFnt a
  have hl12 : d12.length = d1.length := l12
  have hl21 : d21.length = d2.length := l21
  have hlen : (d21.length : Int) =
      (((g.tstp_ + 1) * 2 + (g.ntau_ + 1)).toNat : Int) * ((n : Int) * (n : Int)) := by
    have h3 := hinv.2.2
    have hpos : 0 ≤ (g.tstp_ + 1) * 2 + (g.ntau_ + 1) := by
      have := hd.1
      have := hd.2.1
      omega
    rw [Int.toNat_of_nonneg hpos, hl21, l2, h3, ← hsq, hn]
    ring
  have hd12 : d12 = d21 := by
    apply eq_of_blocks_eq n ((g.tstp_ + 1) * 2 + (g.ntau_ + 1)).toNat d21 d12 hlen (by omega)
    intro k hk
    have hk1 : (k : Int) < (g.tstp_ + 1) * 2 + (g.ntau_ + 1) := by omega
    have h12 : block_at d12 ((k : Int) * g.element_size_) n =
        right_product g.size1_ b
          (H.value (if g.tstp_ = -1 then -1
            else if (k : Int) ≤ g.tstp_ then (k : Int)
            else if (k : Int) ≤ g.tstp_ + 1 + g.ntau_ then -1
            else g.tstp_))
          (block_at d1 ((k : Int) * g.element_size_) n) := b12 k hk1
    have h21 : block_at d21 ((k : Int) * g.element_size_) n =
        left_product g.size1_ a
          (F.value (if g.tstp_ = -1 then -1
            else if (k : Int) ≤ g.tstp_ + 1 + g.ntau_ then g.tstp_
            else (k : Int) - (g.tstp_ + 1 + g.ntau_ + 1)))
          (block_at d2 ((k : Int) * g.element_size_) n) := b21 k hk1
    rw [b1 k hk1] at h12
    rw [b2 k hk1] at h21
    rw [hn] at h12 h21
    rw [hE] at h12 h21
    rw [h12, h21]
    exact left_right_product_comm n a b _ _ _
  refine ⟨{ g with data_ := d12 }, ?_, ?_⟩
  · rw [e1]
    exact e12
  · rw [e2, hd12]
    exact e21

/-- Instance of C38 on the 2x2 slice `sample_square` (`tstp_ = 0`, `ntau_ = 1`) with the
function `sample_function_2x2` on the left (weight 2) and on the right (weight 3). -/
theorem multiply_left_right_commute_witness :
    ∃ r, (left_multiply sample_square sample_function_2x2 2).bind
          (fun g1 => right_multiply g1 sample_function_2x2 3) = .ok r ∧
      (right_multiply sample_square sample_function_2x2 3).bind
          (fun g1 => left_multiply g1 sample_function_2x2 2) = .ok r :=
  multiply_left_right_commute sample_square (by decide) (by decide) (by decide)
    sample_function_2x2 sample_function_2x2 (by decide) (by decide) (by decide) (by decide)
    (by decide) (by decide) (by decide) (by decide) 2 3

/-! ## Increment and scaling in binary64 -/

theorem round_double_neg (x : ℚ) : round_double (-x) = -round_double x := by
  unfold round_double
  rcases lt_trichotomy x 0 with h | h | h
  · rw [if_neg (by linarith), if_pos h, neg_neg]
  · subst h
    have h0 : round_magnitude 0 = 0 := by
      unfold round_magnitude
      rw [if_pos rfl]
    simp [h0]
  · rw [if_pos (by linarith), if_neg (by linarith), neg_neg]

theorem is_double_neg (x : ℚ) (h : is_double x) : is_double (-x) := by
  obtain ⟨h1, h2, h3⟩ := h
  refine ⟨?_, by linarith, by linarith⟩
  rw [round_double_neg, h1]

/-- With a representable sum, adding `1 * y` and then `-1 * y` in binary64 gives back `x`. -/
theorem round_trip_part (x y : ℚ) (hx : is_double x) (hy : is_double y)
    (hs : is_double (x + 1 * y)) :
    round_double (x + round_double (1 * y)) = x + 1 * y ∧
    round_double (x + 1 * y + round_double (-1 * y)) = x := by
  have e1 : round_double (1 * y) = 1 * y := by rw [one_mul]; exact hy.1
  have e2 : round_double (-1 * y) = -y := by
    rw [neg_one_mul]
    exact (is_double_neg y hy).1
  constructor
  · rw [e1]
    exact hs.1
  · rw [e2]
    have : x + 1 * y + -y = x := by ring
    rw [this]
    exact hx.1

theorem round_trip_entry (x y : cplx) (hx : x.is_double) (hy : y.is_double)
    (hs : (x + cplx.smul 1 y).is_double) :
    cplx.add_double x (cplx.smul_double 1 y) = x + cplx.smul 1 y ∧
    cplx.add_double (x + cplx.smul 1 y) (cplx.smul_double (-1) y) = x := by
  obtain ⟨r1, r2⟩ := round_trip_part x.re y.re hx.1 hy.1 hs.1
  obtain ⟨i1, i2⟩ := round_trip_part x.im y.im hx.2 hy.2 hs.2
  constructor
  · show cplx.mk (round_double (x.re + round_double (1 * y.re)))
        (round_double (x.im + round_double (1 * y.im))) =
      cplx.mk (x.re + 1 * y.re) (x.im + 1 * y.im)
    rw [r1, i1]
  · show cplx.mk (round_double (x.re + 1 * y.re + round_double (-1 * y.re)))
        (round_double (x.im + 1 * y.im + round_double (-1 * y.im))) = x
    rw [r2, i2]

/-- The loop `for m: d[m] = f(d[m], src[m])` over two buffers of the running length. -/
theorem combine_loop (f : cplx → cplx → cplx) (src d0 : List cplx)
    (hlen : src.length = d0.length) :
    ∀ m : Nat, m ≤ d0.length →
      ∃ d, loopE (fun d1 (k : Nat) => (peek d1 (k : Int)).bind (fun x =>
            (peek src (k : Int)).bind (fun y => poke d1 (k : Int) (f x y))))
          d0 (List.range m) = .ok d ∧
        d.length = d0.length ∧
        (∀ k : Nat, k < m → peek d (k : Int) = .ok (f (d0.getD k 0) (src.getD k 0))) ∧
        (∀ idx : Int, (m : Int) ≤ idx → peek d idx = peek d0 idx) := by
  intro m
  induction m with
  | zero =>
    intro _
    exact ⟨d0, rfl, rfl, fun k hk => absurd hk (Nat.not_lt_zero k), fun idx _ => rfl⟩
  | succ m ih =>
    intro hm
    obtain ⟨d, hloop, hl, hin, hout⟩ := ih (by omega)
    have hx : peek d (m : Int) = .ok (d0.getD m 0) := by
      rw [hout (m : Int) (le_refl _)]
      exact peek_in_range d0 (m : Int) (Int.ofNat_nonneg m) (by exact_mod_cast hm)
    have hy : peek src (m : Int) = .ok (src.getD m 0) :=
      peek_in_range src (m : Int) (Int.ofNat_nonneg m) (by rw [hlen]; exact_mod_cast hm)
    have hpoke := poke_in_range d (m : Int) (f (d0.getD m 0) (src.getD m 0))
      (Int.ofNat_nonneg m) (by rw [hl]; exact_mod_cast hm)
    refine ⟨d.set (m : Int).toNat (f (d0.getD m 0) (src.getD m 0)), ?_, ?_, ?_, ?_⟩
    · rw [List.range_succ, loopE_append, hloop, except_bind_ok, loopE_single]
      show (peek d (m : Int)).bind _ = _
      rw [hx, except_bind_ok, hy, except_bind_ok]
      exact hpoke
    · rw [poke_length _ _ _ _ hpoke, hl]
    · intro k hk
      by_cases hkm : k = m
      · subst hkm
        exact peek_poke_same _ _ _ _ hpoke
      · rw [peek_poke_other _ _ _ _ _ hpoke (by omega)]
        exact hin k (by omega)
    · intro idx hidx
      rw [peek_poke_other _ _ _ _ _ hpoke (by push_cast at hidx; omega)]
      exact hout idx (by push_cast at hidx; omega)

theorem combine_buffers (f : cplx → cplx → cplx) (src d0 : List cplx)
    (hlen : src.length = d0.length) :
    loopE (fun d1 (k : Nat) => (peek d1 (k : Int)).bind (fun x =>
          (peek src (k : Int)).bind (fun y => poke d1 (k : Int) (f x y))))
        d0 (List.range d0.length) = .ok (List.zipWith f d0 src) := by
  obtain ⟨d, hloop, hl, hin, _⟩ := combine_loop f src d0 hlen d0.length (le_refl _)
  rw [hloop]
  apply congrArg Except.ok
  apply eq_of_peek_eq (List.zipWith f d0 src) d
      (by rw [hl, List.length_zipWith, hlen, Nat.min_self])
  intro idx
  by_cases hr : 0 ≤ idx ∧ idx < (d0.length : Int)
  · obtain ⟨k, hk⟩ := Int.eq_ofNat_of_zero_le hr.1
    have hk0 : k < d0.length := by omega
    rw [hk, hin k hk0, peek_zipWith f d0 src k hk0 (by omega)]
  · rw [peek_out_of_range _ idx (by omega),
      peek_out_of_range _ idx (by rw [List.length_zipWith, hlen, Nat.min_self]; omega)]

/-- The increment in binary64 by a slice of identical dimensions is the entry-wise update with
the rounded product and sum. -/
theorem incr_double_eq (self other : herm_matrix_timestep) (w : ℚ)
    (hs : storage_invariant self) (ho : storage_invariant other)
    (h1 : other.size1_ = self.size1_) (h2 : other.size2_ = self.size2_)
    (hn : other.ntau_ = self.ntau_) (ht : other.tstp_ = self.tstp_) :
    incr_double self other w =
      .ok { self with data_ := axpy_list_double w self.data_ other.data_ } := by
  obtain ⟨_, hst, hsl⟩ := hs
  obtain ⟨_, _, hol⟩ := ho
  have hlen : other.data_.length = self.data_.length := by
    have : (other.data_.length : Int) = (self.data_.length : Int) := by
      rw [hol, hsl, h1, h2, hn, ht]
    exact_mod_cast this
  have htot : self.total_size_.toNat = self.data_.length := by
    rw [hst, ← hsl]
    simp
  unfold incr_double
  rw [if_neg (not_not.mpr ⟨h1, hn, ht⟩), htot]
  show (loopE (fun d1 (k : Nat) => (peek d1 (k : Int)).bind (fun x =>
      (peek other.data_ (k : Int)).bind (fun y => poke d1 (k : Int)
        (cplx.add_double x (cplx.smul_double w y))))) self.data_
      (List.range self.data_.length)).bind _ = _
  rw [combine_buffers _ _ _ hlen]
  rfl

/-- C20 (as amended): for two slices of identical dimensions satisfying the storage invariant,
in binary64: when the entries of both are finite doubles and every sum `this[m] + other[m]`
is exactly representable, `incr(other, 1)` followed by `incr(other, -1)` returns and restores
the original slice, buffer included; and over exact arithmetic `incr(other, w)` followed by
`incr(other, -w)` does so for every `w`. -/
theorem incr_then_opposite_restores (self other : herm_matrix_timestep)
    (hs : storage_invariant self) (ho : storage_invariant other)
    (h1 : other.size1_ = self.size1_) (h2 : other.size2_ = self.size2_)
    (hn : other.ntau_ = self.ntau_) (ht : other.tstp_ = self.tstp_) :
    (buffer_is_double self.data_ → buffer_is_double other.data_ →
      buffer_is_double (axpy_list 1 self.data_ other.data_) →
      ∃ g1, incr_double self other 1 = .ok g1 ∧ incr_double g1 other (-1) = .ok self) ∧
    (∀ w : ℚ, ∃ g1, incr self other w = .ok g1 ∧ incr g1 other (-w) = .ok self) := by
  refine ⟨?_, fun w => incr_opposite_exact self other w hs ho h1 h2 hn ht⟩
  intro hsd hod hsum
  have hlen : other.data_.length = self.data_.length := by
    have : (other.data_.length : Int) = (self.data_.length : Int) := by
      rw [ho.2.2, hs.2.2, h1, h2, hn, ht]
    exact_mod_cast this
  have hentry : ∀ (k : Nat) (hk1 : k < self.data_.length) (hk2 : k < other.data_.length),
      cplx.add_double (self.data_.get ⟨k, hk1⟩) (cplx.smul_double 1 (other.data_.get ⟨k, hk2⟩)) =
        self.data_.get ⟨k, hk1⟩ + cplx.smul 1 (other.data_.get ⟨k, hk2⟩) ∧
      cplx.add_double (self.data_.get ⟨k, hk1⟩ + cplx.smul 1 (other.data_.get ⟨k, hk2⟩))
        (cplx.smul_double (-1) (other.data_.get ⟨k, hk2⟩)) = self.data_.get ⟨k, hk1⟩ := by
    intro k hk1 hk2
    apply round_trip_entry _ _ (hsd _ (List.get_mem _ _ _)) (hod _ (List.get_mem _ _ _))
    have hk3 : k < (axpy_list 1 self.data_ other.data_).length := by
      unfold axpy_list
      rw [List.length_zipWith]
      omega
    have hm := hsum _ (List.get_mem (axpy_list 1 self.data_ other.data_) k hk3)
    have e : (axpy_list 1 self.data_ other.data_).get ⟨k, hk3⟩ =
        self.data_.get ⟨k, hk1⟩ + cplx.smul 1 (other.data_.get ⟨k, hk2⟩) := by
      unfold axpy_list
      simp [List.getElem_zipWith]
    rw [e] at hm
    exact hm
  have e1 : axpy_list_double 1 self.data_ other.data_ = axpy_list 1 self.data_ other.data_ := by
    unfold axpy_list_double axpy_list
    apply List.ext_getElem
    · simp [List.length_zipWith]
    · intro k hk1 hk2
      have hks : k < self.data_.length := by
        rw [List.length_zipWith] at hk1
        omega
      simp only [List.getElem_zipWith]
      exact (hentry k hks (by omega)).1
  have e2 : axpy_list_double (-1) (axpy_list 1 self.data_ other.data_) other.data_ =
      self.data_ := by
    unfold axpy_list_double axpy_list
    apply List.ext_getElem
    · simp [List.length_zipWith, hlen]
    · intro k hk1 hk2
      simp only [List.getElem_zipWith]
      exact (hentry k hk2 (by omega)).2
  have hs1 : storage_invariant { self with data_ := axpy_list 1 self.data_ other.data_ } := by
    refine ⟨hs.1, hs.2.1, ?_⟩
    show ((axpy_list 1 self.data_ other.data_).length : Int) = _
    unfold axpy_list
    rw [List.length_zipWith, hlen, Nat.min_self]
    exact hs.2.2
  refine ⟨{ self with data_ := axpy_list 1 self.data_ other.data_ }, ?_, ?_⟩
  · rw [incr_double_eq self other 1 hs ho h1 h2 hn ht, e1]
  · rw [incr_double_eq _ other (-1) hs1 ho h1 h2 hn ht]
    show Except.ok { self with data_ := _ } = _
    rw [e2, with_own_data]

/-- Instance of the amended C20: `sample_units` incremented by `sample_narrow` (same
dimensions, small integer entries) with weights `1` and `-1` in binary64, and with weights
`3` and `-3` over exact arithmetic. -/
theorem incr_then_opposite_restores_witness :
    (∃ g1, incr_double sample_units sample_narrow 1 = .ok g1 ∧
      incr_double g1 sample_narrow (-1) = .ok sample_units) ∧
    (∃ g1, incr sample_units sample_narrow 3 = .ok g1 ∧
      incr g1 sample_narrow (-3) = .ok sample_units) :=
  have h := incr_then_opposite_restores sample_units sample_narrow (by decide) (by decide)
    (by decide) (by decide) (by decide) (by decide)
  ⟨h.1 (by decide!) (by decide!) (by decide!), h.2 3⟩

/-- C20 fails as stated: `sample_units` (entries `1`, `i`, `3`) and `sample_huge` (entries
`2^53`, `2^53 i`, `0`) have identical dimensions and hold finite doubles; `incr(other, 1)`
leaves `2^53`, `2^53 i`, `3`, the sum `1 + 2^53` being rounded to `2^53`, and the following
`incr(other, -1)` leaves `0`, `0`, `3`, not the original buffer. -/
theorem incr_round_trip_counterexample :
    storage_invariant sample_units ∧ storage_invariant sample_huge ∧
    sample_huge.size1_ = sample_units.size1_ ∧ sample_huge.size2_ = sample_units.size2_ ∧
    sample_huge.ntau_ = sample_units.ntau_ ∧ sample_huge.tstp_ = sample_units.tstp_ ∧
    buffer_is_double sample_units.data_ ∧ buffer_is_double sample_huge.data_ ∧
    ∃ g1 g2, incr_double sample_units sample_huge 1 = .ok g1 ∧
      incr_double g1 sample_huge (-1) = .ok g2 ∧
      g1.data_ = [⟨9007199254740992, 0⟩, ⟨0, 9007199254740992⟩, ⟨3, 0⟩] ∧
      g2.data_ = [⟨0, 0⟩, ⟨0, 0⟩, ⟨3, 0⟩] ∧ g2.data_ ≠ sample_units.data_ := by
  refine ⟨by decide, by decide, by decide, by decide, by decide, by decide, by decide!,
    by decide!,
    { sample_units with data_ := [⟨9007199254740992, 0⟩, ⟨0, 9007199254740992⟩, ⟨3, 0⟩] },
    { sample_units with data_ := [⟨0, 0⟩, ⟨0, 0⟩, ⟨3, 0⟩] },
    by decide!, by decide!, rfl, rfl, by decide⟩

/-- C35 (as amended): over exact arithmetic `smul(w)` returns the slice with every buffer
entry `x` replaced by `w * x` and `tstp_`, `ntau_`, the sizes and `sig_` unchanged,
`smul(tstp_, w)` does the same and any other `tstp` is rejected by the assertion, `smul(1)`
returns the slice unchanged, and on a slice satisfying the storage invariant `incr(c, w - 1)`
with `c` the copy made by the copy constructor returns what `smul(w)` returns.  In binary64
`smul(w)` replaces every entry by the rounded product, `smul(1)` returns a slice of finite
doubles unchanged, and `incr(c, w - 1)` returns what `smul(w)` returns whenever `w - 1` and,
for every stored part `x`, the products `(w - 1) * x` and `w * x` are exactly
representable. -/
theorem smul_scales_buffer (g : herm_matrix_timestep) (hinv : storage_invariant g) (w : ℚ) :
    smul g w = .ok { g with data_ := g.data_.map (fun x => cplx.smul w x) } ∧
    smul_tstp g g.tstp_ w = smul g w ∧
    (∀ tstp : Int, tstp ≠ g.tstp_ → smul_tstp g tstp w = .error .assertion) ∧
    smul g 1 = .ok g ∧
    (∃ c, copy_construct g = .ok c ∧ incr g c (w - 1) = smul g w) ∧
    smul_double g w = .ok { g with data_ := g.data_.map (fun x => cplx.smul_double w x) } ∧
    (buffer_is_double g.data_ → smul_double g 1 = .ok g) ∧
    (is_double (w - 1) →
      (∀ z ∈ g.data_, is_double ((w - 1) * z.re) ∧ is_double ((w - 1) * z.im) ∧
        is_double (w * z.re) ∧ is_double (w * z.im)) →
      ∃ c, copy_construct g = .ok c ∧
        incr_double g c (round_double (w - 1)) = smul_double g w) := by
  obtain ⟨x1, x2, x3, x4, x5⟩ := smul_scales_exact g hinv w
  refine ⟨x1, x2, x3, x4, x5, rfl, ?_, ?_⟩
  · intro hb
    unfold smul_double view_smul_double
    have e : g.data_.map (fun z => cplx.smul_double 1 z) = g.data_ := by
      conv_rhs => rw [← List.map_id g.data_]
      apply List.map_congr_left
      intro z hz
      obtain ⟨hr, hi⟩ := hb z hz
      show cplx.mk (round_double (1 * z.re)) (round_double (1 * z.im)) = z
      rw [one_mul, one_mul, hr.1, hi.1]
    rw [e, with_own_data]
  · intro hw hx
    refine ⟨_, copy_construct_data g hinv, ?_⟩
    have htot : g.total_size_ = (g.data_.length : Int) := by rw [hinv.2.2, hinv.2.1]
    unfold incr_double
    rw [if_neg (not_not.mpr ⟨rfl, rfl, rfl⟩)]
    show (loopE (fun d1 (k : Nat) => (peek d1 (k : Int)).bind (fun x =>
        (peek g.data_ (k : Int)).bind (fun y => poke d1 (k : Int)
          (cplx.add_double x (cplx.smul_double (round_double (w - 1)) y))))) g.data_
        (List.range g.total_size_.toNat)).bind _ = _
    rw [htot, Int.toNat_ofNat, combine_buffers _ g.data_ g.data_ rfl, except_bind_ok,
      zipWith_diag]
    unfold smul_double view_smul_double
    have e : g.data_.map (fun x =>
          cplx.add_double x (cplx.smul_double (round_double (w - 1)) x)) =
        g.data_.map (fun z => cplx.smul_double w z) := by
      apply List.map_congr_left
      intro z hz
      obtain ⟨a1, a2, a3, a4⟩ := hx z hz
      show cplx.mk (round_double (z.re + round_double (round_double (w - 1) * z.re)))
          (round_double (z.im + round_double (round_double (w - 1) * z.im))) =
        cplx.mk (round_double (w * z.re)) (round_double (w * z.im))
      have r1 : z.re + (w - 1) * z.re = w * z.re := by ring
      have r2 : z.im + (w - 1) * z.im = w * z.im := by ring
      rw [hw.1, a1.1, a2.1, r1, r2]
    rw [e, ← htot]

/-- Instance of the amended C35 on `sample_scalar_filled` with `w = 2`. -/
theorem smul_scales_buffer_witness :
    smul sample_scalar_filled 2 =
      .ok { sample_scalar_filled with
        data_ := sample_scalar_filled.data_.map (fun x => cplx.smul 2 x) } ∧
    (∃ c, copy_construct sample_scalar_filled = .ok c ∧
      incr sample_scalar_filled c (2 - 1) = smul sample_scalar_filled 2) ∧
    smul_double sample_scalar_filled 1 = .ok sample_scalar_filled ∧
    ∃ c, copy_construct sample_scalar_filled = .ok c ∧
      incr_double sample_scalar_filled c (round_double (2 - 1)) =
        smul_double sample_scalar_filled 2 :=
  have h := smul_scales_buffer sample_scalar_filled (by decide) 2
  ⟨h.1, h.2.2.2.2.1, h.2.2.2.2.2.2.1 (by decide!), h.2.2.2.2.2.2.2 (by decide!) (by decide!)⟩

/-- C35 fails as stated: on `sample_units` (entries `1`, `i`, `3`) with `w` the double nearest
to `0.1`, `smul(w)` leaves `w` in the first entry, while `incr(c, w - 1)` with `c` the copy
leaves `900719925474099 / 2^53 = 0.09999999999999997779..` there: `w - 1` is rounded to
`-8106479329266893 / 2^53`, and `1 + (w - 1) * 1` is not `w`. -/
theorem smul_incr_counterexample :
    storage_invariant sample_units ∧ buffer_is_double sample_units.data_ ∧
    is_double double_tenth ∧
    round_double (double_tenth - 1) = -8106479329266893 / 9007199254740992 ∧
    ∃ a b c, smul_double sample_units double_tenth = .ok a ∧
      copy_construct sample_units = .ok c ∧
      incr_double sample_units c (round_double (double_tenth - 1)) = .ok b ∧
      a.data_.getD 0 0 = ⟨double_tenth, 0⟩ ∧
      b.data_.getD 0 0 = ⟨900719925474099 / 9007199254740992, 0⟩ ∧
      a ≠ b := by
  refine ⟨by decide, by decide!, by decide!, by decide!,
    { sample_units with data_ := view_smul_double sample_units.data_ double_tenth },
    (⟨axpy_list_double (round_double (double_tenth - 1)) sample_units.data_
      sample_units.data_, 0, 0, 1, 1, 1, 3, -1⟩ : herm_matrix_timestep),
    sample_units, rfl, by decide, by decide!, by decide!, by decide!, by decide!⟩

end cntr
